import Mathlib

/-! Flux registers of block-structured AMR: `YAFluxRegisterT` and `EBFluxRegister`.

A shallow embedding of `Src/Boundary/AMReX_YAFluxRegister.H` and of the parts of
`Src/EB/AMReX_EBFluxRegister.cpp` that accumulate into the register.

Conventions of the embedding.

* `AMREX_SPACEDIM` is the parameter `D`; an `IntVect` is a function `Fin D → Int`.
* Field values (`Real`, the template type `T`) are rationals: arithmetic is exact.
* A distributed array (`MultiFab`, `iMultiFab`) is described by its collective content:
  `data k p n` is component `n` of cell `p` of the fab with global index `k`.
  Vectors that the source indexes by `MFIter::LocalIndex()` keep that indexing; the rank is
  the argument `myproc`.
* The index type of a box (cell or face centred) is not recorded: boxes are integer boxes.
-/

namespace amrex

/-! ## Index space -/

/-- An integer vector with one component per space direction. -/
abbrev IntVect (D : Nat) := Fin D → Int

/-- Field values of the source (`Real`, `T`), in exact arithmetic. -/
abbrev Real := ℚ

/-- The unit vector of direction `d`. -/
def IntVect.basis {D : Nat} (d : Fin D) : IntVect D := fun e => if e = d then 1 else 0

/-- Modelled from the spec: `Box`, "an axis-aligned region of the integer index space",
given by its smallest and largest cell; the class is not under src/. -/
structure Box (D : Nat) where
  smallend : IntVect D
  bigend : IntVect D

namespace Box

variable {D : Nat}

/-- The cell `p` lies in the box. -/
def contains (b : Box D) (p : IntVect D) : Prop :=
  ∀ d, b.smallend d ≤ p d ∧ p d ≤ b.bigend d

instance (b : Box D) (p : IntVect D) : Decidable (b.contains p) := by
  unfold contains; infer_instance

/-- The box is non-empty in every direction. -/
def ok (b : Box D) : Prop := ∀ d, b.smallend d ≤ b.bigend d

instance (b : Box D) : Decidable b.ok := by
  unfold ok; infer_instance

/-- The box `c` lies in the box `b`: `b.contains(c)` for boxes. -/
def containsBox (b c : Box D) : Prop :=
  ∀ d, b.smallend d ≤ c.smallend d ∧ c.bigend d ≤ b.bigend d

instance (b c : Box D) : Decidable (b.containsBox c) := by
  unfold containsBox; infer_instance

/-- Intersection, `b & c`. -/
def inter (b c : Box D) : Box D :=
  ⟨fun d => max (b.smallend d) (c.smallend d), fun d => min (b.bigend d) (c.bigend d)⟩

/-- The boxes have a cell in common. -/
def intersects (b c : Box D) : Prop := (b.inter c).ok

instance (b c : Box D) : Decidable (b.intersects c) := by
  unfold intersects; infer_instance

/-- Growth by `n` cells in every direction, `amrex::grow(b, n)`. -/
def grow (b : Box D) (n : Int) : Box D :=
  ⟨fun d => b.smallend d - n, fun d => b.bigend d + n⟩

/-- Growth by `n` cells in direction `idim` only, `b.grow(idim, n)`. -/
def growDir (b : Box D) (idim : Fin D) (n : Int) : Box D :=
  ⟨fun d => if d = idim then b.smallend d - n else b.smallend d,
   fun d => if d = idim then b.bigend d + n else b.bigend d⟩

/-- Translation, `b + iv`. -/
def shift (b : Box D) (iv : IntVect D) : Box D :=
  ⟨fun d => b.smallend d + iv d, fun d => b.bigend d + iv d⟩

/-- Coarsening of one index, written with the truncating division of the source language:
`(i < 0) ? -abs(i+1)/ratio - 1 : i/ratio`. -/
def coarsenIndex (i ratio : Int) : Int :=
  if i < 0 then -(Int.tdiv |i + 1| ratio) - 1 else Int.tdiv i ratio

/-- Coarsening of a cell-centred box, index by index. -/
def coarsen (b : Box D) (ratio : IntVect D) : Box D :=
  ⟨fun d => coarsenIndex (b.smallend d) (ratio d),
   fun d => coarsenIndex (b.bigend d) (ratio d)⟩

/-- Refinement of a cell-centred box. -/
def refine (b : Box D) (ratio : IntVect D) : Box D :=
  ⟨fun d => b.smallend d * ratio d, fun d => (b.bigend d + 1) * ratio d - 1⟩

/-- The one-cell-wide box adjacent to the low face of `b` in direction `dir`. -/
def adjCellLo (b : Box D) (dir : Fin D) : Box D :=
  ⟨fun d => if d = dir then b.smallend dir - 1 else b.smallend d,
   fun d => if d = dir then b.smallend dir - 1 else b.bigend d⟩

/-- The one-cell-wide box adjacent to the high face of `b` in direction `dir`. -/
def adjCellHi (b : Box D) (dir : Fin D) : Box D :=
  ⟨fun d => if d = dir then b.bigend dir + 1 else b.smallend d,
   fun d => if d = dir then b.bigend dir + 1 else b.bigend d⟩

/-- The box of the faces normal to `dir` of the cells of `b`. -/
def surroundingNodes (b : Box D) (dir : Fin D) : Box D :=
  ⟨b.smallend, fun d => if d = dir then b.bigend d + 1 else b.bigend d⟩

/-- Number of cells in direction `d`. -/
def length (b : Box D) (d : Fin D) : Int := b.bigend d - b.smallend d + 1

instance : DecidableEq (Box D) := fun a b =>
  decidable_of_iff (a.smallend = b.smallend ∧ a.bigend = b.bigend)
    (by cases a; cases b; simp)

end Box

/-- All vectors whose component in direction `d` is taken from `opts d`, the directions
being filled in from the last to the first. -/
def vectorsWith {D : Nat} (opts : Fin D → List Int) : List (IntVect D) :=
  (List.finRange D).foldr
    (fun d acc => acc.flatMap fun v => (opts d).map fun x => Function.update v d x)
    [fun _ => 0]

/-! ## Geometry and periodicity -/

/-- Modelled from the spec: the "geometry type exposing domain box, periodicity flags, and
periodic shift vectors"; the class `Geometry` is not under src/. -/
structure Geometry (D : Nat) where
  domain : Box D
  is_periodic : Fin D → Bool

namespace Geometry

variable {D : Nat}

/-- The geometry is periodic in direction `d`. -/
def isPeriodic (g : Geometry D) (d : Fin D) : Bool := g.is_periodic d

/-- The geometry is periodic in some direction. -/
def isAnyPeriodic (g : Geometry D) : Bool := decide (∃ d, g.is_periodic d = true)

/-- The period vector: the domain length in periodic directions, zero elsewhere. -/
def periodicity (g : Geometry D) : IntVect D :=
  fun d => if g.is_periodic d then g.domain.length d else 0

end Geometry

/-- The shifts a period `p` of one direction allows: the loop
`for (i = -p; i <= p; i += max(p,1))`. -/
def shiftOptions (p : Int) : List Int :=
  if 0 < p then [-p, 0, p] else if p = 0 then [0] else []

/-- Modelled from the spec: the "periodic shift vectors" of a periodicity
(`Periodicity::shiftIntVect`, not under src/): every combination of minus one period, zero
and plus one period in the periodic directions. -/
def shiftIntVect {D : Nat} (period : IntVect D) : List (IntVect D) :=
  vectorsWith fun d => shiftOptions (period d)

/-- Modelled from the spec: the "box-partition type", a list of boxes; the class
`BoxArray` is not under src/. -/
abbrev BoxArray (D : Nat) := List (Box D)

namespace BoxArray

variable {D : Nat}

/-- The call `ba.coarsen(ratio)`: every box is coarsened. -/
def coarsen (ba : BoxArray D) (ratio : IntVect D) : BoxArray D :=
  ba.map fun b => b.coarsen ratio

/-- The call `ba.uniqify()`: the array stops sharing its storage with its copies; the boxes
it lists are the same. -/
def uniqify (ba : BoxArray D) : BoxArray D := ba

/-- The call `ba.intersections(bx, isects, false, ng)`: the pairs of an index `i` and the
non-empty intersection of `bx` with box `i` grown by `ng`, in increasing index. -/
def intersections (ba : BoxArray D) (bx : Box D) (ng : Int) : List (Nat × Box D) :=
  (List.range ba.length).filterMap fun i =>
    match ba[i]? with
    | some b => if (bx.inter (b.grow ng)).ok then some (i, bx.inter (b.grow ng)) else none
    | none => none

end BoxArray

/-! ## Box-algebra complement -/

/-- The box `b` with its low end in direction `i` moved to `x`. -/
def Box.setSmall {D : Nat} (b : Box D) (i : Fin D) (x : Int) : Box D :=
  ⟨Function.update b.smallend i x, b.bigend⟩

/-- The box `b` with its high end in direction `i` moved to `x`. -/
def Box.setBig {D : Nat} (b : Box D) (i : Fin D) (x : Int) : Box D :=
  ⟨b.smallend, Function.update b.bigend i x⟩

/-- The directions still to cut: the slabs of `b1` below and above `b2` in the first
direction of the list are split off, and the rest of `b1` goes on to the next one. -/
def boxDiffLoop {D : Nat} (b2 : Box D) : List (Fin D) → Box D → List (Box D)
  | [], _ => []
  | i :: rest, b1 =>
    let below := b1.smallend i < b2.smallend i ∧ b2.smallend i ≤ b1.bigend i
    let out1 := if below then [b1.setBig i (b2.smallend i - 1)] else []
    let b1a := if below then b1.setSmall i (b2.smallend i) else b1
    let above := b1a.smallend i ≤ b2.bigend i ∧ b2.bigend i < b1a.bigend i
    let out2 := if above then [b1a.setSmall i (b2.bigend i + 1)] else []
    let b1b := if above then b1a.setBig i (b2.bigend i) else b1a
    out1 ++ out2 ++ boxDiffLoop b2 rest b1b

/-- Modelled from the spec: the "box-algebra complement" of one box in another
(`amrex::boxDiff`, not under src/): a list of boxes that tile `b1in` minus `b2`, cut
direction by direction from the last direction to the first. -/
def boxDiff {D : Nat} (b1in b2 : Box D) : List (Box D) :=
  if b2.containsBox b1in then []
  else if ¬ b1in.intersects b2 then [b1in]
  else boxDiffLoop b2 (List.finRange D).reverse b1in

/-- Modelled from the spec: `BoxArray::complementIn` (not under src/), the "box-algebra
complement" of a partition in a box: starting from `[bx]`, every box of the partition that
meets `bx` is subtracted from every box of the list. -/
def BoxArray.complementIn {D : Nat} (ba : BoxArray D) (bx : Box D) : List (Box D) :=
  ba.foldl
    (fun bl b => if (b.inter bx).ok then bl.flatMap fun x => boxDiff x (b.inter bx) else bl)
    [bx]

/-! ## Distributed field arrays -/

/-- Modelled from the spec: the "distributed field-array type" (`FabArray`, `MultiFab`,
`iMultiFab`), which is not under src/: a box partition, its ownership map, a number of
components, a halo width and the content of every fab. -/
structure FabArray (D : Nat) (β : Type) where
  boxarray : BoxArray D
  distributionMap : List Nat
  n_comp : Nat
  n_grow : Nat
  data : Nat → IntVect D → Nat → β

namespace FabArray

variable {D : Nat} {β : Type}

/-- The cell `p` lies in the allocated box (valid box grown by the halo) of fab `k`. -/
def inFab (fa : FabArray D β) (k : Nat) (p : IntVect D) : Prop :=
  match fa.boxarray[k]? with
  | some b => (b.grow fa.n_grow).contains p
  | none => False

instance (fa : FabArray D β) (k : Nat) (p : IntVect D) : Decidable (fa.inFab k p) := by
  unfold inFab; split <;> infer_instance

/-- The cell `p` lies in the valid box of fab `k`. -/
def inValid (fa : FabArray D β) (k : Nat) (p : IntVect D) : Prop :=
  match fa.boxarray[k]? with
  | some b => b.contains p
  | none => False

instance (fa : FabArray D β) (k : Nat) (p : IntVect D) : Decidable (fa.inValid k p) := by
  unfold inValid; split <;> infer_instance

/-- Allocation `define(ba, dm, ncomp, ngrow)`: the content is whatever the memory
holds, here the argument `mem`. -/
def define (ba : BoxArray D) (dm : List Nat) (ncomp ngrow : Nat)
    (mem : Nat → IntVect D → Nat → β) : FabArray D β :=
  ⟨ba, dm, ncomp, ngrow, mem⟩

/-- The call `setVal(v)`: every component of every allocated cell becomes `v`. -/
def setVal (fa : FabArray D β) (v : β) : FabArray D β :=
  { fa with data := fun k p n => if fa.inFab k p ∧ n < fa.n_comp then v else fa.data k p n }

/-- The array has no box: `empty()`. -/
def empty (fa : FabArray D β) : Bool := fa.boxarray.isEmpty

/-- The value `fa.array(k, comp)(p, n)`: component `comp + n` of cell `p` of fab `k`. -/
def array (fa : FabArray D β) (k comp : Nat) : IntVect D → Nat → β :=
  fun p n => fa.data k p (comp + n)

/-- Fab `k` is replaced by the values `arr`, which are numbered from component `comp`, as
`fa.array(k, comp)` numbers them; components below `comp` and other fabs are kept. -/
def withArray (fa : FabArray D β) (k comp : Nat) (arr : IntVect D → Nat → β) :
    FabArray D β :=
  { fa with data := fun j p n => if j = k ∧ comp ≤ n then arr p (n - comp) else fa.data j p n }

/-- The call `fab.setVal(v, bx)` on fab `k`: component 0 of the cells of `bx`. -/
def setValBox (fa : FabArray D β) (k : Nat) (v : β) (bx : Box D) : FabArray D β :=
  { fa with data := fun j p n => if j = k ∧ bx.contains p ∧ n = 0 then v else fa.data j p n }

end FabArray

/-- One entry of a copy pattern: the cells `dbox` of fab `dstIndex` of the destination
correspond to the cells `sbox` of fab `srcIndex` of the source. -/
structure CopyComTag (D : Nat) where
  dbox : Box D
  sbox : Box D
  dstIndex : Nat
  srcIndex : Nat

/-- The source cell that corresponds to the destination cell `p`. -/
def CopyComTag.srcCell {D : Nat} (t : CopyComTag D) (p : IntVect D) : IntVect D :=
  fun d => p d - (t.dbox.smallend d - t.sbox.smallend d)

/-- Modelled from the spec: the copy pattern of the "cross-rank copy" (`FabArrayBase::CPC`,
built by `getCPC`, not under src/), with "periodic wrap": for every source box, grown by
`srcng`, and every periodic shift, one entry for every destination box, grown by `dstng`,
that meets the shifted source box. -/
def getCPC {D : Nat} (ba_dst : BoxArray D) (dstng : Int) (ba_src : BoxArray D) (srcng : Int)
    (pshifts : List (IntVect D)) : List (CopyComTag D) :=
  (List.range ba_src.length).flatMap fun k =>
    match ba_src[k]? with
    | some bsrc =>
      pshifts.flatMap fun iv =>
        (ba_dst.intersections ((bsrc.grow srcng).shift iv) dstng).map fun is =>
          ⟨is.2, is.2.shift (fun d => - iv d), is.1, k⟩
    | none => []

namespace FabArray

variable {D : Nat} {β : Type}

/-- The call `setVal(val, cpc, scomp, ncomp)`: the cells that the copy pattern would
fill get the value `val`, entry by entry. -/
def setValCPC (fa : FabArray D β) (val : β) (cpc : List (CopyComTag D)) (scomp ncomp : Nat) :
    FabArray D β :=
  { fa with data := (cpc.foldl
      (fun dat t => fun k p n =>
        if k = t.dstIndex ∧ t.dbox.contains p ∧ scomp ≤ n ∧ n < scomp + ncomp then val
        else dat k p n)
      fa.data) }

/-- The call `RecvLayoutMask(cpc)` at fab `k`: the fab receives something. -/
def RecvLayoutMask (cpc : List (CopyComTag D)) (k : Nat) : Bool :=
  cpc.any fun t => t.dstIndex = k

/-- Modelled from the spec: the "add-combining cross-rank copy"
`dst.ParallelCopy(src, scomp, dcomp, ncomp, period, FabArrayBase::ADD)` (not under src/):
entry by entry of the copy pattern without halo, the source values are added to the
destination cells they correspond to, so "periodic images of the same physical cell combine
additively, not overwrite". -/
def ParallelCopyAdd (dst src : FabArray D Real) (scomp dcomp ncomp : Nat)
    (period : IntVect D) : FabArray D Real :=
  { dst with data := ((getCPC dst.boxarray 0 src.boxarray 0 (shiftIntVect period)).foldl
      (fun dat t => fun k p n =>
        if k = t.dstIndex ∧ t.dbox.contains p ∧ dcomp ≤ n ∧ n < dcomp + ncomp then
          dat k p n + src.data t.srcIndex (t.srcCell p) (n - dcomp + scomp)
        else dat k p n)
      dst.data) }

/-- Modelled from the spec: `amrex::Add(dst, src, srccomp, destcomp, numcomp, 0)` (not under
src/), which adds `src` into `dst` on the valid cells, box by box. -/
def Add (dst src : FabArray D Real) (srccomp destcomp numcomp : Nat) : FabArray D Real :=
  { dst with data := fun k p n =>
      if dst.inValid k p ∧ destcomp ≤ n ∧ n < destcomp + numcomp then
        dst.data k p n + src.data k p (n - destcomp + srccomp)
      else dst.data k p n }

end FabArray

/-- The indices of the fabs that rank `myproc` owns, in increasing order: the fabs an
`MFIter` visits, the position in this list being `LocalIndex()`. -/
def localIndices (dm : List Nat) (myproc : Nat) : List Nat :=
  (List.range dm.length).filter fun g => dm[g]? = some myproc

/-- A single array box: `FArrayBox`. -/
structure FArrayBox (D : Nat) where
  box : Box D
  ncomp : Nat
  data : IntVect D → Nat → Real

/-- The value `fab.const_array(comp)(p, n)`. -/
def FArrayBox.const_array {D : Nat} (f : FArrayBox D) (comp : Nat) : IntVect D → Nat → Real :=
  fun p n => f.data p (comp + n)

/-- The position of an `MFIter`: the global index of the fab, its local index and the
tile. -/
structure MFIter (D : Nat) where
  index : Nat
  LocalIndex : Nat
  tilebox : Box D

/-- A real-valued distributed array. -/
abbrev MultiFab (D : Nat) := FabArray D Real

/-- An integer-valued distributed array. -/
abbrev iMultiFab (D : Nat) := FabArray D Int

/-! ## The register -/

/-- The cell type `crse_cell` of `YAFluxRegisterT::CellType`. -/
def crse_cell : Int := 0

/-- The cell type `crse_fine_boundary_cell`. -/
def crse_fine_boundary_cell : Int := 1

/-- The cell type `fine_cell`. -/
def fine_cell : Int := 2

/-- The data members of `YAFluxRegisterT`. The entries of `m_cfp_fab`, pointers to fabs of
`m_cfpatch` in the source, are the global indices of these fabs. -/
structure YAFluxRegister (D : Nat) where
  m_crse_data : MultiFab D
  m_crse_flag : iMultiFab D
  m_crse_fab_flag : List Int
  m_cfpatch : MultiFab D
  m_cfp_mask : MultiFab D
  m_cfp_fab : List (List Nat)
  m_cfp_localindex : List Nat
  m_fine_geom : Geometry D
  m_crse_geom : Geometry D
  m_ratio : IntVect D
  m_fine_level : Int
  m_ncomp : Nat
  m_cvol : Option (MultiFab D)

/-- What the memory holds where `define` allocates the four arrays. -/
structure DefineMemory (D : Nat) where
  crse_data : Nat → IntVect D → Nat → Real
  crse_flag : Nat → IntVect D → Nat → Int
  cfpatch : Nat → IntVect D → Nat → Real
  cfp_mask : Nat → IntVect D → Nat → Real

/-- The call `v.resize(n, x)` of a vector. -/
def resize {α : Type} (v : List α) (n : Nat) (x : α) : List α :=
  v.take n ++ List.replicate (n - v.length) x

/-- The call `v[i].push_back(g)` on a vector of vectors. -/
def pushAt : List (List Nat) → Nat → Nat → List (List Nat)
  | [], _, _ => []
  | x :: xs, 0, g => (x ++ [g]) :: xs
  | x :: xs, i + 1, g => x :: pushAt xs i g

/-- The coarse domain grown by one cell in the periodic directions: `cdomain` of `define`. -/
def grownDomain {D : Nat} (cgeom : Geometry D) : Box D :=
  (List.finRange D).foldl
    (fun dom idim => if cgeom.isPeriodic idim then dom.growDir idim 1 else dom)
    cgeom.domain

/-- The local variables of the loop of `define` that builds the boundary ring. -/
structure RingState (D : Nat) where
  cfp_bl : List (Box D)
  cfp_procmap : List Nat
  cfp_localindex : List Nat
  nlocal : Nat

/-- The boxes of the ring of fine box `i`: `bl_tmp` of `define`. -/
def ringBoxes {D : Nat} (cfba : BoxArray D) (cdomain : Box D) (i : Nat) : List (Box D) :=
  match cfba[i]? with
  | some b => cfba.complementIn ((b.grow 1).inter cdomain)
  | none => []

/-- One turn of the serial loop `for (int i = 0; i < n_cfba; ++i)` of `define`. -/
def ringStep {D : Nat} (cfba : BoxArray D) (cdomain : Box D) (fdm : List Nat) (myproc : Nat)
    (st : RingState D) (i : Nat) : RingState D :=
  let bl_tmp := ringBoxes cfba cdomain i
  let ntmp := bl_tmp.length
  let proc := fdm.getD i 0
  { cfp_bl := st.cfp_bl ++ bl_tmp
    cfp_procmap := st.cfp_procmap ++ List.replicate ntmp proc
    cfp_localindex :=
      if proc = myproc then st.cfp_localindex ++ List.replicate ntmp st.nlocal
      else st.cfp_localindex
    nlocal := if proc = myproc then st.nlocal + 1 else st.nlocal }

/-- The serial loop of `define` over the fine boxes; `m_cfp_localindex` enters with the
entries it already has. -/
def ringLoop {D : Nat} (cfba : BoxArray D) (cdomain : Box D) (fdm : List Nat) (myproc : Nat)
    (localindex0 : List Nat) : RingState D :=
  (List.range cfba.length).foldl (ringStep cfba cdomain fdm myproc) ⟨[], [], localindex0, 0⟩

/-- The loop of `define` that zeroes the periodic mask of fab `k`, whose box is `bx`: for
every nonzero shift and every coarsened fine box that meets the shifted box. -/
def maskLoop {D : Nat} (cfba : BoxArray D) (pshifts : List (IntVect D)) (mask : MultiFab D)
    (k : Nat) (bx : Box D) : MultiFab D :=
  pshifts.foldl
    (fun m iv =>
      if iv ≠ (fun _ => 0) then
        (cfba.intersections (bx.shift iv) 0).foldl
          (fun m2 is => m2.setValBox k 0 (is.2.shift fun d => - iv d)) m
      else m)
    mask

/-- The method `YAFluxRegisterT::define`, serial construction of the ring, run by rank
`myproc` on the register `r`. -/
def YAFluxRegister.define {D : Nat} (r : YAFluxRegister D) (fba cba : BoxArray D)
    (fdm cdm : List Nat) (fgeom cgeom : Geometry D) (ref_ratio : IntVect D) (fine_lev : Int)
    (nvar : Nat) (myproc : Nat) (mem : DefineMemory D) : YAFluxRegister D :=
  let crse_data : MultiFab D := FabArray.define cba cdm nvar 0 mem.crse_data
  let crse_flag0 : iMultiFab D := FabArray.define cba cdm 1 1 mem.crse_flag
  let pshifts := shiftIntVect cgeom.periodicity
  let cfba := (BoxArray.coarsen fba ref_ratio).uniqify
  let cdomain := grownDomain cgeom
  let local_crse := localIndices cdm myproc
  let fab_flag0 := resize r.m_crse_fab_flag local_crse.length crse_cell
  let cpc1 := getCPC cba 1 cfba 1 pshifts
  let cpc0 := getCPC cba 1 cfba 0 pshifts
  let crse_flag :=
    (((crse_flag0.setVal crse_cell).setValCPC crse_fine_boundary_cell cpc1 0 1).setValCPC
      fine_cell cpc0 0 1)
  let fab_flag := (fab_flag0.zip local_crse).map fun x =>
    if FabArray.RecvLayoutMask cpc0 x.2 then fine_cell else x.1
  let ring := ringLoop cfba cdomain fdm myproc r.m_cfp_localindex
  let cfpatch : MultiFab D := FabArray.define ring.cfp_bl ring.cfp_procmap nvar 0 mem.cfpatch
  let local_cfp := localIndices ring.cfp_procmap myproc
  let cfp_fab := (local_cfp.enum).foldl
    (fun fabs x => pushAt fabs (ring.cfp_localindex.getD x.1 0) x.2)
    (resize r.m_cfp_fab ring.nlocal [])
  let cfp_mask : MultiFab D :=
    if fgeom.isAnyPeriodic then
      let m0 : MultiFab D :=
        (FabArray.define ring.cfp_bl ring.cfp_procmap 1 0 mem.cfp_mask).setVal 1
      (List.range ring.cfp_bl.length).foldl
        (fun m k =>
          match ring.cfp_bl[k]? with
          | some bx => if ¬ cgeom.domain.containsBox bx then maskLoop cfba pshifts m k bx else m
          | none => m)
        m0
    else r.m_cfp_mask
  { m_crse_data := crse_data
    m_crse_flag := crse_flag
    m_crse_fab_flag := fab_flag
    m_cfpatch := cfpatch
    m_cfp_mask := cfp_mask
    m_cfp_fab := cfp_fab
    m_cfp_localindex := ring.cfp_localindex
    m_fine_geom := fgeom
    m_crse_geom := cgeom
    m_ratio := ref_ratio
    m_fine_level := fine_lev
    m_ncomp := nvar
    m_cvol := r.m_cvol }

/-! ## Kernels -/

/-- Modelled from the spec: the kernel `yafluxreg_crseadd` (AMReX_YAFluxRegister_K.H is not
under src/): "for every cell flagged boundary inside the box, accumulate
dest[c] += Σ_face flux[face] * dt / cellSize[dim(face)]", where "a face contributes only if
it is the face separating this boundary cell from a covered neighbor", with the sign of the
flux divergence: minus for the low face, plus for the high face. -/
def yafluxreg_crseadd {D : Nat} (bx : Box D) (d : IntVect D → Nat → Real) (flag : IntVect D → Int)
    (f : Fin D → IntVect D → Nat → Real) (dtdx : Fin D → Real) (nc : Nat) :
    IntVect D → Nat → Real :=
  fun p n =>
    if bx.contains p ∧ n < nc ∧ flag p = crse_fine_boundary_cell then
      (List.finRange D).foldl
        (fun acc idim =>
          let acc1 :=
            if flag (p - IntVect.basis idim) = fine_cell then acc - dtdx idim * f idim p n
            else acc
          if flag (p + IntVect.basis idim) = fine_cell then
            acc1 + dtdx idim * f idim (p + IntVect.basis idim) n
          else acc1)
        (d p n)
    else d p n

/-- The offsets of the fine faces that compose one coarse face normal to `idim`: zero in
direction `idim`, and `0, ..., rr - 1` in the other directions. -/
def childOffsets {D : Nat} (rr : IntVect D) (idim : Fin D) : List (IntVect D) :=
  vectorsWith fun e => if e = idim then [0] else (List.range (rr e).toNat).map Int.ofNat

/-- The fine face with offset `off` of the coarse face of the coarse cell `p` that looks at
the fine box: its high face when the cell is on the low side (`side = 0`), its low face when
it is on the high side. -/
def childFace {D : Nat} (rr : IntVect D) (idim : Fin D) (side : Nat) (p off : IntVect D) : IntVect D :=
  fun e => if e = idim then (if side = 0 then (p e + 1) * rr e else p e * rr e)
    else p e * rr e + off e

/-- Modelled from the spec: the kernel `yafluxreg_fineadd` (AMReX_YAFluxRegister_K.H is not
under src/): "accumulate into the fragment's destination cells the sum of the ratio^(dim-1)
child-face fluxes landing on that coarse face", scaled by the factor it is given, "with the
opposite sign convention from CrseAdd". The direction is `dirside / 2` and the side is
`dirside % 2`. -/
def yafluxreg_fineadd {D : Nat} (bx : Box D) (d : IntVect D → Nat → Real) (f : IntVect D → Nat → Real)
    (dtdx : Real) (nc : Nat) (dirside : Nat) (rr : IntVect D) : IntVect D → Nat → Real :=
  if h : dirside / 2 < D then
    fun p n =>
      if bx.contains p ∧ n < nc then
        (childOffsets rr ⟨dirside / 2, h⟩).foldl
          (fun acc off =>
            if dirside % 2 = 0 then
              acc - dtdx * f (childFace rr ⟨dirside / 2, h⟩ 0 p off) n
            else acc + dtdx * f (childFace rr ⟨dirside / 2, h⟩ 1 p off) n)
          (d p n)
      else d p n
  else d

namespace YAFluxRegister

variable {D : Nat}

/-- The method `reset`. -/
def reset (r : YAFluxRegister D) : YAFluxRegister D :=
  { r with
    m_crse_data := r.m_crse_data.setVal 0
    m_cfpatch := r.m_cfpatch.setVal 0 }

/-- The predicate `CrseHasWork(mfi)`. -/
def CrseHasWork (r : YAFluxRegister D) (mfi : MFIter D) : Bool :=
  decide (r.m_crse_fab_flag[mfi.LocalIndex]? ≠ some crse_cell)

/-- The predicate `FineHasWork(mfi)`. -/
def FineHasWork (r : YAFluxRegister D) (mfi : MFIter D) : Bool :=
  !((r.m_cfp_fab.getD mfi.LocalIndex []).isEmpty)

/-- The method `CrseAdd` with component arguments. -/
def CrseAdd (r : YAFluxRegister D) (mfi : MFIter D) (flux : Fin D → FArrayBox D)
    (dx : Fin D → Real) (dt : Real) (srccomp destcomp numcomp : Nat) : YAFluxRegister D :=
  if r.m_crse_fab_flag[mfi.LocalIndex]? = some crse_cell then r
  else
    let bx := mfi.tilebox
    let dtdx : Fin D → Real := fun idim => if r.m_cvol.isSome then dt else dt / dx idim
    let dest_arr := r.m_crse_data.array mfi.index destcomp
    let flag : IntVect D → Int := fun p => r.m_crse_flag.data mfi.index p 0
    let farr : Fin D → IntVect D → Nat → Real := fun idim => (flux idim).const_array srccomp
    { r with
      m_crse_data := r.m_crse_data.withArray mfi.index destcomp
        (yafluxreg_crseadd bx dest_arr flag farr dtdx numcomp) }

/-- The method `CrseAdd` without component arguments. -/
def CrseAddAll (r : YAFluxRegister D) (mfi : MFIter D) (flux : Fin D → FArrayBox D)
    (dx : Fin D → Real) (dt : Real) : YAFluxRegister D :=
  r.CrseAdd mfi flux dx dt 0 0 r.m_crse_data.n_comp

/-- The body of the loop over the patch fabs in `FineAdd`, for one side: the kernel runs on
the part of the adjacent-cell box `adj` that lies in patch fab `k`, when there is one. -/
def fineAddSide (cfpatch : MultiFab D) (k : Nat) (adj : Box D) (f : FArrayBox D)
    (fluxcomp destcomp numcomp : Nat) (dtdxs : Real) (dirside : Nat) (rr : IntVect D) :
    MultiFab D :=
  match cfpatch.boxarray[k]? with
  | some cfpbox =>
    if (adj.inter cfpbox).ok then
      cfpatch.withArray k destcomp
        (yafluxreg_fineadd (adj.inter cfpbox) (cfpatch.array k destcomp)
          (f.const_array fluxcomp) dtdxs numcomp dirside rr)
    else cfpatch
  | none => cfpatch

/-- The zero-padded copy `ftmp[idim]` that `FineAdd` makes of a flux when the tile is not
aligned with the coarse cells: `resize(b, numcomp)`, `setVal(0)`,
`copy(a_flux, srccomp, 0, numcomp)`. -/
def paddedFlux (fbx : Box D) (idim : Fin D) (a_flux : FArrayBox D) (srccomp numcomp : Nat) :
    FArrayBox D :=
  { box := fbx.surroundingNodes idim
    ncomp := numcomp
    data := fun p n =>
      if (fbx.surroundingNodes idim).contains p ∧ a_flux.box.contains p ∧ n < numcomp then
        a_flux.data p (srccomp + n)
      else 0 }

/-- The method `FineAdd` with component arguments. -/
def FineAdd (r : YAFluxRegister D) (mfi : MFIter D) (a_flux : Fin D → FArrayBox D)
    (dx : Fin D → Real) (dt : Real) (srccomp destcomp numcomp : Nat) : YAFluxRegister D :=
  let cfp_fabs := r.m_cfp_fab.getD mfi.LocalIndex []
  if cfp_fabs.isEmpty then r
  else
    let tbx := mfi.tilebox
    let bx := tbx.coarsen r.m_ratio
    let fbx := bx.refine r.m_ratio
    let ratio : Real := (((List.finRange D).map r.m_ratio).prod : Int)
    let dtdx : Fin D → Real := fun idim =>
      if r.m_cvol.isSome then dt else dt / (dx idim * ratio)
    let flux : Fin D → FArrayBox D := fun idim =>
      if fbx ≠ tbx then paddedFlux fbx idim (a_flux idim) srccomp numcomp else a_flux idim
    let fluxcomp := if fbx ≠ tbx then 0 else srccomp
    { r with
      m_cfpatch := (List.finRange D).foldl
        (fun cfp idim =>
          cfp_fabs.foldl
            (fun cfp2 k =>
              fineAddSide
                (fineAddSide cfp2 k (bx.adjCellLo idim) (flux idim) fluxcomp destcomp numcomp
                  (dtdx idim) (idim.val * 2 + 0) r.m_ratio)
                k (bx.adjCellHi idim) (flux idim) fluxcomp destcomp numcomp
                (dtdx idim) (idim.val * 2 + 1) r.m_ratio)
            cfp)
        r.m_cfpatch }

/-- The method `FineAdd` without component arguments. -/
def FineAddAll (r : YAFluxRegister D) (mfi : MFIter D) (flux : Fin D → FArrayBox D)
    (dx : Fin D → Real) (dt : Real) : YAFluxRegister D :=
  r.FineAdd mfi flux dx dt 0 0 r.m_crse_data.n_comp

/-- The first loop of `Reflux`: the patch buffer is multiplied by the periodic mask, when
there is a mask. -/
def maskedPatch (r : YAFluxRegister D) (srccomp numcomp : Nat) : MultiFab D :=
  if ¬ r.m_cfp_mask.empty then
    { r.m_cfpatch with
      data := fun k p n =>
        if r.m_cfpatch.inFab k p ∧ srccomp ≤ n ∧ n < srccomp + numcomp then
          r.m_cfpatch.data k p n * r.m_cfp_mask.data k p 0
        else r.m_cfpatch.data k p n }
  else r.m_cfpatch

/-- The method `Reflux` with component arguments: the register and the coarse state after
the call. -/
def Reflux (r : YAFluxRegister D) (state : MultiFab D) (srccomp destcomp numcomp : Nat) :
    YAFluxRegister D × MultiFab D :=
  let cfpatch := r.maskedPatch srccomp numcomp
  let crse_data :=
    r.m_crse_data.ParallelCopyAdd cfpatch srccomp srccomp numcomp r.m_crse_geom.periodicity
  let state1 : MultiFab D :=
    match r.m_cvol with
    | some vol =>
      { state with
        data := fun k p n =>
          if state.inValid k p ∧ destcomp ≤ n ∧ n < destcomp + numcomp then
            state.data k p n + crse_data.data k p (n - destcomp + srccomp) / vol.data k p 0
          else state.data k p n }
    | none => state.Add crse_data srccomp destcomp numcomp
  ({ r with m_cfpatch := cfpatch, m_crse_data := crse_data }, state1)

/-- The method `Reflux(state, dc)`. -/
def RefluxAll (r : YAFluxRegister D) (state : MultiFab D) (dc : Nat) :
    YAFluxRegister D × MultiFab D :=
  r.Reflux state 0 dc r.m_ncomp

/-- The method `setCrseVolume`. -/
def setCrseVolume (r : YAFluxRegister D) (cvol : Option (MultiFab D)) : YAFluxRegister D :=
  { r with m_cvol := cvol }

/-- The accessor `getFineData`. -/
def getFineData (r : YAFluxRegister D) : MultiFab D := r.m_cfpatch

/-- The accessor `getCrseData`. -/
def getCrseData (r : YAFluxRegister D) : MultiFab D := r.m_crse_data

end YAFluxRegister

/-! ## The embedded-boundary register: accumulation -/

/-- The data members of `EBFluxRegister`, which derives from `YAFluxRegister`. -/
structure EBFluxRegister (D : Nat) extends YAFluxRegister D where
  m_cfp_inside_mask : iMultiFab D

/-- A loop `AMREX_HOST_DEVICE_FOR_3D` over the cells of `bx`: the body run at cell `p` gives
the values of cell `p`. -/
def forCells {D : Nat} (bx : Box D)
    (body : IntVect D → (IntVect D → Nat → Real) → IntVect D → Nat → Real)
    (d : IntVect D → Nat → Real) : IntVect D → Nat → Real :=
  fun q m => if bx.contains q then body q d q m else d q m

/-- A loop `AMREX_HOST_DEVICE_FOR_4D` over the cells of `bx` and the components below
`ncomp`: the body run at `(p, n)` gives the value at `(p, n)`. -/
def forCellsComps {D : Nat} (bx : Box D) (ncomp : Nat)
    (body : IntVect D → Nat → (IntVect D → Nat → Real) → IntVect D → Nat → Real)
    (d : IntVect D → Nat → Real) : IntVect D → Nat → Real :=
  fun q m => if bx.contains q ∧ m < ncomp then body q m d q m else d q m

/-- Modelled from the spec: the per-cell kernel `eb_flux_reg_crseadd_va`
(AMReX_EBFluxRegister_C.H is not under src/), the "volume/area-fraction-weighted variant" of
the coarse accumulation: "flux is pre-multiplied by face-area fraction", the sum is weighted
by the volume fraction of the cell, and a covered cell (no volume) is skipped. Only the
components below `ncomp` of the cell `p` are written. -/
def eb_flux_reg_crseadd_va {D : Nat} (p : IntVect D) (d : IntVect D → Nat → Real)
    (flag : IntVect D → Int) (f : Fin D → IntVect D → Nat → Real)
    (vfrac : IntVect D → Nat → Real) (ap : Fin D → IntVect D → Nat → Real)
    (dtdx : Fin D → Real) (ncomp : Nat) : IntVect D → Nat → Real :=
  fun q n =>
    if q = p ∧ n < ncomp ∧ flag p = crse_fine_boundary_cell ∧ 0 < vfrac p 0 then
      (List.finRange D).foldl
        (fun acc idim =>
          let acc1 :=
            if flag (p - IntVect.basis idim) = fine_cell then
              acc - dtdx idim * ap idim p 0 * f idim p n / vfrac p 0
            else acc
          if flag (p + IntVect.basis idim) = fine_cell then
            acc1 + dtdx idim * ap idim (p + IntVect.basis idim) 0
              * f idim (p + IntVect.basis idim) n / vfrac p 0
          else acc1)
        (d p n)
    else d q n

/-- Modelled from the spec: the kernels `eb_flux_reg_fineadd_va_xlo`, `_ylo`, `_zlo`
(`side = 0`) and `_xhi`, `_yhi`, `_zhi` (`side = 1`) of AMReX_EBFluxRegister_C.H, not under
src/: the fine accumulation with the "flux pre-multiplied by face-area fraction", summed
over the fine faces of the coarse face. Only the value at `(p, n)` is written. -/
def eb_flux_reg_fineadd_va {D : Nat} (idim : Fin D) (side : Nat) (p : IntVect D) (n : Nat)
    (d : IntVect D → Nat → Real) (f : IntVect D → Nat → Real)
    (a : IntVect D → Nat → Real) (fac : Real) (ratio : IntVect D) : IntVect D → Nat → Real :=
  fun q m =>
    if q = p ∧ m = n then
      (childOffsets ratio idim).foldl
        (fun acc off =>
          if side = 0 then
            acc - fac * a (childFace ratio idim 0 p off) 0 * f (childFace ratio idim 0 p off) n
          else
            acc + fac * a (childFace ratio idim 1 p off) 0 * f (childFace ratio idim 1 p off) n)
        (d p n)
    else d q m

/-- The offsets of the fine cells of one coarse cell. -/
def fineOffsets {D : Nat} (ratio : IntVect D) : List (IntVect D) :=
  vectorsWith fun e => (List.range (ratio e).toNat).map Int.ofNat

/-- Modelled from the spec: the kernel `eb_flux_reg_fineadd_dm` of
AMReX_EBFluxRegister_C.H, not under src/: the `dm` contributions of the fine cells of the
coarse cell `p` that lie in `dmbx`, weighted by their volume fraction, are scattered into
the patch cell, a contribution below the threshold being dropped. Only the value at `(p, n)`
is written. -/
def eb_flux_reg_fineadd_dm {D : Nat} (p : IntVect D) (n : Nat) (dmbx : Box D)
    (d : IntVect D → Nat → Real) (dm : IntVect D → Nat → Real)
    (vfrac : IntVect D → Nat → Real) (ratio : IntVect D) (threshold : Real) :
    IntVect D → Nat → Real :=
  fun q m =>
    if q = p ∧ m = n then
      (fineOffsets ratio).foldl
        (fun acc off =>
          if dmbx.contains (fun e => p e * ratio e + off e) then
            acc + (if |dm (fun e => p e * ratio e + off e) n
                        * vfrac (fun e => p e * ratio e + off e) 0| < threshold then 0
                   else dm (fun e => p e * ratio e + off e) n
                        * vfrac (fun e => p e * ratio e + off e) 0)
          else acc)
        (d p n)
    else d q m

namespace EBFluxRegister

variable {D : Nat}

/-- The method `EBFluxRegister::CrseAdd` with component arguments. -/
def CrseAdd (r : EBFluxRegister D) (mfi : MFIter D) (flux : Fin D → FArrayBox D)
    (dx : Fin D → Real) (dt : Real) (volfrac : FArrayBox D) (areafrac : Fin D → FArrayBox D)
    (srccomp destcomp numcomp : Nat) : EBFluxRegister D :=
  if r.m_crse_fab_flag[mfi.LocalIndex]? = some crse_cell then r
  else
    let dest_arr := r.m_crse_data.array mfi.index destcomp
    let bx := mfi.tilebox
    let amrflag : IntVect D → Int := fun p => r.m_crse_flag.data mfi.index p 0
    let dtdx : Fin D → Real := fun idim => dt / dx idim
    let f : Fin D → IntVect D → Nat → Real := fun idim => (flux idim).const_array srccomp
    let ap : Fin D → IntVect D → Nat → Real := fun idim => (areafrac idim).const_array 0
    let vfrac := volfrac.const_array 0
    { r with
      m_crse_data := r.m_crse_data.withArray mfi.index destcomp
        (forCells bx
          (fun p d => eb_flux_reg_crseadd_va p d amrflag f vfrac ap dtdx numcomp) dest_arr) }

/-- The body of the first loop over the patch fabs in `EBFluxRegister::FineAdd`, for one
side of one direction. -/
def fineAddSide (cfpatch : MultiFab D) (k : Nat) (adj : Box D) (idim : Fin D) (side : Nat)
    (f a : IntVect D → Nat → Real) (destcomp numcomp : Nat) (fac : Real)
    (ratio : IntVect D) : MultiFab D :=
  match cfpatch.boxarray[k]? with
  | some cfpbox =>
    if (adj.inter cfpbox).ok then
      cfpatch.withArray k destcomp
        (forCellsComps (adj.inter cfpbox) numcomp
          (fun p n d => eb_flux_reg_fineadd_va idim side p n d f a fac ratio)
          (cfpatch.array k destcomp))
    else cfpatch
  | none => cfpatch

/-- The body of the second loop over the patch fabs in `EBFluxRegister::FineAdd`, which
scatters `dm`. -/
def fineAddDm (cfpatch : MultiFab D) (k : Nat) (cbxg1 tbxg1 : Box D)
    (dma vfrac : IntVect D → Nat → Real) (destcomp numcomp : Nat) (ratio : IntVect D)
    (threshold : Real) : MultiFab D :=
  match cfpatch.boxarray[k]? with
  | some cfpbox =>
    if (cbxg1.inter cfpbox).ok then
      cfpatch.withArray k destcomp
        (forCellsComps (cbxg1.inter cfpbox) numcomp
          (fun p n d => eb_flux_reg_fineadd_dm p n tbxg1 d dma vfrac ratio threshold)
          (cfpatch.array k destcomp))
    else cfpatch
  | none => cfpatch

/-- The method `EBFluxRegister::FineAdd` with component arguments; `dm` is absent when it is
not allocated, and `reredistribution_threshold` is the value of
`amrex_eb_get_reredistribution_threshold()`. -/
def FineAdd (r : EBFluxRegister D) (mfi : MFIter D) (flux : Fin D → FArrayBox D)
    (dx : Fin D → Real) (dt : Real) (volfrac : FArrayBox D) (areafrac : Fin D → FArrayBox D)
    (dm : Option (FArrayBox D)) (reredistribution_threshold : Real)
    (srccomp destcomp numcomp : Nat) : EBFluxRegister D :=
  let cfp_fabs := r.m_cfp_fab.getD mfi.LocalIndex []
  if cfp_fabs.isEmpty then r
  else
    let tbx := mfi.tilebox
    let cbx := tbx.coarsen r.m_ratio
    let vfrac := volfrac.const_array 0
    let cfpatch1 := (List.finRange D).foldl
      (fun cfp idim =>
        cfp_fabs.foldl
          (fun cfp2 k =>
            fineAddSide
              (fineAddSide cfp2 k (cbx.adjCellLo idim) idim 0
                ((flux idim).const_array srccomp) ((areafrac idim).const_array 0)
                destcomp numcomp (dt / dx idim) r.m_ratio)
              k (cbx.adjCellHi idim) idim 1
              ((flux idim).const_array srccomp) ((areafrac idim).const_array 0)
              destcomp numcomp (dt / dx idim) r.m_ratio)
          cfp)
      r.m_cfpatch
    let cfpatch2 :=
      match dm with
      | some dmfab =>
        cfp_fabs.foldl
          (fun cfp k =>
            fineAddDm cfp k (cbx.grow 1) (tbx.grow 1) (dmfab.const_array srccomp) vfrac
              destcomp numcomp r.m_ratio
              (reredistribution_threshold * (((List.finRange D).map r.m_ratio).prod : Int)))
          cfpatch1
      | none => cfpatch1
    { r with m_cfpatch := cfpatch2 }

end EBFluxRegister

/-! ## Construction -/

/-- A default-constructed register: no boxes, empty vectors, no volume. -/
def YAFluxRegister.default (D : Nat) : YAFluxRegister D :=
  { m_crse_data := ⟨[], [], 0, 0, fun _ _ _ => 0⟩
    m_crse_flag := ⟨[], [], 0, 0, fun _ _ _ => 0⟩
    m_crse_fab_flag := []
    m_cfpatch := ⟨[], [], 0, 0, fun _ _ _ => 0⟩
    m_cfp_mask := ⟨[], [], 0, 0, fun _ _ _ => 0⟩
    m_cfp_fab := []
    m_cfp_localindex := []
    m_fine_geom := ⟨⟨fun _ => 0, fun _ => -1⟩, fun _ => false⟩
    m_crse_geom := ⟨⟨fun _ => 0, fun _ => -1⟩, fun _ => false⟩
    m_ratio := fun _ => 0
    m_fine_level := 0
    m_ncomp := 0
    m_cvol := none }

/-- The constructor of `YAFluxRegisterT` with arguments: `define` on a default-constructed
register. -/
def YAFluxRegister.construct {D : Nat} (fba cba : BoxArray D) (fdm cdm : List Nat)
    (fgeom cgeom : Geometry D) (ref_ratio : IntVect D) (fine_lev : Int) (nvar : Nat)
    (myproc : Nat) (mem : DefineMemory D) : YAFluxRegister D :=
  (YAFluxRegister.default D).define fba cba fdm cdm fgeom cgeom ref_ratio fine_lev nvar myproc
    mem

/-! ## A periodic configuration in two dimensions

A coarse domain of 8 x 8 cells, periodic in the first direction, held by one coarse box, and
two fine boxes at refinement ratio 2 whose coarsened boxes touch the two periodic sides of the
domain. -/

namespace Example

/-- The box with the given lower and upper corner. -/
def box (a b c d : Int) : Box 2 := ⟨![a, b], ![c, d]⟩

/-- The coarse geometry. -/
def cgeom : Geometry 2 := ⟨box 0 0 7 7, ![true, false]⟩

/-- The fine geometry. -/
def fgeom : Geometry 2 := ⟨box 0 0 15 15, ![true, false]⟩

/-- The fine boxes; coarsened they are `(0,2)-(1,3)` and `(6,2)-(7,3)`. -/
def fba : BoxArray 2 := [box 0 4 3 7, box 12 4 15 7]

/-- The coarse boxes. -/
def cba : BoxArray 2 := [box 0 0 7 7]

/-- The memory that `define` finds: nothing is zero. -/
def mem : DefineMemory 2 := ⟨fun _ _ _ => 7, fun _ _ _ => 9, fun _ _ _ => 7, fun _ _ _ => 7⟩

/-- The register of the configuration, with one component, on the single rank 0. -/
def reg : YAFluxRegister 2 :=
  YAFluxRegister.construct fba cba [0, 0] [0] fgeom cgeom ![2, 2] 1 1 0 mem

/-- A coarse state with one component. -/
def state : MultiFab 2 := ⟨cba, [0], 1, 0, fun _ _ _ => 3⟩

/-- Fluxes equal to one on every face. -/
def flux : Fin 2 → FArrayBox 2 := fun _ => ⟨box 0 0 16 16, 1, fun _ _ => 1⟩

end Example

/-! ## Sequences of calls -/

/-- One accumulation call on the base register, with its arguments. -/
inductive AddCall (D : Nat) where
  | crse (mfi : MFIter D) (flux : Fin D → FArrayBox D) (dx : Fin D → Real) (dt : Real)
      (srccomp destcomp numcomp : Nat)
  | fine (mfi : MFIter D) (flux : Fin D → FArrayBox D) (dx : Fin D → Real) (dt : Real)
      (srccomp destcomp numcomp : Nat)

/-- The register after one accumulation call. -/
def YAFluxRegister.call {D : Nat} (r : YAFluxRegister D) : AddCall D → YAFluxRegister D
  | .crse mfi flux dx dt srccomp destcomp numcomp =>
    r.CrseAdd mfi flux dx dt srccomp destcomp numcomp
  | .fine mfi flux dx dt srccomp destcomp numcomp =>
    r.FineAdd mfi flux dx dt srccomp destcomp numcomp

/-- The register after a sequence of accumulation calls. -/
def YAFluxRegister.calls {D : Nat} (r : YAFluxRegister D) (l : List (AddCall D)) :
    YAFluxRegister D :=
  l.foldl YAFluxRegister.call r

/-- The register `r'` is the register `r` with other contents of the accumulation buffer
and of the patch buffer. -/
def SameButBuffers {D : Nat} (r r' : YAFluxRegister D) : Prop :=
  r' = { r with
    m_crse_data := { r.m_crse_data with data := r'.m_crse_data.data }
    m_cfpatch := { r.m_cfpatch with data := r'.m_cfpatch.data } }

/-- Every allocated entry of the accumulation buffer in a cell that is not flagged as a
boundary cell is zero. -/
def ZeroOffBoundary {D : Nat} (r : YAFluxRegister D) : Prop :=
  ∀ i c n, r.m_crse_flag.data i c 0 ≠ crse_fine_boundary_cell → r.m_crse_data.inFab i c →
    n < r.m_crse_data.n_comp → r.m_crse_data.data i c n = 0

/-- A coarse call on the coarse box and a fine call on the first fine box of the periodic
configuration. -/
def Example.callList : List (AddCall 2) :=
  [AddCall.crse ⟨0, 0, Example.box 0 0 7 7⟩ Example.flux (fun _ => 1) 1 0 0 1,
   AddCall.fine ⟨0, 0, Example.box 0 4 3 7⟩ Example.flux (fun _ => 1) 1 0 0 1]

/-- The register `r` with the contents `acc` in the accumulation buffer and `patch` in the
patch buffer. -/
def YAFluxRegister.withBuffers {D : Nat} (r : YAFluxRegister D)
    (acc patch : Nat → IntVect D → Nat → Real) : YAFluxRegister D :=
  { r with
    m_crse_data := { r.m_crse_data with data := acc }
    m_cfpatch := { r.m_cfpatch with data := patch } }

/-- The contents of a buffer that holds `v` in component `n0` of cell `p0` of fab `k0` and
zero everywhere else. -/
def unitAt {D : Nat} (k0 : Nat) (p0 : IntVect D) (n0 : Nat) (v : Real) :
    Nat → IntVect D → Nat → Real :=
  fun k p n => if k = k0 ∧ p = p0 ∧ n = n0 then v else 0

/-! ## Quantities named by the specification -/

/-- The value of a patch cell "times its periodic mask (mask taken as 1 when no mask
exists)". -/
def maskedValue {D : Nat} (r : YAFluxRegister D) (k : Nat) (p : IntVect D) (n : Nat) : Real :=
  r.m_cfpatch.data k p n * (if r.m_cfp_mask.empty then 1 else r.m_cfp_mask.data k p 0)

/-- The sum, "over every patch fab and every periodic shift that maps a patch cell onto" the
cell `c`, of the values `v` of these patch cells. -/
def patchImageSum {D : Nat} (r : YAFluxRegister D) (v : Nat → IntVect D → Real)
    (c : IntVect D) : Real :=
  ((List.range r.m_cfpatch.boxarray.length).map fun k =>
    ((shiftIntVect r.m_crse_geom.periodicity).map fun iv =>
      if r.m_cfpatch.inValid k (c - iv) then v k (c - iv) else 0).sum).sum

/-- The correction `A[c, n]` of the coarse cell `c` of coarse fab `i`: "the old accumulation
buffer plus the sum, over every patch fab and every periodic shift that maps a patch cell
onto c, of the patch value times its periodic mask". -/
def refluxCorrection {D : Nat} (r : YAFluxRegister D) (i : Nat) (c : IntVect D) (n : Nat) :
    Real :=
  r.m_crse_data.data i c n + patchImageSum r (fun k p => maskedValue r k p n) c

/-- The coarse domain "grown by one cell in each periodic direction and not grown in
non-periodic directions". -/
def periodicGrownDomain {D : Nat} (cgeom : Geometry D) : Box D :=
  ⟨fun d => cgeom.domain.smallend d - (if cgeom.is_periodic d then 1 else 0),
   fun d => cgeom.domain.bigend d + (if cgeom.is_periodic d then 1 else 0)⟩

/-- The cell `c`, "or a periodic image of it, lies in some" box of the list grown by `ng`
cells: the image is `c` moved back by one of the periodic shifts. -/
def imageInBoxes {D : Nat} (pshifts : List (IntVect D)) (boxes : BoxArray D) (ng : Int)
    (c : IntVect D) : Prop :=
  ∃ iv ∈ pshifts, ∃ b ∈ boxes, (b.grow ng).contains (c - iv)

instance {D : Nat} (pshifts : List (IntVect D)) (boxes : BoxArray D) (ng : Int)
    (c : IntVect D) : Decidable (imageInBoxes pshifts boxes ng c) := by
  unfold imageInBoxes; infer_instance

/-! ## Predicates used in the proofs -/

/-- The array `b` has the layout of `a` and differs from it at most at the entries
`(k, p, n)` that satisfy `W`. -/
def ChangesOnly {D : Nat} (W : Nat → IntVect D → Nat → Prop) (a b : MultiFab D) : Prop :=
  b.boxarray = a.boxarray ∧ b.distributionMap = a.distributionMap ∧ b.n_comp = a.n_comp ∧
  b.n_grow = a.n_grow ∧ ∀ k p n, ¬ W k p n → b.data k p n = a.data k p n

/-- The writes of `FineAdd` on the register `r` for the fine box of `mfi`: components
`destcomp ≤ n < destcomp + numcomp` of allocated cells of the patch fabs listed for the
box. -/
def fineWrites {D : Nat} (r : YAFluxRegister D) (mfi : MFIter D) (destcomp numcomp : Nat) :
    Nat → IntVect D → Nat → Prop :=
  fun k p n => k ∈ r.m_cfp_fab.getD mfi.LocalIndex [] ∧ r.m_cfpatch.inFab k p ∧
    destcomp ≤ n ∧ n < destcomp + numcomp

/-- The cell `p` is in the range of the box `b` in every direction but `i`. -/
def inOthers {D : Nat} (b : Box D) (i : Fin D) (p : IntVect D) : Prop :=
  ∀ d, d ≠ i → b.smallend d ≤ p d ∧ p d ≤ b.bigend d

instance {D : Nat} (b : Box D) (i : Fin D) (p : IntVect D) : Decidable (inOthers b i p) := by
  unfold inOthers; infer_instance

/-- The two boxes overlap in every direction. -/
def Overlap {D : Nat} (b1 b2 : Box D) : Prop :=
  ∀ d, b1.smallend d ≤ b2.bigend d ∧ b2.smallend d ≤ b1.bigend d ∧
    b1.smallend d ≤ b1.bigend d ∧ b2.smallend d ≤ b2.bigend d

/-- The condition under which the mask loop of fab `k0`, whose box is `bx`, zeroes the entry
`(k, p, n)` for the shift `iv`. -/
def maskZeroed {D : Nat} (cfba : BoxArray D) (k0 : Nat) (bx : Box D) (iv : IntVect D) (k : Nat)
    (p : IntVect D) (n : Nat) : Prop :=
  iv ≠ (fun _ => 0) ∧ k = k0 ∧ n = 0 ∧ bx.contains p ∧ ∃ b ∈ cfba, b.contains (p + iv)

/-! ## One fine box over one coarse box -/

/-- The register built over one coarse box `cb` and the single fine box that refines the
coarse region `sub`, everything on rank `myproc`. -/
def seamRegister {D : Nat} (sub cb : Box D) (ratio : IntVect D) (fgeom cgeom : Geometry D)
    (lev : Int) (nvar myproc : Nat) (mem : DefineMemory D) : YAFluxRegister D :=
  YAFluxRegister.construct [sub.refine ratio] [cb] [myproc] [myproc] fgeom cgeom ratio lev nvar
    myproc mem

/-- One fine sub-step: the fine fluxes and the fine time step. -/
structure FineStep (D : Nat) where
  flux : Fin D → FArrayBox D
  dt : Real

/-- The calls `FineAdd(mfi, flux, dx, dt, ...)` of the fine sub-steps, one after the other. -/
def YAFluxRegister.fineSteps {D : Nat} (r : YAFluxRegister D) (mfi : MFIter D)
    (dx : Fin D → Real) (steps : List (FineStep D)) (srccomp destcomp numcomp : Nat) :
    YAFluxRegister D :=
  steps.foldl (fun r s => r.FineAdd mfi s.flux dx s.dt srccomp destcomp numcomp) r

/-- The value that `FineAdd` adds for one side of direction `idim`. -/
def fineTerm {D : Nat} (rr : IntVect D) (f : FArrayBox D) (dtdx : Real) (idim : Fin D)
    (side : Nat) (p : IntVect D) (n : Nat) : Real :=
  dtdx * ((childOffsets rr idim).map fun off => f.data (childFace rr idim side p off) n).sum

/-- The coarse flux contribution that `CrseAdd` accumulates for the seam face of the coarse
cell `c` in direction `idim`: the high face of `c` when the cell is on the low side of the
fine region (`side = 0`), its low face when it is on the high side. -/
def crseContribution {D : Nat} (flux : Fin D → FArrayBox D) (dx : Fin D → Real) (dt : Real)
    (idim : Fin D) (side : Nat) (c : IntVect D) (n : Nat) : Real :=
  dt / dx idim * (flux idim).data (if side = 0 then c + IntVect.basis idim else c) n

/-- The sum over the fine sub-steps of the averaged child-face fine-flux contributions that
`FineAdd` accumulates for the seam face of the coarse cell `c`. -/
def fineContribution {D : Nat} (ratio : IntVect D) (dx : Fin D → Real)
    (steps : List (FineStep D)) (idim : Fin D) (side : Nat) (c : IntVect D) (n : Nat) : Real :=
  (steps.map fun s => fineTerm ratio (s.flux idim)
    (s.dt / (dx idim * (((List.finRange D).map ratio).prod : Int))) idim side c n).sum

/-! ## A non-periodic configuration in two dimensions

A coarse domain of 8 x 8 cells held by one coarse box, and one fine box at refinement ratio 2
that covers the coarse cells 2..3 x 2..3; unit fluxes and two fine sub-steps. -/

namespace Seam

/-- A non-periodic coarse domain of 8 x 8 cells. -/
def cgeom : Geometry 2 := ⟨Example.box 0 0 7 7, ![false, false]⟩

/-- The fine domain at refinement ratio 2. -/
def fgeom : Geometry 2 := ⟨Example.box 0 0 15 15, ![false, false]⟩

/-- The coarse region that the fine box covers. -/
def sub : Box 2 := Example.box 2 2 3 3

/-- The coarse box. -/
def cb : Box 2 := Example.box 0 0 7 7

/-- Fluxes that are 1 on every face. -/
def flux : Fin 2 → FArrayBox 2 := fun _ => ⟨Example.box 0 0 16 16, 1, fun _ _ => 1⟩

/-- Two fine sub-steps of half the coarse time step. -/
def steps : List (FineStep 2) := [⟨flux, 1 / 2⟩, ⟨flux, 1 / 2⟩]

/-- A coarse state on the coarse box. -/
def state : MultiFab 2 := ⟨[cb], [0], 1, 0, fun _ _ _ => 3⟩

end Seam

/-- The position in the patch partition of the first box generated from fine box `i`: the
number of boxes generated from the fine boxes before it. -/
def ringOffset {D : Nat} (cfba : BoxArray D) (cdomain : Box D) (i : Nat) : Nat :=
  ((List.range i).map fun j => (ringBoxes cfba cdomain j).length).sum

namespace Covered

/-- A coarse box that lies wholly under the fine level. -/
def cba : BoxArray 2 := [Example.box 0 0 3 3]

/-- The fine box above it, at refinement ratio 2. -/
def fba : BoxArray 2 := [Example.box 0 0 7 7]

/-- The register of this configuration, on a non-periodic domain of 8 x 8 coarse cells. -/
def reg : YAFluxRegister 2 :=
  YAFluxRegister.construct fba cba [0] [0] Seam.fgeom Seam.cgeom ![2, 2] 1 1 0 Example.mem

end Covered

/-- How a call ends: with a fatal error (a failed check that ends the program), or normally
with its result. -/
inductive Outcome (α : Type) where
  | fatal : Outcome α
  | completed : α → Outcome α

/-- The way `YAFluxRegisterT::define` ends. The method holds no assertion and calls no error
routine: the list `cfp_bl` of ring boxes goes into `cfp_ba` and `m_cfpatch.define` without a
test ("It's safe even if cfp_bl is empty"), so every call ends normally with the register
that `define` has filled. -/
def YAFluxRegister.defineOutcome {D : Nat} (r : YAFluxRegister D) (fba cba : BoxArray D)
    (fdm cdm : List Nat) (fgeom cgeom : Geometry D) (ref_ratio : IntVect D) (fine_lev : Int)
    (nvar : Nat) (myproc : Nat) (mem : DefineMemory D) : Outcome (YAFluxRegister D) :=
  Outcome.completed (r.define fba cba fdm cdm fgeom cgeom ref_ratio fine_lev nvar myproc mem)

namespace Covered

/-- A fine box that covers the whole non-periodic domain of 8 x 8 coarse cells. -/
def fbaAll : BoxArray 2 := [Example.box 0 0 15 15]

/-- The coarse box of the whole domain. -/
def cbaAll : BoxArray 2 := [Example.box 0 0 7 7]

end Covered

/-! ## Assertions on the component ranges -/

/-- The condition of the assertion at the start of `CrseAdd` with component arguments:
`m_crse_data.nComp() >= destcomp+numcomp && flux[0]->nComp() >= srccomp+numcomp`. -/
def YAFluxRegister.CrseAddAssert {D : Nat} [NeZero D] (r : YAFluxRegister D)
    (flux : Fin D → FArrayBox D) (srccomp destcomp numcomp : Nat) : Bool :=
  decide (r.m_crse_data.n_comp ≥ destcomp + numcomp ∧ (flux 0).ncomp ≥ srccomp + numcomp)

/-- The condition of the assertion of `CrseAdd` without component arguments:
`m_crse_data.nComp() == flux[0]->nComp()`. -/
def YAFluxRegister.CrseAddAllAssert {D : Nat} [NeZero D] (r : YAFluxRegister D)
    (flux : Fin D → FArrayBox D) : Bool :=
  decide (r.m_crse_data.n_comp = (flux 0).ncomp)

/-- The condition of the assertion at the start of `FineAdd` with component arguments:
`m_cfpatch.nComp() >= destcomp+numcomp && a_flux[0]->nComp() >= srccomp+numcomp`. -/
def YAFluxRegister.FineAddAssert {D : Nat} [NeZero D] (r : YAFluxRegister D)
    (flux : Fin D → FArrayBox D) (srccomp destcomp numcomp : Nat) : Bool :=
  decide (r.m_cfpatch.n_comp ≥ destcomp + numcomp ∧ (flux 0).ncomp ≥ srccomp + numcomp)

/-- The condition of the assertion of `FineAdd` without component arguments:
`m_crse_data.nComp() == flux[0]->nComp()`. -/
def YAFluxRegister.FineAddAllAssert {D : Nat} [NeZero D] (r : YAFluxRegister D)
    (flux : Fin D → FArrayBox D) : Bool :=
  decide (r.m_crse_data.n_comp = (flux 0).ncomp)

/-- The condition of the assertion at the start of `EBFluxRegister::CrseAdd` with component
arguments: `flux[0]->nComp() >= srccomp+numcomp && m_crse_data.nComp() >= destcomp+numcomp`. -/
def EBFluxRegister.CrseAddAssert {D : Nat} [NeZero D] (r : EBFluxRegister D)
    (flux : Fin D → FArrayBox D) (srccomp destcomp numcomp : Nat) : Bool :=
  decide ((flux 0).ncomp ≥ srccomp + numcomp ∧ r.m_crse_data.n_comp ≥ destcomp + numcomp)

/-- The condition of the assertion of `EBFluxRegister::CrseAdd` without component arguments:
`m_crse_data.nComp() == flux[0]->nComp()`. -/
def EBFluxRegister.CrseAddAllAssert {D : Nat} [NeZero D] (r : EBFluxRegister D)
    (flux : Fin D → FArrayBox D) : Bool :=
  decide (r.m_crse_data.n_comp = (flux 0).ncomp)

/-- The condition of the assertion at the start of `EBFluxRegister::FineAdd` with component
arguments: `srccomp + numcomp <= flux[0]->nComp() && destcomp + numcomp <= m_ncomp`. -/
def EBFluxRegister.FineAddAssert {D : Nat} [NeZero D] (r : EBFluxRegister D)
    (flux : Fin D → FArrayBox D) (srccomp destcomp numcomp : Nat) : Bool :=
  decide (srccomp + numcomp ≤ (flux 0).ncomp ∧ destcomp + numcomp ≤ r.m_ncomp)

/-- The condition of the assertion of `EBFluxRegister::FineAdd` without component arguments:
`m_cfpatch.nComp() == flux[0]->nComp()`. -/
def EBFluxRegister.FineAddAllAssert {D : Nat} [NeZero D] (r : EBFluxRegister D)
    (flux : Fin D → FArrayBox D) : Bool :=
  decide (r.m_cfpatch.n_comp = (flux 0).ncomp)

/-- The method `EBFluxRegister::CrseAdd` without component arguments. -/
def EBFluxRegister.CrseAddAll {D : Nat} (r : EBFluxRegister D) (mfi : MFIter D)
    (flux : Fin D → FArrayBox D) (dx : Fin D → Real) (dt : Real) (volfrac : FArrayBox D)
    (areafrac : Fin D → FArrayBox D) : EBFluxRegister D :=
  r.CrseAdd mfi flux dx dt volfrac areafrac 0 0 r.m_crse_data.n_comp

/-- The method `EBFluxRegister::FineAdd` without component arguments, which takes `dm`. -/
def EBFluxRegister.FineAddAll {D : Nat} (r : EBFluxRegister D) (mfi : MFIter D)
    (flux : Fin D → FArrayBox D) (dx : Fin D → Real) (dt : Real) (volfrac : FArrayBox D)
    (areafrac : Fin D → FArrayBox D) (dm : Option (FArrayBox D))
    (reredistribution_threshold : Real) : EBFluxRegister D :=
  r.FineAdd mfi flux dx dt volfrac areafrac dm reredistribution_threshold 0 0
    r.m_crse_data.n_comp

namespace Seam

/-- The register of the non-periodic configuration with three components. -/
def reg3 : YAFluxRegister 2 :=
  seamRegister sub cb ![2, 2] fgeom cgeom 1 3 0 Example.mem

end Seam

/-- The content of a patch cell `c` of the ring of `sub` after the fine sub-steps `steps` on
a zeroed patch buffer: for every sub-step and direction, minus the fine term of the low side
when `c` is adjacent to the low face of `sub`, plus the fine term of the high side when it is
adjacent to the high face. -/
def seamPatchValue {D : Nat} (sub : Box D) (ratio : IntVect D) (dx : Fin D → Real)
    (steps : List (FineStep D)) (c : IntVect D) (n : Nat) : Real :=
  (steps.map fun s => ((List.finRange D).map fun idim =>
    (if (sub.adjCellLo idim).contains c then
      - fineTerm ratio (s.flux idim)
          (s.dt / (dx idim * (((List.finRange D).map ratio).prod : Int))) idim 0 c n
      else 0) +
    (if (sub.adjCellHi idim).contains c then
      fineTerm ratio (s.flux idim)
          (s.dt / (dx idim * (((List.finRange D).map ratio).prod : Int))) idim 1 c n
      else 0)).sum).sum

/-- The arithmetic mean of the fluxes on the child faces of the seam face of the coarse cell
`c` in direction `idim`. -/
def childMean {D : Nat} (ratio : IntVect D) (f : FArrayBox D) (idim : Fin D) (side : Nat)
    (c : IntVect D) (n : Nat) : Real :=
  ((childOffsets ratio idim).map fun off => f.data (childFace ratio idim side c off) n).sum /
    (childOffsets ratio idim).length

/-! ## Coarsening of an embedded-boundary level -/

/-- The cells of a box, as the loops over a box visit them. -/
def Box.cells {D : Nat} (b : Box D) : List (IntVect D) :=
  vectorsWith fun d =>
    (List.range (b.bigend d + 1 - b.smallend d).toNat).map fun (i : Nat) =>
      b.smallend d + (i : Int)

/-- The box of the nodes of the cells of `b`: `amrex::surroundingNodes(b)`. -/
def Box.surroundingNodesAll {D : Nat} (b : Box D) : Box D :=
  ⟨b.smallend, fun d => b.bigend d + 1⟩

/-- Modelled from the spec: `Box::coarsenable(refrat, min_width)` (not under src/), the test
behind "non-coarsenable grids": the box is the refinement of its coarsening, and the
coarsened box has at least `min_width` cells in every direction. -/
def Box.coarsenable {D : Nat} (b : Box D) (refrat min_width : Int) : Bool :=
  decide (((b.coarsen fun _ => refrat).refine fun _ => refrat) = b ∧
    ∀ d, min_width ≤ (b.coarsen fun _ => refrat).length d)

/-- Modelled from the spec: `BoxArray::coarsenable(refrat, min_width)` (not under src/): the
array has a box and every box of it is coarsenable. -/
def BoxArray.coarsenable {D : Nat} (ba : BoxArray D) (refrat min_width : Int) : Bool :=
  !ba.isEmpty && ba.all fun b => b.coarsenable refrat min_width

/-- The part of `EB2::Level` that `coarsenFromFine` decides on: the grids and the ownership
map; the geometry arrays of the level, which only the kernels read and write, are not part
of the model, and `buildCellFlag_calls` counts the calls of `buildCellFlag`. -/
structure EB2Level (D : Nat) where
  m_grids : BoxArray D
  m_covered_grids : BoxArray D
  m_dmap : List Nat
  buildCellFlag_calls : Nat

/-- What `coarsenFromFine` takes from code that is not under src/: whether the host path or
the device path runs, the values the kernels `check_mvmc` and `coarsen_from_fine` return for
a fab and a cell, the boxes the `MFIter` loops visit (for the level set: fab and cell-centred
tile; for the coarsening: fab, valid box and loop box `ndgbx`), and what the other ranks
contribute to the two `ReduceBoolOr`. -/
structure CoarsenEnv (D : Nat) where
  notInLaunchRegion : Bool
  check_mvmc : Nat → IntVect D → Int
  coarsen_from_fine : Nat → Box D → IntVect D → Int
  levelset_tiles : List (MFIter D)
  volfrac_tiles : List (Nat × Box D × Box D)
  other_ranks_mvmc : Bool
  other_ranks_error : Bool

/-- The identity of `ReduceOpMax` on `int`: the lowest `int`. -/
def intLowest : Int := -(2 ^ 31)

/-- The method `Level::buildCellFlag`, which rebuilds the cell flags of the level; the model
records the call. -/
def EB2Level.buildCellFlag {D : Nat} (lvl : EB2Level D) : EB2Level D :=
  { lvl with buildCellFlag_calls := lvl.buildCellFlag_calls + 1 }

/-- The method `Level::coarsenFromFine`: the value it returns and the level afterwards. -/
def EB2Level.coarsenFromFine {D : Nat} (lvl fineLevel : EB2Level D) (fill_boundary : Bool)
    (env : CoarsenEnv D) : Int × EB2Level D :=
  let lvl1 : EB2Level D :=
    { lvl with
      m_grids := fineLevel.m_grids.coarsen fun _ => 2
      m_covered_grids := fineLevel.m_covered_grids.coarsen fun _ => 2
      m_dmap := fineLevel.m_dmap }
  if ¬ (fineLevel.m_grids.coarsenable 2 2 ∧
      (fineLevel.m_covered_grids.isEmpty ∨ fineLevel.m_covered_grids.coarsenable 2 2)) then
    (1, lvl1)
  else
    let mvmc_error0 : Int :=
      if env.notInLaunchRegion then
        env.levelset_tiles.foldl
          (fun mvmc_error mfi =>
            max mvmc_error
              (mfi.tilebox.cells.foldl
                (fun tile_error p => max tile_error (env.check_mvmc mfi.index p)) 0))
          0
      else
        max 0
          (env.levelset_tiles.foldl
            (fun rv mfi =>
              mfi.tilebox.surroundingNodesAll.cells.foldl
                (fun rv2 p =>
                  max rv2 (if mfi.tilebox.contains p then env.check_mvmc mfi.index p else 0))
                rv)
            intLowest)
    let b : Bool := decide (mvmc_error0 ≠ 0) || env.other_ranks_mvmc
    let mvmc_error : Int := if b then 1 else 0
    if mvmc_error ≠ 0 then (mvmc_error, lvl1)
    else
      let error0 : Int :=
        if env.notInLaunchRegion then
          env.volfrac_tiles.foldl
            (fun error t =>
              max error
                (t.2.2.cells.foldl
                  (fun tile_error p => max tile_error (env.coarsen_from_fine t.1 t.2.1 p)) 0))
            0
        else
          max 0
            (env.volfrac_tiles.foldl
              (fun rv t =>
                t.2.2.cells.foldl (fun rv2 p => max rv2 (env.coarsen_from_fine t.1 t.2.1 p)) rv)
              intLowest)
      let b2 : Bool := decide (error0 ≠ 0) || env.other_ranks_error
      let error : Int := if b2 then 1 else 0
      let lvl2 := if error = 0 then lvl1.buildCellFlag else lvl1
      let _ := fill_boundary
      (error, lvl2)

/-! ## Sparse bins -/

/-- Component `k` of `iv.dim3()`: the components past the space dimension are zero. -/
def dim3 {D : Nat} (iv : IntVect D) (k : Nat) : Int :=
  if h : k < D then iv ⟨k, h⟩ else 0

/-- The conversion of an `int` to `unsigned int`. -/
def toUnsigned (x : Int) : Nat := (x % 2 ^ 32).toNat

/-- The data members of `SparseBins<T>`; `m_items` is the pointer to the items. -/
structure SparseBins (α : Type) where
  m_items : Nat → α
  m_bins : List Nat
  m_offsets : List Nat
  m_perm : List Nat

/-- The statement `bins_map[k] += 1` on a `std::map<index_type, index_type>`, which is kept
in increasing order of its keys: a key that is absent enters with the count 1. -/
def binsMapIncr : List (Nat × Nat) → Nat → List (Nat × Nat)
  | [], k => [(k, 1)]
  | (k2, c) :: rest, k =>
    if k < k2 then (k, 1) :: (k2, c) :: rest
    else if k = k2 then (k2, (c + 1) % 2 ^ 32) :: rest
    else (k2, c) :: binsMapIncr rest k

/-- The bin number `host_cells[i]` of an item whose bin is `iv`: the index of the bin,
clamped into the box, in `unsigned int` arithmetic. -/
def hostCell {D : Nat} (bx : Box D) (iv : IntVect D) : Nat :=
  let ny : Int := dim3 bx.bigend 1 - dim3 bx.smallend 1 + 1
  let nz : Int := dim3 bx.bigend 2 - dim3 bx.smallend 2 + 1
  let nx : Int := dim3 bx.bigend 0 - dim3 bx.smallend 0 + 1
  let uix := toUnsigned (min (nx - 1) (max 0 (dim3 iv 0)))
  let uiy := toUnsigned (min (ny - 1) (max 0 (dim3 iv 1)))
  let uiz := toUnsigned (min (nz - 1) (max 0 (dim3 iv 2)))
  ((uix * toUnsigned ny % 2 ^ 32 + uiy) % 2 ^ 32 * toUnsigned nz % 2 ^ 32 + uiz) % 2 ^ 32

namespace SparseBins

variable {α : Type}

/-- The method `build(nitems, v, bx, f)`. The call of `std::sort` is the argument `sort`,
which is given the comparison `host_cells[i] < host_cells[j]`. -/
def build {D : Nat} (sort : (Nat → Nat → Bool) → List Nat → List Nat) (nitems : Nat)
    (v : Nat → α) (bx : Box D) (f : α → IntVect D) : SparseBins α :=
  let host_cells : List Nat := (List.range nitems).map fun i => hostCell bx (f (v i))
  let bins_map := host_cells.foldl binsMapIncr []
  let host_perm :=
    sort (fun i j => decide (host_cells.getD i 0 < host_cells.getD j 0)) (List.range nitems)
  let host := bins_map.foldl
    (fun (acc : List Nat × List Nat) kv =>
      (acc.1 ++ [kv.1], acc.2 ++ [(acc.2.getLastD 0 + kv.2) % 2 ^ 32]))
    ([], [0])
  { m_items := v
    m_bins := host.1
    m_offsets := host.2
    m_perm := host_perm }

/-- The method `numItems`. -/
def numItems (s : SparseBins α) : Int := s.m_perm.length

/-- The method `numBins`. -/
def numBins (s : SparseBins α) : Int := (s.m_offsets.length : Int) - 1

end SparseBins

/-- A `std::sort` for the examples: an insertion sort by the comparison `less`. -/
def sortByLess (less : Nat → Nat → Bool) (l : List Nat) : List Nat :=
  l.insertionSort fun a b => less b a = false

namespace Bins

/-- Four items in a box of 4 x 4 bins; the item is its bin. -/
def items : Nat → IntVect 2 := fun i =>
  if i = 0 then ![2, 1] else if i = 1 then ![0, 3] else if i = 2 then ![2, 1] else ![9, 0]

end Bins

/-- The running sums of the counts `cs` from `s`, in `unsigned int` arithmetic: what the
second loop of `build` appends to the offsets. -/
def partialSums : Nat → List Nat → List Nat
  | _, [] => []
  | s, c :: cs => (s + c) % 2 ^ 32 :: partialSums ((s + c) % 2 ^ 32) cs

/-- The items of the bins of a bin map one after the other: every bin number as often as the
map counts it. -/
def binsFlat (m : List (Nat × Nat)) : List Nat :=
  m.flatMap fun e => List.replicate e.2 e.1

/-! ## The inside mask of the embedded-boundary register -/

/-- One turn of the loop of `defineExtra` over the local fabs of the mask, at the fab with
local index `x.1` and global index `x.2`: the fab is zeroed, then every patch fab of the
fragment list of that fine box marks the cells of its box grown by one cell. The mask has no
halo, so the allocated box of a fab is its box. -/
def EBFluxRegister.insideMaskStep {D : Nat} (r : YAFluxRegister D) (cfba : BoxArray D)
    (m : iMultiFab D) (x : Nat × Nat) : iMultiFab D :=
  match cfba[x.2]? with
  | some ifabbox =>
    (r.m_cfp_fab.getD x.1 []).foldl
      (fun m2 k =>
        match r.m_cfpatch.boxarray[k]? with
        | some cfpbox => m2.setValBox x.2 1 ((cfpbox.grow 1).inter ifabbox)
        | none => m2)
      (m.setValBox x.2 0 ifabbox)
  | none => m

/-- The method `EBFluxRegister::defineExtra`, run by rank `myproc` on the register `r` that
`YAFluxRegister::define` has filled; `mem` is what the memory holds where the mask is
allocated. -/
def EBFluxRegister.defineExtra {D : Nat} (r : YAFluxRegister D) (fba : BoxArray D)
    (fdm : List Nat) (myproc : Nat) (mem : Nat → IntVect D → Nat → Int) : EBFluxRegister D :=
  let cfba := fba.coarsen r.m_ratio
  let mask0 : iMultiFab D := FabArray.define cfba fdm 1 0 mem
  { toYAFluxRegister := r
    m_cfp_inside_mask :=
      (localIndices fdm myproc).enum.foldl (EBFluxRegister.insideMaskStep r cfba) mask0 }

/-- The method `EBFluxRegister::define`: the base `define`, then `defineExtra`. -/
def EBFluxRegister.define {D : Nat} (r : EBFluxRegister D) (fba cba : BoxArray D)
    (fdm cdm : List Nat) (fgeom cgeom : Geometry D) (ref_ratio : IntVect D) (fine_lev : Int)
    (nvar : Nat) (myproc : Nat) (mem : DefineMemory D) (memMask : Nat → IntVect D → Nat → Int) :
    EBFluxRegister D :=
  EBFluxRegister.defineExtra
    (r.toYAFluxRegister.define fba cba fdm cdm fgeom cgeom ref_ratio fine_lev nvar myproc mem)
    fba fdm myproc memMask

/-- The constructor of `EBFluxRegister` with arguments: the base constructor, then
`defineExtra`. -/
def EBFluxRegister.construct {D : Nat} (fba cba : BoxArray D) (fdm cdm : List Nat)
    (fgeom cgeom : Geometry D) (ref_ratio : IntVect D) (fine_lev : Int) (nvar : Nat)
    (myproc : Nat) (mem : DefineMemory D) (memMask : Nat → IntVect D → Nat → Int) :
    EBFluxRegister D :=
  EBFluxRegister.defineExtra
    (YAFluxRegister.construct fba cba fdm cdm fgeom cgeom ref_ratio fine_lev nvar myproc mem)
    fba fdm myproc memMask

/-- The local index of fine box `i` on rank `myproc`: the number of fine boxes before it
that the rank owns. -/
def localRank (fdm : List Nat) (myproc i : Nat) : Nat :=
  (List.range i).countP fun j => fdm.getD j 0 = myproc

namespace Redefined

/-- A default-constructed embedded-boundary register. -/
def fresh : EBFluxRegister 2 :=
  { toYAFluxRegister := YAFluxRegister.default 2
    m_cfp_inside_mask := ⟨[], [], 0, 0, fun _ _ _ => 0⟩ }

/-- The fine boxes of the first `define`: one box of 4 x 4 fine cells. -/
def fba1 : BoxArray 2 := [Example.box 4 4 7 7]

/-- The fine boxes of the second `define`: two boxes of 4 x 4 fine cells. -/
def fba2 : BoxArray 2 := [Example.box 2 2 5 5, Example.box 10 10 13 13]

/-- The register after `define` with the one fine box. -/
def reg1 : EBFluxRegister 2 :=
  fresh.define fba1 Seam.state.boxarray [0] [0] Seam.fgeom Seam.cgeom ![2, 2] 1 1 0 Example.mem
    fun _ _ _ => 7

/-- The register after a second `define`, with the two fine boxes. -/
def reg2 : EBFluxRegister 2 :=
  reg1.define fba2 Seam.state.boxarray [0, 0] [0] Seam.fgeom Seam.cgeom ![2, 2] 1 1 0
    Example.mem fun _ _ _ => 7

end Redefined

/-! ## The embedded-boundary register: Reflux -/

/-- The type of a cell of the embedded-boundary geometry. -/
inductive EBCellType where
  | regular
  | singleValued
  | multiValued
  | covered
  deriving DecidableEq

/-- Modelled from the spec: the per-cell flag `EBCellFlag` of the "embedded-boundary
provider exposing per-cell type (regular/cut/covered)", which is not under src/: the type
of the cell and the neighbours, by their offset, that the cell is connected to. -/
structure EBCellFlag (D : Nat) where
  type : EBCellType
  isConnected : IntVect D → Bool

/-- The type of a region of the embedded-boundary geometry: `FabType`. -/
inductive FabType where
  | covered
  | regular
  | singlevalued
  | multivalued
  deriving DecidableEq

/-- Modelled from the spec: `EBCellFlagFab::getType(bx)` (not under src/), the type of the
cells of `bx`: covered when no cell is regular or cut, regular when no cell is cut or
covered ("entirely regular (no cut cells)"), else multi-valued when a cell is, else
single-valued. -/
def getType {D : Nat} (ebflag : IntVect D → EBCellFlag D) (bx : Box D) : FabType :=
  if bx.cells.all fun p => decide ((ebflag p).type = EBCellType.covered) then FabType.covered
  else if bx.cells.all fun p => decide ((ebflag p).type = EBCellType.regular) then
    FabType.regular
  else if bx.cells.any fun p => decide ((ebflag p).type = EBCellType.multiValued) then
    FabType.multivalued
  else FabType.singlevalued

/-- Modelled from the spec: the kernels `eb_rereflux_from_crse` and `eb_rereflux_to_fine` of
AMReX_EBFluxRegister_C.H, which is not under src/. The first is the "cell-by-cell
re-redistribution stencil" that "spreads each boundary cell's correction across itself and
its neighbors weighted by volume fraction and cut-cell topology", the second scatters the
buffer "down to fine resolution using the inside-mask". Their arithmetic is not fixed: a
kernel is a function from its arguments, in the order of the source, the array `d` that it
writes among them, to the new contents of `d`. -/
structure RerefluxKernels (D : Nat) where
  eb_rereflux_from_crse : IntVect D → Nat → Box D → (IntVect D → Nat → Real) →
    (IntVect D → Nat → Real) → (IntVect D → Nat → Int) → (IntVect D → EBCellFlag D) →
    (IntVect D → Nat → Real) → IntVect D → Nat → Real
  eb_rereflux_to_fine : IntVect D → Nat → (IntVect D → Nat → Real) →
    (IntVect D → Nat → Real) → (IntVect D → Nat → Int) → IntVect D → IntVect D → Nat → Real

/-- A loop `AMREX_HOST_DEVICE_FOR_4D` over the cells of `bx` and the components below
`ncomp` whose body may write other entries than its own: the bodies run one after the
other, the component in the outermost loop. -/
def forCellsCompsSeq {D : Nat} (bx : Box D) (ncomp : Nat)
    (body : IntVect D → Nat → (IntVect D → Nat → Real) → IntVect D → Nat → Real)
    (d : IntVect D → Nat → Real) : IntVect D → Nat → Real :=
  (List.range ncomp).foldl (fun d1 n => bx.cells.foldl (fun d2 p => body p n d2) d1) d

namespace FabArray

variable {D : Nat}

/-- Modelled from the spec: `MultiFab::Copy(dst, src, srccomp, dstcomp, numcomp, 0)` (not
under src/), the copy of `src` into `dst` on the valid cells, box by box. -/
def Copy (dst src : MultiFab D) (srccomp dstcomp numcomp : Nat) : MultiFab D :=
  { dst with data := fun k p n =>
      if dst.inValid k p ∧ dstcomp ≤ n ∧ n < dstcomp + numcomp then
        src.data k p (n - dstcomp + srccomp)
      else dst.data k p n }

/-- Modelled from the spec: `FillBoundary(period)` (not under src/), the halo exchange that
makes a "halo-exchanged copy": a halo cell that is a valid cell of some fab, as it stands or
moved by a periodic shift, gets the values of that valid cell; the other halo cells keep
what they hold. -/
def FillBoundary (fa : MultiFab D) (period : IntVect D) : MultiFab D :=
  { fa with data := fun k p n =>
      if fa.inFab k p ∧ ¬ fa.inValid k p then
        match ((List.range fa.boxarray.length).flatMap fun j =>
            (shiftIntVect period).filterMap fun iv =>
              if fa.inValid j (p - iv) then some (j, iv) else none).head? with
        | some x => fa.data x.1 (p - x.2) n
        | none => fa.data k p n
      else fa.data k p n }

/-- The call `setVal(v, scomp, ncomp)`: the components `scomp ≤ n < scomp + ncomp` of every
allocated cell become `v`. -/
def setValComps (fa : MultiFab D) (v : Real) (scomp ncomp : Nat) : MultiFab D :=
  { fa with data := fun k p n =>
      if fa.inFab k p ∧ scomp ≤ n ∧ n < scomp + ncomp then v else fa.data k p n }

/-- Modelled from the spec: the "cross-rank copy" `dst.ParallelCopy(src, scomp, dcomp,
ncomp)` (not under src/) without periodic shifts and without halo: entry by entry of the
copy pattern, the destination cells get the source values they correspond to. -/
def ParallelCopy (dst src : MultiFab D) (scomp dcomp ncomp : Nat) : MultiFab D :=
  { dst with data := ((getCPC dst.boxarray 0 src.boxarray 0 [fun _ => 0]).foldl
      (fun dat t => fun k p n =>
        if k = t.dstIndex ∧ t.dbox.contains p ∧ dcomp ≤ n ∧ n < dcomp + ncomp then
          src.data t.srcIndex (t.srcCell p) (n - dcomp + scomp)
        else dat k p n)
      dst.data) }

end FabArray

/-- What the caller of the embedded-boundary `Reflux` and the machine supply besides the
arguments: the kernels, the tiles that the loops over the accumulation buffer and over the
coarsened fine state visit, the cell flags of the factories of the coarse and of the fine
state, and what the memory holds where the two temporaries are allocated. -/
structure RefluxEnv (D : Nat) where
  kernels : RerefluxKernels D
  tiles : List (MFIter D)
  flags : Nat → IntVect D → EBCellFlag D
  fineTiles : List (MFIter D)
  fineFlags : Nat → IntVect D → EBCellFlag D
  memGrown : Nat → IntVect D → Nat → Real
  memCf : Nat → IntVect D → Nat → Real

namespace EBFluxRegister

variable {D : Nat}

/-- The method `reset`, which the embedded-boundary register inherits. -/
def reset (r : EBFluxRegister D) : EBFluxRegister D :=
  { r with toYAFluxRegister := r.toYAFluxRegister.reset }

/-- One turn of the loop of `Reflux` over the tiles of the accumulation buffer, whose
contents so far are `crse_data`. -/
def refluxTile (r : EBFluxRegister D) (env : RefluxEnv D) (grown_crse_data crse_vfrac : MultiFab D)
    (gdomain : Box D) (srccomp numcomp : Nat) (crse_data : MultiFab D) (mfi : MFIter D) :
    MultiFab D :=
  if r.m_crse_fab_flag[mfi.LocalIndex]? = some fine_cell then
    let bx := mfi.tilebox
    let ebflag := env.flags mfi.index
    if getType ebflag bx ≠ FabType.covered then
      let bxg1 := (bx.grow 1).inter gdomain
      let dfab := crse_data.array mfi.index srccomp
      let sfab := grown_crse_data.array mfi.index 0
      if getType ebflag bxg1 = FabType.regular then
        crse_data.withArray mfi.index srccomp
          (forCellsComps bx numcomp
            (fun p n d => fun q m => if q = p ∧ m = n then d p n + sfab p n else d q m) dfab)
      else
        crse_data.withArray mfi.index srccomp
          (forCellsCompsSeq bxg1 numcomp
            (fun p n d => env.kernels.eb_rereflux_from_crse p n bx d sfab
              (r.m_crse_flag.array mfi.index 0) ebflag (crse_vfrac.array mfi.index 0))
            dfab)
    else crse_data
  else crse_data

/-- One turn of the loop of `Reflux` over the tiles of the coarsened fine state `cf`. -/
def refluxFineTile (r : EBFluxRegister D) (env : RefluxEnv D) (cf : MultiFab D)
    (destcomp numcomp : Nat) (fine_state : MultiFab D) (mfi : MFIter D) : MultiFab D :=
  let cbx := mfi.tilebox
  let fbx := cbx.refine r.m_ratio
  if getType (env.fineFlags mfi.index) fbx ≠ FabType.covered then
    fine_state.withArray mfi.index destcomp
      (forCellsCompsSeq fbx numcomp
        (fun p n d => env.kernels.eb_rereflux_to_fine p n d (cf.array mfi.index 0)
          (r.m_cfp_inside_mask.array mfi.index 0) r.m_ratio)
        (fine_state.array mfi.index destcomp))
  else fine_state

/-- The method `EBFluxRegister::Reflux` with a fine state: the register, the coarse state
and the fine state after the call. -/
def Reflux (r : EBFluxRegister D) (env : RefluxEnv D)
    (crse_state crse_vfrac fine_state : MultiFab D) (srccomp destcomp numcomp : Nat) :
    EBFluxRegister D × MultiFab D × MultiFab D :=
  let cfpatch := r.toYAFluxRegister.maskedPatch srccomp numcomp
  let crse_data1 :=
    r.m_crse_data.ParallelCopyAdd cfpatch srccomp srccomp numcomp r.m_crse_geom.periodicity
  let grown_crse_data : MultiFab D :=
    ((FabArray.define crse_data1.boxarray crse_data1.distributionMap numcomp 1
        env.memGrown).Copy crse_data1 srccomp 0 numcomp).FillBoundary
      r.m_crse_geom.periodicity
  let crse_data2 := crse_data1.setValComps 0 srccomp numcomp
  let gdomain := periodicGrownDomain r.m_crse_geom
  let crse_data3 := env.tiles.foldl
    (refluxTile r env grown_crse_data crse_vfrac gdomain srccomp numcomp) crse_data2
  let crse_state1 := crse_state.Add crse_data3 srccomp destcomp numcomp
  let r1 : EBFluxRegister D :=
    { r with
      toYAFluxRegister := { r.toYAFluxRegister with
        m_cfpatch := cfpatch
        m_crse_data := crse_data3 } }
  let fine_state1 :=
    if ¬ fine_state.empty then
      let cf : MultiFab D :=
        (FabArray.define (fine_state.boxarray.coarsen r.m_ratio) fine_state.distributionMap
          numcomp 0 env.memCf).ParallelCopy crse_data3 srccomp 0 numcomp
      env.fineTiles.foldl (refluxFineTile r env cf destcomp numcomp) fine_state
    else fine_state
  (r1, crse_state1, fine_state1)

/-- The method `EBFluxRegister::Reflux` without a fine state, which passes an empty fine
state on. -/
def RefluxCrse (r : EBFluxRegister D) (env : RefluxEnv D) (crse_state crse_vfrac : MultiFab D)
    (srccomp destcomp numcomp : Nat) : EBFluxRegister D × MultiFab D × MultiFab D :=
  r.Reflux env crse_state crse_vfrac ⟨[], [], 0, 0, fun _ _ _ => 0⟩ srccomp destcomp numcomp

end EBFluxRegister

/-- One accumulation call on the embedded-boundary register: a call inherited from the base
register, or one of the two calls with volume and area fractions. -/
inductive EBAddCall (D : Nat) where
  | base (a : AddCall D)
  | crse (mfi : MFIter D) (flux : Fin D → FArrayBox D) (dx : Fin D → Real) (dt : Real)
      (volfrac : FArrayBox D) (areafrac : Fin D → FArrayBox D)
      (srccomp destcomp numcomp : Nat)
  | fine (mfi : MFIter D) (flux : Fin D → FArrayBox D) (dx : Fin D → Real) (dt : Real)
      (volfrac : FArrayBox D) (areafrac : Fin D → FArrayBox D) (dm : Option (FArrayBox D))
      (reredistribution_threshold : Real) (srccomp destcomp numcomp : Nat)

/-- The register after one accumulation call. -/
def EBFluxRegister.call {D : Nat} (r : EBFluxRegister D) : EBAddCall D → EBFluxRegister D
  | .base a => { r with toYAFluxRegister := r.toYAFluxRegister.call a }
  | .crse mfi flux dx dt volfrac areafrac srccomp destcomp numcomp =>
    r.CrseAdd mfi flux dx dt volfrac areafrac srccomp destcomp numcomp
  | .fine mfi flux dx dt volfrac areafrac dm thr srccomp destcomp numcomp =>
    r.FineAdd mfi flux dx dt volfrac areafrac dm thr srccomp destcomp numcomp

/-- The register after a sequence of accumulation calls. -/
def EBFluxRegister.calls {D : Nat} (r : EBFluxRegister D) (l : List (EBAddCall D)) :
    EBFluxRegister D :=
  l.foldl EBFluxRegister.call r

/-- The tiles visit every valid cell of every coarse box of the rank once: each tile lies in
the box of its fab, carries the local index of that fab, and every cell of a box of the rank
lies in exactly one tile of that box. -/
def TilesPartition {D : Nat} (tiles : List (MFIter D)) (cba : BoxArray D) (cdm : List Nat)
    (myproc : Nat) : Prop :=
  (∀ t ∈ tiles, (localIndices cdm myproc)[t.LocalIndex]? = some t.index ∧
    ∃ b, cba[t.index]? = some b ∧ b.containsBox t.tilebox) ∧
  ∀ i b c, cdm[i]? = some myproc → cba[i]? = some b → b.contains c →
    tiles.countP (fun t => decide (t.index = i ∧ t.tilebox.contains c)) = 1

namespace Seam

/-- The embedded-boundary register of the configuration with one fine box. -/
def ebreg : EBFluxRegister 2 :=
  EBFluxRegister.construct [sub.refine ![2, 2]] [cb] [0] [0] fgeom cgeom ![2, 2] 1 1 0
    Example.mem fun _ _ _ => 7

/-- A geometry without cut cells, one tile for the coarse box, and kernels that are not
reached. -/
def env : RefluxEnv 2 :=
  { kernels := ⟨fun _ _ _ d _ _ _ _ => d, fun _ _ d _ _ _ => d⟩
    tiles := [⟨0, 0, cb⟩]
    flags := fun _ _ => ⟨EBCellType.regular, fun _ => true⟩
    fineTiles := []
    fineFlags := fun _ _ => ⟨EBCellType.regular, fun _ => true⟩
    memGrown := fun _ _ _ => 0
    memCf := fun _ _ _ => 0 }

/-- The register after `reset` and one `CrseAdd` with unit fluxes on the coarse box. -/
def ebregAdded : EBFluxRegister 2 :=
  ebreg.reset.calls [EBAddCall.base (AddCall.crse ⟨0, 0, cb⟩ flux (fun _ => 1) 1 0 0 1)]

end Seam

/-! ## The loops of FineAdd on given fluxes -/

/-- The loops of `FineAdd` over the directions, over the patch fabs of the fine box and over
the two sides, run on the fluxes `flux` read from component `fluxcomp`: what `FineAdd` does
once it has settled which fluxes it works on. -/
def YAFluxRegister.fineAddLoop {D : Nat} (r : YAFluxRegister D) (mfi : MFIter D)
    (flux : Fin D → FArrayBox D) (fluxcomp : Nat) (dx : Fin D → Real) (dt : Real)
    (destcomp numcomp : Nat) : YAFluxRegister D :=
  let cfp_fabs := r.m_cfp_fab.getD mfi.LocalIndex []
  let bx := mfi.tilebox.coarsen r.m_ratio
  let ratio : Real := (((List.finRange D).map r.m_ratio).prod : Int)
  let dtdx : Fin D → Real := fun idim =>
    if r.m_cvol.isSome then dt else dt / (dx idim * ratio)
  { r with
    m_cfpatch := (List.finRange D).foldl
      (fun cfp idim =>
        cfp_fabs.foldl
          (fun cfp2 k =>
            fineAddSide
              (fineAddSide cfp2 k (bx.adjCellLo idim) (flux idim) fluxcomp destcomp numcomp
                (dtdx idim) (idim.val * 2 + 0) r.m_ratio)
              k (bx.adjCellHi idim) (flux idim) fluxcomp destcomp numcomp
              (dtdx idim) (idim.val * 2 + 1) r.m_ratio)
          cfp)
      r.m_cfpatch }

/-! ## A register that is defined twice -/

namespace Redefined

/-- Two coarse boxes, the left and the right half of the domain of 8 x 8 cells. -/
def cbaHalves : BoxArray 2 := [Example.box 0 0 3 7, Example.box 4 0 7 7]

/-- A fine box of 2 x 2 fine cells in the left half, away from the right half. -/
def fbaLeft : BoxArray 2 := [Example.box 2 2 3 3]

/-- A fine box of 2 x 2 fine cells in the right half, away from the left half. -/
def fbaRight : BoxArray 2 := [Example.box 12 12 13 13]

/-- The base register after `define` with the one fine box of `fba1`. -/
def base1 : YAFluxRegister 2 :=
  (YAFluxRegister.default 2).define fba1 Seam.state.boxarray [0] [0] Seam.fgeom Seam.cgeom
    ![2, 2] 1 1 0 Example.mem

/-- The base register after a second `define`, with the two fine boxes of `fba2`. -/
def base2 : YAFluxRegister 2 :=
  base1.define fba2 Seam.state.boxarray [0, 0] [0] Seam.fgeom Seam.cgeom ![2, 2] 1 1 0
    Example.mem

/-- A freshly constructed register for the two fine boxes of `fba2`. -/
def fresh2 : YAFluxRegister 2 :=
  YAFluxRegister.construct fba2 Seam.state.boxarray [0, 0] [0] Seam.fgeom Seam.cgeom ![2, 2]
    1 1 0 Example.mem

/-- The base register after a second `define` with the arguments of the first. -/
def base11 : YAFluxRegister 2 :=
  base1.define fba1 Seam.state.boxarray [0] [0] Seam.fgeom Seam.cgeom ![2, 2] 1 1 0
    Example.mem

/-- The register over the two coarse halves after `define` with the fine box on the left
and then `define` with the fine box on the right. -/
def halves2 : YAFluxRegister 2 :=
  ((YAFluxRegister.default 2).define fbaLeft cbaHalves [0] [0, 0] Seam.fgeom Seam.cgeom
    ![2, 2] 1 1 0 Example.mem).define fbaRight cbaHalves [0] [0, 0] Seam.fgeom Seam.cgeom
    ![2, 2] 1 1 0 Example.mem

/-- A freshly constructed register over the two coarse halves with the fine box on the
right. -/
def halvesFresh : YAFluxRegister 2 :=
  YAFluxRegister.construct fbaRight cbaHalves [0] [0, 0] Seam.fgeom Seam.cgeom ![2, 2] 1 1 0
    Example.mem

end Redefined

/-! ## Tiles of a box -/

/-- The value of a computation in `int`: `x` wrapped into 32 bits, two's complement. -/
def int32 (x : Int) : Int := (x + 2 ^ 31) % 2 ^ 32 - 2 ^ 31

/-- What the lambda `tiling_1d` of `getTileIndex` writes through its reference arguments. -/
structure Tiling1d where
  ntile : Int
  tileidx : Int
  tlo : Int
  thi : Int
  deriving DecidableEq

/-- The lambda `tiling_1d` of `getTileIndex`, every operation in `int`; the division is the
truncating one. -/
def tiling_1d (i lo hi tilesize : Int) : Tiling1d :=
  let ncells := int32 (int32 (hi - lo) + 1)
  let ntile := max (int32 (Int.tdiv ncells tilesize)) 1
  let ts_right := int32 (Int.tdiv ncells ntile)
  let ts_left := int32 (ts_right + 1)
  let nleft := int32 (ncells - int32 (ntile * ts_right))
  let ii := int32 (i - lo)
  let nbndry := int32 (nleft * ts_left)
  if ii < nbndry then
    let tileidx := int32 (Int.tdiv ii ts_left)
    let tlo := int32 (lo + int32 (tileidx * ts_left))
    ⟨ntile, tileidx, tlo, int32 (int32 (tlo + ts_left) - 1)⟩
  else
    let tileidx := int32 (nleft + int32 (Int.tdiv (int32 (ii - nbndry)) ts_right))
    let tlo := int32 (int32 (lo + int32 (tileidx * ts_right)) + nleft)
    ⟨ntile, tileidx, tlo, int32 (int32 (tlo + ts_right) - 1)⟩

/-- The sum `ivIndex[0] + ntiles[0]*ivIndex[1] + ntiles[0]*ntiles[1]*ivIndex[2]` of
`getTileIndex` in `int`, over a list of pairs `(ivIndex[d], ntiles[d])`; `acc` is the product
of the `ntiles` passed so far. -/
def tileIndexSum (acc : Int) : List (Int × Int) → Int
  | [] => 0
  | x :: rest => int32 (int32 (acc * x.1) + tileIndexSum (int32 (acc * x.2)) rest)

/-- The function `getTileIndex`: the `int` index that it returns and the box `tbx` that it
writes. -/
def getTileIndex {D : Nat} (iv : IntVect D) (box : Box D) (a_do_tiling : Bool)
    (a_tile_size : IntVect D) : Int × Box D :=
  if a_do_tiling = false then (0, box)
  else
    let t : Fin D → Tiling1d := fun d =>
      tiling_1d (min (max (iv d) (box.smallend d)) (box.bigend d)) (box.smallend d)
        (box.bigend d) (a_tile_size d)
    (tileIndexSum 1 ((List.finRange D).map fun d => ((t d).tileidx, (t d).ntile)),
      ⟨fun d => (t d).tlo, fun d => (t d).thi⟩)

/-- The lambda `tiling_1d` of `numTilesInBox`, every operation in `int`. -/
def numTiles_1d (lo hi tilesize : Int) : Int :=
  let ncells := int32 (int32 (hi - lo) + 1)
  max (int32 (Int.tdiv ncells tilesize)) 1

/-- The function `numTilesInBox`: the product `ntiles[0] *= ntiles[1] *= ntiles[2]` in
`int`. -/
def numTilesInBox {D : Nat} (box : Box D) (a_do_tiling : Bool) (a_tile_size : IntVect D) :
    Int :=
  if a_do_tiling = false then 1
  else
    ((List.finRange D).map fun d =>
      numTiles_1d (box.smallend d) (box.bigend d) (a_tile_size d)).foldr
        (fun n acc => int32 (n * acc)) 1

/-- The lambda `tiling_1d` of `getTileIndex` over the unbounded integers: what the `int`
computation gives as long as nothing wraps. -/
def tilingExact (i lo hi tilesize : Int) : Tiling1d :=
  let ncells := hi - lo + 1
  let ntile := max (Int.tdiv ncells tilesize) 1
  let ts_right := Int.tdiv ncells ntile
  let ts_left := ts_right + 1
  let nleft := ncells - ntile * ts_right
  let ii := i - lo
  let nbndry := nleft * ts_left
  if ii < nbndry then
    let tileidx := Int.tdiv ii ts_left
    let tlo := lo + tileidx * ts_left
    ⟨ntile, tileidx, tlo, tlo + ts_left - 1⟩
  else
    let tileidx := nleft + Int.tdiv (ii - nbndry) ts_right
    let tlo := lo + tileidx * ts_right + nleft
    ⟨ntile, tileidx, tlo, tlo + ts_right - 1⟩

/-- The index sum of `getTileIndex` over the unbounded integers. -/
def indexSumExact (acc : Int) : List (Int × Int) → Int
  | [] => 0
  | x :: rest => acc * x.1 + indexSumExact (acc * x.2) rest

/-- The index and the tile box of `getTileIndex` over the unbounded integers. -/
def tileIndexExact {D : Nat} (iv : IntVect D) (box : Box D) (a_do_tiling : Bool)
    (a_tile_size : IntVect D) : Int × Box D :=
  if a_do_tiling = false then (0, box)
  else
    let t : Fin D → Tiling1d := fun d =>
      tilingExact (min (max (iv d) (box.smallend d)) (box.bigend d)) (box.smallend d)
        (box.bigend d) (a_tile_size d)
    (indexSumExact 1 ((List.finRange D).map fun d => ((t d).tileidx, (t d).ntile)),
      ⟨fun d => (t d).tlo, fun d => (t d).thi⟩)

/-- The number of tiles of a range of cells over the unbounded integers:
`max(ncells / tilesize, 1)`. -/
def numTilesExact (lo hi tilesize : Int) : Int :=
  let ncells := hi - lo + 1
  max (Int.tdiv ncells tilesize) 1

/-- The number of tiles of a box over the unbounded integers: the product of the numbers of
tiles of the directions. -/
def tileCountExact {D : Nat} (box : Box D) (a_do_tiling : Bool) (a_tile_size : IntVect D) :
    Int :=
  if a_do_tiling = false then 1
  else
    ((List.finRange D).map fun d =>
      numTilesExact (box.smallend d) (box.bigend d) (a_tile_size d)).prod

/-- The number of cells that a tile has in one direction on the right of the boundary:
`ts_right` of `tiling_1d`. -/
def tsRight (lo hi tilesize : Int) : Int :=
  Int.tdiv (hi - lo + 1) (numTilesExact lo hi tilesize)

/-- The number of tiles on the left of the boundary in one direction: `nleft` of
`tiling_1d`. -/
def nLeft (lo hi tilesize : Int) : Int :=
  (hi - lo + 1) - numTilesExact lo hi tilesize * tsRight lo hi tilesize

/-- The tile of direction `d` of the cell `iv` over the unbounded integers: `tilingExact` at
the index clamped into the box. -/
def clampedTile {D : Nat} (iv : IntVect D) (box : Box D) (a_tile_size : IntVect D)
    (d : Fin D) : Tiling1d :=
  tilingExact (min (max (iv d) (box.smallend d)) (box.bigend d)) (box.smallend d)
    (box.bigend d) (a_tile_size d)

/-- A box of 2048 cells in each of three directions. -/
def Example.bigBox : Box 3 := ⟨![0, 0, 0], ![2047, 2047, 2047]⟩

/-- The box of all `int` values in one direction: `2 ^ 32` cells. -/
def Example.longBox : Box 1 := ⟨![-2147483648], ![2147483647]⟩

/-! ### SparseBinIteratorFactory::getIndex -/

namespace SparseBinIteratorFactory

/-- The largest `unsigned int`: `m_not_found`. -/
def m_not_found : Nat := 2 ^ 32 - 1

/-- The `while` loop of `getIndex` from the variables `lo` and `hi`, with `unsigned int`
arithmetic modulo `2 ^ 32`. The result is `none` when an entry beyond the end of the array
is read or when the loop has not returned after `fuel` passes. -/
def getIndexLoop (m_bins : List Nat) (bin_number : Nat) : Nat → Nat → Nat → Option Nat
  | 0, _, _ => none
  | fuel + 1, lo, hi =>
    if lo < hi then
      (m_bins[lo]?).bind fun blo =>
      if blo = bin_number then some lo
      else
        (m_bins[hi]?).bind fun bhi =>
        if bhi = bin_number then some hi
        else
          let mid := (lo + hi) % 2 ^ 32 / 2
          (m_bins[mid]?).bind fun mid_value =>
          if mid_value = bin_number then some mid
          else if mid_value < bin_number then
            getIndexLoop m_bins bin_number fuel ((mid + 1) % 2 ^ 32) hi
          else getIndexLoop m_bins bin_number fuel lo mid
    else some m_not_found

/-- The index search `getIndex(bin_number)` over the array of bin numbers `m_bins`;
`m_num_bins` is the size of the array as an `unsigned int`. -/
def getIndex (fuel : Nat) (m_bins : List Nat) (bin_number : Nat) : Option Nat :=
  let m_num_bins := m_bins.length % 2 ^ 32
  if m_num_bins = 1 then some 0
  else getIndexLoop m_bins bin_number fuel 0 ((m_num_bins + 2 ^ 32 - 1) % 2 ^ 32)

end SparseBinIteratorFactory

/-! ### enforcePeriodic -/

/-- The loop `while (x > rhi) { x -= period; }` on a coordinate `x`; `none` when the loop
has not ended after `fuel` tests of its condition. -/
def shiftDownLoop (rhi period : Real) : Nat → Real → Option Real
  | 0, _ => none
  | fuel + 1, x => if x > rhi then shiftDownLoop rhi period fuel (x - period) else some x

/-- The loop `while (x < rlo) { x += period; }` on a coordinate `x`; `none` when the loop
has not ended after `fuel` tests of its condition. -/
def shiftUpLoop (rlo period : Real) : Nat → Real → Option Real
  | 0, _ => none
  | fuel + 1, x => if x < rlo then shiftUpLoop rlo period fuel (x + period) else some x

/-- The body of the loop over directions of `enforcePeriodic` for direction `idim`, on the
position of the particle and the variable `shifted`. The result is `none` when a `while`
loop runs out of fuel or when the assertion at the end of the body fails. -/
def enforcePeriodicDim {D : Nat} (fuel : Nat) (plo phi rlo rhi : Fin D → Real)
    (is_per : Fin D → Int) (st : (Fin D → Real) × Bool) (idim : Fin D) :
    Option ((Fin D → Real) × Bool) :=
  if is_per idim = 0 then some st
  else
    let r : Option ((Fin D → Real) × Bool) :=
      if st.1 idim > rhi idim then
        (shiftDownLoop (rhi idim) (phi idim - plo idim) fuel (st.1 idim)).map fun x =>
          (Function.update st.1 idim (if x < rlo idim then rlo idim else x), true)
      else if st.1 idim < rlo idim then
        (shiftUpLoop (rlo idim) (phi idim - plo idim) fuel (st.1 idim)).map fun x =>
          (Function.update st.1 idim (if x > rhi idim then rhi idim else x), true)
      else some st
    r.bind fun st' =>
      if st'.1 idim ≥ rlo idim ∧ st'.1 idim ≤ rhi idim then some st' else none

/-- The function `enforcePeriodic` on the position `p` of the particle, over exact
arithmetic: the new position and the returned value `shifted`. -/
def enforcePeriodic {D : Nat} (fuel : Nat) (p plo phi rlo rhi : Fin D → Real)
    (is_per : Fin D → Int) : Option ((Fin D → Real) × Bool) :=
  (List.finRange D).foldlM (enforcePeriodicDim fuel plo phi rlo rhi is_per) (p, false)

/-! ### NeighborList::build -/

/-- The three integers of a `Dim3`. -/
structure Dim3 where
  x : Int
  y : Int
  z : Int
  deriving DecidableEq

/-- The component of a `Dim3` in direction `d`: `x`, `y`, `z` for 0, 1, 2. -/
def Dim3.comp (v : Dim3) (d : Nat) : Int :=
  if d = 0 then v.x else if d = 1 then v.y else v.z

/-- Modelled from the spec: `IntVect::dim3()`, the components of the vector with 0 in the
directions beyond the space dimension. -/
def IntVect.dim3 {D : Nat} (iv : IntVect D) : Dim3 :=
  ⟨if h : 0 < D then iv ⟨0, h⟩ else 0, if h : 1 < D then iv ⟨1, h⟩ else 0,
    if h : 2 < D then iv ⟨2, h⟩ else 0⟩

/-- The values of `for (int k = lo; k <= hi; ++k)`. -/
def intRange (lo hi : Int) : List Int :=
  (List.range (hi + 1 - lo).toNat).map fun (k : Nat) => lo + (k : Int)

/-- The values of `for (auto p = a; p < b; ++p)` over `unsigned int`. -/
def natRange (a b : Nat) : List Nat :=
  (List.range (b - a)).map fun k => a + k

/-- The call `v.resize(n)` of a vector without a fill value: the new entries hold what the
memory `mem` holds. -/
def resizeRaw (v : List Nat) (n : Nat) (mem : Nat → Nat) : List Nat :=
  v.take n ++ (List.range (n - v.length)).map fun k => mem (v.length + k)

/-- Modelled from the spec: `Gpu::exclusive_scan(begin, end, result)` over `unsigned int`:
entry `k` of the result is the sum of the entries before `k`. -/
def exclusive_scan (v : List Nat) : List Nat :=
  (0 :: partialSums 0 v).take v.length

/-- The value of an `unsigned int` converted to `int`. -/
def toInt32 (u : Nat) : Int :=
  if u % 2 ^ 32 < 2 ^ 31 then ((u % 2 ^ 32 : Nat) : Int) else ((u % 2 ^ 32 : Nat) : Int) - 2 ^ 32

/-- The vectors of a `NeighborList`. -/
structure NeighborList where
  m_nbor_offsets : List Nat
  m_nbor_list : List Nat
  m_nbor_counts : List Nat
  deriving DecidableEq

/-- What `NeighborList::build` reads: whether source and target tile are the same object,
the numbers of particles, the positions of the particles of the source tile, the function
`check_pair` as called by `call_check_pair` (particle, candidate, bin type, ghost flags), the
arrays given per bin type, the offsets and the permutation of the bins `m_bins` after
`m_bins.build`, and the contents of newly allocated memory. -/
structure NeighborBuild (D : Nat) where
  is_same : Bool
  np_total : Nat
  np_real : Nat
  pos : Nat → Fin D → Real
  check_pair : Nat → Nat → Int → Bool → Bool → Bool
  off_bins_p : Int → Int
  dxi_p : Int → Fin D → Real
  plo_p : Int → Fin D → Real
  lo_p : Int → Dim3
  hi_p : Int → Dim3
  num_cells : Int
  num_bin_types : Int
  bin_type_array : Option (Nat → Int)
  poffset : Int → Nat
  pperm : Nat → Nat
  mem : Nat → Nat

namespace NeighborBuild

variable {D : Nat}

/-- The bin cell of particle `i` in the bins of type `type`, relative to the low end of the
bins: `iv.dim3()` in both passes of `build`. -/
def cell (e : NeighborBuild D) (i : Nat) (type : Int) : Dim3 :=
  IntVect.dim3 (D := D) fun d =>
    Int.floor ((e.pos i d - e.plo_p type d) * e.dxi_p type d) - (e.lo_p type).comp d

/-- The loops of one pass of `build` for particle `i`: over the bin types from the type of
`i`, over the bins within `num_cells` of the bin cell of `i`, and over the particles `pid` of
each bin; `body` is what the pass does with a particle that is not skipped and for which
`check_pair` holds. -/
def neighborLoop {σ : Type} (e : NeighborBuild D) (i : Nat) (body : σ → Nat → σ) (s : σ) : σ :=
  let type_i : Int := match e.bin_type_array with
    | some a => a i
    | none => 0
  let ghost_i : Bool := decide (i ≥ e.np_real)
  (intRange type_i (e.num_bin_types - 1)).foldl (fun s type =>
    let off_bins := e.off_bins_p type
    let iv3 := e.cell i type
    let ix := iv3.x
    let iy := iv3.y
    let iz := iv3.z
    let nx := (e.hi_p type).x - (e.lo_p type).x + 1
    let ny := (e.hi_p type).y - (e.lo_p type).y + 1
    let nz := (e.hi_p type).z - (e.lo_p type).z + 1
    (intRange (max (ix - e.num_cells) 0) (min (ix + e.num_cells) (nx - 1))).foldl (fun s ii =>
      (intRange (max (iy - e.num_cells) 0) (min (iy + e.num_cells) (ny - 1))).foldl (fun s jj =>
        (intRange (max (iz - e.num_cells) 0) (min (iz + e.num_cells) (nz - 1))).foldl
          (fun s kk =>
            let index := (ii * ny + jj) * nz + kk + off_bins
            (natRange (e.poffset index) (e.poffset (index + 1))).foldl (fun s p =>
              let pid := e.pperm p
              let ghost_pid : Bool := decide (pid ≥ e.np_real)
              if e.is_same = true ∧ pid = i then s
              else if e.check_pair i pid type ghost_i ghost_pid = true then body s pid
              else s) s) s) s) s) s

/-- The number of entries of the vectors of counts and offsets less one: `np_size`. -/
def np_size (e : NeighborBuild D) : Nat :=
  if e.num_bin_types > 1 then e.np_total else e.np_real

/-- The bins that `build` visits for particle `i` and bin type `type`, in the order of the
loops: the indices of the bins within `num_cells` of the bin cell of `i` and inside the bins
of the type. -/
def nearBins (e : NeighborBuild D) (i : Nat) (type : Int) : List Int :=
  let c := e.cell i type
  let ny := (e.hi_p type).y - (e.lo_p type).y + 1
  let nz := (e.hi_p type).z - (e.lo_p type).z + 1
  let nx := (e.hi_p type).x - (e.lo_p type).x + 1
  (intRange (max (c.x - e.num_cells) 0) (min (c.x + e.num_cells) (nx - 1))).flatMap fun ii =>
    (intRange (max (c.y - e.num_cells) 0) (min (c.y + e.num_cells) (ny - 1))).flatMap fun jj =>
      (intRange (max (c.z - e.num_cells) 0) (min (c.z + e.num_cells) (nz - 1))).map fun kk =>
        (ii * ny + jj) * nz + kk + e.off_bins_p type

/-- The particles of bin `index`: the entries of the permutation between the offset of the
bin and the offset of the next bin. -/
def binParticles (e : NeighborBuild D) (index : Int) : List Nat :=
  (natRange (e.poffset index) (e.poffset (index + 1))).map e.pperm

/-- The neighbors of particle `i` as the claim words them: in enumeration order, for each bin
type from the type of `i` upwards, the particles found in the bins within `num_cells` of the
bin of `i` for which `check_pair` holds, the particle itself left out when source and target
tile are the same object. -/
def neighborsOf (e : NeighborBuild D) (i : Nat) : List Nat :=
  let type_i : Int := match e.bin_type_array with
    | some a => a i
    | none => 0
  (intRange type_i (e.num_bin_types - 1)).flatMap fun type =>
    (e.nearBins i type).flatMap fun index =>
      (e.binParticles index).filter fun pid =>
        !(e.is_same && decide (pid = i)) &&
          e.check_pair i pid type (decide (e.np_real ≤ i)) (decide (e.np_real ≤ pid))

/-- The neighbors of the particles before particle `k`, one particle after the other. -/
def neighborsBefore (e : NeighborBuild D) (k : Nat) : List Nat :=
  (List.range k).flatMap e.neighborsOf

end NeighborBuild

/-- The function `NeighborList::build` after the binning of the particles: the first pass
counts the neighbors of every particle, the scan makes the offsets, the second pass writes
the neighbor list. The two passes go through the particles one after the other. -/
def NeighborList.build {D : Nat} (r : NeighborList) (e : NeighborBuild D) : NeighborList :=
  let np_size := e.np_size
  let counts0 := resize r.m_nbor_counts (np_size + 1) 0
  let offsets0 := resizeRaw r.m_nbor_offsets (np_size + 1) e.mem
  let counts := (List.range np_size).foldl (fun c i =>
    c.set i (e.neighborLoop i (fun count _ => count + 1) 0 % 2 ^ 32)) counts0
  let scan := exclusive_scan counts
  let offsets := scan ++ offsets0.drop scan.length
  let total_nbors := offsets.getD np_size 0
  let list0 := resizeRaw r.m_nbor_list total_nbors e.mem
  let list := (List.range np_size).foldl (fun l i =>
    (e.neighborLoop i (fun (s : List Nat × Nat) pid =>
      (s.1.set (offsets.getD i 0 + s.2) pid, s.2 + 1)) (l, 0)).1) list0
  ⟨offsets, list, counts⟩

namespace Neighbors

/-- The iterator of `Neighbors`: a position in the neighbor list and the position where the
neighbors of the particle stop, both `int`. -/
structure iterator where
  m_index : Int
  m_stop : Int
  deriving DecidableEq

/-- The iterator `begin()` of the neighbors of particle `m_i`. -/
def begin (m_nbor_offsets : List Nat) (m_i : Nat) : iterator :=
  ⟨toInt32 (m_nbor_offsets.getD m_i 0), toInt32 (m_nbor_offsets.getD (m_i + 1) 0)⟩

/-- The iterator `end()` of the neighbors of particle `m_i`. -/
def endIterator (m_nbor_offsets : List Nat) (m_i : Nat) : iterator :=
  ⟨toInt32 (m_nbor_offsets.getD (m_i + 1) 0), toInt32 (m_nbor_offsets.getD (m_i + 1) 0)⟩

/-- The comparison `operator!=`: it looks at the left iterator only. -/
def iterator.ne (a : iterator) (_rhs : iterator) : Bool := decide (a.m_index < a.m_stop)

/-- The step `operator++`. -/
def iterator.next (a : iterator) : iterator := ⟨a.m_index + 1, a.m_stop⟩

/-- The particle number `index()` of the iterator; `none` for a position outside the
neighbor list. -/
def iterator.index (m_nbor_list : List Nat) (a : iterator) : Option Nat :=
  if 0 ≤ a.m_index then m_nbor_list[a.m_index.toNat]? else none

/-- The particle numbers that `for (it = begin(); it != end(); ++it)` visits from the
iterator `it`; `none` when the loop reads outside the neighbor list or has not ended after
`fuel` tests. -/
def visit (m_nbor_list : List Nat) (stop : iterator) : Nat → iterator → Option (List Nat)
  | 0, _ => none
  | fuel + 1, it =>
    if it.ne stop = true then
      (it.index m_nbor_list).bind fun pid =>
        (visit m_nbor_list stop fuel it.next).map fun rest => pid :: rest
    else some []

end Neighbors

namespace Pairs

/-- Three particles in a row of four bins of width 1: particles 0 and 1 in the bins 0 and 1,
particle 2 in bin 3; source and target tile are the same, every pair passes `check_pair`. -/
def env : NeighborBuild 1 where
  is_same := true
  np_total := 3
  np_real := 3
  pos := fun i _ => ((if i = 0 then 0 else if i = 1 then 1 else 3 : Int) : Real)
  check_pair := fun _ _ _ _ _ => true
  off_bins_p := fun _ => 0
  dxi_p := fun _ _ => 1
  plo_p := fun _ _ => 0
  lo_p := fun _ => ⟨0, 0, 0⟩
  hi_p := fun _ => ⟨3, 0, 0⟩
  num_cells := 1
  num_bin_types := 1
  bin_type_array := none
  poffset := fun index => if index ≤ 0 then 0 else if index = 1 then 1 else if index ≤ 3 then 2
    else 3
  pperm := fun p => p
  mem := fun _ => 0

end Pairs

/-! ### algoim::PsiCode -/

/-- The complement `~x` of a 32-bit `int` with bit pattern `x`, as a bit pattern. -/
def complement32 (x : Nat) : Nat := 2 ^ 32 - 1 - x % 2 ^ 32

/-- The packed bits of a `PsiCode<N>`: an `unsigned char`. -/
structure PsiCode (N : Nat) where
  bits : Nat
  deriving DecidableEq

namespace PsiCode

variable {N : Nat}

/-- The constructor `PsiCode(sides, sign)`, from `bits = 0`. -/
def ofSides (sides : Fin N → Int) (sign : Int) : PsiCode N :=
  let bits := (List.finRange N).foldl (fun (bits : Nat) dim =>
    if sides dim = 1 then (bits ||| (1 <<< dim.val)) % 256 else bits) 0
  if sign = 0 then ⟨(bits ||| (1 <<< N)) % 256⟩
  else
    let bits := (bits &&& complement32 (1 <<< N)) % 256
    if sign = 1 then ⟨(bits ||| (1 <<< (N + 1))) % 256⟩ else ⟨bits⟩

/-- The constructor `PsiCode(i, dim, side, sign)`: an existing code modified by restriction
in dimension `dim`. -/
def restrict (i : PsiCode N) (dim : Nat) (side sign : Int) : PsiCode N :=
  let bits := i.bits
  let bits := if side = 1 then (bits ||| (1 <<< dim)) % 256 else bits
  if sign = 0 then ⟨(bits ||| (1 <<< N)) % 256⟩
  else
    let bits := (bits &&& complement32 (1 <<< N)) % 256
    if sign = 1 then ⟨(bits ||| (1 <<< (N + 1))) % 256⟩ else ⟨bits⟩

/-- The function `side(dim)`: `bits & (1 << dim)`. -/
def side (c : PsiCode N) (dim : Nat) : Int := ((c.bits &&& (1 <<< dim) : Nat) : Int)

/-- The function `sign()`. -/
def sign (c : PsiCode N) : Int :=
  if c.bits &&& (1 <<< N) ≠ 0 then 0 else if c.bits &&& (1 <<< (N + 1)) ≠ 0 then 1 else -1

end PsiCode

/-- Modelled from the spec: the Butcher table `ARKodeButcherTable` of SUNDIALS: the number of
stages it was allocated with, the orders `q` and `p`, the `stages × stages` entries `A` and
the `stages` entries of `b` and of `c`. -/
structure ARKodeButcherTable where
  stages : Nat
  q : Int
  p : Int
  A : List (List Real)
  b : List Real
  c : List Real

/-- Why the construction of a table does not return a table. -/
inductive TableError where
  | outOfBounds
  | notImplemented
  deriving DecidableEq

/-- Modelled from the spec: `ARKodeButcherTable_Alloc(stages, SUNFALSE)`, a table of zeros. -/
def ARKodeButcherTable_Alloc (stages : Nat) : ARKodeButcherTable :=
  ⟨stages, 0, 0, List.replicate stages (List.replicate stages 0), List.replicate stages 0,
    List.replicate stages 0⟩

namespace ARKodeButcherTable

/-- The write `B->A[i][j] = v`; an error when an index is not smaller than the number of
stages of the table. -/
def setA (B : ARKodeButcherTable) (i j : Nat) (v : Real) : Except TableError ARKodeButcherTable :=
  if i < B.stages ∧ j < B.stages then
    Except.ok { B with A := B.A.set i ((B.A.getD i []).set j v) }
  else Except.error TableError.outOfBounds

/-- The write `B->b[i] = v`; an error when the index is not smaller than the number of stages
of the table. -/
def setb (B : ARKodeButcherTable) (i : Nat) (v : Real) : Except TableError ARKodeButcherTable :=
  if i < B.stages then Except.ok { B with b := B.b.set i v }
  else Except.error TableError.outOfBounds

/-- The write `B->c[i] = v`; an error when the index is not smaller than the number of stages
of the table. -/
def setc (B : ARKodeButcherTable) (i : Nat) (v : Real) : Except TableError ARKodeButcherTable :=
  if i < B.stages then Except.ok { B with c := B.c.set i v }
  else Except.error TableError.outOfBounds

end ARKodeButcherTable

namespace SundialsIntegrator

/-- The function `make_butcher_table` of `advance_erk`. -/
def advance_erk.make_butcher_table (method : String) : Except TableError ARKodeButcherTable :=
  if method = "SSPRK3" then do
    let B := ARKodeButcherTable_Alloc 3
    let B ← B.setA 1 0 1
    let B ← B.setA 2 0 (1 / 4)
    let B ← B.setA 2 1 (1 / 4)
    let B ← B.setb 0 (1 / 6)
    let B ← B.setb 1 (1 / 6)
    let B ← B.setb 2 (2 / 3)
    let B ← B.setc 1 1
    let B ← B.setc 2 (1 / 2)
    pure { B with q := 3 }
  else if method = "Trapezoid" then do
    let B := ARKodeButcherTable_Alloc 2
    let B ← B.setA 1 0 1
    let B ← B.setb 0 (1 / 2)
    let B ← B.setb 1 (1 / 2)
    let B ← B.setc 1 1
    pure { B with q := 2, p := 0 }
  else if method = "ForwardEuler" then do
    let B := ARKodeButcherTable_Alloc 1
    let B ← B.setb 0 1
    pure { B with q := 1, p := 0 }
  else Except.error TableError.notImplemented

/-- The function `make_butcher_table` of `advance_mri`. -/
def advance_mri.make_butcher_table (method : String) : Except TableError ARKodeButcherTable :=
  if method = "KnothWolke3" ∨ method = "Knoth-Wolke-3-3" then do
    let B := ARKodeButcherTable_Alloc 3
    let B ← B.setA 1 0 (1 / 3)
    let B ← B.setA 2 0 (-3 / 16)
    let B ← B.setA 2 1 (15 / 16)
    let B ← B.setb 0 (1 / 6)
    let B ← B.setb 1 (3 / 10)
    let B ← B.setb 2 (8 / 15)
    let B ← B.setc 1 (1 / 3)
    let B ← B.setc 2 (3 / 4)
    pure { B with q := 3, p := 0 }
  else if method = "Trapezoid" then do
    let B := ARKodeButcherTable_Alloc 2
    let B ← B.setA 1 0 1
    let B ← B.setb 0 (1 / 2)
    let B ← B.setb 1 (1 / 2)
    let B ← B.setc 1 1
    pure { B with q := 2, p := 0 }
  else if method = "ForwardEuler" then do
    let B := ARKodeButcherTable_Alloc 1
    let B ← B.setb 0 1
    pure { B with q := 1, p := 0 }
  else Except.error TableError.notImplemented

/-- The table `B_inner` that `advance_mri` builds when the inner integrator is implicit
(`use_erk3` false). -/
def advance_mri.implicit_inner_table : Except TableError ARKodeButcherTable := do
  let B_inner := ARKodeButcherTable_Alloc 2
  let B_inner ← B_inner.setA 1 0 1
  let B_inner ← B_inner.setA 2 0 1
  let B_inner ← B_inner.setA 2 2 0
  let B_inner ← B_inner.setb 0 (1 / 2)
  let B_inner ← B_inner.setb 2 (1 / 2)
  let B_inner ← B_inner.setc 1 1
  let B_inner ← B_inner.setc 2 1
  pure { B_inner with q := 2 }

end SundialsIntegrator

/-! ## Theorems -/

section BoxFacts

variable {D : Nat}

theorem contains_inter (a b : Box D) (p : IntVect D) :
    (a.inter b).contains p ↔ a.contains p ∧ b.contains p := by
  simp only [Box.contains, Box.inter]
  constructor
  · intro h
    exact ⟨fun d => ⟨le_trans (le_max_left _ _) (h d).1, le_trans (h d).2 (min_le_left _ _)⟩,
      fun d => ⟨le_trans (le_max_right _ _) (h d).1, le_trans (h d).2 (min_le_right _ _)⟩⟩
  · rintro ⟨h1, h2⟩ d
    exact ⟨max_le (h1 d).1 (h2 d).1, le_min (h1 d).2 (h2 d).2⟩

theorem contains_shift (b : Box D) (iv p : IntVect D) :
    (b.shift iv).contains p ↔ b.contains (p - iv) := by
  simp only [Box.contains, Box.shift, Pi.sub_apply]
  constructor <;> intro h d <;> have := h d <;> constructor <;> omega

theorem contains_grow_zero (b : Box D) (p : IntVect D) :
    (b.grow 0).contains p ↔ b.contains p := by
  simp [Box.contains, Box.grow]

theorem contains_grow (b : Box D) (n : Int) (p : IntVect D) :
    (b.grow n).contains p ↔ ∀ d, b.smallend d - n ≤ p d ∧ p d ≤ b.bigend d + n := by
  simp [Box.contains, Box.grow]

theorem ok_of_contains (b : Box D) (p : IntVect D) (h : b.contains p) : b.ok :=
  fun d => le_trans (h d).1 (h d).2

end BoxFacts

section Reset

variable {D : Nat}

/-- C8. Idempotent reset: after `reset()` every component of every allocated cell of the
accumulation buffer and of the patch buffer is zero, and a second `reset()` in a row leaves
the register exactly as the first one left it. -/
theorem reset_zero_idempotent (r : YAFluxRegister D) :
    (∀ k p n, r.m_crse_data.inFab k p ∧ n < r.m_crse_data.n_comp →
        r.reset.m_crse_data.data k p n = 0) ∧
    (∀ k p n, r.m_cfpatch.inFab k p ∧ n < r.m_cfpatch.n_comp →
        r.reset.m_cfpatch.data k p n = 0) ∧
    r.reset.reset = r.reset := by
  refine ⟨?_, ?_, ?_⟩
  · intro k p n h
    simp [YAFluxRegister.reset, FabArray.setVal, h]
  · intro k p n h
    simp [YAFluxRegister.reset, FabArray.setVal, h]
  · have key : ∀ fa : MultiFab D, (fa.setVal 0).setVal 0 = fa.setVal 0 := by
      intro fa
      simp only [FabArray.setVal, FabArray.inFab]
      congr 1
      funext k p n
      split <;> simp_all
    simp only [YAFluxRegister.reset, key]

end Reset

section Frames

variable {D : Nat}

/-- A property that holds at the start of a left fold and is kept by every step holds at
its end. -/
theorem foldl_invariant {α β : Type} (P : α → Prop) (f : α → β → α) (l : List β) (a : α)
    (h0 : P a) (hstep : ∀ x b, b ∈ l → P x → P (f x b)) : P (l.foldl f a) := by
  induction l generalizing a with
  | nil => simpa using h0
  | cons b t ih =>
    simp only [List.foldl_cons]
    exact ih (f a b) (hstep a b (List.mem_cons_self _ _) h0)
      (fun x c hc hx => hstep x c (List.mem_cons_of_mem _ hc) hx)

theorem changesOnly_refl (W : Nat → IntVect D → Nat → Prop) (a : MultiFab D) :
    ChangesOnly W a a :=
  ⟨rfl, rfl, rfl, rfl, fun _ _ _ _ => rfl⟩

theorem changesOnly_trans {W : Nat → IntVect D → Nat → Prop} {a b c : MultiFab D}
    (h1 : ChangesOnly W a b) (h2 : ChangesOnly W b c) : ChangesOnly W a c := by
  obtain ⟨a1, a2, a3, a4, a5⟩ := h1
  obtain ⟨b1, b2, b3, b4, b5⟩ := h2
  exact ⟨b1.trans a1, b2.trans a2, b3.trans a3, b4.trans a4,
    fun k p n h => (b5 k p n h).trans (a5 k p n h)⟩

/-- Arrays with the same layout have the same allocated cells. -/
theorem inFab_congr {a b : MultiFab D} (h1 : b.boxarray = a.boxarray)
    (h2 : b.n_grow = a.n_grow) (k : Nat) (p : IntVect D) : b.inFab k p ↔ a.inFab k p := by
  simp only [FabArray.inFab, h1, h2]

/-- The kernel `yafluxreg_fineadd` writes only the components below `nc` of cells of its
box. -/
theorem yafluxreg_fineadd_outside (bx : Box D) (d f : IntVect D → Nat → Real) (dtdx : Real)
    (nc dirside : Nat) (rr p : IntVect D) (n : Nat) (h : ¬ (bx.contains p ∧ n < nc)) :
    yafluxreg_fineadd bx d f dtdx nc dirside rr p n = d p n := by
  unfold yafluxreg_fineadd
  split
  · simp only [if_neg h]
  · rfl

/-- The kernel `yafluxreg_crseadd` writes only the components below `nc` of cells of its
box that are flagged as boundary cells. -/
theorem yafluxreg_crseadd_outside (bx : Box D) (d : IntVect D → Nat → Real)
    (flag : IntVect D → Int) (f : Fin D → IntVect D → Nat → Real) (dtdx : Fin D → Real)
    (nc : Nat) (p : IntVect D) (n : Nat)
    (h : ¬ (bx.contains p ∧ n < nc ∧ flag p = crse_fine_boundary_cell)) :
    yafluxreg_crseadd bx d flag f dtdx nc p n = d p n := by
  unfold yafluxreg_crseadd
  simp only [if_neg h]

/-- A cell of the intersection of `adj` with the box of a fab is an allocated cell. -/
theorem inFab_of_inter (cfp : MultiFab D) (k : Nat) (cfpbox adj : Box D) (p : IntVect D)
    (hb : cfp.boxarray[k]? = some cfpbox) (hc : (adj.inter cfpbox).contains p) :
    cfp.inFab k p := by
  simp only [FabArray.inFab, hb]
  intro d
  have h1 := hc d
  simp only [Box.inter, Box.grow] at h1 ⊢
  constructor <;> omega

/-- Writing back an array that agrees with the old values outside a set of cells and
above `numcomp` changes the fab at most at these cells, in the components
`destcomp ≤ n < destcomp + numcomp`. -/
theorem withArray_changesOnly (C : IntVect D → Prop) (a : MultiFab D) (k : Nat)
    (destcomp numcomp : Nat) (arr : IntVect D → Nat → Real)
    (h : ∀ p m, ¬ (C p ∧ m < numcomp) → arr p m = a.data k p (destcomp + m)) :
    ChangesOnly (fun j p n => j = k ∧ C p ∧ destcomp ≤ n ∧ n < destcomp + numcomp) a
      (a.withArray k destcomp arr) := by
  refine ⟨rfl, rfl, rfl, rfl, ?_⟩
  intro j p n hn
  simp only [FabArray.withArray]
  split
  · next hj =>
    obtain ⟨rfl, hle⟩ := hj
    rw [h p (n - destcomp)]
    · congr 1; omega
    · intro hc
      exact hn ⟨rfl, hc.1, hle, by omega⟩
  · rfl

theorem changesOnly_mono {W V : Nat → IntVect D → Nat → Prop} {a b : MultiFab D}
    (h : ChangesOnly W a b) (hWV : ∀ k p n, W k p n → V k p n) : ChangesOnly V a b :=
  ⟨h.1, h.2.1, h.2.2.1, h.2.2.2.1, fun k p n hn => h.2.2.2.2 k p n (fun hw => hn (hWV k p n hw))⟩

/-- One side of the base `FineAdd` writes only components `destcomp ≤ n < destcomp + numcomp`
of allocated cells of patch fab `k`. -/
theorem fineAddSide_changesOnly (cfp : MultiFab D) (k : Nat)
    (adj : Box D) (f : FArrayBox D) (fluxcomp destcomp numcomp : Nat) (dtdxs : Real)
    (dirside : Nat) (rr : IntVect D) :
    ChangesOnly (fun j p n => j = k ∧ cfp.inFab k p ∧ destcomp ≤ n ∧ n < destcomp + numcomp)
      cfp
      (YAFluxRegister.fineAddSide cfp k adj f fluxcomp destcomp numcomp dtdxs dirside rr) := by
  unfold YAFluxRegister.fineAddSide
  cases hb : cfp.boxarray[k]? with
  | none => exact changesOnly_refl _ _
  | some cfpbox =>
    simp only []
    split
    · apply withArray_changesOnly
      intro p m hm
      rw [yafluxreg_fineadd_outside]
      · rfl
      · intro hc
        exact hm ⟨inFab_of_inter cfp k cfpbox adj p hb hc.1, hc.2⟩
    · exact changesOnly_refl _ _

/-- A step that changes only allowed entries of the array it is given keeps the invariant
"changed only at allowed entries since the start". -/
theorem changesOnly_step {W : Nat → IntVect D → Nat → Prop} {a x y : MultiFab D} (k : Nat)
    (lo hi : Nat) (hx : ChangesOnly W a x)
    (hW : ∀ p n, a.inFab k p ∧ lo ≤ n ∧ n < hi → W k p n)
    (hy : ChangesOnly (fun j p n => j = k ∧ x.inFab k p ∧ lo ≤ n ∧ n < hi) x y) :
    ChangesOnly W a y := by
  refine changesOnly_trans hx (changesOnly_mono hy ?_)
  rintro j p n ⟨rfl, h1, h2, h3⟩
  exact hW p n ⟨(inFab_congr hx.1 hx.2.2.2.1 j p).1 h1, h2, h3⟩

/-- One side of the base `FineAdd` keeps the invariant "changed only at allowed entries
since the start". -/
theorem fineAddSide_keeps {W : Nat → IntVect D → Nat → Prop} {a x : MultiFab D} {k : Nat}
    {destcomp numcomp : Nat} (hx : ChangesOnly W a x)
    (hW : ∀ p n, a.inFab k p ∧ destcomp ≤ n ∧ n < destcomp + numcomp → W k p n)
    (adj : Box D) (f : FArrayBox D) (fluxcomp : Nat) (dtdxs : Real)
    (dirside : Nat) (rr : IntVect D) :
    ChangesOnly W a
      (YAFluxRegister.fineAddSide x k adj f fluxcomp destcomp numcomp dtdxs dirside rr) :=
  changesOnly_step k destcomp (destcomp + numcomp) hx hW
    (fineAddSide_changesOnly x k adj f fluxcomp destcomp numcomp dtdxs dirside rr)

/-- The base `FineAdd` changes the patch buffer only at the entries `fineWrites`. -/
theorem FineAdd_changesOnly (r : YAFluxRegister D) (mfi : MFIter D)
    (a_flux : Fin D → FArrayBox D) (dx : Fin D → Real) (dt : Real)
    (srccomp destcomp numcomp : Nat) :
    ChangesOnly (fineWrites r mfi destcomp numcomp) r.m_cfpatch
      (r.FineAdd mfi a_flux dx dt srccomp destcomp numcomp).m_cfpatch := by
  unfold YAFluxRegister.FineAdd
  simp only []
  split
  · exact changesOnly_refl _ _
  · simp only []
    apply foldl_invariant (ChangesOnly (fineWrites r mfi destcomp numcomp) r.m_cfpatch)
    · exact changesOnly_refl _ _
    · intro x idim _ hx
      apply foldl_invariant (ChangesOnly (fineWrites r mfi destcomp numcomp) r.m_cfpatch)
      · exact hx
      · intro y k hk hy
        have hW : ∀ p n, r.m_cfpatch.inFab k p ∧ destcomp ≤ n ∧ n < destcomp + numcomp →
            fineWrites r mfi destcomp numcomp k p n := fun p n h => ⟨hk, h⟩
        exact fineAddSide_keeps (fineAddSide_keeps hy hW _ _ _ _ _ _) hW _ _ _ _ _ _

/-- One side of the embedded-boundary `FineAdd` keeps the invariant "changed only at
allowed entries since the start". -/
theorem eb_fineAddSide_keeps {W : Nat → IntVect D → Nat → Prop} {a x : MultiFab D} {k : Nat}
    {destcomp numcomp : Nat} (hx : ChangesOnly W a x)
    (hW : ∀ p n, a.inFab k p ∧ destcomp ≤ n ∧ n < destcomp + numcomp → W k p n)
    (adj : Box D) (idim : Fin D) (side : Nat) (f ap : IntVect D → Nat → Real) (fac : Real)
    (rr : IntVect D) :
    ChangesOnly W a
      (EBFluxRegister.fineAddSide x k adj idim side f ap destcomp numcomp fac rr) := by
  apply changesOnly_step k destcomp (destcomp + numcomp) hx hW
  unfold EBFluxRegister.fineAddSide
  cases hb : x.boxarray[k]? with
  | none => exact changesOnly_refl _ _
  | some cfpbox =>
    simp only []
    split
    · apply withArray_changesOnly
      intro p m hm
      have : ¬ ((adj.inter cfpbox).contains p ∧ m < numcomp) := fun hc =>
        hm ⟨inFab_of_inter x k cfpbox adj p hb hc.1, hc.2⟩
      simp only [forCellsComps, if_neg this, FabArray.array]
    · exact changesOnly_refl _ _

/-- The scatter of `dm` in the embedded-boundary `FineAdd` keeps the invariant "changed only
at allowed entries since the start". -/
theorem eb_fineAddDm_keeps {W : Nat → IntVect D → Nat → Prop} {a x : MultiFab D} {k : Nat}
    {destcomp numcomp : Nat} (hx : ChangesOnly W a x)
    (hW : ∀ p n, a.inFab k p ∧ destcomp ≤ n ∧ n < destcomp + numcomp → W k p n)
    (cbxg1 tbxg1 : Box D) (dma vfrac : IntVect D → Nat → Real) (rr : IntVect D)
    (threshold : Real) :
    ChangesOnly W a
      (EBFluxRegister.fineAddDm x k cbxg1 tbxg1 dma vfrac destcomp numcomp rr threshold) := by
  apply changesOnly_step k destcomp (destcomp + numcomp) hx hW
  unfold EBFluxRegister.fineAddDm
  cases hb : x.boxarray[k]? with
  | none => exact changesOnly_refl _ _
  | some cfpbox =>
    simp only []
    split
    · apply withArray_changesOnly
      intro p m hm
      have : ¬ ((cbxg1.inter cfpbox).contains p ∧ m < numcomp) := fun hc =>
        hm ⟨inFab_of_inter x k cfpbox cbxg1 p hb hc.1, hc.2⟩
      simp only [forCellsComps, if_neg this, FabArray.array]
    · exact changesOnly_refl _ _

/-- The embedded-boundary `FineAdd` changes the patch buffer only at the entries
`fineWrites`. -/
theorem eb_FineAdd_changesOnly (e : EBFluxRegister D) (mfi : MFIter D)
    (flux : Fin D → FArrayBox D) (dx : Fin D → Real) (dt : Real) (volfrac : FArrayBox D)
    (areafrac : Fin D → FArrayBox D) (dm : Option (FArrayBox D)) (thr : Real)
    (srccomp destcomp numcomp : Nat) :
    ChangesOnly (fineWrites e.toYAFluxRegister mfi destcomp numcomp) e.m_cfpatch
      (e.FineAdd mfi flux dx dt volfrac areafrac dm thr srccomp destcomp numcomp).m_cfpatch := by
  unfold EBFluxRegister.FineAdd
  simp only []
  split
  · exact changesOnly_refl _ _
  · simp only []
    have hW : ∀ k, k ∈ e.m_cfp_fab.getD mfi.LocalIndex [] → ∀ p n,
        e.m_cfpatch.inFab k p ∧ destcomp ≤ n ∧ n < destcomp + numcomp →
        fineWrites e.toYAFluxRegister mfi destcomp numcomp k p n := fun k hk p n h => ⟨hk, h⟩
    have h1 : ChangesOnly (fineWrites e.toYAFluxRegister mfi destcomp numcomp) e.m_cfpatch
        ((List.finRange D).foldl
          (fun cfp idim =>
            (e.m_cfp_fab.getD mfi.LocalIndex []).foldl
              (fun cfp2 k =>
                EBFluxRegister.fineAddSide
                  (EBFluxRegister.fineAddSide cfp2 k
                    ((mfi.tilebox.coarsen e.m_ratio).adjCellLo idim) idim 0
                    ((flux idim).const_array srccomp) ((areafrac idim).const_array 0)
                    destcomp numcomp (dt / dx idim) e.m_ratio)
                  k ((mfi.tilebox.coarsen e.m_ratio).adjCellHi idim) idim 1
                  ((flux idim).const_array srccomp) ((areafrac idim).const_array 0)
                  destcomp numcomp (dt / dx idim) e.m_ratio)
              cfp)
          e.m_cfpatch) := by
      apply foldl_invariant
        (ChangesOnly (fineWrites e.toYAFluxRegister mfi destcomp numcomp) e.m_cfpatch)
      · exact changesOnly_refl _ _
      · intro x idim _ hx
        apply foldl_invariant
          (ChangesOnly (fineWrites e.toYAFluxRegister mfi destcomp numcomp) e.m_cfpatch)
        · exact hx
        · intro y k hk hy
          exact eb_fineAddSide_keeps (eb_fineAddSide_keeps hy (hW k hk) _ _ _ _ _ _ _)
            (hW k hk) _ _ _ _ _ _ _
    cases dm with
    | none => exact h1
    | some dmfab =>
      simp only []
      apply foldl_invariant
        (ChangesOnly (fineWrites e.toYAFluxRegister mfi destcomp numcomp) e.m_cfpatch)
      · exact h1
      · intro y k hk hy
        exact eb_fineAddDm_keeps hy (hW k hk) _ _ _ _ _ _

/-- The base `CrseAdd` changes the accumulation buffer only in the components
`destcomp ≤ n < destcomp + numcomp` of cells of the tile of fab `mfi.index`. -/
theorem CrseAdd_changesOnly (r : YAFluxRegister D) (mfi : MFIter D)
    (flux : Fin D → FArrayBox D) (dx : Fin D → Real) (dt : Real)
    (srccomp destcomp numcomp : Nat) :
    ChangesOnly
      (fun k p n => k = mfi.index ∧ mfi.tilebox.contains p ∧ destcomp ≤ n ∧
        n < destcomp + numcomp)
      r.m_crse_data (r.CrseAdd mfi flux dx dt srccomp destcomp numcomp).m_crse_data := by
  unfold YAFluxRegister.CrseAdd
  split
  · exact changesOnly_refl _ _
  · simp only []
    apply withArray_changesOnly
    intro p m hm
    rw [yafluxreg_crseadd_outside]
    · rfl
    · intro hc
      exact hm ⟨hc.1, hc.2.1⟩

/-- The kernel `eb_flux_reg_crseadd_va` writes only components below `ncomp`. -/
theorem eb_flux_reg_crseadd_va_outside (p : IntVect D) (d : IntVect D → Nat → Real)
    (flag : IntVect D → Int) (f : Fin D → IntVect D → Nat → Real)
    (vfrac : IntVect D → Nat → Real) (ap : Fin D → IntVect D → Nat → Real)
    (dtdx : Fin D → Real) (ncomp : Nat) (q : IntVect D) (n : Nat) (h : ¬ n < ncomp) :
    eb_flux_reg_crseadd_va p d flag f vfrac ap dtdx ncomp q n = d q n := by
  unfold eb_flux_reg_crseadd_va
  rw [if_neg (fun hc => h hc.2.1)]

/-- The embedded-boundary `CrseAdd` changes the accumulation buffer only in the components
`destcomp ≤ n < destcomp + numcomp` of cells of the tile of fab `mfi.index`. -/
theorem eb_CrseAdd_changesOnly (e : EBFluxRegister D) (mfi : MFIter D)
    (flux : Fin D → FArrayBox D) (dx : Fin D → Real) (dt : Real) (volfrac : FArrayBox D)
    (areafrac : Fin D → FArrayBox D) (srccomp destcomp numcomp : Nat) :
    ChangesOnly
      (fun k p n => k = mfi.index ∧ mfi.tilebox.contains p ∧ destcomp ≤ n ∧
        n < destcomp + numcomp)
      e.m_crse_data
      (e.CrseAdd mfi flux dx dt volfrac areafrac srccomp destcomp numcomp).m_crse_data := by
  unfold EBFluxRegister.CrseAdd
  split
  · exact changesOnly_refl _ _
  · simp only []
    apply withArray_changesOnly
    intro p m hm
    unfold forCells
    split
    · next hc =>
      exact eb_flux_reg_crseadd_va_outside _ _ _ _ _ _ _ _ _ _ (fun h => hm ⟨hc, h⟩)
    · rfl

/-- C9. Frame of `CrseAdd`, base and embedded-boundary variant: the call changes nothing
but the accumulation buffer (the patch buffer, the classification field, the work flags,
the mask and every other member are kept, and so is the layout of the accumulation buffer);
an entry of the accumulation buffer that changes is a component
`destcomp ≤ n < destcomp + numcomp` of a cell of the tile in the fab of the coarse box; and
when `CrseHasWork` is false for the box the call changes nothing at all. -/
theorem CrseAdd_frame (r : YAFluxRegister D) (e : EBFluxRegister D) (mfi : MFIter D)
    (flux : Fin D → FArrayBox D) (dx : Fin D → Real) (dt : Real) (volfrac : FArrayBox D)
    (areafrac : Fin D → FArrayBox D) (srccomp destcomp numcomp : Nat) :
    (r.CrseAdd mfi flux dx dt srccomp destcomp numcomp =
        { r with m_crse_data :=
            { r.m_crse_data with
              data := (r.CrseAdd mfi flux dx dt srccomp destcomp numcomp).m_crse_data.data } }) ∧
    (∀ k p n, (r.CrseAdd mfi flux dx dt srccomp destcomp numcomp).m_crse_data.data k p n ≠
        r.m_crse_data.data k p n →
        k = mfi.index ∧ mfi.tilebox.contains p ∧ destcomp ≤ n ∧ n < destcomp + numcomp) ∧
    (r.CrseHasWork mfi = false → r.CrseAdd mfi flux dx dt srccomp destcomp numcomp = r) ∧
    (e.CrseAdd mfi flux dx dt volfrac areafrac srccomp destcomp numcomp =
        { e with m_crse_data :=
            { e.m_crse_data with
              data := (e.CrseAdd mfi flux dx dt volfrac areafrac srccomp destcomp
                numcomp).m_crse_data.data } }) ∧
    (∀ k p n, (e.CrseAdd mfi flux dx dt volfrac areafrac srccomp destcomp
          numcomp).m_crse_data.data k p n ≠ e.m_crse_data.data k p n →
        k = mfi.index ∧ mfi.tilebox.contains p ∧ destcomp ≤ n ∧ n < destcomp + numcomp) ∧
    (e.CrseHasWork mfi = false →
        e.CrseAdd mfi flux dx dt volfrac areafrac srccomp destcomp numcomp = e) := by
  refine ⟨?_, ?_, ?_, ?_, ?_, ?_⟩
  · unfold YAFluxRegister.CrseAdd
    split <;> rfl
  · intro k p n hne
    by_contra hc
    exact hne ((CrseAdd_changesOnly r mfi flux dx dt srccomp destcomp numcomp).2.2.2.2 k p n hc)
  · intro h
    have h1 : r.m_crse_fab_flag[mfi.LocalIndex]? = some crse_cell := by
      simpa [YAFluxRegister.CrseHasWork] using h
    simp [YAFluxRegister.CrseAdd, h1]
  · unfold EBFluxRegister.CrseAdd
    split <;> rfl
  · intro k p n hne
    by_contra hc
    exact hne ((eb_CrseAdd_changesOnly e mfi flux dx dt volfrac areafrac srccomp destcomp
      numcomp).2.2.2.2 k p n hc)
  · intro h
    have h1 : e.m_crse_fab_flag[mfi.LocalIndex]? = some crse_cell := by
      simpa [YAFluxRegister.CrseHasWork] using h
    simp [EBFluxRegister.CrseAdd, h1]

/-- C10. Frame of `FineAdd`, base and embedded-boundary variant: the call changes nothing
but the patch buffer (the accumulation buffer and every other member are kept, and so is
the layout of the patch buffer); an entry of the patch buffer that changes is a component
`destcomp ≤ n < destcomp + numcomp` of an allocated cell of a patch fab listed for the fine
box, so that a patch fab that is not in the list of this fine box is not changed; and when
`FineHasWork` is false for the box the call changes nothing at all. -/
theorem FineAdd_frame (r : YAFluxRegister D) (e : EBFluxRegister D) (mfi : MFIter D)
    (flux : Fin D → FArrayBox D) (dx : Fin D → Real) (dt : Real) (volfrac : FArrayBox D)
    (areafrac : Fin D → FArrayBox D) (dm : Option (FArrayBox D)) (thr : Real)
    (srccomp destcomp numcomp : Nat) :
    (r.FineAdd mfi flux dx dt srccomp destcomp numcomp =
        { r with m_cfpatch :=
            { r.m_cfpatch with
              data := (r.FineAdd mfi flux dx dt srccomp destcomp numcomp).m_cfpatch.data } }) ∧
    (∀ k p n, (r.FineAdd mfi flux dx dt srccomp destcomp numcomp).m_cfpatch.data k p n ≠
        r.m_cfpatch.data k p n →
        k ∈ r.m_cfp_fab.getD mfi.LocalIndex [] ∧ r.m_cfpatch.inFab k p ∧
        destcomp ≤ n ∧ n < destcomp + numcomp) ∧
    (r.FineHasWork mfi = false → r.FineAdd mfi flux dx dt srccomp destcomp numcomp = r) ∧
    (e.FineAdd mfi flux dx dt volfrac areafrac dm thr srccomp destcomp numcomp =
        { e with m_cfpatch :=
            { e.m_cfpatch with
              data := (e.FineAdd mfi flux dx dt volfrac areafrac dm thr srccomp destcomp
                numcomp).m_cfpatch.data } }) ∧
    (∀ k p n, (e.FineAdd mfi flux dx dt volfrac areafrac dm thr srccomp destcomp
          numcomp).m_cfpatch.data k p n ≠ e.m_cfpatch.data k p n →
        k ∈ e.m_cfp_fab.getD mfi.LocalIndex [] ∧ e.m_cfpatch.inFab k p ∧
        destcomp ≤ n ∧ n < destcomp + numcomp) ∧
    (e.FineHasWork mfi = false →
        e.FineAdd mfi flux dx dt volfrac areafrac dm thr srccomp destcomp numcomp = e) := by
  have hb := FineAdd_changesOnly r mfi flux dx dt srccomp destcomp numcomp
  have he := eb_FineAdd_changesOnly e mfi flux dx dt volfrac areafrac dm thr srccomp destcomp
    numcomp
  refine ⟨?_, ?_, ?_, ?_, ?_, ?_⟩
  · obtain ⟨h1, h2, h3, h4, -⟩ := hb
    have : (r.FineAdd mfi flux dx dt srccomp destcomp numcomp).m_cfpatch =
        { r.m_cfpatch with
          data := (r.FineAdd mfi flux dx dt srccomp destcomp numcomp).m_cfpatch.data } := by
      cases hh : (r.FineAdd mfi flux dx dt srccomp destcomp numcomp).m_cfpatch
      simp only [hh] at h1 h2 h3 h4
      simp [h1, h2, h3, h4]
    rw [← this]
    unfold YAFluxRegister.FineAdd
    simp only []
    split <;> rfl
  · intro k p n hne
    by_contra hc
    exact hne (hb.2.2.2.2 k p n hc)
  · intro h
    have h1 : (r.m_cfp_fab.getD mfi.LocalIndex []).isEmpty = true := by
      simpa [YAFluxRegister.FineHasWork] using h
    unfold YAFluxRegister.FineAdd
    simp only []
    rw [if_pos h1]
  · obtain ⟨h1, h2, h3, h4, -⟩ := he
    have : (e.FineAdd mfi flux dx dt volfrac areafrac dm thr srccomp destcomp
          numcomp).m_cfpatch =
        { e.m_cfpatch with
          data := (e.FineAdd mfi flux dx dt volfrac areafrac dm thr srccomp destcomp
            numcomp).m_cfpatch.data } := by
      cases hh : (e.FineAdd mfi flux dx dt volfrac areafrac dm thr srccomp destcomp
          numcomp).m_cfpatch
      simp only [hh] at h1 h2 h3 h4
      simp [h1, h2, h3, h4]
    rw [← this]
    unfold EBFluxRegister.FineAdd
    simp only []
    split <;> rfl
  · intro k p n hne
    by_contra hc
    exact hne (he.2.2.2.2 k p n hc)
  · intro h
    have h1 : (e.m_cfp_fab.getD mfi.LocalIndex []).isEmpty = true := by
      simpa [YAFluxRegister.FineHasWork] using h
    unfold EBFluxRegister.FineAdd
    simp only []
    rw [if_pos h1]

end Frames

section Drain

variable {D : Nat}

/-- The sum over a concatenation of lists. -/
theorem sum_map_flatMap {α β : Type} (l : List α) (f : α → List β) (g : β → Real) :
    ((l.flatMap f).map g).sum = (l.map fun x => ((f x).map g).sum).sum := by
  induction l with
  | nil => simp
  | cons a t ih => simp [List.flatMap_cons, ih]

/-- The sum over the list `filterMap f l`. -/
theorem sum_map_filterMap {α β : Type} (l : List α) (f : α → Option β) (g : β → Real) :
    ((l.filterMap f).map g).sum =
      (l.map fun x => match f x with | some y => g y | none => 0).sum := by
  induction l with
  | nil => simp
  | cons a t ih =>
    cases h : f a with
    | none => simp [List.filterMap_cons, h, ih]
    | some y => simp [List.filterMap_cons, h, ih]

/-- A sum over `0, ..., n - 1` whose terms vanish except at `i`. -/
theorem sum_range_single (n i : Nat) (g : Nat → Real) (h : ∀ j, j ≠ i → g j = 0) :
    ((List.range n).map g).sum = if i < n then g i else 0 := by
  induction n with
  | zero => simp
  | succ m ih =>
    rw [List.range_succ, List.map_append, List.sum_append, ih]
    by_cases h1 : i < m
    · have : m ≠ i := by omega
      simp [h1, h m this, Nat.lt_succ_of_lt h1]
    · by_cases h2 : i = m
      · subst h2; simp
      · have : ¬ i < m + 1 := by omega
        simp [h1, this, h m (Ne.symm h2)]

/-- A left fold that adds one term per list entry adds the sum of the terms. -/
theorem foldl_add_terms {α : Type} (l : List α) (term : α → Nat → IntVect D → Nat → Real)
    (dat : Nat → IntVect D → Nat → Real) (k : Nat) (p : IntVect D) (n : Nat) :
    (l.foldl (fun dat t => fun k p n => dat k p n + term t k p n) dat) k p n =
      dat k p n + (l.map fun t => term t k p n).sum := by
  induction l generalizing dat with
  | nil => simp
  | cons t rest ih =>
    simp only [List.foldl_cons, List.map_cons, List.sum_cons]
    rw [ih]
    ring

/-- The closed form of a left fold whose steps add a term where a condition holds. -/
theorem foldl_add_if {α : Type} (l : List α) (cond : α → Nat → IntVect D → Nat → Prop)
    [∀ t k p n, Decidable (cond t k p n)] (v : α → Nat → IntVect D → Nat → Real)
    (dat : Nat → IntVect D → Nat → Real) (k : Nat) (p : IntVect D) (n : Nat) :
    (l.foldl (fun dat t => fun k p n => if cond t k p n then dat k p n + v t k p n
        else dat k p n) dat) k p n =
      dat k p n + (l.map fun t => if cond t k p n then v t k p n else 0).sum := by
  induction l generalizing dat with
  | nil => simp
  | cons t rest ih =>
    simp only [List.foldl_cons, List.map_cons, List.sum_cons]
    rw [ih]
    split <;> ring

/-- The terms that the copy pattern of one source box and one shift adds to the cell `c` of
destination fab `i`. -/
theorem sum_intersections (ba_dst : BoxArray D) (bx : Box D) (i : Nat) (c : IntVect D)
    (g : Nat × Box D → Real) (v : Real)
    (hg : ∀ b, ba_dst[i]? = some b → (bx.inter (b.grow 0)).contains c →
      g (i, bx.inter (b.grow 0)) = v)
    (hz : ∀ j b, (j ≠ i ∨ ¬ b.contains c) → g (j, b) = 0) :
    ((ba_dst.intersections bx 0).map g).sum =
      if (∃ b, ba_dst[i]? = some b ∧ b.contains c) ∧ bx.contains c then v else 0 := by
  unfold BoxArray.intersections
  rw [sum_map_filterMap, sum_range_single _ i]
  · cases hb : ba_dst[i]? with
    | none =>
      have : ¬ i < ba_dst.length := by
        intro hlt
        rw [List.getElem?_eq_getElem hlt] at hb
        exact Option.noConfusion hb
      simp [this]
    | some b =>
      have hlt : i < ba_dst.length := by
        by_contra hlt
        rw [List.getElem?_eq_none (by omega)] at hb
        exact Option.noConfusion hb
      simp only [hlt, if_true]
      by_cases hc : (bx.inter (b.grow 0)).contains c
      · have hok := ok_of_contains _ _ hc
        have h2 := (contains_inter _ _ _).1 hc
        rw [if_pos hok]
        simp only []
        rw [hg b hb hc]
        rw [if_pos]
        exact ⟨⟨b, by simp, (contains_grow_zero _ _).1 h2.2⟩, h2.1⟩
      · have : ¬ ((∃ b', some b = some b' ∧ b'.contains c) ∧ bx.contains c) := by
          rintro ⟨⟨b', hb', hc'⟩, hx⟩
          cases hb'
          exact hc ((contains_inter _ _ _).2 ⟨hx, (contains_grow_zero _ _).2 hc'⟩)
        rw [if_neg this]
        by_cases hok : (bx.inter (b.grow 0)).ok
        · rw [if_pos hok]
          exact hz _ _ (Or.inr hc)
        · rw [if_neg hok]
  · intro j hj
    cases ba_dst[j]? with
    | none => rfl
    | some b =>
      simp only []
      by_cases hok : (bx.inter (b.grow 0)).ok
      · rw [if_pos hok]
        exact hz _ _ (Or.inl hj)
      · rw [if_neg hok]

theorem inValid_iff {β : Type} (fa : FabArray D β) (k : Nat) (p : IntVect D) :
    fa.inValid k p ↔ ∃ b, fa.boxarray[k]? = some b ∧ b.contains p := by
  unfold FabArray.inValid
  cases fa.boxarray[k]? <;> simp

theorem inFab_iff {β : Type} (fa : FabArray D β) (k : Nat) (p : IntVect D) :
    fa.inFab k p ↔ ∃ b, fa.boxarray[k]? = some b ∧ (b.grow fa.n_grow).contains p := by
  unfold FabArray.inFab
  cases fa.boxarray[k]? <;> simp

/-- A valid cell is an allocated cell. -/
theorem inFab_of_inValid {β : Type} (fa : FabArray D β) (k : Nat) (p : IntVect D)
    (h : fa.inValid k p) : fa.inFab k p := by
  obtain ⟨b, hb, hp⟩ := (inValid_iff fa k p).1 h
  refine (inFab_iff fa k p).2 ⟨b, hb, ?_⟩
  rw [contains_grow]
  intro d
  have := hp d
  constructor <;> omega

/-- The closed form of the add-combining copy: the cell `c` of destination fab `i` receives,
for every source fab and every periodic shift, the value of the source cell that the shift
maps onto `c`, when there is one. -/
theorem ParallelCopyAdd_data (dst src : MultiFab D) (scomp dcomp ncomp : Nat)
    (period : IntVect D) (i : Nat) (c : IntVect D) (n : Nat) :
    (dst.ParallelCopyAdd src scomp dcomp ncomp period).data i c n =
      dst.data i c n + ((List.range src.boxarray.length).map fun k =>
        ((shiftIntVect period).map fun iv =>
          if dst.inValid i c ∧ src.inValid k (c - iv) ∧ dcomp ≤ n ∧ n < dcomp + ncomp then
            src.data k (c - iv) (n - dcomp + scomp)
          else 0).sum).sum := by
  unfold FabArray.ParallelCopyAdd
  simp only []
  rw [foldl_add_if (getCPC dst.boxarray 0 src.boxarray 0 (shiftIntVect period))
    (fun t k p n => k = t.dstIndex ∧ t.dbox.contains p ∧ dcomp ≤ n ∧ n < dcomp + ncomp)
    (fun t _ p n => src.data t.srcIndex (t.srcCell p) (n - dcomp + scomp))]
  congr 1
  unfold getCPC
  rw [sum_map_flatMap]
  congr 1
  apply List.map_congr_left
  intro k hk
  have hlt : k < src.boxarray.length := List.mem_range.1 hk
  rw [List.getElem?_eq_getElem hlt]
  simp only []
  rw [sum_map_flatMap]
  congr 1
  apply List.map_congr_left
  intro iv _
  rw [List.map_map]
  rw [sum_intersections dst.boxarray _ i c _
    (if dcomp ≤ n ∧ n < dcomp + ncomp then src.data k (c - iv) (n - dcomp + scomp) else 0)]
  · have h1 : src.inValid k (c - iv) ↔ (((src.boxarray[k]).grow 0).shift iv).contains c := by
      rw [contains_shift, contains_grow_zero, inValid_iff]
      simp [List.getElem?_eq_getElem hlt]
    have e1 : ((∃ b, dst.boxarray[i]? = some b ∧ b.contains c) ∧
        (((src.boxarray[k]).grow 0).shift iv).contains c) ↔
        (dst.inValid i c ∧ src.inValid k (c - iv)) := by
      rw [inValid_iff dst, h1]
    simp only [e1]
    by_cases ha : dst.inValid i c <;> by_cases hb : src.inValid k (c - iv) <;>
      by_cases hcmp : dcomp ≤ n ∧ n < dcomp + ncomp <;> simp [ha, hb, hcmp]
  · intro b _ hc
    simp only [Function.comp]
    have hs : (CopyComTag.srcCell
        ⟨(((src.boxarray[k]).grow 0).shift iv).inter (b.grow 0),
          ((((src.boxarray[k]).grow 0).shift iv).inter (b.grow 0)).shift (fun d => - iv d),
          i, k⟩ c) = c - iv := by
      funext d
      simp only [CopyComTag.srcCell, Box.shift, Pi.sub_apply]
      omega
    rw [hs]
    by_cases hcmp : dcomp ≤ n ∧ n < dcomp + ncomp
    · simp [hc, hcmp]
    · have : ¬ (dcomp ≤ n ∧ n < dcomp + ncomp) := hcmp
      simp only [if_neg hcmp]
      rw [if_neg]
      rintro ⟨-, -, h3⟩
      exact hcmp h3
  · intro j b hjb
    simp only [Function.comp]
    rw [if_neg]
    rintro ⟨h1, h2, -⟩
    rcases hjb with h | h
    · exact h h1.symm
    · exact h h2

theorem maskedPatch_boxarray (r : YAFluxRegister D) (srccomp numcomp : Nat) :
    (r.maskedPatch srccomp numcomp).boxarray = r.m_cfpatch.boxarray := by
  unfold YAFluxRegister.maskedPatch
  split <;> rfl

theorem maskedPatch_inValid (r : YAFluxRegister D) (srccomp numcomp : Nat) (k : Nat)
    (p : IntVect D) : (r.maskedPatch srccomp numcomp).inValid k p ↔ r.m_cfpatch.inValid k p := by
  simp only [FabArray.inValid, maskedPatch_boxarray]

/-- After the first loop of `Reflux` a valid patch cell holds, in the components that are
drained, its value times its mask. -/
theorem maskedPatch_data (r : YAFluxRegister D) (srccomp numcomp : Nat) (k : Nat)
    (p : IntVect D) (n : Nat) (hp : r.m_cfpatch.inValid k p) (hn : n < numcomp) :
    (r.maskedPatch srccomp numcomp).data k p (srccomp + n) =
      maskedValue r k p (srccomp + n) := by
  unfold YAFluxRegister.maskedPatch maskedValue
  by_cases he : r.m_cfp_mask.empty = true
  · simp [he]
  · have hc : r.m_cfpatch.inFab k p ∧ srccomp ≤ srccomp + n ∧ srccomp + n < srccomp + numcomp :=
      ⟨inFab_of_inValid _ _ _ hp, by omega, by omega⟩
    simp [he, hc]

/-- The drain of `Reflux`: after the copy, the accumulation buffer holds the correction
`refluxCorrection` in the drained components of every valid cell. -/
theorem Reflux_crse_data (r : YAFluxRegister D) (state : MultiFab D)
    (srccomp destcomp numcomp : Nat) (i : Nat) (c : IntVect D) (n : Nat)
    (hc : r.m_crse_data.inValid i c) (hn : n < numcomp) :
    (r.Reflux state srccomp destcomp numcomp).1.m_crse_data.data i c (srccomp + n) =
      refluxCorrection r i c (srccomp + n) := by
  unfold YAFluxRegister.Reflux
  simp only []
  rw [ParallelCopyAdd_data]
  unfold refluxCorrection patchImageSum
  congr 1
  rw [maskedPatch_boxarray]
  congr 1
  apply List.map_congr_left
  intro k _
  congr 1
  apply List.map_congr_left
  intro iv _
  by_cases hp : r.m_cfpatch.inValid k (c - iv)
  · have h1 : r.m_crse_data.inValid i c ∧ (r.maskedPatch srccomp numcomp).inValid k (c - iv) ∧
        srccomp ≤ srccomp + n ∧ srccomp + n < srccomp + numcomp :=
      ⟨hc, (maskedPatch_inValid _ _ _ _ _).2 hp, by omega, by omega⟩
    rw [if_pos h1, if_pos hp]
    have : srccomp + n - srccomp + srccomp = srccomp + n := by omega
    rw [this, maskedPatch_data r srccomp numcomp k (c - iv) n hp hn]
  · rw [if_neg hp, if_neg]
    rintro ⟨-, h2, -⟩
    exact hp ((maskedPatch_inValid _ _ _ _ _).1 h2)

/-- The coarse state after the base `Reflux` without volume field, entry by entry. -/
theorem Reflux_state_novol (r : YAFluxRegister D) (state : MultiFab D)
    (srccomp destcomp numcomp : Nat) (hba : state.boxarray = r.m_crse_data.boxarray)
    (hvol : r.m_cvol = none) (i : Nat) (c : IntVect D) (m : Nat) :
    (r.Reflux state srccomp destcomp numcomp).2.data i c m =
      if state.inValid i c ∧ destcomp ≤ m ∧ m < destcomp + numcomp then
        state.data i c m + refluxCorrection r i c (m - destcomp + srccomp)
      else state.data i c m := by
  by_cases hm : state.inValid i c ∧ destcomp ≤ m ∧ m < destcomp + numcomp
  · rw [if_pos hm]
    have hc2 : r.m_crse_data.inValid i c := by
      simpa [FabArray.inValid, hba] using hm.1
    have key := Reflux_crse_data r state srccomp destcomp numcomp i c (m - destcomp) hc2
      (by omega)
    have hidx : srccomp + (m - destcomp) = m - destcomp + srccomp := by omega
    rw [hidx] at key
    unfold YAFluxRegister.Reflux at key ⊢
    simp only [] at key ⊢
    simp only [hvol, FabArray.Add, if_pos hm, key]
  · rw [if_neg hm]
    unfold YAFluxRegister.Reflux
    simp only [hvol, FabArray.Add, if_neg hm]

/-- C1. Postcondition of the base `Reflux(state, srccomp, destcomp, numcomp)` on a state
field laid out on the coarse boxes: each value `state[c, destcomp + n]` of a valid cell,
`n < numcomp`, becomes its old value plus `A[c, srccomp + n]` when no volume is set, and
its old value plus `A[c, srccomp + n] / vol[c]` when one is set, where `A` is the old
accumulation buffer plus the sum over the patch fabs and the periodic shifts that map a
patch cell onto `c` of the patch value times its mask (contributions are added); every
other entry of the state is unchanged. -/
theorem Reflux_postcondition (r : YAFluxRegister D) (state : MultiFab D)
    (srccomp destcomp numcomp : Nat) (hba : state.boxarray = r.m_crse_data.boxarray) :
    (∀ i c n, state.inValid i c → n < numcomp →
      (r.Reflux state srccomp destcomp numcomp).2.data i c (destcomp + n) =
        state.data i c (destcomp + n) +
          (match r.m_cvol with
           | none => refluxCorrection r i c (srccomp + n)
           | some vol => refluxCorrection r i c (srccomp + n) / vol.data i c 0)) ∧
    (∀ i c m, ¬ (state.inValid i c ∧ destcomp ≤ m ∧ m < destcomp + numcomp) →
      (r.Reflux state srccomp destcomp numcomp).2.data i c m = state.data i c m) := by
  constructor
  · intro i c n hc hn
    have hc2 : r.m_crse_data.inValid i c := by
      simpa [FabArray.inValid, hba] using hc
    have key := Reflux_crse_data r state srccomp destcomp numcomp i c n hc2 hn
    have hcond : state.inValid i c ∧ destcomp ≤ destcomp + n ∧
        destcomp + n < destcomp + numcomp := ⟨hc, by omega, by omega⟩
    have hidx : destcomp + n - destcomp + srccomp = srccomp + n := by omega
    unfold YAFluxRegister.Reflux at key ⊢
    simp only [] at key ⊢
    cases hv : r.m_cvol with
    | none =>
      simp only [FabArray.Add, if_pos hcond, hidx, key]
    | some vol =>
      simp only [if_pos hcond, hidx, key]
  · intro i c m hm
    unfold YAFluxRegister.Reflux
    simp only []
    cases hv : r.m_cvol with
    | none => simp only [FabArray.Add, if_neg hm]
    | some vol => simp only [if_neg hm]

end Drain

section Ring

variable {D : Nat}

theorem contains_iff_dir (b : Box D) (i : Fin D) (p : IntVect D) :
    b.contains p ↔ inOthers b i p ∧ b.smallend i ≤ p i ∧ p i ≤ b.bigend i := by
  constructor
  · intro h
    exact ⟨fun d _ => h d, h i⟩
  · rintro ⟨h1, h2⟩ d
    by_cases hd : d = i
    · subst hd; exact h2
    · exact h1 d hd

theorem contains_setBig (b : Box D) (i : Fin D) (x : Int) (p : IntVect D) :
    (b.setBig i x).contains p ↔ inOthers b i p ∧ b.smallend i ≤ p i ∧ p i ≤ x := by
  rw [contains_iff_dir _ i]
  simp only [Box.setBig, inOthers, Function.update_same]
  constructor
  · rintro ⟨h1, h2⟩
    refine ⟨fun d hd => ?_, h2⟩
    have := h1 d hd
    rwa [Function.update_noteq hd] at this
  · rintro ⟨h1, h2⟩
    refine ⟨fun d hd => ?_, h2⟩
    rw [Function.update_noteq hd]
    exact h1 d hd

theorem contains_setSmall (b : Box D) (i : Fin D) (x : Int) (p : IntVect D) :
    (b.setSmall i x).contains p ↔ inOthers b i p ∧ x ≤ p i ∧ p i ≤ b.bigend i := by
  rw [contains_iff_dir _ i]
  simp only [Box.setSmall, inOthers, Function.update_same]
  constructor
  · rintro ⟨h1, h2⟩
    refine ⟨fun d hd => ?_, h2⟩
    have := h1 d hd
    rwa [Function.update_noteq hd] at this
  · rintro ⟨h1, h2⟩
    refine ⟨fun d hd => ?_, h2⟩
    rw [Function.update_noteq hd]
    exact h1 d hd

theorem inOthers_setBig (b : Box D) (i : Fin D) (x : Int) (p : IntVect D) :
    inOthers (b.setBig i x) i p ↔ inOthers b i p := by
  simp only [inOthers, Box.setBig]
  constructor <;> intro h d hd <;> have := h d hd
  · rwa [Function.update_noteq hd] at this
  · rwa [Function.update_noteq hd]

theorem inOthers_setSmall (b : Box D) (i : Fin D) (x : Int) (p : IntVect D) :
    inOthers (b.setSmall i x) i p ↔ inOthers b i p := by
  simp only [inOthers, Box.setSmall]
  constructor <;> intro h d hd <;> have := h d hd
  · rwa [Function.update_noteq hd] at this
  · rwa [Function.update_noteq hd]

theorem overlap_of_intersects (b1 b2 : Box D) (h : b1.intersects b2) : Overlap b1 b2 := by
  intro d
  have := h d
  simp only [Box.inter] at this
  have h1 := le_max_left (b1.smallend d) (b2.smallend d)
  have h2 := le_max_right (b1.smallend d) (b2.smallend d)
  have h3 := min_le_left (b1.bigend d) (b2.bigend d)
  have h4 := min_le_right (b1.bigend d) (b2.bigend d)
  refine ⟨?_, ?_, ?_, ?_⟩ <;> omega

theorem overlap_setSmall {b1 b2 : Box D} (h : Overlap b1 b2) (i : Fin D) (x : Int)
    (hx1 : x ≤ b2.bigend i) (hx2 : x ≤ b1.bigend i) : Overlap (b1.setSmall i x) b2 := by
  intro d
  by_cases hd : d = i
  · subst hd
    simp only [Box.setSmall, Function.update_same]
    have := h d
    refine ⟨hx1, this.2.1, hx2, this.2.2.2⟩
  · simp only [Box.setSmall, Function.update_noteq hd]
    exact h d

theorem overlap_setBig {b1 b2 : Box D} (h : Overlap b1 b2) (i : Fin D) (x : Int)
    (hx1 : b2.smallend i ≤ x) (hx2 : b1.smallend i ≤ x) : Overlap (b1.setBig i x) b2 := by
  intro d
  by_cases hd : d = i
  · subst hd
    simp only [Box.setBig, Function.update_same]
    have := h d
    refine ⟨this.1, hx1, hx2, this.2.2.2⟩
  · simp only [Box.setBig, Function.update_noteq hd]
    exact h d

theorem setSmall_smallend (b : Box D) (i : Fin D) (x : Int) : (b.setSmall i x).smallend i = x := by
  simp [Box.setSmall]

theorem setSmall_bigend (b : Box D) (i : Fin D) (x : Int) :
    (b.setSmall i x).bigend = b.bigend := rfl

theorem setBig_bigend (b : Box D) (i : Fin D) (x : Int) : (b.setBig i x).bigend i = x := by
  simp [Box.setBig]

theorem setBig_smallend (b : Box D) (i : Fin D) (x : Int) :
    (b.setBig i x).smallend = b.smallend := rfl

/-- The counting form of the cuts of `boxDiffLoop`: a cell of `b1` that is outside the range
of `b2` in one of the directions of the list lies in exactly one of the boxes split off, and
every other cell lies in none. -/
theorem countP_boxDiffLoop (b2 : Box D) (p : IntVect D) (l : List (Fin D)) (b1 : Box D)
    (h : Overlap b1 b2) :
    (boxDiffLoop b2 l b1).countP (fun b => decide (b.contains p)) =
      if b1.contains p ∧ ∃ d ∈ l, ¬ (b2.smallend d ≤ p d ∧ p d ≤ b2.bigend d) then 1 else 0 := by
  induction l generalizing b1 with
  | nil => simp [boxDiffLoop]
  | cons i rest ih =>
    have hi := h i
    unfold boxDiffLoop
    simp only [List.mem_cons, exists_eq_or_imp]
    by_cases hbelow : b1.smallend i < b2.smallend i ∧ b2.smallend i ≤ b1.bigend i
    · simp only [hbelow, and_self, if_true, setSmall_smallend, setSmall_bigend]
      by_cases habove : b2.smallend i ≤ b2.bigend i ∧ b2.bigend i < b1.bigend i
      · simp only [habove, and_self, if_true]
        have hov : Overlap ((b1.setSmall i (b2.smallend i)).setBig i (b2.bigend i)) b2 :=
          overlap_setBig (overlap_setSmall h i _ hi.2.2.2 hbelow.2) i _ hi.2.2.2
            (by rw [setSmall_smallend]; exact hi.2.2.2)
        rw [List.countP_append, List.countP_append, ih _ hov]
        simp only [List.countP_cons, List.countP_nil, decide_eq_true_eq]
        simp only [contains_setBig, contains_setSmall, inOthers_setSmall, inOthers_setBig,
          setSmall_smallend, setSmall_bigend, setBig_smallend, setBig_bigend,
          contains_iff_dir b1 i]
        by_cases hQ : inOthers b1 i p <;>
          by_cases hE : ∃ d, d ∈ rest ∧ ¬ (b2.smallend d ≤ p d ∧ p d ≤ b2.bigend d) <;>
          simp only [hQ, hE, true_and, false_and, and_true, and_false, or_true, or_false,
            if_false] <;>
          split_ifs <;> omega
      · simp only [habove, if_false]
        have hov : Overlap (b1.setSmall i (b2.smallend i)) b2 :=
          overlap_setSmall h i _ hi.2.2.2 hbelow.2
        rw [List.countP_append, List.countP_append, ih _ hov]
        simp only [List.countP_cons, List.countP_nil, decide_eq_true_eq]
        simp only [contains_setBig, contains_setSmall, inOthers_setSmall, inOthers_setBig,
          setSmall_smallend, setSmall_bigend, setBig_smallend, setBig_bigend,
          contains_iff_dir b1 i]
        by_cases hQ : inOthers b1 i p <;>
          by_cases hE : ∃ d, d ∈ rest ∧ ¬ (b2.smallend d ≤ p d ∧ p d ≤ b2.bigend d) <;>
          simp only [hQ, hE, true_and, false_and, and_true, and_false, or_true, or_false,
            if_false] <;>
          split_ifs <;> omega
    · simp only [hbelow, if_false]
      by_cases habove : b1.smallend i ≤ b2.bigend i ∧ b2.bigend i < b1.bigend i
      · simp only [habove, and_self, if_true]
        have hov : Overlap (b1.setBig i (b2.bigend i)) b2 :=
          overlap_setBig h i _ hi.2.2.2 habove.1
        rw [List.countP_append, List.countP_append, ih _ hov]
        simp only [List.countP_cons, List.countP_nil, decide_eq_true_eq]
        simp only [contains_setBig, contains_setSmall, inOthers_setSmall, inOthers_setBig,
          setSmall_smallend, setSmall_bigend, setBig_smallend, setBig_bigend,
          contains_iff_dir b1 i]
        by_cases hQ : inOthers b1 i p <;>
          by_cases hE : ∃ d, d ∈ rest ∧ ¬ (b2.smallend d ≤ p d ∧ p d ≤ b2.bigend d) <;>
          simp only [hQ, hE, true_and, false_and, and_true, and_false, or_true, or_false,
            if_false] <;>
          split_ifs <;> omega
      · simp only [habove, if_false]
        rw [List.countP_append, List.countP_append, ih _ h]
        simp only [List.countP_nil, contains_iff_dir b1 i]
        by_cases hQ : inOthers b1 i p <;>
          by_cases hE : ∃ d, d ∈ rest ∧ ¬ (b2.smallend d ≤ p d ∧ p d ≤ b2.bigend d) <;>
          simp only [hQ, hE, true_and, false_and, and_true, and_false, or_true, or_false,
            if_false] <;>
          split_ifs <;> omega

/-- The counting form of `boxDiff`: a cell of `b1` outside `b2` lies in exactly one box of
the difference, and every other cell lies in none. -/
theorem countP_boxDiff (b1 b2 : Box D) (p : IntVect D) :
    (boxDiff b1 b2).countP (fun b => decide (b.contains p)) =
      if b1.contains p ∧ ¬ b2.contains p then 1 else 0 := by
  unfold boxDiff
  by_cases hc : b2.containsBox b1
  · rw [if_pos hc]
    have : ¬ (b1.contains p ∧ ¬ b2.contains p) := by
      rintro ⟨h1, h2⟩
      apply h2
      intro d
      have := hc d
      have := h1 d
      constructor <;> omega
    simp [this]
  · rw [if_neg hc]
    by_cases hi : b1.intersects b2
    · rw [if_neg (not_not.2 hi)]
      rw [countP_boxDiffLoop b2 p _ b1 (overlap_of_intersects b1 b2 hi)]
      have : (∃ d ∈ (List.finRange D).reverse, ¬ (b2.smallend d ≤ p d ∧ p d ≤ b2.bigend d)) ↔
          ¬ b2.contains p := by
        simp only [List.mem_reverse, List.mem_finRange, true_and, Box.contains, not_forall]
      simp only [this]
    · rw [if_pos hi]
      have : ¬ (b1.contains p ∧ b2.contains p) := by
        intro h
        exact hi (ok_of_contains _ _ ((contains_inter _ _ _).2 h))
      by_cases h1 : b1.contains p
      · have h2 : ¬ b2.contains p := fun h2 => this ⟨h1, h2⟩
        simp [h1, h2]
      · simp [h1]

/-- Subtracting the box `c` from every box of a list removes the cells of `c` and keeps the
number of boxes that hold any other cell. -/
theorem countP_flatMap_boxDiff (bl : List (Box D)) (c : Box D) (p : IntVect D) :
    (bl.flatMap fun x => boxDiff x c).countP (fun b => decide (b.contains p)) =
      if c.contains p then 0 else bl.countP (fun b => decide (b.contains p)) := by
  induction bl with
  | nil => simp
  | cons a t ih =>
    rw [List.flatMap_cons, List.countP_append, ih, countP_boxDiff, List.countP_cons]
    by_cases hc : c.contains p <;> by_cases ha : a.contains p <;> simp [hc, ha]
    omega

/-- The counting form of the loop of `complementIn` started from any list. -/
theorem countP_complementIn_fold (ba : BoxArray D) (bx : Box D) (bl : List (Box D))
    (p : IntVect D) :
    (ba.foldl
      (fun bl b => if (b.inter bx).ok then bl.flatMap fun x => boxDiff x (b.inter bx) else bl)
      bl).countP (fun b => decide (b.contains p)) =
      if ∃ b ∈ ba, b.contains p ∧ bx.contains p then 0
      else bl.countP (fun b => decide (b.contains p)) := by
  induction ba generalizing bl with
  | nil => simp
  | cons b rest ih =>
    rw [List.foldl_cons, ih]
    simp only [List.mem_cons, exists_eq_or_imp]
    by_cases hr : ∃ b' ∈ rest, b'.contains p ∧ bx.contains p
    · simp [hr]
    · have hr2 : ¬ ∃ a, a ∈ rest ∧ a.contains p ∧ bx.contains p := hr
      simp only [hr, hr2, or_false, if_false]
      by_cases hok : (b.inter bx).ok
      · rw [if_pos hok, countP_flatMap_boxDiff]
        simp only [contains_inter]
      · rw [if_neg hok]
        have : ¬ (b.contains p ∧ bx.contains p) := fun h =>
          hok (ok_of_contains _ _ ((contains_inter _ _ _).2 h))
        rw [if_neg this]

/-- The box-algebra complement in counting form: a cell of `bx` that lies in no box of the
partition lies in exactly one box of `complementIn`, and every other cell lies in none. -/
theorem countP_complementIn (ba : BoxArray D) (bx : Box D) (p : IntVect D) :
    (ba.complementIn bx).countP (fun b => decide (b.contains p)) =
      if bx.contains p ∧ ∀ b ∈ ba, ¬ b.contains p then 1 else 0 := by
  unfold BoxArray.complementIn
  rw [countP_complementIn_fold]
  by_cases hx : bx.contains p
  · by_cases hb : ∃ b ∈ ba, b.contains p
    · have h1 : ∃ b ∈ ba, b.contains p ∧ bx.contains p := by
        obtain ⟨b, hb1, hb2⟩ := hb
        exact ⟨b, hb1, hb2, hx⟩
      have h2 : ¬ (bx.contains p ∧ ∀ b ∈ ba, ¬ b.contains p) := by
        rintro ⟨-, h⟩
        obtain ⟨b, hb1, hb2⟩ := hb
        exact h b hb1 hb2
      rw [if_pos h1, if_neg h2]
    · have h1 : ¬ ∃ b ∈ ba, b.contains p ∧ bx.contains p := by
        rintro ⟨b, hb1, hb2, -⟩
        exact hb ⟨b, hb1, hb2⟩
      have h2 : bx.contains p ∧ ∀ b ∈ ba, ¬ b.contains p :=
        ⟨hx, fun b hb1 hb2 => hb ⟨b, hb1, hb2⟩⟩
      rw [if_neg h1, if_pos h2]
      simp [hx]
  · have h1 : ¬ ∃ b ∈ ba, b.contains p ∧ bx.contains p := by
      rintro ⟨b, -, -, h⟩
      exact hx h
    have h2 : ¬ (bx.contains p ∧ ∀ b ∈ ba, ¬ b.contains p) := fun h => hx h.1
    rw [if_neg h1, if_neg h2]
    simp [hx]

/-- A cell lies in a box of a list exactly when the number of boxes that hold it is
positive. -/
theorem exists_mem_contains_iff (l : List (Box D)) (p : IntVect D) :
    (∃ b ∈ l, b.contains p) ↔ 0 < l.countP (fun b => decide (b.contains p)) := by
  rw [List.countP_pos_iff]
  simp

/-- Boxes of which no cell lies in two are pairwise disjoint. -/
theorem pairwise_disjoint_of_countP_le_one (l : List (Box D))
    (h : ∀ p, l.countP (fun b => decide (b.contains p)) ≤ 1) :
    l.Pairwise fun a b => ∀ p, ¬ (a.contains p ∧ b.contains p) := by
  induction l with
  | nil => exact List.Pairwise.nil
  | cons a t ih =>
    refine List.Pairwise.cons ?_ (ih fun p => ?_)
    · intro b hb p hp
      have h1 := h p
      rw [List.countP_cons] at h1
      have h2 : 0 < t.countP (fun b => decide (b.contains p)) :=
        (exists_mem_contains_iff t p).1 ⟨b, hb, hp.2⟩
      simp only [hp.1, decide_True, if_true] at h1
      omega
    · have h1 := h p
      rw [List.countP_cons] at h1
      omega

theorem box_ext_ends {a b : Box D} (h1 : a.smallend = b.smallend) (h2 : a.bigend = b.bigend) :
    a = b := by
  cases a; cases b; simp only [Box.mk.injEq]; exact ⟨h1, h2⟩

/-- The loop of `define` that grows the domain, over a list of distinct directions. -/
theorem grownDomain_fold (g : Geometry D) (l : List (Fin D)) (hl : l.Nodup) (dom : Box D) :
    l.foldl (fun dom idim => if g.isPeriodic idim then dom.growDir idim 1 else dom) dom =
      ⟨fun d => dom.smallend d - (if d ∈ l ∧ g.is_periodic d then 1 else 0),
       fun d => dom.bigend d + (if d ∈ l ∧ g.is_periodic d then 1 else 0)⟩ := by
  induction l generalizing dom with
  | nil => simp
  | cons i rest ih =>
    rw [List.foldl_cons, ih (List.nodup_cons.1 hl).2]
    have hi : i ∉ rest := (List.nodup_cons.1 hl).1
    apply box_ext_ends
    · funext d
      simp only [Geometry.isPeriodic, List.mem_cons]
      by_cases hd : d = i
      · subst hd
        by_cases hp : g.is_periodic d <;> simp [hp, hi, Box.growDir]
      · by_cases hp : g.is_periodic i <;> by_cases hr : d ∈ rest <;>
          by_cases hq : g.is_periodic d <;> simp [hp, hd, hr, hq, Box.growDir]
    · funext d
      simp only [Geometry.isPeriodic, List.mem_cons]
      by_cases hd : d = i
      · subst hd
        by_cases hp : g.is_periodic d <;> simp [hp, hi, Box.growDir]
      · by_cases hp : g.is_periodic i <;> by_cases hr : d ∈ rest <;>
          by_cases hq : g.is_periodic d <;> simp [hp, hd, hr, hq, Box.growDir]

/-- The box `cdomain` of `define` is the domain grown by one cell in the periodic
directions. -/
theorem grownDomain_eq (g : Geometry D) : grownDomain g = periodicGrownDomain g := by
  unfold grownDomain periodicGrownDomain
  rw [grownDomain_fold g _ (List.nodup_finRange D)]
  simp

/-- The boxes and the owners that the ring loop of `define` collects. -/
theorem ringLoop_fold (cfba : BoxArray D) (cdomain : Box D) (fdm : List Nat) (myproc : Nat)
    (l : List Nat) (st : RingState D) :
    (l.foldl (ringStep cfba cdomain fdm myproc) st).cfp_bl =
        st.cfp_bl ++ l.flatMap (ringBoxes cfba cdomain) ∧
    (l.foldl (ringStep cfba cdomain fdm myproc) st).cfp_procmap =
        st.cfp_procmap ++ l.flatMap fun i =>
          List.replicate (ringBoxes cfba cdomain i).length (fdm.getD i 0) := by
  induction l generalizing st with
  | nil => simp
  | cons i rest ih =>
    rw [List.foldl_cons]
    obtain ⟨h1, h2⟩ := ih (ringStep cfba cdomain fdm myproc st i)
    rw [h1, h2]
    simp [ringStep, List.flatMap_cons, List.append_assoc]

/-- The patch partition that `define` builds: the rings of the fine boxes, one after the
other. -/
theorem define_cfpatch_boxarray (r : YAFluxRegister D) (fba cba : BoxArray D)
    (fdm cdm : List Nat) (fgeom cgeom : Geometry D) (ref_ratio : IntVect D) (fine_lev : Int)
    (nvar : Nat) (myproc : Nat) (mem : DefineMemory D) :
    (r.define fba cba fdm cdm fgeom cgeom ref_ratio fine_lev nvar myproc mem).m_cfpatch.boxarray
      = (List.range (fba.coarsen ref_ratio).length).flatMap
          (ringBoxes (fba.coarsen ref_ratio) (periodicGrownDomain cgeom)) := by
  unfold YAFluxRegister.define
  simp only [FabArray.define, ringLoop, BoxArray.uniqify]
  rw [(ringLoop_fold _ _ _ _ _ _).1, grownDomain_eq]
  simp

/-- The number of boxes of the ring of fine box `i` that hold the cell `p`. -/
theorem countP_ringBoxes (cfba : BoxArray D) (cdomain : Box D) (i : Nat) (p : IntVect D) :
    (ringBoxes cfba cdomain i).countP (fun b => decide (b.contains p)) =
      if (∃ c, cfba[i]? = some c ∧ ((c.grow 1).inter cdomain).contains p) ∧
          ∀ b ∈ cfba, ¬ b.contains p then 1 else 0 := by
  unfold ringBoxes
  cases h : cfba[i]? with
  | none => simp
  | some c =>
    simp only []
    rw [countP_complementIn]
    simp

/-- The cells that the patch boxes of `define` cover. -/
theorem mem_cfpatch_iff (r : YAFluxRegister D) (fba cba : BoxArray D)
    (fdm cdm : List Nat) (fgeom cgeom : Geometry D) (ref_ratio : IntVect D) (fine_lev : Int)
    (nvar : Nat) (myproc : Nat) (mem : DefineMemory D) (p : IntVect D) :
    (∃ b ∈ (r.define fba cba fdm cdm fgeom cgeom ref_ratio fine_lev nvar myproc
          mem).m_cfpatch.boxarray, b.contains p) ↔
      ((∃ c ∈ fba.coarsen ref_ratio,
          ((c.grow 1).inter (periodicGrownDomain cgeom)).contains p) ∧
        ∀ c ∈ fba.coarsen ref_ratio, ¬ c.contains p) := by
  rw [define_cfpatch_boxarray]
  constructor
  · rintro ⟨b, hb, hp⟩
    obtain ⟨i, -, hbi⟩ := List.mem_flatMap.1 hb
    have hpos : 0 < (ringBoxes (fba.coarsen ref_ratio) (periodicGrownDomain cgeom)
        i).countP (fun b => decide (b.contains p)) :=
      (exists_mem_contains_iff _ p).1 ⟨b, hbi, hp⟩
    rw [countP_ringBoxes] at hpos
    split at hpos
    · next h =>
      obtain ⟨⟨c, hc, hcp⟩, hno⟩ := h
      exact ⟨⟨c, List.getElem?_mem hc, hcp⟩, hno⟩
    · exact absurd hpos (lt_irrefl 0)
  · rintro ⟨⟨c, hc, hcp⟩, hno⟩
    obtain ⟨i, hi, hci⟩ := List.getElem_of_mem hc
    have hget : (fba.coarsen ref_ratio)[i]? = some c := by
      rw [List.getElem?_eq_getElem hi, hci]
    have hpos : 0 < (ringBoxes (fba.coarsen ref_ratio) (periodicGrownDomain cgeom)
        i).countP (fun b => decide (b.contains p)) := by
      rw [countP_ringBoxes, if_pos ⟨⟨c, hget, hcp⟩, hno⟩]
      exact Nat.one_pos
    obtain ⟨b, hb, hp⟩ := (exists_mem_contains_iff _ p).2 hpos
    exact ⟨b, List.mem_flatMap.2 ⟨i, List.mem_range.2 hi, hb⟩, hp⟩

/-- C3. Boundary-ring region after `define`: a cell is covered by a patch box exactly when
it lies in `grow(c, 1)` intersected with `D'` for some coarsened fine box `c` and in no
coarsened fine box, `D'` being the coarse domain grown by one cell in the periodic
directions; in particular no patch cell lies inside a coarsened fine box; the patch boxes
are the fragments of the fine boxes, one list after the other, and the fragments generated
from one fine box are pairwise disjoint. -/
theorem define_ring_region (r : YAFluxRegister D) (fba cba : BoxArray D)
    (fdm cdm : List Nat) (fgeom cgeom : Geometry D) (ref_ratio : IntVect D) (fine_lev : Int)
    (nvar : Nat) (myproc : Nat) (mem : DefineMemory D) :
    (∀ p, (∃ b ∈ (r.define fba cba fdm cdm fgeom cgeom ref_ratio fine_lev nvar myproc
          mem).m_cfpatch.boxarray, b.contains p) ↔
      ((∃ c ∈ fba.coarsen ref_ratio,
          ((c.grow 1).inter (periodicGrownDomain cgeom)).contains p) ∧
        ∀ c ∈ fba.coarsen ref_ratio, ¬ c.contains p)) ∧
    (∀ b ∈ (r.define fba cba fdm cdm fgeom cgeom ref_ratio fine_lev nvar myproc
          mem).m_cfpatch.boxarray, ∀ p, b.contains p →
        ∀ c ∈ fba.coarsen ref_ratio, ¬ c.contains p) ∧
    ((r.define fba cba fdm cdm fgeom cgeom ref_ratio fine_lev nvar myproc
          mem).m_cfpatch.boxarray =
      (List.range (fba.coarsen ref_ratio).length).flatMap
        (ringBoxes (fba.coarsen ref_ratio) (periodicGrownDomain cgeom))) ∧
    (∀ i, (ringBoxes (fba.coarsen ref_ratio) (periodicGrownDomain cgeom) i).Pairwise
      fun a b => ∀ p, ¬ (a.contains p ∧ b.contains p)) := by
  have hmem := mem_cfpatch_iff r fba cba fdm cdm fgeom cgeom ref_ratio fine_lev nvar myproc mem
  refine ⟨hmem, ?_, define_cfpatch_boxarray _ _ _ _ _ _ _ _ _ _ _ _, ?_⟩
  · intro b hb p hp
    exact ((hmem p).1 ⟨b, hb, hp⟩).2
  · intro i
    apply pairwise_disjoint_of_countP_le_one
    intro p
    rw [countP_ringBoxes]
    split <;> omega

end Ring

section Classification

variable {D : Nat}

/-- The closed form of `setVal(val, cpc, scomp, ncomp)`. -/
theorem setValCPC_data {β : Type} (fa : FabArray D β) (val : β) (cpc : List (CopyComTag D))
    (scomp ncomp : Nat) (k : Nat) (p : IntVect D) (n : Nat) :
    (fa.setValCPC val cpc scomp ncomp).data k p n =
      if ∃ t ∈ cpc, k = t.dstIndex ∧ t.dbox.contains p ∧ scomp ≤ n ∧ n < scomp + ncomp then val
      else fa.data k p n := by
  unfold FabArray.setValCPC
  simp only []
  generalize fa.data = dat
  induction cpc generalizing dat with
  | nil => simp
  | cons t rest ih =>
    rw [List.foldl_cons, ih]
    simp only [List.mem_cons, exists_eq_or_imp]
    by_cases h1 : ∃ a, a ∈ rest ∧ k = a.dstIndex ∧ a.dbox.contains p ∧ scomp ≤ n ∧
        n < scomp + ncomp
    · have h2 : ∃ t ∈ rest, k = t.dstIndex ∧ t.dbox.contains p ∧ scomp ≤ n ∧
          n < scomp + ncomp := h1
      simp only [h1, h2, or_true, if_true]
    · have h2 : ¬ ∃ t ∈ rest, k = t.dstIndex ∧ t.dbox.contains p ∧ scomp ≤ n ∧
          n < scomp + ncomp := h1
      simp only [h1, h2, or_false, if_false]

/-- The entries of `intersections`. -/
theorem mem_intersections (ba : BoxArray D) (bx : Box D) (ng : Int) (x : Nat × Box D) :
    x ∈ ba.intersections bx ng ↔
      ∃ b, ba[x.1]? = some b ∧ (bx.inter (b.grow ng)).ok ∧ x.2 = bx.inter (b.grow ng) := by
  unfold BoxArray.intersections
  rw [List.mem_filterMap]
  constructor
  · rintro ⟨i, -, hi⟩
    cases hb : ba[i]? with
    | none => simp [hb] at hi
    | some b =>
      simp only [hb] at hi
      by_cases hok : (bx.inter (b.grow ng)).ok
      · rw [if_pos hok] at hi
        cases hi
        exact ⟨b, hb, hok, rfl⟩
      · rw [if_neg hok] at hi
        exact Option.noConfusion hi
  · rintro ⟨b, hb, hok, hx⟩
    refine ⟨x.1, ?_, ?_⟩
    · rw [List.mem_range]
      by_contra hlt
      rw [List.getElem?_eq_none (by omega)] at hb
      exact Option.noConfusion hb
    · simp only [hb, if_pos hok]
      rw [← hx]

/-- A cell of destination fab `k` is reached by the copy pattern exactly when it is an
allocated cell (halo `dstng`) that lies in a source box, grown by `srcng` and moved by a
periodic shift. -/
theorem exists_tag_iff (ba_dst : BoxArray D) (dstng : Int) (ba_src : BoxArray D) (srcng : Int)
    (pshifts : List (IntVect D)) (k : Nat) (p : IntVect D) :
    (∃ t ∈ getCPC ba_dst dstng ba_src srcng pshifts, k = t.dstIndex ∧ t.dbox.contains p) ↔
      (∃ bd, ba_dst[k]? = some bd ∧ (bd.grow dstng).contains p) ∧
        imageInBoxes pshifts ba_src srcng p := by
  unfold getCPC imageInBoxes
  constructor
  · rintro ⟨t, ht, hk, hp⟩
    obtain ⟨j, -, hj⟩ := List.mem_flatMap.1 ht
    cases hb : ba_src[j]? with
    | none => simp [hb] at hj
    | some bs =>
      simp only [hb] at hj
      obtain ⟨iv, hiv, hj2⟩ := List.mem_flatMap.1 hj
      obtain ⟨is, his, rfl⟩ := List.mem_map.1 hj2
      obtain ⟨bd, hbd, -, hx⟩ := (mem_intersections _ _ _ _).1 his
      simp only at hk hp
      rw [hx, contains_inter, contains_shift] at hp
      subst hk
      exact ⟨⟨bd, hbd, hp.2⟩, iv, hiv, bs, List.getElem?_mem hb, hp.1⟩
  · rintro ⟨⟨bd, hbd, hpd⟩, iv, hiv, bs, hbs, hps⟩
    obtain ⟨j, hj⟩ := List.mem_iff_getElem?.1 hbs
    have hjlt : j < ba_src.length := by
      by_contra hlt
      rw [List.getElem?_eq_none (by omega)] at hj
      exact Option.noConfusion hj
    have hc : (((bs.grow srcng).shift iv).inter (bd.grow dstng)).contains p :=
      (contains_inter _ _ _).2 ⟨(contains_shift _ _ _).2 hps, hpd⟩
    refine ⟨⟨((bs.grow srcng).shift iv).inter (bd.grow dstng),
      (((bs.grow srcng).shift iv).inter (bd.grow dstng)).shift (fun d => - iv d), k, j⟩,
      ?_, rfl, hc⟩
    apply List.mem_flatMap.2
    refine ⟨j, List.mem_range.2 hjlt, ?_⟩
    simp only [hj]
    apply List.mem_flatMap.2
    refine ⟨iv, hiv, ?_⟩
    apply List.mem_map.2
    refine ⟨(k, ((bs.grow srcng).shift iv).inter (bd.grow dstng)), ?_, rfl⟩
    exact (mem_intersections _ _ _ _).2 ⟨bd, hbd, ok_of_contains _ _ hc, rfl⟩

/-- The classification field that `define` builds, cell by cell. -/
theorem define_crse_flag_data (r : YAFluxRegister D) (fba cba : BoxArray D)
    (fdm cdm : List Nat) (fgeom cgeom : Geometry D) (ref_ratio : IntVect D) (fine_lev : Int)
    (nvar : Nat) (myproc : Nat) (mem : DefineMemory D) (i : Nat) (c : IntVect D) (bx : Box D)
    (hbx : cba[i]? = some bx) (hc : (bx.grow 1).contains c) :
    (r.define fba cba fdm cdm fgeom cgeom ref_ratio fine_lev nvar myproc
        mem).m_crse_flag.data i c 0 =
      if imageInBoxes (shiftIntVect cgeom.periodicity) (fba.coarsen ref_ratio) 0 c then
        fine_cell
      else if imageInBoxes (shiftIntVect cgeom.periodicity) (fba.coarsen ref_ratio) 1 c then
        crse_fine_boundary_cell
      else crse_cell := by
  have hd : ∃ bd, cba[i]? = some bd ∧ (bd.grow 1).contains c := ⟨bx, hbx, hc⟩
  have e0 : (∃ t ∈ getCPC cba 1 (fba.coarsen ref_ratio) 0 (shiftIntVect cgeom.periodicity),
      i = t.dstIndex ∧ t.dbox.contains c ∧ 0 ≤ 0 ∧ 0 < 0 + 1) ↔
      imageInBoxes (shiftIntVect cgeom.periodicity) (fba.coarsen ref_ratio) 0 c := by
    have := exists_tag_iff cba 1 (fba.coarsen ref_ratio) 0 (shiftIntVect cgeom.periodicity) i c
    simp only [hd, true_and] at this
    simpa using this
  have e1 : (∃ t ∈ getCPC cba 1 (fba.coarsen ref_ratio) 1 (shiftIntVect cgeom.periodicity),
      i = t.dstIndex ∧ t.dbox.contains c ∧ 0 ≤ 0 ∧ 0 < 0 + 1) ↔
      imageInBoxes (shiftIntVect cgeom.periodicity) (fba.coarsen ref_ratio) 1 c := by
    have := exists_tag_iff cba 1 (fba.coarsen ref_ratio) 1 (shiftIntVect cgeom.periodicity) i c
    simp only [hd, true_and] at this
    simpa using this
  have hin : (FabArray.define cba cdm 1 1 mem.crse_flag : iMultiFab D).inFab i c ∧
      0 < (FabArray.define cba cdm 1 1 mem.crse_flag : iMultiFab D).n_comp := by
    refine ⟨?_, Nat.one_pos⟩
    simp only [FabArray.inFab, FabArray.define, hbx]
    exact hc
  unfold YAFluxRegister.define
  simp only [BoxArray.uniqify]
  rw [setValCPC_data, setValCPC_data]
  by_cases h0 : imageInBoxes (shiftIntVect cgeom.periodicity) (fba.coarsen ref_ratio) 0 c
  · rw [if_pos (e0.2 h0), if_pos h0]
  · rw [if_neg (fun h => h0 (e0.1 h)), if_neg h0]
    by_cases h1 : imageInBoxes (shiftIntVect cgeom.periodicity) (fba.coarsen ref_ratio) 1 c
    · rw [if_pos (e1.2 h1), if_pos h1]
    · rw [if_neg (fun h => h1 (e1.1 h)), if_neg h1]
      simp only [FabArray.setVal, if_pos hin]

/-- C4. Coarse cell classification after `define`: every cell of the classification field
of a coarse box (valid cells and one-cell halo) holds one of the three values `crse_cell`,
`crse_fine_boundary_cell`, `fine_cell`; it is `fine_cell` iff the cell or a periodic image of
it lies in some coarsened fine box; it is `crse_fine_boundary_cell` iff it is not `fine_cell`
but the cell or a periodic image of it lies in some coarsened fine box grown by one cell;
otherwise it is `crse_cell`. -/
theorem define_classification (r : YAFluxRegister D) (fba cba : BoxArray D)
    (fdm cdm : List Nat) (fgeom cgeom : Geometry D) (ref_ratio : IntVect D) (fine_lev : Int)
    (nvar : Nat) (myproc : Nat) (mem : DefineMemory D) (i : Nat) (c : IntVect D) (bx : Box D)
    (hbx : cba[i]? = some bx) (hc : (bx.grow 1).contains c) :
    ((r.define fba cba fdm cdm fgeom cgeom ref_ratio fine_lev nvar myproc
          mem).m_crse_flag.data i c 0 = crse_cell ∨
      (r.define fba cba fdm cdm fgeom cgeom ref_ratio fine_lev nvar myproc
          mem).m_crse_flag.data i c 0 = crse_fine_boundary_cell ∨
      (r.define fba cba fdm cdm fgeom cgeom ref_ratio fine_lev nvar myproc
          mem).m_crse_flag.data i c 0 = fine_cell) ∧
    ((r.define fba cba fdm cdm fgeom cgeom ref_ratio fine_lev nvar myproc
          mem).m_crse_flag.data i c 0 = fine_cell ↔
      ∃ iv ∈ shiftIntVect cgeom.periodicity, ∃ b ∈ fba.coarsen ref_ratio,
        b.contains (c - iv)) ∧
    ((r.define fba cba fdm cdm fgeom cgeom ref_ratio fine_lev nvar myproc
          mem).m_crse_flag.data i c 0 = crse_fine_boundary_cell ↔
      (¬ ∃ iv ∈ shiftIntVect cgeom.periodicity, ∃ b ∈ fba.coarsen ref_ratio,
        b.contains (c - iv)) ∧
      ∃ iv ∈ shiftIntVect cgeom.periodicity, ∃ b ∈ fba.coarsen ref_ratio,
        (b.grow 1).contains (c - iv)) ∧
    ((r.define fba cba fdm cdm fgeom cgeom ref_ratio fine_lev nvar myproc
          mem).m_crse_flag.data i c 0 = crse_cell ↔
      (¬ ∃ iv ∈ shiftIntVect cgeom.periodicity, ∃ b ∈ fba.coarsen ref_ratio,
        b.contains (c - iv)) ∧
      ¬ ∃ iv ∈ shiftIntVect cgeom.periodicity, ∃ b ∈ fba.coarsen ref_ratio,
        (b.grow 1).contains (c - iv)) := by
  have key := define_crse_flag_data r fba cba fdm cdm fgeom cgeom ref_ratio fine_lev nvar
    myproc mem i c bx hbx hc
  have e0 : imageInBoxes (shiftIntVect cgeom.periodicity) (fba.coarsen ref_ratio) 0 c ↔
      ∃ iv ∈ shiftIntVect cgeom.periodicity, ∃ b ∈ fba.coarsen ref_ratio,
        b.contains (c - iv) := by
    simp only [imageInBoxes, contains_grow_zero]
  have e1 : imageInBoxes (shiftIntVect cgeom.periodicity) (fba.coarsen ref_ratio) 1 c ↔
      ∃ iv ∈ shiftIntVect cgeom.periodicity, ∃ b ∈ fba.coarsen ref_ratio,
        (b.grow 1).contains (c - iv) := Iff.rfl
  rw [← e0, ← e1]
  have d1 : fine_cell ≠ crse_fine_boundary_cell := by decide
  have d2 : fine_cell ≠ crse_cell := by decide
  have d3 : crse_fine_boundary_cell ≠ crse_cell := by decide
  by_cases h0 : imageInBoxes (shiftIntVect cgeom.periodicity) (fba.coarsen ref_ratio) 0 c
  · rw [if_pos h0] at key
    rw [key]
    simp only [h0, not_true_eq_false, false_and, iff_false, iff_true, or_true, d1, d2,
      not_false_eq_true, and_self]
  · by_cases h1 : imageInBoxes (shiftIntVect cgeom.periodicity) (fba.coarsen ref_ratio) 1 c
    · rw [if_neg h0, if_pos h1] at key
      rw [key]
      simp only [h0, h1, not_false_eq_true, true_and, and_true, iff_true, iff_false,
        not_true_eq_false, and_false, d1.symm, d3, true_or, or_true, and_self]
    · rw [if_neg h0, if_neg h1] at key
      rw [key]
      simp only [h0, h1, not_false_eq_true, true_and, and_true, iff_true, iff_false,
        and_false, d2.symm, d3.symm, true_or, and_self]

end Classification

section Shifts

variable {D : Nat}

/-- The vectors built over a list of distinct directions. -/
theorem mem_vectorsWith_fold (opts : Fin D → List Int) (l : List (Fin D)) (hl : l.Nodup)
    (v : IntVect D) :
    v ∈ l.foldr
        (fun d acc => acc.flatMap fun w => (opts d).map fun x => Function.update w d x)
        [fun _ => 0] ↔
      (∀ d ∈ l, v d ∈ opts d) ∧ ∀ d, d ∉ l → v d = 0 := by
  induction l generalizing v with
  | nil =>
    simp only [List.foldr_nil, List.mem_singleton, List.not_mem_nil, false_imp_iff,
      implies_true, true_and, not_false_eq_true, true_imp_iff]
    constructor
    · intro h d; rw [h]
    · intro h; funext d; exact h d
  | cons i rest ih =>
    have hi : i ∉ rest := (List.nodup_cons.1 hl).1
    have ih2 := fun w => ih (List.nodup_cons.1 hl).2 w
    rw [List.foldr_cons, List.mem_flatMap]
    constructor
    · rintro ⟨w, hw, hv⟩
      obtain ⟨x, hx, rfl⟩ := List.mem_map.1 hv
      obtain ⟨h1, h2⟩ := (ih2 w).1 hw
      constructor
      · intro d hd
        by_cases hdi : d = i
        · subst hdi; simpa using hx
        · rw [Function.update_noteq hdi]
          rcases List.mem_cons.1 hd with h | h
          · exact absurd h hdi
          · exact h1 d h
      · intro d hd
        have hdi : d ≠ i := fun h => hd (h ▸ List.mem_cons_self _ _)
        rw [Function.update_noteq hdi]
        exact h2 d (fun h => hd (List.mem_cons_of_mem _ h))
    · rintro ⟨h1, h2⟩
      refine ⟨Function.update v i 0, (ih2 _).2 ⟨?_, ?_⟩, ?_⟩
      · intro d hd
        have hdi : d ≠ i := fun h => hi (h ▸ hd)
        rw [Function.update_noteq hdi]
        exact h1 d (List.mem_cons_of_mem _ hd)
      · intro d hd
        by_cases hdi : d = i
        · subst hdi; simp
        · rw [Function.update_noteq hdi]
          apply h2
          intro h
          rcases List.mem_cons.1 h with h | h
          · exact hdi h
          · exact hd h
      · apply List.mem_map.2
        refine ⟨v i, h1 i (List.mem_cons_self _ _), ?_⟩
        funext d
        by_cases hdi : d = i
        · subst hdi; simp
        · simp [Function.update_noteq hdi]

/-- The vectors of `vectorsWith`: the component in every direction is one of the options of
that direction. -/
theorem mem_vectorsWith (opts : Fin D → List Int) (v : IntVect D) :
    v ∈ vectorsWith opts ↔ ∀ d, v d ∈ opts d := by
  unfold vectorsWith
  rw [mem_vectorsWith_fold opts _ (List.nodup_finRange D)]
  simp

/-- The periodic shifts: in every direction the component is one of the shifts that the
period of the direction allows. -/
theorem mem_shiftIntVect (period : IntVect D) (v : IntVect D) :
    v ∈ shiftIntVect period ↔ ∀ d, v d ∈ shiftOptions (period d) :=
  mem_vectorsWith _ v

/-- A shift allowed by a period is zero, the period or minus the period, the period being
positive in the last two cases. -/
theorem mem_shiftOptions (p x : Int) :
    x ∈ shiftOptions p ↔ (x = 0 ∧ 0 ≤ p) ∨ (0 < p ∧ (x = p ∨ x = -p)) := by
  unfold shiftOptions
  by_cases h1 : 0 < p
  · simp only [if_pos h1, List.mem_cons, List.mem_singleton, List.not_mem_nil, or_false]
    constructor
    · rintro (h | h | h)
      · exact Or.inr ⟨h1, Or.inr h⟩
      · exact Or.inl ⟨h, le_of_lt h1⟩
      · exact Or.inr ⟨h1, Or.inl h⟩
    · rintro (⟨h, -⟩ | ⟨-, h | h⟩)
      · exact Or.inr (Or.inl h)
      · exact Or.inr (Or.inr h)
      · exact Or.inl h
  · rw [if_neg h1]
    by_cases h2 : p = 0
    · subst h2; simp
    · rw [if_neg h2]
      simp only [List.not_mem_nil, false_iff]
      rintro (⟨-, h⟩ | ⟨h, -⟩)
      · omega
      · exact h1 h

end Shifts

section Mask

variable {D : Nat}

/-- A left fold whose steps zero the entries that satisfy a condition and keep the others:
an entry is zero at the end when some step zeroes it, and keeps its value when none does. -/
theorem foldl_zero {α : Type} (l : List α) (f : MultiFab D → α → MultiFab D)
    (C : α → Nat → IntVect D → Nat → Prop)
    (hf1 : ∀ m a k p n, C a k p n → (f m a).data k p n = 0)
    (hf2 : ∀ m a k p n, ¬ C a k p n → (f m a).data k p n = m.data k p n)
    (m : MultiFab D) (k : Nat) (p : IntVect D) (n : Nat) :
    ((∃ a ∈ l, C a k p n) → (l.foldl f m).data k p n = 0) ∧
    ((¬ ∃ a ∈ l, C a k p n) → (l.foldl f m).data k p n = m.data k p n) := by
  induction l generalizing m with
  | nil => simp
  | cons a rest ih =>
    rw [List.foldl_cons]
    obtain ⟨i1, i2⟩ := ih (f m a)
    constructor
    · rintro ⟨x, hx, hc⟩
      by_cases hr : ∃ y ∈ rest, C y k p n
      · exact i1 hr
      · rw [i2 hr]
        rcases List.mem_cons.1 hx with h | h
        · subst h; exact hf1 m x k p n hc
        · exact absurd ⟨x, h, hc⟩ hr
    · intro hno
      have hr : ¬ ∃ y ∈ rest, C y k p n := fun ⟨y, hy, hc⟩ =>
        hno ⟨y, List.mem_cons_of_mem _ hy, hc⟩
      rw [i2 hr]
      exact hf2 m a k p n (fun hc => hno ⟨a, List.mem_cons_self _ _, hc⟩)

/-- The cells that one shift of the mask loop zeroes. -/
theorem maskLoop_step (cfba : BoxArray D) (k0 : Nat) (bx : Box D) (iv : IntVect D)
    (hiv : iv ≠ fun _ => 0) (m : MultiFab D) (k : Nat) (p : IntVect D) (n : Nat) :
    (maskZeroed cfba k0 bx iv k p n →
      ((cfba.intersections (bx.shift iv) 0).foldl
        (fun m2 is => m2.setValBox k0 0 (is.2.shift fun d => - iv d)) m).data k p n = 0) ∧
    (¬ maskZeroed cfba k0 bx iv k p n →
      ((cfba.intersections (bx.shift iv) 0).foldl
        (fun m2 is => m2.setValBox k0 0 (is.2.shift fun d => - iv d)) m).data k p n =
        m.data k p n) := by
  have key := foldl_zero (cfba.intersections (bx.shift iv) 0)
    (fun m2 is => m2.setValBox k0 0 (is.2.shift fun d => - iv d))
    (fun is k p n => k = k0 ∧ (is.2.shift fun d => - iv d).contains p ∧ n = 0)
    (fun m a k p n h => by simp only [FabArray.setValBox, if_pos h])
    (fun m a k p n h => by simp only [FabArray.setValBox, if_neg h]) m k p n
  have hiff : (∃ a ∈ cfba.intersections (bx.shift iv) 0,
      k = k0 ∧ (a.2.shift fun d => - iv d).contains p ∧ n = 0) ↔
      maskZeroed cfba k0 bx iv k p n := by
    have hsub : ∀ q : IntVect D, (p - fun d => - iv d) = p + iv := by
      intro _; funext d; simp
    constructor
    · rintro ⟨a, ha, hk, hp, hn⟩
      obtain ⟨b, hb, -, hx⟩ := (mem_intersections _ _ _ _).1 ha
      rw [hx, contains_shift, hsub p, contains_inter, contains_shift,
        contains_grow_zero] at hp
      refine ⟨hiv, hk, hn, ?_, b, List.getElem?_mem hb, hp.2⟩
      have := hp.1
      have e : p + iv - iv = p := by funext d; simp
      rwa [e] at this
    · rintro ⟨-, hk, hn, hp, b, hb, hbp⟩
      obtain ⟨j, hj⟩ := List.mem_iff_getElem?.1 hb
      have hc : ((bx.shift iv).inter (b.grow 0)).contains (p + iv) := by
        rw [contains_inter, contains_shift, contains_grow_zero]
        have e : p + iv - iv = p := by funext d; simp
        rw [e]
        exact ⟨hp, hbp⟩
      refine ⟨(j, (bx.shift iv).inter (b.grow 0)), ?_, hk, ?_, hn⟩
      · exact (mem_intersections _ _ _ _).2 ⟨b, hj, ok_of_contains _ _ hc, rfl⟩
      · rw [contains_shift, hsub p]
        exact hc
  rw [← hiff]
  exact key

/-- The cells that the mask loop of one fab zeroes. -/
theorem maskLoop_data (cfba : BoxArray D) (pshifts : List (IntVect D)) (m : MultiFab D)
    (k0 : Nat) (bx : Box D) (k : Nat) (p : IntVect D) (n : Nat) :
    ((∃ iv ∈ pshifts, maskZeroed cfba k0 bx iv k p n) →
      (maskLoop cfba pshifts m k0 bx).data k p n = 0) ∧
    ((¬ ∃ iv ∈ pshifts, maskZeroed cfba k0 bx iv k p n) →
      (maskLoop cfba pshifts m k0 bx).data k p n = m.data k p n) := by
  unfold maskLoop
  apply foldl_zero pshifts _ (fun iv k p n => maskZeroed cfba k0 bx iv k p n)
  · intro m a k p n h
    have hiv : a ≠ fun _ => 0 := h.1
    simp only [if_pos hiv]
    exact (maskLoop_step cfba k0 bx a hiv m k p n).1 h
  · intro m a k p n h
    by_cases hiv : a ≠ fun _ => 0
    · simp only [if_pos hiv]
      exact (maskLoop_step cfba k0 bx a hiv m k p n).2 h
    · simp only [if_neg hiv]

/-- The periodic mask that `define` builds on a periodic geometry, cell by cell: zero where
the patch box is not wholly inside the domain and a nonzero periodic shift moves the cell
into a coarsened fine box, one elsewhere. -/
theorem define_mask_data (r : YAFluxRegister D) (fba cba : BoxArray D)
    (fdm cdm : List Nat) (fgeom cgeom : Geometry D) (ref_ratio : IntVect D) (fine_lev : Int)
    (nvar : Nat) (myproc : Nat) (mem : DefineMemory D) (hper : fgeom.isAnyPeriodic = true)
    (k : Nat) (p : IntVect D) (bx : Box D)
    (hk : (r.define fba cba fdm cdm fgeom cgeom ref_ratio fine_lev nvar myproc
      mem).m_cfpatch.boxarray[k]? = some bx) (hp : bx.contains p) :
    ((¬ cgeom.domain.containsBox bx ∧ ∃ iv ∈ shiftIntVect cgeom.periodicity, iv ≠ 0 ∧
        ∃ b ∈ fba.coarsen ref_ratio, b.contains (p + iv)) →
      (r.define fba cba fdm cdm fgeom cgeom ref_ratio fine_lev nvar myproc
        mem).m_cfp_mask.data k p 0 = 0) ∧
    (¬ (¬ cgeom.domain.containsBox bx ∧ ∃ iv ∈ shiftIntVect cgeom.periodicity, iv ≠ 0 ∧
        ∃ b ∈ fba.coarsen ref_ratio, b.contains (p + iv)) →
      (r.define fba cba fdm cdm fgeom cgeom ref_ratio fine_lev nvar myproc
        mem).m_cfp_mask.data k p 0 = 1) := by
  have hk2 : (ringLoop (fba.coarsen ref_ratio) (grownDomain cgeom) fdm myproc
      r.m_cfp_localindex).cfp_bl[k]? = some bx := hk
  have hfold := foldl_zero
    (List.range (ringLoop (fba.coarsen ref_ratio) (grownDomain cgeom) fdm myproc
      r.m_cfp_localindex).cfp_bl.length)
    (fun m k' =>
      match (ringLoop (fba.coarsen ref_ratio) (grownDomain cgeom) fdm myproc
        r.m_cfp_localindex).cfp_bl[k']? with
      | some bx' =>
        if ¬ cgeom.domain.containsBox bx' then
          maskLoop (fba.coarsen ref_ratio) (shiftIntVect cgeom.periodicity) m k' bx'
        else m
      | none => m)
    (fun k' k p n => ∃ bx', (ringLoop (fba.coarsen ref_ratio) (grownDomain cgeom) fdm myproc
        r.m_cfp_localindex).cfp_bl[k']? = some bx' ∧ ¬ cgeom.domain.containsBox bx' ∧
      ∃ iv ∈ shiftIntVect cgeom.periodicity,
        maskZeroed (fba.coarsen ref_ratio) k' bx' iv k p n)
    (by
      rintro m k' k p n ⟨bx', h1, h2, h3⟩
      simp only [h1, if_pos h2]
      exact (maskLoop_data _ _ m k' bx' k p n).1 h3)
    (by
      intro m k' k p n h
      simp only [] at h ⊢
      cases h1 : (ringLoop (fba.coarsen ref_ratio) (grownDomain cgeom) fdm myproc
        r.m_cfp_localindex).cfp_bl[k']? with
      | none => rfl
      | some bx' =>
        simp only []
        by_cases h2 : cgeom.domain.containsBox bx'
        · rw [if_neg (not_not.2 h2)]
        · rw [if_pos h2]
          exact (maskLoop_data _ _ m k' bx' k p n).2 (fun h3 => h ⟨bx', h1, h2, h3⟩))
    ((FabArray.define (ringLoop (fba.coarsen ref_ratio) (grownDomain cgeom) fdm myproc
      r.m_cfp_localindex).cfp_bl (ringLoop (fba.coarsen ref_ratio) (grownDomain cgeom) fdm
      myproc r.m_cfp_localindex).cfp_procmap 1 0 mem.cfp_mask : MultiFab D).setVal 1) k p 0
  have hiff : (∃ k' ∈ List.range (ringLoop (fba.coarsen ref_ratio) (grownDomain cgeom) fdm
        myproc r.m_cfp_localindex).cfp_bl.length,
      ∃ bx', (ringLoop (fba.coarsen ref_ratio) (grownDomain cgeom) fdm myproc
        r.m_cfp_localindex).cfp_bl[k']? = some bx' ∧ ¬ cgeom.domain.containsBox bx' ∧
      ∃ iv ∈ shiftIntVect cgeom.periodicity,
        maskZeroed (fba.coarsen ref_ratio) k' bx' iv k p 0) ↔
      (¬ cgeom.domain.containsBox bx ∧ ∃ iv ∈ shiftIntVect cgeom.periodicity, iv ≠ 0 ∧
        ∃ b ∈ fba.coarsen ref_ratio, b.contains (p + iv)) := by
    constructor
    · rintro ⟨k', -, bx', h1, h2, iv, hiv, hz⟩
      obtain ⟨z1, z2, -, -, z5⟩ := hz
      subst z2
      rw [hk2] at h1
      cases h1
      exact ⟨h2, iv, hiv, z1, z5⟩
    · rintro ⟨h2, iv, hiv, z1, z5⟩
      refine ⟨k, ?_, bx, hk2, h2, iv, hiv, z1, rfl, rfl, hp, z5⟩
      rw [List.mem_range]
      by_contra hlt
      rw [List.getElem?_eq_none (by omega)] at hk2
      exact Option.noConfusion hk2
  have hone : ((FabArray.define (ringLoop (fba.coarsen ref_ratio) (grownDomain cgeom) fdm
      myproc r.m_cfp_localindex).cfp_bl (ringLoop (fba.coarsen ref_ratio) (grownDomain cgeom)
      fdm myproc r.m_cfp_localindex).cfp_procmap 1 0 mem.cfp_mask : MultiFab D).setVal 1).data
      k p 0 = 1 := by
    have hin : (FabArray.define (ringLoop (fba.coarsen ref_ratio) (grownDomain cgeom) fdm
        myproc r.m_cfp_localindex).cfp_bl (ringLoop (fba.coarsen ref_ratio)
        (grownDomain cgeom) fdm myproc r.m_cfp_localindex).cfp_procmap 1 0
        mem.cfp_mask : MultiFab D).inFab k p := by
      simp only [FabArray.inFab, FabArray.define, hk2]
      exact (contains_grow_zero bx p).2 hp
    simp only [FabArray.setVal]
    rw [if_pos ⟨hin, Nat.one_pos⟩]
  rw [hiff, hone] at hfold
  unfold YAFluxRegister.define
  simp only [BoxArray.uniqify, if_pos hper]
  exact hfold

/-- A nonzero periodic shift moves every cell of the domain out of the domain. -/
theorem shifted_cell_outside (cgeom : Geometry D) (iv : IntVect D)
    (hiv : iv ∈ shiftIntVect cgeom.periodicity) (hne : iv ≠ 0) (p : IntVect D)
    (hp : cgeom.domain.contains p) : ¬ cgeom.domain.contains (p + iv) := by
  intro hq
  apply hne
  funext d
  have h1 := (mem_shiftOptions _ _).1 ((mem_shiftIntVect _ _).1 hiv d)
  have h2 := hp d
  have h3 := hq d
  simp only [Pi.add_apply] at h3
  simp only [Geometry.periodicity, Box.length] at h1
  rcases h1 with ⟨h, -⟩ | ⟨hpos, h⟩
  · exact h
  · exfalso
    by_cases hper : cgeom.is_periodic d = true
    · simp only [hper, if_true] at hpos h
      rcases h with h | h <;> omega
    · simp only [hper] at hpos
      exact absurd hpos (lt_irrefl 0)

/-- C5. Periodic duplication mask after `define` on a periodic geometry: every mask value
of a patch cell is 0 or 1; it is 0 exactly when the patch box is not wholly inside the
coarse domain and a nonzero periodic shift `s` puts `p + s` inside some coarsened fine box;
and when the coarsened fine boxes lie inside the coarse domain, a patch cell has mask 0 iff
there is a nonzero periodic shift `s` with `p + s` inside some coarsened fine box: leaving
the patch boxes wholly inside the domain untouched leaves no such cell at 1. -/
theorem define_periodic_mask (r : YAFluxRegister D) (fba cba : BoxArray D)
    (fdm cdm : List Nat) (fgeom cgeom : Geometry D) (ref_ratio : IntVect D) (fine_lev : Int)
    (nvar : Nat) (myproc : Nat) (mem : DefineMemory D) (hper : fgeom.isAnyPeriodic = true)
    (k : Nat) (p : IntVect D) (bx : Box D)
    (hk : (r.define fba cba fdm cdm fgeom cgeom ref_ratio fine_lev nvar myproc
      mem).m_cfpatch.boxarray[k]? = some bx) (hp : bx.contains p) :
    ((r.define fba cba fdm cdm fgeom cgeom ref_ratio fine_lev nvar myproc
        mem).m_cfp_mask.data k p 0 = 0 ∨
      (r.define fba cba fdm cdm fgeom cgeom ref_ratio fine_lev nvar myproc
        mem).m_cfp_mask.data k p 0 = 1) ∧
    ((r.define fba cba fdm cdm fgeom cgeom ref_ratio fine_lev nvar myproc
        mem).m_cfp_mask.data k p 0 = 0 ↔
      (¬ cgeom.domain.containsBox bx ∧ ∃ iv ∈ shiftIntVect cgeom.periodicity, iv ≠ 0 ∧
        ∃ b ∈ fba.coarsen ref_ratio, b.contains (p + iv))) ∧
    ((∀ b ∈ fba.coarsen ref_ratio, cgeom.domain.containsBox b) →
      ((r.define fba cba fdm cdm fgeom cgeom ref_ratio fine_lev nvar myproc
          mem).m_cfp_mask.data k p 0 = 0 ↔
        ∃ iv ∈ shiftIntVect cgeom.periodicity, iv ≠ 0 ∧
          ∃ b ∈ fba.coarsen ref_ratio, b.contains (p + iv))) := by
  obtain ⟨h0, h1⟩ := define_mask_data r fba cba fdm cdm fgeom cgeom ref_ratio fine_lev nvar
    myproc mem hper k p bx hk hp
  have hiff : (r.define fba cba fdm cdm fgeom cgeom ref_ratio fine_lev nvar myproc
        mem).m_cfp_mask.data k p 0 = 0 ↔
      (¬ cgeom.domain.containsBox bx ∧ ∃ iv ∈ shiftIntVect cgeom.periodicity, iv ≠ 0 ∧
        ∃ b ∈ fba.coarsen ref_ratio, b.contains (p + iv)) := by
    constructor
    · intro hz
      by_contra hno
      rw [h1 hno] at hz
      exact one_ne_zero hz
    · exact h0
  refine ⟨?_, hiff, ?_⟩
  · by_cases hz : (¬ cgeom.domain.containsBox bx ∧ ∃ iv ∈ shiftIntVect cgeom.periodicity,
        iv ≠ 0 ∧ ∃ b ∈ fba.coarsen ref_ratio, b.contains (p + iv))
    · exact Or.inl (h0 hz)
    · exact Or.inr (h1 hz)
  · intro hin
    rw [hiff]
    constructor
    · exact fun h => h.2
    · rintro ⟨iv, hiv, hne, b, hb, hbp⟩
      refine ⟨?_, iv, hiv, hne, b, hb, hbp⟩
      intro hbx
      have hpdom : cgeom.domain.contains p := by
        intro d
        have := hbx d
        have := hp d
        constructor <;> omega
      apply shifted_cell_outside cgeom iv hiv hne p hpdom
      intro d
      have := hin b hb d
      have := hbp d
      constructor <;> omega

end Mask

section NoOp

variable {D : Nat}

theorem sameButBuffers_refl (r : YAFluxRegister D) : SameButBuffers r r := by
  unfold SameButBuffers
  rfl

theorem sameButBuffers_trans {a b c : YAFluxRegister D} (h1 : SameButBuffers a b)
    (h2 : SameButBuffers b c) : SameButBuffers a c := by
  unfold SameButBuffers at *
  rw [h2, h1]

theorem sameButBuffers_reset (r : YAFluxRegister D) : SameButBuffers r r.reset := by
  unfold SameButBuffers YAFluxRegister.reset FabArray.setVal
  rfl

theorem sameButBuffers_CrseAdd (r : YAFluxRegister D) (mfi : MFIter D)
    (flux : Fin D → FArrayBox D) (dx : Fin D → Real) (dt : Real)
    (srccomp destcomp numcomp : Nat) :
    SameButBuffers r (r.CrseAdd mfi flux dx dt srccomp destcomp numcomp) := by
  unfold SameButBuffers YAFluxRegister.CrseAdd
  split <;> rfl

theorem sameButBuffers_FineAdd (r : YAFluxRegister D) (mfi : MFIter D)
    (flux : Fin D → FArrayBox D) (dx : Fin D → Real) (dt : Real)
    (srccomp destcomp numcomp : Nat) :
    SameButBuffers r (r.FineAdd mfi flux dx dt srccomp destcomp numcomp) := by
  obtain ⟨h1, h2, h3, h4, -⟩ := FineAdd_changesOnly r mfi flux dx dt srccomp destcomp numcomp
  have : (r.FineAdd mfi flux dx dt srccomp destcomp numcomp).m_cfpatch =
      { r.m_cfpatch with
        data := (r.FineAdd mfi flux dx dt srccomp destcomp numcomp).m_cfpatch.data } := by
    cases hh : (r.FineAdd mfi flux dx dt srccomp destcomp numcomp).m_cfpatch
    simp only [hh] at h1 h2 h3 h4
    simp [h1, h2, h3, h4]
  unfold SameButBuffers
  rw [← this]
  unfold YAFluxRegister.FineAdd
  simp only []
  split <;> rfl

theorem sameButBuffers_call (r : YAFluxRegister D) (a : AddCall D) :
    SameButBuffers r (r.call a) := by
  cases a with
  | crse mfi flux dx dt s d n => exact sameButBuffers_CrseAdd r mfi flux dx dt s d n
  | fine mfi flux dx dt s d n => exact sameButBuffers_FineAdd r mfi flux dx dt s d n

theorem sameButBuffers_calls (r : YAFluxRegister D) (l : List (AddCall D)) :
    SameButBuffers r (r.calls l) := by
  unfold YAFluxRegister.calls
  apply foldl_invariant (SameButBuffers r)
  · exact sameButBuffers_refl r
  · intro x a _ hx
    exact sameButBuffers_trans hx (sameButBuffers_call x a)

/-- `CrseAdd` leaves alone the cells that are not flagged as boundary cells. -/
theorem CrseAdd_data_of_not_boundary (r : YAFluxRegister D) (mfi : MFIter D)
    (flux : Fin D → FArrayBox D) (dx : Fin D → Real) (dt : Real)
    (srccomp destcomp numcomp : Nat) (i : Nat) (c : IntVect D) (n : Nat)
    (h : r.m_crse_flag.data i c 0 ≠ crse_fine_boundary_cell) :
    (r.CrseAdd mfi flux dx dt srccomp destcomp numcomp).m_crse_data.data i c n =
      r.m_crse_data.data i c n := by
  unfold YAFluxRegister.CrseAdd
  split
  · rfl
  · simp only [FabArray.withArray]
    split
    · next hj =>
      obtain ⟨rfl, hle⟩ := hj
      rw [yafluxreg_crseadd_outside _ _ _ _ _ _ _ _ (fun hc => h hc.2.2)]
      simp only [FabArray.array]
      congr 1
      omega
    · rfl

/-- After `reset` the accumulation buffer is zero off the boundary cells. -/
theorem zeroOffBoundary_reset (r : YAFluxRegister D) : ZeroOffBoundary r.reset := by
  intro i c n _ hc hn
  have hc' : r.m_crse_data.inFab i c := hc
  have hn' : n < r.m_crse_data.n_comp := hn
  simp only [YAFluxRegister.reset, FabArray.setVal, if_pos (And.intro hc' hn')]

/-- An accumulation call keeps the accumulation buffer zero off the boundary cells. -/
theorem zeroOffBoundary_call {r : YAFluxRegister D} (h : ZeroOffBoundary r) (a : AddCall D) :
    ZeroOffBoundary (r.call a) := by
  have hs := sameButBuffers_call r a
  unfold SameButBuffers at hs
  have hflag : (r.call a).m_crse_flag = r.m_crse_flag := by rw [hs]
  have hba : (r.call a).m_crse_data.boxarray = r.m_crse_data.boxarray := by rw [hs]
  have hng : (r.call a).m_crse_data.n_grow = r.m_crse_data.n_grow := by rw [hs]
  have hnc : (r.call a).m_crse_data.n_comp = r.m_crse_data.n_comp := by rw [hs]
  intro i c n hf hc hn
  rw [hflag] at hf
  have hc' : r.m_crse_data.inFab i c := (inFab_congr hba hng i c).1 hc
  rw [hnc] at hn
  have h0 := h i c n hf hc' hn
  cases a with
  | crse mfi flux dx dt s d m =>
    show (r.CrseAdd mfi flux dx dt s d m).m_crse_data.data i c n = 0
    rw [CrseAdd_data_of_not_boundary r mfi flux dx dt s d m i c n hf, h0]
  | fine mfi flux dx dt s d m =>
    have hf2 := sameButBuffers_FineAdd r mfi flux dx dt s d m
    unfold SameButBuffers at hf2
    show (r.FineAdd mfi flux dx dt s d m).m_crse_data.data i c n = 0
    have : (r.FineAdd mfi flux dx dt s d m).m_crse_data = r.m_crse_data := by
      unfold YAFluxRegister.FineAdd
      simp only []
      split <;> rfl
    rw [this, h0]

theorem zeroOffBoundary_calls {r : YAFluxRegister D} (h : ZeroOffBoundary r)
    (l : List (AddCall D)) : ZeroOffBoundary (r.calls l) := by
  unfold YAFluxRegister.calls
  apply foldl_invariant ZeroOffBoundary
  · exact h
  · intro x a _ hx
    exact zeroOffBoundary_call hx a

/-- What two registers that differ in the contents of their buffers only have in
common. -/
theorem sameButBuffers_fields {r r' : YAFluxRegister D} (h : SameButBuffers r r') :
    r'.m_crse_flag = r.m_crse_flag ∧ r'.m_cfp_mask = r.m_cfp_mask ∧
    r'.m_crse_geom = r.m_crse_geom ∧ r'.m_cvol = r.m_cvol ∧
    r'.m_crse_data.boxarray = r.m_crse_data.boxarray ∧
    r'.m_crse_data.n_grow = r.m_crse_data.n_grow ∧
    r'.m_crse_data.n_comp = r.m_crse_data.n_comp ∧
    r'.m_cfpatch.boxarray = r.m_cfpatch.boxarray ∧
    r'.m_cfpatch.n_grow = r.m_cfpatch.n_grow ∧
    r'.m_cfpatch.n_comp = r.m_cfpatch.n_comp ∧
    r'.m_cfp_fab = r.m_cfp_fab ∧ r'.m_ratio = r.m_ratio ∧
    r'.m_crse_fab_flag = r.m_crse_fab_flag := by
  unfold SameButBuffers at h
  refine ⟨?_, ?_, ?_, ?_, ?_, ?_, ?_, ?_, ?_, ?_, ?_, ?_, ?_⟩ <;> rw [h]

/-- A cell farther than one cell from every periodic image of the coarsened fine boxes
lies in no periodic image of a patch box. -/
theorem not_inValid_cfpatch_of_far (r : YAFluxRegister D) (fba cba : BoxArray D)
    (fdm cdm : List Nat) (fgeom cgeom : Geometry D) (ref_ratio : IntVect D) (fine_lev : Int)
    (nvar : Nat) (myproc : Nat) (mem : DefineMemory D) (c iv : IntVect D)
    (hiv : iv ∈ shiftIntVect cgeom.periodicity)
    (hfar : ¬ ∃ iv ∈ shiftIntVect cgeom.periodicity, ∃ b ∈ fba.coarsen ref_ratio,
      (b.grow 1).contains (c - iv)) (k : Nat) :
    ¬ (r.define fba cba fdm cdm fgeom cgeom ref_ratio fine_lev nvar myproc
      mem).m_cfpatch.inValid k (c - iv) := by
  intro hin
  obtain ⟨b, hb, hp⟩ := (inValid_iff _ _ _).1 hin
  obtain ⟨⟨cb, hcb, hcp⟩, -⟩ := (mem_cfpatch_iff r fba cba fdm cdm fgeom cgeom ref_ratio
    fine_lev nvar myproc mem (c - iv)).1 ⟨b, List.getElem?_mem hb, hp⟩
  exact hfar ⟨iv, hiv, cb, hcb, ((contains_inter _ _ _).1 hcp).1⟩

/-- C7. No-op on non-boundary cells. Starting from `reset`, after any sequence of `CrseAdd`
and `FineAdd` calls every allocated entry of the accumulation buffer in a cell classified
`crse_cell` is zero (for every register); and for a register built by `define`, a following
`Reflux` without volume field leaves unchanged every coarse state cell that is not within
one cell of a coarsened fine box or of one of its periodic images. -/
theorem noop_on_non_boundary_cells (r0 : YAFluxRegister D) (fba cba : BoxArray D)
    (fdm cdm : List Nat) (fgeom cgeom : Geometry D) (ref_ratio : IntVect D) (fine_lev : Int)
    (nvar : Nat) (myproc : Nat) (mem : DefineMemory D) (l : List (AddCall D))
    (state : MultiFab D) (srccomp destcomp numcomp : Nat) (hvol : r0.m_cvol = none)
    (hba : state.boxarray = cba) (hcomp : srccomp + numcomp ≤ nvar) :
    (∀ (r : YAFluxRegister D) (l' : List (AddCall D)) i c n,
      (r.reset.calls l').m_crse_data.inFab i c → n < (r.reset.calls l').m_crse_data.n_comp →
      (r.reset.calls l').m_crse_flag.data i c 0 = crse_cell →
      (r.reset.calls l').m_crse_data.data i c n = 0) ∧
    (∀ i c n, state.inValid i c →
      (¬ ∃ iv ∈ shiftIntVect cgeom.periodicity, ∃ b ∈ fba.coarsen ref_ratio,
        (b.grow 1).contains (c - iv)) →
      (((r0.define fba cba fdm cdm fgeom cgeom ref_ratio fine_lev nvar myproc
          mem).reset.calls l).Reflux state srccomp destcomp numcomp).2.data i c n =
        state.data i c n) := by
  constructor
  · intro r l' i c n hc hn hflag
    apply zeroOffBoundary_calls (zeroOffBoundary_reset r) l' i c n _ hc hn
    rw [hflag]
    decide
  · intro i c n hc hfar
    have hsame := sameButBuffers_trans (sameButBuffers_reset (r0.define fba cba fdm cdm fgeom
      cgeom ref_ratio fine_lev nvar myproc mem)) (sameButBuffers_calls _ l)
    obtain ⟨f1, -, f3, f4, f5, f6, f7, f8, -, -, -, -, -⟩ := sameButBuffers_fields hsame
    have hvolN : ((r0.define fba cba fdm cdm fgeom cgeom ref_ratio fine_lev nvar myproc
        mem).reset.calls l).m_cvol = none := by rw [f4]; exact hvol
    have hbaN : state.boxarray = ((r0.define fba cba fdm cdm fgeom cgeom ref_ratio fine_lev
        nvar myproc mem).reset.calls l).m_crse_data.boxarray := by rw [f5]; exact hba
    rw [Reflux_state_novol _ state srccomp destcomp numcomp hbaN hvolN]
    split
    · next hcond =>
      have hzero : refluxCorrection ((r0.define fba cba fdm cdm fgeom cgeom ref_ratio
          fine_lev nvar myproc mem).reset.calls l) i c (n - destcomp + srccomp) = 0 := by
        obtain ⟨bx, hbx, hcx⟩ := (inValid_iff _ _ _).1 hc
        rw [hba] at hbx
        have hcg : (bx.grow 1).contains c := by
          rw [contains_grow]
          intro d
          have := hcx d
          constructor <;> omega
        unfold refluxCorrection
        have h1 : ((r0.define fba cba fdm cdm fgeom cgeom ref_ratio fine_lev nvar myproc
            mem).reset.calls l).m_crse_data.data i c (n - destcomp + srccomp) = 0 := by
          apply zeroOffBoundary_calls (zeroOffBoundary_reset _) l i c _
          · rw [f1, define_crse_flag_data r0 fba cba fdm cdm fgeom cgeom ref_ratio fine_lev
              nvar myproc mem i c bx hbx hcg]
            have e1 : ¬ imageInBoxes (shiftIntVect cgeom.periodicity)
                (fba.coarsen ref_ratio) 1 c := hfar
            have e0 : ¬ imageInBoxes (shiftIntVect cgeom.periodicity)
                (fba.coarsen ref_ratio) 0 c := by
              rintro ⟨iv, hiv, b, hb, hbc⟩
              apply hfar
              refine ⟨iv, hiv, b, hb, ?_⟩
              rw [contains_grow] at hbc ⊢
              intro d
              have := hbc d
              constructor <;> omega
            rw [if_neg e0, if_neg e1]
            decide
          · rw [inFab_iff, f5, f6]
            refine ⟨bx, hbx, ?_⟩
            exact (contains_grow_zero _ _).2 hcx
          · rw [f7]
            show n - destcomp + srccomp < nvar
            omega
        rw [h1, zero_add]
        unfold patchImageSum
        apply List.sum_eq_zero
        intro x hx
        obtain ⟨k, -, rfl⟩ := List.mem_map.1 hx
        apply List.sum_eq_zero
        intro y hy
        obtain ⟨iv, hiv, rfl⟩ := List.mem_map.1 hy
        rw [f3] at hiv
        rw [if_neg]
        intro hin
        apply not_inValid_cfpatch_of_far r0 fba cba fdm cdm fgeom cgeom ref_ratio fine_lev
          nvar myproc mem c iv hiv hfar k
        simpa [FabArray.inValid, f8] using hin
      rw [hzero, add_zero]
    · rfl

end NoOp

section Suppression

variable {D : Nat}

/-- The vectors built over a list of distinct directions from duplicate-free options are
distinct. -/
theorem nodup_vectorsWith_fold (opts : Fin D → List Int) (l : List (Fin D)) (hl : l.Nodup)
    (hopts : ∀ d, (opts d).Nodup) :
    (l.foldr
      (fun d acc => acc.flatMap fun w => (opts d).map fun x => Function.update w d x)
      [fun _ => 0]).Nodup := by
  induction l with
  | nil => simp
  | cons i rest ih =>
    have hi : i ∉ rest := (List.nodup_cons.1 hl).1
    have hrest : rest.Nodup := (List.nodup_cons.1 hl).2
    rw [List.foldr_cons, List.nodup_flatMap]
    constructor
    · intro w _
      apply List.Nodup.map _ (hopts i)
      intro x y hxy
      have := congrFun hxy i
      simpa using this
    · apply List.Nodup.pairwise_of_forall_ne (ih hrest)
      intro w hw w' hw' hne
      simp only [Function.onFun]
      intro a ha ha'
      apply hne
      obtain ⟨x, -, rfl⟩ := List.mem_map.1 ha
      obtain ⟨x', -, hx'⟩ := List.mem_map.1 ha'
      have hw0 := ((mem_vectorsWith_fold opts rest hrest w).1 hw).2 i hi
      have hw0' := ((mem_vectorsWith_fold opts rest hrest w').1 hw').2 i hi
      funext d
      by_cases hd : d = i
      · subst hd; rw [hw0, hw0']
      · have := congrFun hx' d
        simp only [Function.update_noteq hd] at this
        exact this.symm

theorem nodup_shiftOptions (p : Int) : (shiftOptions p).Nodup := by
  unfold shiftOptions
  by_cases h1 : 0 < p
  · rw [if_pos h1]
    simp only [List.nodup_cons, List.mem_cons, List.mem_singleton, List.not_mem_nil,
      not_false_eq_true, List.nodup_nil, and_true, not_or]
    refine ⟨⟨?_, ?_⟩, ?_⟩ <;> omega
  · rw [if_neg h1]
    split <;> simp

/-- The periodic shifts are distinct. -/
theorem nodup_shiftIntVect (period : IntVect D) : (shiftIntVect period).Nodup := by
  unfold shiftIntVect vectorsWith
  exact nodup_vectorsWith_fold _ _ (List.nodup_finRange D) (fun d => nodup_shiftOptions _)

/-- A sum over a duplicate-free list whose terms vanish except at `a`. -/
theorem sum_map_single_of_nodup {α : Type} [DecidableEq α] (l : List α) (hl : l.Nodup)
    (a : α) (g : α → Real) (hg : ∀ x ∈ l, x ≠ a → g x = 0) :
    (l.map g).sum = if a ∈ l then g a else 0 := by
  induction l with
  | nil => simp
  | cons b t ih =>
    have hb : b ∉ t := (List.nodup_cons.1 hl).1
    have ih2 := ih (List.nodup_cons.1 hl).2 (fun x hx => hg x (List.mem_cons_of_mem _ hx))
    rw [List.map_cons, List.sum_cons, ih2]
    by_cases hab : b = a
    · subst hab
      simp [hb]
    · have h1 : g b = 0 := hg b (List.mem_cons_self _ _) hab
      have h2 : (a ∈ b :: t) ↔ a ∈ t := by
        simp only [List.mem_cons]
        constructor
        · rintro (h | h)
          · exact absurd h.symm hab
          · exact h
        · exact Or.inr
      rw [h1, zero_add]
      by_cases h : a ∈ t
      · rw [if_pos h, if_pos (h2.2 h)]
      · rw [if_neg h, if_neg (fun h' => h (h2.1 h'))]

/-- Every cell of the domain grown in the periodic directions is moved into the domain by
exactly one periodic shift. -/
theorem exists_unique_shift (cgeom : Geometry D) (hok : cgeom.domain.ok) (p : IntVect D)
    (hp : (periodicGrownDomain cgeom).contains p) :
    ∃ iv ∈ shiftIntVect cgeom.periodicity, cgeom.domain.contains (p + iv) ∧
      ∀ iv' ∈ shiftIntVect cgeom.periodicity, cgeom.domain.contains (p + iv') → iv' = iv := by
  refine ⟨fun d => if p d < cgeom.domain.smallend d then cgeom.domain.length d
    else if cgeom.domain.bigend d < p d then - cgeom.domain.length d else 0, ?_, ?_, ?_⟩
  · rw [mem_shiftIntVect]
    intro d
    rw [mem_shiftOptions]
    have h1 := hp d
    have h2 := hok d
    simp only [periodicGrownDomain] at h1
    simp only [Geometry.periodicity, Box.length]
    by_cases hper : cgeom.is_periodic d = true
    · simp only [hper, if_true] at h1 ⊢
      split_ifs <;> omega
    · simp only [hper] at h1 ⊢
      simp only [Bool.false_eq_true, if_false, sub_zero, add_zero] at h1 ⊢
      split_ifs <;> omega
  · intro d
    have h1 := hp d
    have h2 := hok d
    simp only [periodicGrownDomain] at h1
    simp only [Pi.add_apply, Box.length]
    by_cases hper : cgeom.is_periodic d = true
    · simp only [hper, if_true] at h1
      split_ifs <;> omega
    · simp only [hper] at h1
      simp only [Bool.false_eq_true, if_false, sub_zero, add_zero] at h1
      split_ifs <;> omega
  · intro iv' hiv' hc
    funext d
    have h1 := hp d
    have h2 := hok d
    have h3 := hc d
    have h4 := (mem_shiftOptions _ _).1 ((mem_shiftIntVect _ _).1 hiv' d)
    simp only [periodicGrownDomain] at h1
    simp only [Pi.add_apply] at h3
    simp only [Geometry.periodicity, Box.length] at h4
    simp only [Box.length]
    by_cases hper : cgeom.is_periodic d = true
    · simp only [hper, if_true] at h1 h4
      split_ifs <;> omega
    · simp only [hper] at h1 h4
      simp only [Bool.false_eq_true, if_false, sub_zero, add_zero] at h1 h4
      split_ifs <;> omega

/-- In a list of pairwise disjoint boxes a cell lies in the box of one index at most. -/
theorem index_unique_of_disjoint (cba : BoxArray D)
    (hdisj : cba.Pairwise fun a b => ∀ p, ¬ (a.contains p ∧ b.contains p)) (i j : Nat)
    (b b' : Box D) (hi : cba[i]? = some b) (hj : cba[j]? = some b') (c : IntVect D)
    (h1 : b.contains c) (h2 : b'.contains c) : i = j := by
  have hil : i < cba.length := by
    by_contra hlt
    rw [List.getElem?_eq_none (by omega)] at hi
    exact Option.noConfusion hi
  have hjl : j < cba.length := by
    by_contra hlt
    rw [List.getElem?_eq_none (by omega)] at hj
    exact Option.noConfusion hj
  rw [List.getElem?_eq_getElem hil] at hi
  rw [List.getElem?_eq_getElem hjl] at hj
  cases hi
  cases hj
  rw [List.pairwise_iff_getElem] at hdisj
  rcases Nat.lt_trichotomy i j with h | h | h
  · exact absurd ⟨h1, h2⟩ (hdisj i j hil hjl h c)
  · exact h
  · exact absurd ⟨h2, h1⟩ (hdisj j i hjl hil h c)

/-- The mask loop of one fab keeps the layout of the mask. -/
theorem maskLoop_boxarray (cfba : BoxArray D) (pshifts : List (IntVect D)) (m : MultiFab D)
    (k0 : Nat) (bx : Box D) : (maskLoop cfba pshifts m k0 bx).boxarray = m.boxarray := by
  unfold maskLoop
  apply foldl_invariant (fun x : MultiFab D => x.boxarray = m.boxarray)
  · rfl
  · intro x iv _ hx
    split
    · apply foldl_invariant (fun y : MultiFab D => y.boxarray = m.boxarray)
      · exact hx
      · intro y is _ hy
        exact hy
    · exact hx

/-- On a periodic geometry the mask that `define` builds lives on the patch boxes. -/
theorem define_mask_boxarray (r : YAFluxRegister D) (fba cba : BoxArray D)
    (fdm cdm : List Nat) (fgeom cgeom : Geometry D) (ref_ratio : IntVect D) (fine_lev : Int)
    (nvar : Nat) (myproc : Nat) (mem : DefineMemory D) (hper : fgeom.isAnyPeriodic = true) :
    (r.define fba cba fdm cdm fgeom cgeom ref_ratio fine_lev nvar myproc
        mem).m_cfp_mask.boxarray =
      (r.define fba cba fdm cdm fgeom cgeom ref_ratio fine_lev nvar myproc
        mem).m_cfpatch.boxarray := by
  unfold YAFluxRegister.define
  simp only [if_pos hper]
  apply foldl_invariant (fun x : MultiFab D => x.boxarray = _)
  · rfl
  · intro x k _ hx
    split
    · split
      · rw [maskLoop_boxarray]; exact hx
      · exact hx
    · exact hx

/-- The drained sum of a patch buffer that holds `v` in one entry: the value times the mask
at the cells that a periodic shift reaches from the patch cell, zero elsewhere. -/
theorem patchImageSum_unit (r : YAFluxRegister D) (acc : Nat → IntVect D → Nat → Real)
    (k0 : Nat) (p0 : IntVect D) (n0 : Nat) (v : Real) (hp0 : r.m_cfpatch.inValid k0 p0)
    (c : IntVect D) (n : Nat) :
    patchImageSum (r.withBuffers acc (unitAt k0 p0 n0 v))
        (fun k p => maskedValue (r.withBuffers acc (unitAt k0 p0 n0 v)) k p n) c =
      if c - p0 ∈ shiftIntVect r.m_crse_geom.periodicity ∧ n = n0 then
        v * (if r.m_cfp_mask.empty then 1 else r.m_cfp_mask.data k0 p0 0)
      else 0 := by
  have hlt : k0 < r.m_cfpatch.boxarray.length := by
    obtain ⟨b, hb, -⟩ := (inValid_iff _ _ _).1 hp0
    by_contra hlt
    rw [List.getElem?_eq_none (by omega)] at hb
    exact Option.noConfusion hb
  unfold patchImageSum
  show ((List.range r.m_cfpatch.boxarray.length).map fun k =>
    ((shiftIntVect r.m_crse_geom.periodicity).map fun iv =>
      if r.m_cfpatch.inValid k (c - iv) then
        unitAt k0 p0 n0 v k (c - iv) n *
          (if r.m_cfp_mask.empty then 1 else r.m_cfp_mask.data k (c - iv) 0)
      else 0).sum).sum = _
  rw [sum_range_single _ k0, if_pos hlt]
  · rw [sum_map_single_of_nodup _ (nodup_shiftIntVect _) (c - p0)]
    · have hsub : c - (c - p0) = p0 := sub_sub_cancel c p0
      rw [hsub, if_pos hp0]
      by_cases hmem : c - p0 ∈ shiftIntVect r.m_crse_geom.periodicity
      · by_cases hn : n = n0
        · subst hn
          simp [unitAt, hmem]
        · simp [unitAt, hmem, hn]
      · simp [hmem]
    · intro iv _ hne
      have : c - iv ≠ p0 := by
        intro h
        apply hne
        rw [← h]
        exact (sub_sub_cancel c iv).symm
      simp [unitAt, this]
  · intro k hk
    apply List.sum_eq_zero
    intro x hx
    obtain ⟨iv, -, rfl⟩ := List.mem_map.1 hx
    simp [unitAt, hk]

/-- C6. Periodic duplicate suppression. On a periodic geometry whose coarse boxes are
pairwise disjoint and cover the domain (the coarsened fine boxes may lie anywhere), when the
patch buffer holds a value `v` in one component of one patch cell and zero
elsewhere, the drain of `Reflux` adds `v` times the mask of that cell, which is 0 or 1, into
one coarse accumulation cell, the image of the patch cell under a periodic shift, and
nothing into any other; the mask is 0 when that coarse cell lies in a coarsened fine box; and
the coarse state receives the same single correction (on top of what the accumulation buffer
held), so a unit contribution with mask 1 gives one unit of correction, not two. -/
theorem periodic_duplicate_suppression (r0 : YAFluxRegister D) (fba cba : BoxArray D)
    (fdm cdm : List Nat) (fgeom cgeom : Geometry D) (ref_ratio : IntVect D) (fine_lev : Int)
    (nvar : Nat) (myproc : Nat) (mem : DefineMemory D)
    (hper : fgeom.isAnyPeriodic = true) (hok : cgeom.domain.ok)
    (hcover : ∀ c, cgeom.domain.contains c ↔ ∃ b ∈ cba, b.contains c)
    (hdisj : cba.Pairwise fun a b => ∀ p, ¬ (a.contains p ∧ b.contains p))
    (hvol : r0.m_cvol = none)
    (k0 : Nat) (p0 : IntVect D) (n0 : Nat)
    (hp0 : (r0.define fba cba fdm cdm fgeom cgeom ref_ratio fine_lev nvar myproc
      mem).m_cfpatch.inValid k0 p0)
    (acc : Nat → IntVect D → Nat → Real) (v : Real) (state : MultiFab D)
    (hba : state.boxarray = cba) :
    ((r0.define fba cba fdm cdm fgeom cgeom ref_ratio fine_lev nvar myproc
        mem).m_cfp_mask.data k0 p0 0 = 0 ∨
      (r0.define fba cba fdm cdm fgeom cgeom ref_ratio fine_lev nvar myproc
        mem).m_cfp_mask.data k0 p0 0 = 1) ∧
    ∃ i0 c0, state.inValid i0 c0 ∧
      (∃ iv ∈ shiftIntVect cgeom.periodicity, c0 = p0 + iv) ∧
      ((∃ b ∈ fba.coarsen ref_ratio, b.contains c0) →
        (r0.define fba cba fdm cdm fgeom cgeom ref_ratio fine_lev nvar myproc
          mem).m_cfp_mask.data k0 p0 0 = 0) ∧
      ∀ i c n, state.inValid i c → n < nvar →
        ((((r0.define fba cba fdm cdm fgeom cgeom ref_ratio fine_lev nvar myproc
            mem).withBuffers acc (unitAt k0 p0 n0 v)).Reflux state 0 0
            nvar).1.m_crse_data.data i c n =
          acc i c n + (if i = i0 ∧ c = c0 ∧ n = n0 then
            v * (r0.define fba cba fdm cdm fgeom cgeom ref_ratio fine_lev nvar myproc
              mem).m_cfp_mask.data k0 p0 0 else 0)) ∧
        ((((r0.define fba cba fdm cdm fgeom cgeom ref_ratio fine_lev nvar myproc
            mem).withBuffers acc (unitAt k0 p0 n0 v)).Reflux state 0 0 nvar).2.data i c n =
          state.data i c n + (acc i c n + (if i = i0 ∧ c = c0 ∧ n = n0 then
            v * (r0.define fba cba fdm cdm fgeom cgeom ref_ratio fine_lev nvar myproc
              mem).m_cfp_mask.data k0 p0 0 else 0))) := by
  obtain ⟨bx, hbx, hpbx⟩ := (inValid_iff _ _ _).1 hp0
  obtain ⟨hm0, hm1⟩ := define_mask_data r0 fba cba fdm cdm fgeom cgeom ref_ratio fine_lev nvar
    myproc mem hper k0 p0 bx hbx hpbx
  have hring := (mem_cfpatch_iff r0 fba cba fdm cdm fgeom cgeom ref_ratio fine_lev nvar myproc
    mem p0).1 ⟨bx, List.getElem?_mem hbx, hpbx⟩
  obtain ⟨⟨cb, -, hcb⟩, hnotfine⟩ := hring
  have hpD : (periodicGrownDomain cgeom).contains p0 := ((contains_inter _ _ _).1 hcb).2
  obtain ⟨iv0, hiv0, hdom0, huniq⟩ := exists_unique_shift cgeom hok p0 hpD
  obtain ⟨b0, hb0, hb0c⟩ := (hcover (p0 + iv0)).1 hdom0
  obtain ⟨i0, hi0⟩ := List.mem_iff_getElem?.1 hb0
  have hmaskne : (r0.define fba cba fdm cdm fgeom cgeom ref_ratio fine_lev nvar myproc
      mem).m_cfp_mask.empty = false := by
    unfold FabArray.empty
    rw [define_mask_boxarray r0 fba cba fdm cdm fgeom cgeom ref_ratio fine_lev nvar myproc mem
      hper]
    cases hl : (r0.define fba cba fdm cdm fgeom cgeom ref_ratio fine_lev nvar myproc
      mem).m_cfpatch.boxarray with
    | nil => rw [hl] at hbx; simp at hbx
    | cons a t => rfl
  constructor
  · by_cases hz : (¬ cgeom.domain.containsBox bx ∧ ∃ iv ∈ shiftIntVect cgeom.periodicity,
        iv ≠ 0 ∧ ∃ b ∈ fba.coarsen ref_ratio, b.contains (p0 + iv))
    · exact Or.inl (hm0 hz)
    · exact Or.inr (hm1 hz)
  · refine ⟨i0, p0 + iv0, ?_, ⟨iv0, hiv0, rfl⟩, ?_, ?_⟩
    · rw [inValid_iff, hba]
      exact ⟨b0, hi0, hb0c⟩
    · rintro ⟨b, hb, hbc⟩
      apply hm0
      have hne : iv0 ≠ 0 := by
        intro h0
        apply hnotfine b hb
        rw [h0, add_zero] at hbc
        exact hbc
      refine ⟨?_, iv0, hiv0, hne, b, hb, hbc⟩
      intro hcont
      have hpdom : cgeom.domain.contains p0 := by
        intro d
        have := hcont d
        have := hpbx d
        constructor <;> omega
      exact shifted_cell_outside cgeom iv0 hiv0 hne p0 hpdom hdom0
    · intro i c n hc hn
      obtain ⟨bc, hbc, hcc⟩ := (inValid_iff _ _ _).1 hc
      rw [hba] at hbc
      have hcond : (c - p0 ∈ shiftIntVect cgeom.periodicity ∧ n = n0) ↔
          (i = i0 ∧ c = p0 + iv0 ∧ n = n0) := by
        constructor
        · rintro ⟨hmem, hnn⟩
          have hcd : cgeom.domain.contains (p0 + (c - p0)) := by
            rw [add_sub_cancel]
            exact (hcover c).2 ⟨bc, List.getElem?_mem hbc, hcc⟩
          have he := huniq (c - p0) hmem hcd
          have hceq : c = p0 + iv0 := by rw [← he, add_sub_cancel]
          refine ⟨?_, hceq, hnn⟩
          rw [hceq] at hcc
          exact index_unique_of_disjoint cba hdisj i i0 bc b0 hbc hi0 (p0 + iv0) hcc hb0c
        · rintro ⟨-, hceq, hnn⟩
          refine ⟨?_, hnn⟩
          rw [hceq, add_sub_cancel_left]
          exact hiv0
      have hsum := patchImageSum_unit (r0.define fba cba fdm cdm fgeom cgeom ref_ratio fine_lev
        nvar myproc mem) acc k0 p0 n0 v hp0 c n
      have hgeom : (r0.define fba cba fdm cdm fgeom cgeom ref_ratio fine_lev nvar myproc
          mem).m_crse_geom = cgeom := rfl
      rw [hmaskne, hgeom] at hsum
      simp only [Bool.false_eq_true, if_false] at hsum
      have hcorr : refluxCorrection ((r0.define fba cba fdm cdm fgeom cgeom ref_ratio fine_lev
          nvar myproc mem).withBuffers acc (unitAt k0 p0 n0 v)) i c n =
          acc i c n + (if i = i0 ∧ c = p0 + iv0 ∧ n = n0 then
            v * (r0.define fba cba fdm cdm fgeom cgeom ref_ratio fine_lev nvar myproc
              mem).m_cfp_mask.data k0 p0 0 else 0) := by
        unfold refluxCorrection
        rw [hsum]
        congr 1
        by_cases h : i = i0 ∧ c = p0 + iv0 ∧ n = n0
        · rw [if_pos h, if_pos (hcond.2 h)]
        · rw [if_neg h, if_neg (fun h' => h (hcond.1 h'))]
      constructor
      · have hcv : ((r0.define fba cba fdm cdm fgeom cgeom ref_ratio fine_lev nvar myproc
            mem).withBuffers acc (unitAt k0 p0 n0 v)).m_crse_data.inValid i c := by
          rw [inValid_iff]
          exact ⟨bc, hbc, hcc⟩
        have key := Reflux_crse_data _ state 0 0 nvar i c n hcv hn
        rw [Nat.zero_add] at key
        rw [key, hcorr]
      · have hbaU : state.boxarray = ((r0.define fba cba fdm cdm fgeom cgeom ref_ratio
            fine_lev nvar myproc mem).withBuffers acc (unitAt k0 p0 n0 v)).m_crse_data.boxarray :=
          hba
        have hvolU : ((r0.define fba cba fdm cdm fgeom cgeom ref_ratio fine_lev nvar myproc
            mem).withBuffers acc (unitAt k0 p0 n0 v)).m_cvol = none := hvol
        rw [Reflux_state_novol _ state 0 0 nvar hbaU hvolU,
          if_pos ⟨hc, Nat.zero_le _, by omega⟩]
        simp only [Nat.sub_zero, Nat.add_zero]
        rw [hcorr]

end Suppression

section Conservation

variable {D : Nat}

theorem coarsenIndex_eq_ediv (i r : Int) (hr : 0 < r) : Box.coarsenIndex i r = i / r := by
  unfold Box.coarsenIndex
  split_ifs with h
  · have h1 : (0:Int) ≤ |i + 1| := abs_nonneg _
    rw [Int.tdiv_eq_ediv h1 hr.le]
    have habs : |i + 1| = -i - 1 := by rw [abs_of_nonpos (by omega)]; ring
    rw [habs]
    have e1 := Int.ediv_add_emod (-i - 1) r
    have e2 := Int.emod_nonneg (-i - 1) hr.ne'
    have e3 := Int.emod_lt_of_pos (-i - 1) hr
    symm
    have := (Int.ediv_emod_unique (a := i) (r := r - 1 - (-i - 1) % r)
      (q := -((-i - 1) / r) - 1) hr).2 ⟨by linarith [mul_comm r ((-i - 1) / r)], by omega, by omega⟩
    exact this.1
  · exact Int.tdiv_eq_ediv (by omega) hr.le

theorem coarsenIndex_mul (a r : Int) (hr : 1 ≤ r) : Box.coarsenIndex (a * r) r = a := by
  have hr0 : 0 < r := by omega
  rw [coarsenIndex_eq_ediv _ _ hr0]
  exact Int.mul_ediv_cancel a hr0.ne'

theorem coarsenIndex_mul_pred (b r : Int) (hr : 1 ≤ r) :
    Box.coarsenIndex ((b + 1) * r - 1) r = b := by
  have hr0 : 0 < r := by omega
  rw [coarsenIndex_eq_ediv _ _ hr0]
  have := (Int.ediv_emod_unique (a := (b + 1) * r - 1) (r := r - 1) (q := b) hr0).2
    ⟨by ring, by omega, by omega⟩
  exact this.1

theorem coarsen_refine (b : Box D) (ratio : IntVect D) (hr : ∀ d, 1 ≤ ratio d) :
    (b.refine ratio).coarsen ratio = b := by
  cases b with
  | mk lo hi =>
    simp only [Box.refine, Box.coarsen, coarsenIndex_mul _ _ (hr _),
      coarsenIndex_mul_pred _ _ (hr _)]

theorem periodicity_of_not_periodic (g : Geometry D) (h : ∀ d, g.is_periodic d = false) :
    g.periodicity = fun _ => 0 := by
  funext d; simp [Geometry.periodicity, h d]

theorem mem_shiftIntVect_zero (v : IntVect D) :
    v ∈ shiftIntVect (fun _ : Fin D => (0 : Int)) ↔ v = fun _ => 0 := by
  rw [mem_shiftIntVect]
  constructor
  · intro h; funext d
    have := (mem_shiftOptions _ _).1 (h d)
    omega
  · rintro rfl d
    exact (mem_shiftOptions _ _).2 (Or.inl ⟨rfl, le_refl _⟩)

theorem sum_shiftIntVect_zero (g : IntVect D → Real) :
    ((shiftIntVect (fun _ : Fin D => (0 : Int))).map g).sum = g (fun _ => 0) := by
  have h : ∀ l : List (IntVect D), l.Nodup → (∀ v, v ∈ l ↔ v = fun _ => 0) →
      l = [fun _ => 0] := by
    intro l hl hm
    match l, hl, hm with
    | [], _, hm => exact absurd ((hm _).2 rfl) (List.not_mem_nil _)
    | [a], _, hm => rw [(hm a).1 (List.mem_singleton.2 rfl)]
    | a :: b :: t, hl, hm =>
      have ha := (hm a).1 (by simp)
      have hb := (hm b).1 (by simp)
      rw [List.nodup_cons] at hl
      exact absurd (by rw [ha, hb]; simp) hl.1
  rw [h _ (nodup_shiftIntVect _) mem_shiftIntVect_zero]
  simp

theorem periodicGrownDomain_of_not_periodic (g : Geometry D)
    (h : ∀ d, g.is_periodic d = false) : periodicGrownDomain g = g.domain := by
  cases g with
  | mk dom per =>
    simp only [periodicGrownDomain] at *
    cases dom with
    | mk lo hi => simp [h]

theorem imageInBoxes_zero (b : Box D) (ng : Int) (c : IntVect D) :
    imageInBoxes (shiftIntVect (fun _ : Fin D => (0 : Int))) [b] ng c ↔
      (b.grow ng).contains c := by
  unfold imageInBoxes
  have hz : c - (fun _ : Fin D => (0 : Int)) = c := by funext d; simp
  constructor
  · rintro ⟨iv, hiv, b', hb', h⟩
    rw [mem_shiftIntVect_zero] at hiv
    subst hiv
    simp only [List.mem_singleton] at hb'
    subst hb'
    rwa [hz] at h
  · intro h
    exact ⟨fun _ => 0, (mem_shiftIntVect_zero _).2 rfl, b, List.mem_singleton.2 rfl, by rwa [hz]⟩

theorem pushAt_enumFrom (l : List Nat) (f : Nat → Nat) (hf : ∀ i, f i = 0) (n : Nat)
    (acc : List Nat) :
    (l.enumFrom n).foldl (fun fabs x => pushAt fabs (f x.1) x.2) [acc] = [acc ++ l] := by
  induction l generalizing n acc with
  | nil => simp
  | cons a l ih =>
    simp only [List.enumFrom_cons, List.foldl_cons]
    rw [hf]
    simp only [pushAt]
    rw [ih]; simp

theorem localIndices_replicate (m myproc : Nat) :
    localIndices (List.replicate m myproc) myproc = List.range m := by
  unfold localIndices
  rw [List.length_replicate, List.filter_eq_self]
  intro g hg
  rw [List.mem_range] at hg
  simp [List.getElem?_replicate, hg]

theorem ringLoop_single (b cdomain : Box D) (myproc : Nat) :
    ringLoop [b] cdomain [myproc] myproc [] =
      ⟨ringBoxes [b] cdomain 0, List.replicate (ringBoxes [b] cdomain 0).length myproc,
        List.replicate (ringBoxes [b] cdomain 0).length 0, 1⟩ := by
  simp [ringLoop, ringStep, List.range_succ]

theorem seamRegister_cfpatch_boxarray (sub cb : Box D) (ratio : IntVect D)
    (fgeom cgeom : Geometry D) (lev : Int) (nvar myproc : Nat) (mem : DefineMemory D)
    (hr : ∀ d, 1 ≤ ratio d) :
    (seamRegister sub cb ratio fgeom cgeom lev nvar myproc mem).m_cfpatch.boxarray =
      ringBoxes [sub] (grownDomain cgeom) 0 := by
  have h1 : (YAFluxRegister.default D).m_cfp_localindex = [] := rfl
  simp only [seamRegister, YAFluxRegister.construct, YAFluxRegister.define, FabArray.define,
    BoxArray.coarsen, BoxArray.uniqify, List.map_cons, List.map_nil, coarsen_refine _ _ hr,
    h1, ringLoop_single]

theorem seamRegister_cfp_fab (sub cb : Box D) (ratio : IntVect D)
    (fgeom cgeom : Geometry D) (lev : Int) (nvar myproc : Nat) (mem : DefineMemory D)
    (hr : ∀ d, 1 ≤ ratio d) :
    (seamRegister sub cb ratio fgeom cgeom lev nvar myproc mem).m_cfp_fab =
      [List.range (ringBoxes [sub] (grownDomain cgeom) 0).length] := by
  have h1 : (YAFluxRegister.default D).m_cfp_localindex = [] := rfl
  have h2 : (YAFluxRegister.default D).m_cfp_fab = [] := rfl
  have h3 : resize ([] : List (List Nat)) 1 [] = [[]] := rfl
  simp only [seamRegister, YAFluxRegister.construct, YAFluxRegister.define, FabArray.define,
    BoxArray.coarsen, BoxArray.uniqify, List.map_cons, List.map_nil, coarsen_refine _ _ hr,
    h1, h2, h3, ringLoop_single, localIndices_replicate, List.enum]
  have h := pushAt_enumFrom (List.range (ringBoxes [sub] (grownDomain cgeom) 0).length)
    (fun i => (List.replicate (ringBoxes [sub] (grownDomain cgeom) 0).length 0).getD i 0)
    (fun i => by
      simp only [List.getD_eq_getElem?_getD, List.getElem?_replicate]
      split_ifs <;> rfl) 0 []
  rw [List.nil_append] at h
  exact h

theorem crseadd_fold (l : List (Fin D)) (P Q : Fin D → Prop) [DecidablePred P]
    [DecidablePred Q] (x y : Fin D → Real) (init : Real) :
    l.foldl (fun acc idim =>
        let acc1 := if P idim then acc - x idim else acc
        if Q idim then acc1 + y idim else acc1) init =
      init + (l.map fun d => (if Q d then y d else 0) - (if P d then x d else 0)).sum := by
  induction l generalizing init with
  | nil => simp
  | cons a l ih =>
    simp only [List.foldl_cons, List.map_cons, List.sum_cons]
    rw [ih]
    split_ifs <;> ring

theorem fineadd_fold {α : Type} (l : List α) (c : Prop) [Decidable c] (dtdx : Real)
    (g h : α → Real) (init : Real) :
    l.foldl (fun acc off => if c then acc - dtdx * g off else acc + dtdx * h off) init =
      init + (if c then - (dtdx * (l.map g).sum) else dtdx * (l.map h).sum) := by
  induction l generalizing init with
  | nil => simp
  | cons a l ih =>
    simp only [List.foldl_cons, List.map_cons, List.sum_cons]
    rw [ih]
    split_ifs <;> ring

theorem yafluxreg_crseadd_eq (bx : Box D) (d : IntVect D → Nat → Real) (flag : IntVect D → Int)
    (f : Fin D → IntVect D → Nat → Real) (dtdx : Fin D → Real) (nc : Nat) (p : IntVect D)
    (n : Nat) :
    yafluxreg_crseadd bx d flag f dtdx nc p n =
      d p n + (if bx.contains p ∧ n < nc ∧ flag p = crse_fine_boundary_cell then
        ((List.finRange D).map fun idim =>
          (if flag (p + IntVect.basis idim) = fine_cell then
              dtdx idim * f idim (p + IntVect.basis idim) n else 0) -
          (if flag (p - IntVect.basis idim) = fine_cell then dtdx idim * f idim p n
            else 0)).sum
        else 0) := by
  unfold yafluxreg_crseadd
  split_ifs with h
  · exact crseadd_fold _ _ _ _ _ _
  · simp

theorem yafluxreg_fineadd_eq (bx : Box D) (d f : IntVect D → Nat → Real) (dtdx : Real)
    (nc : Nat) (idim : Fin D) (side : Nat) (hside : side < 2) (rr p : IntVect D) (n : Nat) :
    yafluxreg_fineadd bx d f dtdx nc (idim.val * 2 + side) rr p n =
      d p n + (if bx.contains p ∧ n < nc then
        (if side = 0 then
          - (dtdx * ((childOffsets rr idim).map fun off => f (childFace rr idim 0 p off) n).sum)
        else dtdx * ((childOffsets rr idim).map fun off => f (childFace rr idim 1 p off) n).sum)
        else 0) := by
  unfold yafluxreg_fineadd
  have h : (idim.val * 2 + side) / 2 < D := by have := idim.isLt; omega
  rw [dif_pos h]
  have e : (⟨(idim.val * 2 + side) / 2, h⟩ : Fin D) = idim := Fin.ext (by simp; omega)
  have e2 : ((idim.val * 2 + side) % 2 = 0) ↔ side = 0 := by omega
  rw [e]
  simp only [e2]
  split_ifs with h1 h2
  · have := fineadd_fold (childOffsets rr idim) True dtdx
      (fun off => f (childFace rr idim 0 p off) n) (fun _ => 0) (d p n)
    simpa only [if_true] using this
  · have := fineadd_fold (childOffsets rr idim) False dtdx (fun _ => 0)
      (fun off => f (childFace rr idim 1 p off) n) (d p n)
    simpa only [if_false] using this
  · simp

theorem fineAddSide_boxarray (cfp : MultiFab D) (k : Nat) (adj : Box D) (f : FArrayBox D)
    (fluxcomp destcomp numcomp : Nat) (dtdxs : Real) (dirside : Nat) (rr : IntVect D) :
    (YAFluxRegister.fineAddSide cfp k adj f fluxcomp destcomp numcomp dtdxs dirside rr).boxarray
      = cfp.boxarray :=
  (fineAddSide_changesOnly cfp k adj f fluxcomp destcomp numcomp dtdxs dirside rr).1

theorem fineAddSide_data (cfp : MultiFab D) (k : Nat) (adj : Box D) (f : FArrayBox D)
    (nc : Nat) (dtdxs : Real) (idim : Fin D) (side : Nat) (hside : side < 2) (rr : IntVect D)
    (j : Nat) (p : IntVect D) (n : Nat) :
    (YAFluxRegister.fineAddSide cfp k adj f 0 0 nc dtdxs (idim.val * 2 + side) rr).data j p n =
      cfp.data j p n +
        (if j = k ∧ (∃ b, cfp.boxarray[k]? = some b ∧ b.contains p) ∧ adj.contains p ∧ n < nc
          then
          (if side = 0 then - fineTerm rr f dtdxs idim 0 p n else fineTerm rr f dtdxs idim 1 p n)
        else 0) := by
  unfold YAFluxRegister.fineAddSide
  cases hb : cfp.boxarray[k]? with
  | none => simp
  | some cfpbox =>
    simp only [Option.some.injEq, exists_eq_left']
    split
    · simp only [FabArray.withArray, Nat.zero_le, and_true, Nat.sub_zero]
      by_cases hj : j = k
      · subst hj
        rw [if_pos rfl, yafluxreg_fineadd_eq _ _ _ _ _ _ _ hside]
        simp only [contains_inter, FabArray.array, FArrayBox.const_array, Nat.zero_add,
          true_and, fineTerm]
        congr 1
        by_cases h1 : cfpbox.contains p <;> by_cases h2 : adj.contains p <;>
          by_cases h3 : n < nc <;> simp [h1, h2, h3]
      · simp [hj]
    · rename_i hok
      have : ¬ (cfpbox.contains p ∧ adj.contains p) := fun h =>
        hok (ok_of_contains _ p ((contains_inter _ _ _).2 ⟨h.2, h.1⟩))
      rw [if_neg (fun h => this ⟨h.2.1, h.2.2.1⟩), add_zero]

theorem foldl_data_add {α : Type} (l : List α) (f : MultiFab D → α → MultiFab D)
    (ba : BoxArray D) (term : α → Nat → IntVect D → Nat → Real)
    (hstep : ∀ x a, a ∈ l → x.boxarray = ba →
      (f x a).boxarray = ba ∧ ∀ j p n, (f x a).data j p n = x.data j p n + term a j p n)
    (x0 : MultiFab D) (h0 : x0.boxarray = ba) :
    (l.foldl f x0).boxarray = ba ∧
      ∀ j p n, (l.foldl f x0).data j p n =
        x0.data j p n + (l.map fun a => term a j p n).sum := by
  induction l generalizing x0 with
  | nil => exact ⟨h0, fun j p n => by simp⟩
  | cons a l ih =>
    obtain ⟨hb, hd⟩ := hstep x0 a (List.mem_cons_self _ _) h0
    obtain ⟨hb2, hd2⟩ := ih (fun x b hb hx => hstep x b (List.mem_cons_of_mem _ hb) hx)
      (f x0 a) hb
    refine ⟨hb2, fun j p n => ?_⟩
    simp only [List.foldl_cons, List.map_cons, List.sum_cons]
    rw [hd2, hd]; ring

theorem FineAdd_patch_data (r : YAFluxRegister D) (mfi : MFIter D)
    (flux : Fin D → FArrayBox D) (dx : Fin D → Real) (dt : Real) (nc : Nat)
    (hvol : r.m_cvol = none)
    (hfab : r.m_cfp_fab.getD mfi.LocalIndex [] = List.range r.m_cfpatch.boxarray.length)
    (halign : (mfi.tilebox.coarsen r.m_ratio).refine r.m_ratio = mfi.tilebox)
    (j : Nat) (p : IntVect D) (n : Nat) (hin : r.m_cfpatch.inValid j p) (hn : n < nc) :
    (r.FineAdd mfi flux dx dt 0 0 nc).m_cfpatch.data j p n = r.m_cfpatch.data j p n +
      ((List.finRange D).map fun idim =>
        (if ((mfi.tilebox.coarsen r.m_ratio).adjCellLo idim).contains p then
          - fineTerm r.m_ratio (flux idim)
              (dt / (dx idim * (((List.finRange D).map r.m_ratio).prod : Int))) idim 0 p n
          else 0) +
        (if ((mfi.tilebox.coarsen r.m_ratio).adjCellHi idim).contains p then
          fineTerm r.m_ratio (flux idim)
              (dt / (dx idim * (((List.finRange D).map r.m_ratio).prod : Int))) idim 1 p n
          else 0)).sum := by
  obtain ⟨b, hb, hbp⟩ := (inValid_iff _ _ _).1 hin
  have hj : j < r.m_cfpatch.boxarray.length := by
    by_contra hlt
    rw [List.getElem?_eq_none (by omega)] at hb
    exact absurd hb (by simp)
  have hne : (List.range r.m_cfpatch.boxarray.length).isEmpty = false := by
    cases hl : r.m_cfpatch.boxarray.length with
    | zero => omega
    | succ m => simp [List.range_succ]
  unfold YAFluxRegister.FineAdd
  simp only [hfab, hne, halign, hvol, Option.isSome_none, ne_eq, not_true_eq_false, if_false,
    Bool.false_eq_true]
  refine Eq.trans ((foldl_data_add (List.finRange D) _ r.m_cfpatch.boxarray
    (fun idim j p n => ((List.range r.m_cfpatch.boxarray.length).map fun k =>
      (if j = k ∧ (∃ b, r.m_cfpatch.boxarray[k]? = some b ∧ b.contains p) ∧
          ((mfi.tilebox.coarsen r.m_ratio).adjCellLo idim).contains p ∧ n < nc then
        - fineTerm r.m_ratio (flux idim)
            (dt / (dx idim * (((List.finRange D).map r.m_ratio).prod : Int))) idim 0 p n
        else 0) +
      (if j = k ∧ (∃ b, r.m_cfpatch.boxarray[k]? = some b ∧ b.contains p) ∧
          ((mfi.tilebox.coarsen r.m_ratio).adjCellHi idim).contains p ∧ n < nc then
        fineTerm r.m_ratio (flux idim)
            (dt / (dx idim * (((List.finRange D).map r.m_ratio).prod : Int))) idim 1 p n
        else 0)).sum) ?_ r.m_cfpatch rfl).2 j p n) ?_
  · intro x idim _ hx
    refine foldl_data_add _ _ _ _ ?_ x hx
    intro y k _ hy
    refine ⟨by rw [fineAddSide_boxarray, fineAddSide_boxarray, hy], fun j p n => ?_⟩
    rw [fineAddSide_data _ _ _ _ _ _ _ 1 (by omega), fineAddSide_data _ _ _ _ _ _ _ 0 (by omega),
      fineAddSide_boxarray, hy]
    simp only [if_true, one_ne_zero, if_false, add_assoc]
  · congr 1
    refine congrArg List.sum (List.map_congr_left fun idim _ => ?_)
    rw [sum_range_single _ j]
    · have hex : ∃ b, r.m_cfpatch.boxarray[j]? = some b ∧ b.contains p := ⟨b, hb, hbp⟩
      simp only [hj, if_true, true_and, hex, hn, and_true]
    · intro k hk
      simp [Ne.symm hk]

theorem CrseAdd_data (r : YAFluxRegister D) (mfi : MFIter D) (flux : Fin D → FArrayBox D)
    (dx : Fin D → Real) (dt : Real) (nc : Nat) (hvol : r.m_cvol = none)
    (hwork : r.m_crse_fab_flag[mfi.LocalIndex]? ≠ some crse_cell) (k : Nat) (p : IntVect D)
    (n : Nat) :
    (r.CrseAdd mfi flux dx dt 0 0 nc).m_crse_data.data k p n = r.m_crse_data.data k p n +
      (if k = mfi.index ∧ mfi.tilebox.contains p ∧ n < nc ∧
          r.m_crse_flag.data mfi.index p 0 = crse_fine_boundary_cell then
        ((List.finRange D).map fun idim =>
          (if r.m_crse_flag.data mfi.index (p + IntVect.basis idim) 0 = fine_cell then
              dt / dx idim * (flux idim).data (p + IntVect.basis idim) n else 0) -
          (if r.m_crse_flag.data mfi.index (p - IntVect.basis idim) 0 = fine_cell then
              dt / dx idim * (flux idim).data p n else 0)).sum
        else 0) := by
  unfold YAFluxRegister.CrseAdd
  rw [if_neg hwork]
  simp only [FabArray.withArray, Nat.zero_le, and_true, Nat.sub_zero, hvol, Option.isSome_none,
    Bool.false_eq_true, if_false]
  by_cases hk : k = mfi.index
  · subst hk
    rw [if_pos rfl, yafluxreg_crseadd_eq]
    simp only [FabArray.array, FArrayBox.const_array, Nat.zero_add, true_and]
  · simp [hk]

theorem FineAdd_crse_data (r : YAFluxRegister D) (mfi : MFIter D)
    (flux : Fin D → FArrayBox D) (dx : Fin D → Real) (dt : Real)
    (srccomp destcomp numcomp : Nat) :
    (r.FineAdd mfi flux dx dt srccomp destcomp numcomp).m_crse_data = r.m_crse_data := by
  unfold YAFluxRegister.FineAdd
  simp only []
  split <;> rfl

theorem fineSteps_data (steps : List (FineStep D)) (r : YAFluxRegister D) (mfi : MFIter D)
    (dx : Fin D → Real) (nc : Nat) (hvol : r.m_cvol = none)
    (hfab : r.m_cfp_fab.getD mfi.LocalIndex [] = List.range r.m_cfpatch.boxarray.length)
    (halign : (mfi.tilebox.coarsen r.m_ratio).refine r.m_ratio = mfi.tilebox) :
    SameButBuffers r (r.fineSteps mfi dx steps 0 0 nc) ∧
    (r.fineSteps mfi dx steps 0 0 nc).m_crse_data = r.m_crse_data ∧
    ∀ j p n, r.m_cfpatch.inValid j p → n < nc →
      (r.fineSteps mfi dx steps 0 0 nc).m_cfpatch.data j p n = r.m_cfpatch.data j p n +
        (steps.map fun s => ((List.finRange D).map fun idim =>
          (if ((mfi.tilebox.coarsen r.m_ratio).adjCellLo idim).contains p then
            - fineTerm r.m_ratio (s.flux idim)
                (s.dt / (dx idim * (((List.finRange D).map r.m_ratio).prod : Int))) idim 0 p n
            else 0) +
          (if ((mfi.tilebox.coarsen r.m_ratio).adjCellHi idim).contains p then
            fineTerm r.m_ratio (s.flux idim)
                (s.dt / (dx idim * (((List.finRange D).map r.m_ratio).prod : Int))) idim 1 p n
            else 0)).sum).sum := by
  induction steps generalizing r with
  | nil => exact ⟨sameButBuffers_refl r, rfl, fun j p n _ _ => by simp [YAFluxRegister.fineSteps]⟩
  | cons s steps ih =>
    have hs := sameButBuffers_FineAdd r mfi s.flux dx s.dt 0 0 nc
    obtain ⟨-, -, -, f4, -, -, -, f8, -, -, f11, f12, -⟩ := sameButBuffers_fields hs
    obtain ⟨i1, i2, i3⟩ := ih (r.FineAdd mfi s.flux dx s.dt 0 0 nc) (f4.trans hvol)
      (by rw [f11, f8]; exact hfab) (by rw [f12]; exact halign)
    refine ⟨sameButBuffers_trans hs i1, ?_, fun j p n hin hn => ?_⟩
    · exact i2.trans (FineAdd_crse_data _ _ _ _ _ _ _ _)
    · have hin2 : (r.FineAdd mfi s.flux dx s.dt 0 0 nc).m_cfpatch.inValid j p := by
        rw [inValid_iff] at hin ⊢
        rw [f8]; exact hin
      have := i3 j p n hin2 hn
      simp only [YAFluxRegister.fineSteps, List.foldl_cons, List.map_cons, List.sum_cons] at this ⊢
      rw [this, FineAdd_patch_data r mfi s.flux dx s.dt nc hvol hfab halign j p n hin hn, f12]
      ring

theorem sum_map_sum_comm {α β : Type} (l : List α) (m : List β) (h : α → β → Real) :
    (l.map fun a => (m.map fun b => h a b).sum).sum =
      (m.map fun b => (l.map fun a => h a b).sum).sum := by
  induction l with
  | nil => simp
  | cons a l ih =>
    simp only [List.map_cons, List.sum_cons, ih, List.sum_map_add]

theorem sum_range_contains (l : List (Box D)) (c : IntVect D) (P : Real) :
    ((List.range l.length).map fun k =>
        if (∃ b, l[k]? = some b ∧ b.contains c) then P else 0).sum =
      (l.countP fun b => decide (b.contains c)) * P := by
  induction l with
  | nil => simp
  | cons a l ih =>
    rw [List.length_cons, List.range_succ_eq_map, List.map_cons, List.sum_cons, List.map_map,
      List.countP_cons]
    have : ((fun k => if (∃ b, (a :: l)[k]? = some b ∧ b.contains c) then P else 0) ∘ Nat.succ)
        = fun k => if (∃ b, l[k]? = some b ∧ b.contains c) then P else 0 := by
      funext k; simp
    rw [this, ih]
    by_cases h : a.contains c
    · simp [h]; ring
    · simp [h]

theorem contains_add_basis (sub : Box D) (hok : sub.ok) (d : Fin D) (c : IntVect D)
    (hc : ¬ sub.contains c) :
    sub.contains (c + IntVect.basis d) ↔ (sub.adjCellLo d).contains c := by
  simp only [Box.contains, Box.adjCellLo, Pi.add_apply, IntVect.basis] at *
  constructor
  · intro h e
    by_cases he : e = d
    · subst he
      have h1 := h e
      simp only [if_true] at h1 ⊢
      by_contra hne
      apply hc
      intro e2
      by_cases he2 : e2 = e
      · subst he2; omega
      · have := h e2; simp only [he2, if_false] at this; omega
    · have := h e; simp only [he, if_false] at this ⊢; omega
  · intro h e
    by_cases he : e = d
    · subst he
      have h1 := h e
      have h2 := hok e
      simp only [if_true] at h1 ⊢; omega
    · have := h e; simp only [he, if_false] at this ⊢; omega

theorem contains_sub_basis (sub : Box D) (hok : sub.ok) (d : Fin D) (c : IntVect D)
    (hc : ¬ sub.contains c) :
    sub.contains (c - IntVect.basis d) ↔ (sub.adjCellHi d).contains c := by
  simp only [Box.contains, Box.adjCellHi, Pi.sub_apply, IntVect.basis] at *
  constructor
  · intro h e
    by_cases he : e = d
    · subst he
      have h1 := h e
      simp only [if_true] at h1 ⊢
      by_contra hne
      apply hc
      intro e2
      by_cases he2 : e2 = e
      · subst he2; omega
      · have := h e2; simp only [he2, if_false] at this; omega
    · have := h e; simp only [he, if_false] at this ⊢; omega
  · intro h e
    by_cases he : e = d
    · subst he
      have h1 := h e
      have h2 := hok e
      simp only [if_true] at h1 ⊢; omega
    · have := h e; simp only [he, if_false] at this ⊢; omega

theorem seamRegister_work (sub cb : Box D) (ratio : IntVect D)
    (fgeom cgeom : Geometry D) (lev : Int) (nvar myproc : Nat) (mem : DefineMemory D)
    (hr : ∀ d, 1 ≤ ratio d) (hok : sub.ok) (hcb : cb.containsBox sub)
    (hper : ∀ d, cgeom.is_periodic d = false) :
    (seamRegister sub cb ratio fgeom cgeom lev nvar myproc mem).m_crse_fab_flag[0]? ≠
      some crse_cell := by
  have h1 : (YAFluxRegister.default D).m_crse_fab_flag = [] := rfl
  have h3 : resize ([] : List Int) 1 crse_cell = [crse_cell] := rfl
  have h4 : localIndices [myproc] myproc = [0] := localIndices_replicate 1 myproc
  have hmask : FabArray.RecvLayoutMask
      (getCPC [cb] 1 [sub] 0 (shiftIntVect cgeom.periodicity)) 0 = true := by
    unfold FabArray.RecvLayoutMask
    rw [List.any_eq_true]
    have := (exists_tag_iff [cb] 1 [sub] 0 (shiftIntVect cgeom.periodicity) 0 sub.smallend).2
      ⟨⟨cb, rfl, by
          rw [contains_grow]; intro d
          have := hcb d; have := hok d; constructor <;> omega⟩,
        by
          rw [periodicity_of_not_periodic _ hper, imageInBoxes_zero, contains_grow_zero]
          intro d; exact ⟨le_refl _, hok d⟩⟩
    obtain ⟨t, ht, hk, -⟩ := this
    exact ⟨t, ht, by simp [hk]⟩
  simp only [seamRegister, YAFluxRegister.construct, YAFluxRegister.define,
    BoxArray.coarsen, BoxArray.uniqify, List.map_cons, List.map_nil, coarsen_refine _ _ hr,
    h1, h3, h4, hmask, List.length_singleton, List.zip_cons_cons, List.zip_nil_right, if_true]
  decide

theorem seamRegister_flag (sub cb : Box D) (ratio : IntVect D)
    (fgeom cgeom : Geometry D) (lev : Int) (nvar myproc : Nat) (mem : DefineMemory D)
    (hr : ∀ d, 1 ≤ ratio d) (hper : ∀ d, cgeom.is_periodic d = false) (c : IntVect D)
    (hc : (cb.grow 1).contains c) :
    (seamRegister sub cb ratio fgeom cgeom lev nvar myproc mem).m_crse_flag.data 0 c 0 =
      if sub.contains c then fine_cell
      else if (sub.grow 1).contains c then crse_fine_boundary_cell else crse_cell := by
  unfold seamRegister YAFluxRegister.construct
  rw [define_crse_flag_data _ _ _ _ _ _ _ _ _ _ _ _ 0 c cb rfl hc]
  simp only [BoxArray.coarsen, List.map_cons, List.map_nil, coarsen_refine _ _ hr,
    periodicity_of_not_periodic _ hper, imageInBoxes_zero, contains_grow_zero]

theorem seamRegister_fields (sub cb : Box D) (ratio : IntVect D)
    (fgeom cgeom : Geometry D) (lev : Int) (nvar myproc : Nat) (mem : DefineMemory D)
    (hfper : fgeom.isAnyPeriodic = false) :
    (seamRegister sub cb ratio fgeom cgeom lev nvar myproc mem).m_cvol = none ∧
    (seamRegister sub cb ratio fgeom cgeom lev nvar myproc mem).m_cfp_mask.empty = true ∧
    (seamRegister sub cb ratio fgeom cgeom lev nvar myproc mem).m_crse_geom = cgeom ∧
    (seamRegister sub cb ratio fgeom cgeom lev nvar myproc mem).m_ratio = ratio ∧
    (seamRegister sub cb ratio fgeom cgeom lev nvar myproc mem).m_crse_data.boxarray = [cb] ∧
    (seamRegister sub cb ratio fgeom cgeom lev nvar myproc mem).m_crse_data.n_comp = nvar ∧
    (seamRegister sub cb ratio fgeom cgeom lev nvar myproc mem).m_crse_data.n_grow = 0 ∧
    (seamRegister sub cb ratio fgeom cgeom lev nvar myproc mem).m_cfpatch.n_comp = nvar := by
  refine ⟨rfl, ?_, rfl, rfl, rfl, rfl, rfl, rfl⟩
  simp only [seamRegister, YAFluxRegister.construct, YAFluxRegister.define, hfper,
    Bool.false_eq_true, if_false]
  rfl

theorem sum_map_ite_add {α : Type} (l : List α) (A B : Prop) [Decidable A] [Decidable B]
    (f g : α → Real) :
    (l.map fun s => (if A then - f s else 0) + (if B then g s else 0)).sum =
      (if A then - (l.map f).sum else 0) + (if B then (l.map g).sum else 0) := by
  induction l with
  | nil => simp
  | cons a l ih =>
    simp only [List.map_cons, List.sum_cons, ih]
    split_ifs <;> ring

theorem reflux_second_eq (r : YAFluxRegister D) (state : MultiFab D)
    (srccomp destcomp numcomp : Nat)
    (h : ∀ i c n, (r.Reflux state srccomp destcomp numcomp).2.data i c n = state.data i c n) :
    (r.Reflux state srccomp destcomp numcomp).2 = state := by
  have e : (r.Reflux state srccomp destcomp numcomp).2 =
      { state with data := (r.Reflux state srccomp destcomp numcomp).2.data } := by
    unfold YAFluxRegister.Reflux
    simp only []
    cases r.m_cvol <;> rfl
  rw [e]
  have : (r.Reflux state srccomp destcomp numcomp).2.data = state.data := by
    funext i c n; exact h i c n
  rw [this]

/-- Claim C2 (conservation). One coarse box `cb` inside a non-periodic domain, one fine box
that is the refinement of a non-empty coarse region `sub` of `cb`, refinement ratios at least
1, no volume field. If on every face of the coarse/fine seam whose coarse cell lies in `cb`
the coarse flux contribution accumulated by `CrseAdd` equals the sum over the fine sub-steps
of the averaged child-face contributions accumulated by `FineAdd`, then after `reset`,
`CrseAdd` on the coarse box, `FineAdd` on the fine box for every sub-step, and `Reflux`, the
coarse state is the state it was before `Reflux`. -/
theorem reflux_conservation (sub cb : Box D) (ratio : IntVect D) (fgeom cgeom : Geometry D)
    (lev : Int) (nvar myproc : Nat) (mem : DefineMemory D) (fluxC : Fin D → FArrayBox D)
    (dxC dxF : Fin D → Real) (dtC : Real) (steps : List (FineStep D)) (state : MultiFab D)
    (hr : ∀ d, 1 ≤ ratio d) (hok : sub.ok) (hcb : cb.containsBox sub)
    (hdom : cgeom.domain.containsBox cb) (hper : ∀ d, cgeom.is_periodic d = false)
    (hfper : fgeom.isAnyPeriodic = false) (hstate : state.boxarray = [cb])
    (hbal : ∀ (idim : Fin D) (c : IntVect D) (n : Nat), n < nvar → cb.contains c →
      ((sub.adjCellLo idim).contains c →
        crseContribution fluxC dxC dtC idim 0 c n =
          fineContribution ratio dxF steps idim 0 c n) ∧
      ((sub.adjCellHi idim).contains c →
        crseContribution fluxC dxC dtC idim 1 c n =
          fineContribution ratio dxF steps idim 1 c n)) :
    ((((seamRegister sub cb ratio fgeom cgeom lev nvar myproc mem).reset.CrseAdd
        ⟨0, 0, cb⟩ fluxC dxC dtC 0 0 nvar).fineSteps ⟨0, 0, sub.refine ratio⟩ dxF steps
        0 0 nvar).Reflux state 0 0 nvar).2 = state := by
  obtain ⟨R0, hR0⟩ : ∃ R0, R0 = seamRegister sub cb ratio fgeom cgeom lev nvar myproc mem :=
    ⟨_, rfl⟩
  obtain ⟨g1, g2, g3, g4, g5, g6, g7, g8⟩ :=
    seamRegister_fields sub cb ratio fgeom cgeom lev nvar myproc mem hfper
  have gfab := seamRegister_cfp_fab sub cb ratio fgeom cgeom lev nvar myproc mem hr
  have gpba := seamRegister_cfpatch_boxarray sub cb ratio fgeom cgeom lev nvar myproc mem hr
  have gwork := seamRegister_work sub cb ratio fgeom cgeom lev nvar myproc mem hr hok hcb hper
  have gflag := seamRegister_flag sub cb ratio fgeom cgeom lev nvar myproc mem hr hper
  rw [← hR0] at g1 g2 g3 g4 g5 g6 g7 g8 gfab gpba gwork gflag ⊢
  clear hR0
  have s1 := sameButBuffers_reset R0
  have s2 := sameButBuffers_CrseAdd R0.reset ⟨0, 0, cb⟩ fluxC dxC dtC 0 0 nvar
  have s02 := sameButBuffers_trans s1 s2
  obtain ⟨a1, a2, a3, a4, a5, a6, a7, a8, a9, a10, a11, a12, a13⟩ := sameButBuffers_fields s02
  obtain ⟨s3, hcrse, hpatch⟩ := fineSteps_data steps
    (R0.reset.CrseAdd ⟨0, 0, cb⟩ fluxC dxC dtC 0 0 nvar) ⟨0, 0, sub.refine ratio⟩ dxF nvar
    (a4.trans g1) (by rw [a11, a8, gfab, gpba]; rfl) (by rw [a12, g4, coarsen_refine _ _ hr])
  obtain ⟨b1, b2, b3, b4, b5, b6, b7, b8, b9, b10, b11, b12, b13⟩ :=
    sameButBuffers_fields (sameButBuffers_trans s02 s3)
  apply reflux_second_eq
  intro i c n
  rw [Reflux_state_novol _ _ _ _ _ (by rw [hstate, b5, g5]) (b4.trans g1)]
  split_ifs with h
  swap
  · rfl
  obtain ⟨hin, -, hn⟩ := h
  rw [Nat.zero_add] at hn
  obtain ⟨bx, hbx, hc⟩ := (inValid_iff _ _ _).1 hin
  rw [hstate] at hbx
  have hi : i = 0 := by
    rcases i with _ | i
    · rfl
    · simp at hbx
  subst hi
  have hbx2 : bx = cb := by simpa using hbx.symm
  subst hbx2
  suffices hzero : refluxCorrection ((R0.reset.CrseAdd ⟨0, 0, bx⟩ fluxC dxC dtC 0 0
      nvar).fineSteps ⟨0, 0, sub.refine ratio⟩ dxF steps 0 0 nvar) 0 c n = 0 by
    simp only [Nat.sub_zero, Nat.add_zero]
    rw [hzero, add_zero]
  obtain ⟨c1, c2, c3, c4, c5, c6, c7, c8, c9, c10, c11, c12, c13⟩ := sameButBuffers_fields s1
  have hcval : bx.contains c := hc
  -- the accumulation buffer after the coarse call
  have hreset_c : R0.reset.m_crse_data.data 0 c n = 0 := by
    have hinf : R0.m_crse_data.inFab 0 c :=
      inFab_of_inValid _ _ _ ((inValid_iff _ _ _).2 ⟨bx, by rw [g5]; rfl, hc⟩)
    simp only [YAFluxRegister.reset, FabArray.setVal]
    rw [if_pos ⟨hinf, by rw [g6]; exact hn⟩]
  have hpatch_eq : (R0.reset.CrseAdd ⟨0, 0, bx⟩ fluxC dxC dtC 0 0 nvar).m_cfpatch =
      R0.reset.m_cfpatch := by
    unfold YAFluxRegister.CrseAdd
    split <;> rfl
  have hreset_p : ∀ k, R0.m_cfpatch.inValid k c → R0.reset.m_cfpatch.data k c n = 0 := by
    intro k hk
    simp only [YAFluxRegister.reset, FabArray.setVal]
    rw [if_pos ⟨inFab_of_inValid _ _ _ hk, by rw [g8]; exact hn⟩]
  have hz : c - (fun _ : Fin D => (0 : Int)) = c := by funext d; simp
  have hgrow : ∀ c2 : IntVect D, (∀ d, c d - 1 ≤ c2 d ∧ c2 d ≤ c d + 1) →
      (bx.grow 1).contains c2 := by
    intro c2 h2
    rw [contains_grow]
    intro d
    have := hc d; have := h2 d
    constructor <;> omega
  unfold refluxCorrection patchImageSum maskedValue
  rw [hcrse, CrseAdd_data R0.reset ⟨0, 0, bx⟩ fluxC dxC dtC nvar (c4.trans g1)
    (by rw [c13]; exact gwork) 0 c n, hreset_c, zero_add, b3, g3,
    periodicity_of_not_periodic _ hper, b2, g2]
  simp only [sum_shiftIntVect_zero, hz, if_true, mul_one, true_and, hcval, hn, c1]
  -- the patch buffer after the fine calls
  obtain ⟨P, hPdef⟩ : ∃ P : Real, P = (steps.map fun s => ((List.finRange D).map fun idim =>
      (if (sub.adjCellLo idim).contains c then
        - fineTerm ratio (s.flux idim)
            (s.dt / (dxF idim * (((List.finRange D).map ratio).prod : Int))) idim 0 c n
        else 0) +
      (if (sub.adjCellHi idim).contains c then
        fineTerm ratio (s.flux idim)
            (s.dt / (dxF idim * (((List.finRange D).map ratio).prod : Int))) idim 1 c n
        else 0)).sum).sum := ⟨_, rfl⟩
  have hP : ∀ k, R0.m_cfpatch.inValid k c →
      ((R0.reset.CrseAdd ⟨0, 0, bx⟩ fluxC dxC dtC 0 0 nvar).fineSteps
        ⟨0, 0, sub.refine ratio⟩ dxF steps 0 0 nvar).m_cfpatch.data k c n = P := by
    intro k hk
    have hk2 : (R0.reset.CrseAdd ⟨0, 0, bx⟩ fluxC dxC dtC 0 0 nvar).m_cfpatch.inValid k c := by
      rw [inValid_iff] at hk ⊢
      rw [a8]; exact hk
    rw [hpatch k c n hk2 hn, hpatch_eq, hreset_p k hk, zero_add, hPdef]
    simp only [a12, g4, coarsen_refine _ _ hr]
  have key : ∀ f : Nat → Real,
      (∀ k, f k = if (∃ b, R0.m_cfpatch.boxarray[k]? = some b ∧ b.contains c) then P else 0) →
      ((List.range R0.m_cfpatch.boxarray.length).map f).sum =
        (if ((sub.grow 1).inter cgeom.domain).contains c ∧ ¬ sub.contains c then 1 else 0) * P := by
    intro f hf
    rw [show f = _ from funext hf, sum_range_contains, gpba, countP_ringBoxes, grownDomain_eq,
      periodicGrownDomain_of_not_periodic _ hper]
    simp
  rw [b8, key]
  swap
  · intro k
    by_cases hk : R0.m_cfpatch.inValid k c
    · have hk3 : ((R0.reset.CrseAdd ⟨0, 0, bx⟩ fluxC dxC dtC 0 0 nvar).fineSteps
          ⟨0, 0, sub.refine ratio⟩ dxF steps 0 0 nvar).m_cfpatch.inValid k c := by
        rw [inValid_iff] at hk ⊢
        rw [b8]; exact hk
      rw [if_pos hk3, hP k hk, if_pos ((inValid_iff _ _ _).1 hk)]
    · have hk3 : ¬ ((R0.reset.CrseAdd ⟨0, 0, bx⟩ fluxC dxC dtC 0 0 nvar).fineSteps
          ⟨0, 0, sub.refine ratio⟩ dxF steps 0 0 nvar).m_cfpatch.inValid k c := by
        rw [inValid_iff] at hk ⊢
        rw [b8]; exact hk
      rw [if_neg hk3, if_neg (fun h => hk ((inValid_iff _ _ _).2 h))]
  have hflag0 := gflag c (hgrow c (fun d => by constructor <;> omega))
  have hfl : ∀ c2, (bx.grow 1).contains c2 →
      (R0.m_crse_flag.data 0 c2 0 = fine_cell ↔ sub.contains c2) := by
    intro c2 h2
    rw [gflag c2 h2]
    by_cases h : sub.contains c2
    · simp [h]
    · simp only [h, if_false, iff_false]
      split_ifs <;> decide
  by_cases hs : sub.contains c
  · rw [hflag0, if_pos hs, if_neg (by decide), if_neg (fun h => h.2 hs)]
    simp
  by_cases hg : (sub.grow 1).contains c
  · have hdomc : cgeom.domain.contains c := fun d =>
      ⟨le_trans (hdom d).1 (hc d).1, le_trans (hc d).2 (hdom d).2⟩
    rw [hflag0, if_neg hs, if_pos hg, if_pos rfl,
      if_pos ⟨(contains_inter _ _ _).2 ⟨hg, hdomc⟩, hs⟩, one_mul, hPdef, sum_map_sum_comm,
      ← List.sum_map_add]
    apply List.sum_eq_zero
    intro x hx
    rw [List.mem_map] at hx
    obtain ⟨idim, -, rfl⟩ := hx
    have h1 := (hfl (c + IntVect.basis idim) (hgrow _ (fun d => by
      simp only [Pi.add_apply, IntVect.basis]; split_ifs <;> constructor <;> omega))).trans
      (contains_add_basis sub hok idim c hs)
    have h2 := (hfl (c - IntVect.basis idim) (hgrow _ (fun d => by
      simp only [Pi.sub_apply, IntVect.basis]; split_ifs <;> constructor <;> omega))).trans
      (contains_sub_basis sub hok idim c hs)
    obtain ⟨hb1, hb2⟩ := hbal idim c n hn hc
    simp only [crseContribution, fineContribution, if_true, one_ne_zero, if_false] at hb1 hb2
    simp only [h1, h2, sum_map_ite_add]
    by_cases hlo : (sub.adjCellLo idim).contains c <;>
      by_cases hhi : (sub.adjCellHi idim).contains c
    · rw [if_pos hlo, if_pos hhi, if_pos hlo, if_pos hhi, hb1 hlo, hb2 hhi]; ring
    · rw [if_pos hlo, if_neg hhi, if_pos hlo, if_neg hhi, hb1 hlo]; ring
    · rw [if_neg hlo, if_pos hhi, if_neg hlo, if_pos hhi, hb2 hhi]; ring
    · rw [if_neg hlo, if_neg hhi, if_neg hlo, if_neg hhi]; ring
  · rw [hflag0, if_neg hs, if_neg hg, if_neg (by decide),
      if_neg (fun h => hg ((contains_inter _ _ _).1 h.1).1)]
    simp

end Conservation

section Ownership

variable {D : Nat}

theorem length_flatMap_range {α : Type} (f : Nat → List α) (n : Nat) :
    ((List.range n).flatMap f).length = ((List.range n).map fun j => (f j).length).sum := by
  induction n with
  | zero => simp
  | succ n ih => simp [List.range_succ, ih]

theorem getElem_flatMap_range {α : Type} (f : Nat → List α) (n i m : Nat) (hi : i < n)
    (hm : m < (f i).length) :
    ((List.range n).flatMap f)[((List.range i).map fun j => (f j).length).sum + m]? =
      (f i)[m]? := by
  induction n with
  | zero => omega
  | succ n ih =>
    rw [List.range_succ, List.flatMap_append]
    by_cases hin : i < n
    · rw [List.getElem?_append_left, ih hin]
      rw [length_flatMap_range]
      have : ((List.range (i + 1)).map fun j => (f j).length).sum ≤
          ((List.range n).map fun j => (f j).length).sum := by
        have hsub : (List.range (i + 1)).Sublist (List.range n) :=
          List.range_sublist.2 (by omega)
        exact List.Sublist.sum_le_sum (hsub.map _) (fun _ _ => Nat.zero_le _)
      simp only [List.range_succ, List.map_append, List.sum_append, List.map_cons,
        List.map_nil, List.sum_cons, List.sum_nil] at this
      omega
    · have : i = n := by omega
      subst this
      rw [List.getElem?_append_right (by rw [length_flatMap_range]; omega),
        length_flatMap_range]
      simp

theorem index_flatMap_range {α : Type} (f : Nat → List α) (n j : Nat)
    (hj : j < ((List.range n).flatMap f).length) :
    ∃ i m, i < n ∧ m < (f i).length ∧
      j = ((List.range i).map fun j => (f j).length).sum + m := by
  induction n with
  | zero => simp at hj
  | succ n ih =>
    rw [List.range_succ, List.flatMap_append, List.length_append] at hj
    by_cases h : j < ((List.range n).flatMap f).length
    · obtain ⟨i, m, hi, hm, e⟩ := ih h
      exact ⟨i, m, by omega, hm, e⟩
    · refine ⟨n, j - ((List.range n).flatMap f).length, by omega, ?_, ?_⟩
      · have e1 : ([n].flatMap f).length = (f n).length := by simp
        rw [e1] at hj; omega
      · rw [← length_flatMap_range]; omega

/-- Claim C12 (ownership co-location). After `define`, the ownership map of the patch
partition has one entry per patch box; the boxes generated from fine box `i` stand at the
positions `ringOffset i + m`, and each of them is owned by the rank `fdm[i]` of fine box
`i`; every patch box is one of these; and the coarse ownership map `cdm` has no influence
on the patch partition or on its ownership map. -/
theorem define_patch_ownership (r : YAFluxRegister D) (fba cba : BoxArray D)
    (fdm cdm cdm2 : List Nat) (fgeom cgeom : Geometry D) (ref_ratio : IntVect D)
    (fine_lev : Int) (nvar : Nat) (myproc : Nat) (mem : DefineMemory D) :
    (r.define fba cba fdm cdm fgeom cgeom ref_ratio fine_lev nvar myproc
        mem).m_cfpatch.distributionMap.length =
      (r.define fba cba fdm cdm fgeom cgeom ref_ratio fine_lev nvar myproc
        mem).m_cfpatch.boxarray.length ∧
    (∀ i m, i < fba.length →
      m < (ringBoxes (fba.coarsen ref_ratio) (grownDomain cgeom) i).length →
      (r.define fba cba fdm cdm fgeom cgeom ref_ratio fine_lev nvar myproc
          mem).m_cfpatch.boxarray[ringOffset (fba.coarsen ref_ratio) (grownDomain cgeom) i
            + m]? = (ringBoxes (fba.coarsen ref_ratio) (grownDomain cgeom) i)[m]? ∧
      (r.define fba cba fdm cdm fgeom cgeom ref_ratio fine_lev nvar myproc
          mem).m_cfpatch.distributionMap[ringOffset (fba.coarsen ref_ratio)
            (grownDomain cgeom) i + m]? = some (fdm.getD i 0) ∧
      ∀ p, fdm[i]? = some p →
        (r.define fba cba fdm cdm fgeom cgeom ref_ratio fine_lev nvar myproc
          mem).m_cfpatch.distributionMap[ringOffset (fba.coarsen ref_ratio)
            (grownDomain cgeom) i + m]? = some p) ∧
    (∀ j, j < (r.define fba cba fdm cdm fgeom cgeom ref_ratio fine_lev nvar myproc
          mem).m_cfpatch.boxarray.length →
      ∃ i m, i < fba.length ∧
        m < (ringBoxes (fba.coarsen ref_ratio) (grownDomain cgeom) i).length ∧
        j = ringOffset (fba.coarsen ref_ratio) (grownDomain cgeom) i + m) ∧
    (r.define fba cba fdm cdm2 fgeom cgeom ref_ratio fine_lev nvar myproc
        mem).m_cfpatch.boxarray =
      (r.define fba cba fdm cdm fgeom cgeom ref_ratio fine_lev nvar myproc
        mem).m_cfpatch.boxarray ∧
    (r.define fba cba fdm cdm2 fgeom cgeom ref_ratio fine_lev nvar myproc
        mem).m_cfpatch.distributionMap =
      (r.define fba cba fdm cdm fgeom cgeom ref_ratio fine_lev nvar myproc
        mem).m_cfpatch.distributionMap := by
  have hn : (fba.coarsen ref_ratio).length = fba.length := by simp [BoxArray.coarsen]
  have hba : (r.define fba cba fdm cdm fgeom cgeom ref_ratio fine_lev nvar myproc
      mem).m_cfpatch.boxarray = (List.range fba.length).flatMap
        (ringBoxes (fba.coarsen ref_ratio) (grownDomain cgeom)) := by
    rw [define_cfpatch_boxarray, hn, grownDomain_eq]
  have hdm : (r.define fba cba fdm cdm fgeom cgeom ref_ratio fine_lev nvar myproc
      mem).m_cfpatch.distributionMap = (List.range fba.length).flatMap fun i =>
        List.replicate (ringBoxes (fba.coarsen ref_ratio) (grownDomain cgeom) i).length
          (fdm.getD i 0) := by
    have := (ringLoop_fold (fba.coarsen ref_ratio) (grownDomain cgeom) fdm myproc
      (List.range (fba.coarsen ref_ratio).length) ⟨[], [], r.m_cfp_localindex, 0⟩).2
    rw [hn] at this
    simpa [YAFluxRegister.define, FabArray.define, ringLoop, BoxArray.uniqify, hn] using this
  have hlen : ∀ i, (List.replicate
      (ringBoxes (fba.coarsen ref_ratio) (grownDomain cgeom) i).length (fdm.getD i 0)).length
      = (ringBoxes (fba.coarsen ref_ratio) (grownDomain cgeom) i).length :=
    fun i => List.length_replicate _ _
  have hoff : ∀ i, ((List.range i).map fun j => (List.replicate
      (ringBoxes (fba.coarsen ref_ratio) (grownDomain cgeom) j).length
        (fdm.getD j 0)).length).sum = ringOffset (fba.coarsen ref_ratio) (grownDomain cgeom) i := by
    intro i; simp only [hlen]; rfl
  have hown : ∀ i m, i < fba.length →
      m < (ringBoxes (fba.coarsen ref_ratio) (grownDomain cgeom) i).length →
      (r.define fba cba fdm cdm fgeom cgeom ref_ratio fine_lev nvar myproc
          mem).m_cfpatch.distributionMap[ringOffset (fba.coarsen ref_ratio)
            (grownDomain cgeom) i + m]? = some (fdm.getD i 0) := by
    intro i m hi hm
    have := getElem_flatMap_range (fun i => List.replicate
      (ringBoxes (fba.coarsen ref_ratio) (grownDomain cgeom) i).length (fdm.getD i 0))
      fba.length i m hi (by rw [hlen]; exact hm)
    rw [hoff] at this
    rw [hdm, this, List.getElem?_replicate, if_pos hm]
  refine ⟨?_, ?_, ?_, ?_, ?_⟩
  · rw [hba, hdm, length_flatMap_range, length_flatMap_range]
    simp only [hlen]
  · intro i m hi hm
    refine ⟨?_, hown i m hi hm, fun p hp => ?_⟩
    · rw [hba]
      exact getElem_flatMap_range _ _ _ _ hi hm
    · rw [hown i m hi hm]
      have hlt : i < fdm.length := by
        by_contra h
        rw [List.getElem?_eq_none (by omega)] at hp
        exact absurd hp (by simp)
      rw [List.getD_eq_getElem?_getD, hp]; rfl
  · intro j hj
    rw [hba] at hj
    exact index_flatMap_range _ _ _ hj
  · rw [define_cfpatch_boxarray, define_cfpatch_boxarray]
  · unfold YAFluxRegister.define
    rfl

end Ownership

section WorkFlag

variable {D : Nat}

theorem getCPC_dbox_ok (ba_dst : BoxArray D) (dstng : Int) (ba_src : BoxArray D) (srcng : Int)
    (pshifts : List (IntVect D)) (t : CopyComTag D)
    (ht : t ∈ getCPC ba_dst dstng ba_src srcng pshifts) : t.dbox.ok := by
  unfold getCPC at ht
  obtain ⟨j, -, hj⟩ := List.mem_flatMap.1 ht
  cases hb : ba_src[j]? with
  | none => simp [hb] at hj
  | some bs =>
    simp only [hb] at hj
    obtain ⟨iv, -, hj2⟩ := List.mem_flatMap.1 hj
    obtain ⟨is, his, rfl⟩ := List.mem_map.1 hj2
    obtain ⟨bd, -, hok, hx⟩ := (mem_intersections _ _ _ _).1 his
    simp only
    rw [hx]; exact hok

theorem contains_smallend (b : Box D) (h : b.ok) : b.contains b.smallend :=
  fun d => ⟨le_refl _, h d⟩

/-- A fab receives something from a copy pattern exactly when one of its allocated cells
lies in a source box moved by a periodic shift. -/
theorem recvLayoutMask_iff (ba_dst : BoxArray D) (dstng : Int) (ba_src : BoxArray D)
    (srcng : Int) (pshifts : List (IntVect D)) (k : Nat) :
    FabArray.RecvLayoutMask (getCPC ba_dst dstng ba_src srcng pshifts) k = true ↔
      ∃ p, (∃ bd, ba_dst[k]? = some bd ∧ (bd.grow dstng).contains p) ∧
        imageInBoxes pshifts ba_src srcng p := by
  unfold FabArray.RecvLayoutMask
  rw [List.any_eq_true]
  constructor
  · rintro ⟨t, ht, hk⟩
    refine ⟨t.dbox.smallend, (exists_tag_iff _ _ _ _ _ k _).1 ⟨t, ht, ?_,
      contains_smallend _ (getCPC_dbox_ok _ _ _ _ _ t ht)⟩⟩
    exact (of_decide_eq_true hk).symm
  · rintro ⟨p, hp⟩
    obtain ⟨t, ht, hk, -⟩ := (exists_tag_iff _ _ _ _ _ k p).2 hp
    exact ⟨t, ht, by simp [hk]⟩

/-- A cell within one cell of the non-empty box `a` that lies in `b` has a cell of `a`
within one cell of it. -/
theorem exists_clamped (a b : Box D) (ha : a.ok) (p : IntVect D)
    (h1 : (a.grow 1).contains p) (h2 : b.contains p) :
    ∃ c, a.contains c ∧ (b.grow 1).contains c := by
  refine ⟨fun d => max (a.smallend d) (min (p d) (a.bigend d)), fun d => ?_, ?_⟩
  · have := ha d
    exact ⟨le_max_left _ _, max_le this (min_le_right _ _)⟩
  · rw [contains_grow]
    intro d
    have := ha d
    have h3 := (contains_grow _ _ _).1 h1 d
    have h4 := h2 d
    constructor
    · rcases le_total (a.smallend d) (min (p d) (a.bigend d)) with h | h
      · rw [max_eq_right h]
        rcases le_total (p d) (a.bigend d) with h5 | h5
        · rw [min_eq_left h5]; omega
        · rw [min_eq_right h5]; omega
      · rw [max_eq_left h]; omega
    · rcases le_total (a.smallend d) (min (p d) (a.bigend d)) with h | h
      · rw [max_eq_right h]
        have := min_le_left (p d) (a.bigend d)
        omega
      · rw [max_eq_left h]; omega

theorem exists_grown_image_iff (pshifts : List (IntVect D)) (boxes : BoxArray D) (cb : Box D)
    (hcb : cb.ok) (hb : ∀ b ∈ boxes, b.ok) :
    (∃ p, (cb.grow 1).contains p ∧ imageInBoxes pshifts boxes 0 p) ↔
      ∃ c, cb.contains c ∧ imageInBoxes pshifts boxes 1 c := by
  unfold imageInBoxes
  constructor
  · rintro ⟨p, hp, iv, hiv, b, hbm, hpb⟩
    rw [contains_grow_zero, ← contains_shift] at hpb
    obtain ⟨c, hc1, hc2⟩ := exists_clamped cb (b.shift iv) hcb p hp hpb
    refine ⟨c, hc1, iv, hiv, b, hbm, ?_⟩
    rw [contains_grow] at hc2 ⊢
    intro d
    have := hc2 d
    simp only [Box.shift, Pi.sub_apply] at this ⊢
    constructor <;> omega
  · rintro ⟨c, hc, iv, hiv, b, hbm, hcb2⟩
    have hbs : (b.shift iv).ok := fun d => by
      have := hb b hbm d
      simp only [Box.shift]; omega
    have hc1 : (cb.grow 1).contains c := by
      rw [contains_grow]; intro d; have := hc d; constructor <;> omega
    have hc2 : ((b.shift iv).grow 1).contains c := by
      rw [contains_grow] at hcb2 ⊢
      intro d
      have := hcb2 d
      simp only [Box.shift, Pi.sub_apply] at this ⊢
      constructor <;> omega
    obtain ⟨p, hp1, hp2⟩ := exists_clamped (b.shift iv) cb hbs c hc2 hc
    exact ⟨p, hp2, iv, hiv, b, hbm, by rw [contains_grow_zero, ← contains_shift]; exact hp1⟩

theorem imageInBoxes_mono (pshifts : List (IntVect D)) (boxes : BoxArray D) (c : IntVect D)
    (h : imageInBoxes pshifts boxes 0 c) : imageInBoxes pshifts boxes 1 c := by
  obtain ⟨iv, hiv, b, hb, hc⟩ := h
  refine ⟨iv, hiv, b, hb, ?_⟩
  rw [contains_grow] at hc ⊢
  intro d
  have := hc d
  constructor <;> omega

/-- The work flag that a fresh `define` gives the coarse box with local index `li`. -/
theorem construct_fab_flag (fba cba : BoxArray D) (fdm cdm : List Nat)
    (fgeom cgeom : Geometry D) (ref_ratio : IntVect D) (fine_lev : Int) (nvar myproc : Nat)
    (mem : DefineMemory D) (li g : Nat) (hloc : (localIndices cdm myproc)[li]? = some g) :
    (YAFluxRegister.construct fba cba fdm cdm fgeom cgeom ref_ratio fine_lev nvar myproc
        mem).m_crse_fab_flag[li]? =
      some (if FabArray.RecvLayoutMask
          (getCPC cba 1 (fba.coarsen ref_ratio) 0 (shiftIntVect cgeom.periodicity)) g
        then fine_cell else crse_cell) := by
  have h1 : (YAFluxRegister.default D).m_crse_fab_flag = [] := rfl
  have hli : li < (localIndices cdm myproc).length := by
    by_contra h
    rw [List.getElem?_eq_none (by omega)] at hloc
    exact Option.noConfusion hloc
  simp only [YAFluxRegister.construct, YAFluxRegister.define, h1, resize, BoxArray.uniqify,
    List.take_nil, List.nil_append, List.length_nil, Nat.sub_zero, List.getElem?_map,
    List.getElem?_zip_eq_some, List.zip_eq_zipWith]
  rw [List.getElem?_zipWith, List.getElem?_replicate, if_pos hli, hloc]
  rfl

/-- Claim C13 (per-box work flag), amended. After `define` on a fresh register, the work
flag of a locally owned non-empty coarse box is true (`CrseHasWork` returns true) if and
only if the box holds a cell classified boundary or a cell classified covered
(`fine_cell`): the flag is raised for every coarse box that the copy pattern of the fine
footprint reaches, also when all of its cells lie under the fine level. -/
theorem define_work_flag (fba cba : BoxArray D) (fdm cdm : List Nat)
    (fgeom cgeom : Geometry D) (ref_ratio : IntVect D) (fine_lev : Int) (nvar myproc : Nat)
    (mem : DefineMemory D) (li g : Nat) (cb tile : Box D)
    (hloc : (localIndices cdm myproc)[li]? = some g) (hcb : cba[g]? = some cb) (hok : cb.ok)
    (hfok : ∀ b ∈ fba.coarsen ref_ratio, b.ok) :
    (YAFluxRegister.construct fba cba fdm cdm fgeom cgeom ref_ratio fine_lev nvar myproc
        mem).CrseHasWork ⟨g, li, tile⟩ = true ↔
      ∃ c, cb.contains c ∧
        ((YAFluxRegister.construct fba cba fdm cdm fgeom cgeom ref_ratio fine_lev nvar myproc
            mem).m_crse_flag.data g c 0 = crse_fine_boundary_cell ∨
         (YAFluxRegister.construct fba cba fdm cdm fgeom cgeom ref_ratio fine_lev nvar myproc
            mem).m_crse_flag.data g c 0 = fine_cell) := by
  have hflag : ∀ c, cb.contains c →
      (((YAFluxRegister.construct fba cba fdm cdm fgeom cgeom ref_ratio fine_lev nvar myproc
            mem).m_crse_flag.data g c 0 = crse_fine_boundary_cell ∨
        (YAFluxRegister.construct fba cba fdm cdm fgeom cgeom ref_ratio fine_lev nvar myproc
            mem).m_crse_flag.data g c 0 = fine_cell) ↔
        imageInBoxes (shiftIntVect cgeom.periodicity) (fba.coarsen ref_ratio) 1 c) := by
    intro c hc
    have hc1 : (cb.grow 1).contains c := by
      rw [contains_grow]; intro d; have := hc d; constructor <;> omega
    unfold YAFluxRegister.construct
    rw [define_crse_flag_data _ _ _ _ _ _ _ _ _ _ _ _ g c cb hcb hc1]
    by_cases h0 : imageInBoxes (shiftIntVect cgeom.periodicity) (fba.coarsen ref_ratio) 0 c
    · simp [h0, imageInBoxes_mono _ _ _ h0]
    · by_cases h1 : imageInBoxes (shiftIntVect cgeom.periodicity) (fba.coarsen ref_ratio) 1 c
      · simp [h0, h1]
      · simp [h0, h1, crse_cell, crse_fine_boundary_cell, fine_cell]
  have hmask := recvLayoutMask_iff cba 1 (fba.coarsen ref_ratio) 0
    (shiftIntVect cgeom.periodicity) g
  simp only [hcb, Option.some.injEq, exists_eq_left'] at hmask
  rw [exists_grown_image_iff _ _ cb hok hfok] at hmask
  unfold YAFluxRegister.CrseHasWork
  simp only [construct_fab_flag fba cba fdm cdm fgeom cgeom ref_ratio fine_lev nvar myproc
    mem li g hloc, decide_eq_true_eq]
  constructor
  · intro h
    have hm : FabArray.RecvLayoutMask
        (getCPC cba 1 (fba.coarsen ref_ratio) 0 (shiftIntVect cgeom.periodicity)) g = true := by
      by_contra hne
      rw [if_neg hne] at h
      exact h rfl
    obtain ⟨c, hc, him⟩ := hmask.1 hm
    exact ⟨c, hc, (hflag c hc).2 him⟩
  · rintro ⟨c, hc, hfl⟩
    rw [if_pos (hmask.2 ⟨c, hc, (hflag c hc).1 hfl⟩)]
    simp [fine_cell, crse_cell]

end WorkFlag

section FailurePolicy

variable {D : Nat}

theorem flatMap_eq_nil_of_forall {α β : Type} (l : List α) (f : α → List β)
    (h : ∀ a ∈ l, f a = []) : l.flatMap f = [] := by
  induction l with
  | nil => rfl
  | cons a l ih =>
    rw [List.flatMap_cons, h a (List.mem_cons_self _ _),
      ih (fun b hb => h b (List.mem_cons_of_mem _ hb))]
    rfl

theorem ringLoop_of_empty (cfba : BoxArray D) (cdomain : Box D) (fdm : List Nat)
    (myproc : Nat) (h : ∀ i, ringBoxes cfba cdomain i = []) (l : List Nat) (st : RingState D) :
    (l.foldl (ringStep cfba cdomain fdm myproc) st).cfp_bl = st.cfp_bl ∧
    (l.foldl (ringStep cfba cdomain fdm myproc) st).cfp_procmap = st.cfp_procmap ∧
    (l.foldl (ringStep cfba cdomain fdm myproc) st).cfp_localindex = st.cfp_localindex := by
  induction l generalizing st with
  | nil => exact ⟨rfl, rfl, rfl⟩
  | cons a l ih =>
    rw [List.foldl_cons]
    obtain ⟨h1, h2, h3⟩ := ih (ringStep cfba cdomain fdm myproc st a)
    rw [h1, h2, h3]
    simp only [ringStep, h a, List.length_nil, List.replicate_zero, List.append_nil, ite_self,
      and_self]

theorem ringBoxes_nil (cdomain : Box D) (i : Nat) : ringBoxes ([] : BoxArray D) cdomain i = [] := by
  simp [ringBoxes]

/-- Claim C14 (failure policy of `define`), amended. `define` has no failure path: every
call ends normally. When the computed list of boundary-ring boxes is empty, whether fine
boxes exist or not, a fresh register ends with an empty patch partition and an empty
ownership map, no fine box has work (`FineHasWork` is false) and `FineAdd` leaves the
register as it is; and when there are no fine boxes at all the list is empty. -/
theorem define_failure_policy (fba cba : BoxArray D) (fdm cdm : List Nat)
    (fgeom cgeom : Geometry D) (ref_ratio : IntVect D) (fine_lev : Int) (nvar myproc : Nat)
    (mem : DefineMemory D) :
    (YAFluxRegister.default D).defineOutcome fba cba fdm cdm fgeom cgeom ref_ratio fine_lev
        nvar myproc mem =
      Outcome.completed (YAFluxRegister.construct fba cba fdm cdm fgeom cgeom ref_ratio
        fine_lev nvar myproc mem) ∧
    ((∀ i, ringBoxes (fba.coarsen ref_ratio) (grownDomain cgeom) i = []) →
      (YAFluxRegister.construct fba cba fdm cdm fgeom cgeom ref_ratio fine_lev nvar myproc
        mem).m_cfpatch.boxarray = [] ∧
      (YAFluxRegister.construct fba cba fdm cdm fgeom cgeom ref_ratio fine_lev nvar myproc
        mem).m_cfpatch.distributionMap = [] ∧
      (∀ mfi, (YAFluxRegister.construct fba cba fdm cdm fgeom cgeom ref_ratio fine_lev nvar
        myproc mem).FineHasWork mfi = false) ∧
      ∀ mfi flux dx dt srccomp destcomp numcomp,
        (YAFluxRegister.construct fba cba fdm cdm fgeom cgeom ref_ratio fine_lev nvar myproc
          mem).FineAdd mfi flux dx dt srccomp destcomp numcomp =
        YAFluxRegister.construct fba cba fdm cdm fgeom cgeom ref_ratio fine_lev nvar myproc
          mem) ∧
    (fba = [] → ∀ i, ringBoxes (fba.coarsen ref_ratio) (grownDomain cgeom) i = []) := by
  refine ⟨rfl, fun h => ?_, fun h i => ?_⟩
  · obtain ⟨h1, h2, h3⟩ := ringLoop_of_empty (fba.coarsen ref_ratio) (grownDomain cgeom) fdm
      myproc h (List.range (fba.coarsen ref_ratio).length)
      ⟨[], [], (YAFluxRegister.default D).m_cfp_localindex, 0⟩
    have hfab : ∀ li, (YAFluxRegister.construct fba cba fdm cdm fgeom cgeom ref_ratio fine_lev
        nvar myproc mem).m_cfp_fab.getD li [] = [] := by
      intro li
      have e1 : (YAFluxRegister.default D).m_cfp_fab = [] := rfl
      simp only [YAFluxRegister.construct, YAFluxRegister.define, BoxArray.uniqify, ringLoop,
        h2, e1, localIndices, List.length_nil, List.range_zero, List.filter_nil, List.enum_nil,
        List.foldl_nil, resize, List.take_nil, List.nil_append, Nat.sub_zero]
      rw [List.getD_eq_getElem?_getD, List.getElem?_replicate]
      split_ifs <;> rfl
    refine ⟨?_, ?_, fun mfi => ?_, fun mfi flux dx dt srccomp destcomp numcomp => ?_⟩
    · simpa [YAFluxRegister.construct, YAFluxRegister.define, FabArray.define,
        BoxArray.uniqify, ringLoop] using h1
    · simpa [YAFluxRegister.construct, YAFluxRegister.define, FabArray.define,
        BoxArray.uniqify, ringLoop] using h2
    · unfold YAFluxRegister.FineHasWork
      rw [hfab]; rfl
    · unfold YAFluxRegister.FineAdd
      simp only [hfab, List.isEmpty_nil, if_true]
  · subst h
    exact ringBoxes_nil _ _

end FailurePolicy

section Assertions

variable {D : Nat}

/-- The buffers that `define` allocates have `nvar` components, the value of `m_ncomp`. -/
theorem define_ncomp (r : YAFluxRegister D) (fba cba : BoxArray D) (fdm cdm : List Nat)
    (fgeom cgeom : Geometry D) (ref_ratio : IntVect D) (fine_lev : Int) (nvar myproc : Nat)
    (mem : DefineMemory D) :
    (r.define fba cba fdm cdm fgeom cgeom ref_ratio fine_lev nvar myproc
        mem).m_crse_data.n_comp =
      (r.define fba cba fdm cdm fgeom cgeom ref_ratio fine_lev nvar myproc mem).m_ncomp ∧
    (r.define fba cba fdm cdm fgeom cgeom ref_ratio fine_lev nvar myproc
        mem).m_cfpatch.n_comp =
      (r.define fba cba fdm cdm fgeom cgeom ref_ratio fine_lev nvar myproc mem).m_ncomp :=
  ⟨rfl, rfl⟩

/-- Claim C15 (component-range precondition). On a register whose buffers have the
`m_ncomp` components that `define` gives them: the assertion at the start of `CrseAdd` and of
`FineAdd`, in the base register and in the embedded-boundary register, holds exactly when
`destcomp + numcomp` is at most the component count of the buffer the method writes and
`srccomp + numcomp` is at most the component count of the flux; an overload without
component arguments delegates with `srccomp = 0`, `destcomp = 0` and
`numcomp = m_crse_data.nComp()`; and when its own assertion holds, the assertion of the
overload it delegates to holds. -/
theorem component_range_precondition [NeZero D] (r : EBFluxRegister D)
    (flux : Fin D → FArrayBox D) (srccomp destcomp numcomp : Nat)
    (hdef : r.m_crse_data.n_comp = r.m_ncomp ∧ r.m_cfpatch.n_comp = r.m_ncomp) :
    (r.toYAFluxRegister.CrseAddAssert flux srccomp destcomp numcomp = true ↔
      destcomp + numcomp ≤ r.m_crse_data.n_comp ∧ srccomp + numcomp ≤ (flux 0).ncomp) ∧
    (r.toYAFluxRegister.FineAddAssert flux srccomp destcomp numcomp = true ↔
      destcomp + numcomp ≤ r.m_cfpatch.n_comp ∧ srccomp + numcomp ≤ (flux 0).ncomp) ∧
    (r.CrseAddAssert flux srccomp destcomp numcomp = true ↔
      destcomp + numcomp ≤ r.m_crse_data.n_comp ∧ srccomp + numcomp ≤ (flux 0).ncomp) ∧
    (r.FineAddAssert flux srccomp destcomp numcomp = true ↔
      destcomp + numcomp ≤ r.m_cfpatch.n_comp ∧ srccomp + numcomp ≤ (flux 0).ncomp) ∧
    (∀ mfi dx dt, r.toYAFluxRegister.CrseAddAll mfi flux dx dt =
      r.toYAFluxRegister.CrseAdd mfi flux dx dt 0 0 r.m_crse_data.n_comp) ∧
    (∀ mfi dx dt, r.toYAFluxRegister.FineAddAll mfi flux dx dt =
      r.toYAFluxRegister.FineAdd mfi flux dx dt 0 0 r.m_crse_data.n_comp) ∧
    (∀ mfi dx dt vf af, r.CrseAddAll mfi flux dx dt vf af =
      r.CrseAdd mfi flux dx dt vf af 0 0 r.m_crse_data.n_comp) ∧
    (∀ mfi dx dt vf af dm th, r.FineAddAll mfi flux dx dt vf af dm th =
      r.FineAdd mfi flux dx dt vf af dm th 0 0 r.m_crse_data.n_comp) ∧
    (r.toYAFluxRegister.CrseAddAllAssert flux = true →
      r.toYAFluxRegister.CrseAddAssert flux 0 0 r.m_crse_data.n_comp = true) ∧
    (r.toYAFluxRegister.FineAddAllAssert flux = true →
      r.toYAFluxRegister.FineAddAssert flux 0 0 r.m_crse_data.n_comp = true) ∧
    (r.CrseAddAllAssert flux = true →
      r.CrseAddAssert flux 0 0 r.m_crse_data.n_comp = true) ∧
    (r.FineAddAllAssert flux = true →
      r.FineAddAssert flux 0 0 r.m_crse_data.n_comp = true) := by
  obtain ⟨h1, h2⟩ := hdef
  refine ⟨?_, ?_, ?_, ?_, fun _ _ _ => rfl, fun _ _ _ => rfl, fun _ _ _ _ _ => rfl,
    fun _ _ _ _ _ _ _ => rfl, ?_, ?_, ?_, ?_⟩
  · simp only [YAFluxRegister.CrseAddAssert, decide_eq_true_eq, ge_iff_le]
  · simp only [YAFluxRegister.FineAddAssert, decide_eq_true_eq, ge_iff_le]
  · simp only [EBFluxRegister.CrseAddAssert, decide_eq_true_eq, ge_iff_le]
    exact and_comm
  · simp only [EBFluxRegister.FineAddAssert, decide_eq_true_eq]
    constructor
    · intro h; exact ⟨by omega, h.1⟩
    · intro h; exact ⟨h.2, by omega⟩
  · simp only [YAFluxRegister.CrseAddAllAssert, YAFluxRegister.CrseAddAssert,
      decide_eq_true_eq]
    intro h; constructor <;> omega
  · simp only [YAFluxRegister.FineAddAllAssert, YAFluxRegister.FineAddAssert,
      decide_eq_true_eq]
    intro h; constructor <;> omega
  · simp only [EBFluxRegister.CrseAddAllAssert, EBFluxRegister.CrseAddAssert,
      decide_eq_true_eq]
    intro h; constructor <;> omega
  · simp only [EBFluxRegister.FineAddAllAssert, EBFluxRegister.FineAddAssert,
      decide_eq_true_eq]
    intro h; constructor <;> omega

end Assertions

section Averaging

variable {D : Nat}

/-- The correction that `Reflux` holds for the cell `c` after fine sub-steps on a register of
one fine box whose patch buffer was zero: the accumulation buffer plus, on the ring, the
patch value. -/
theorem seam_patch_correction (sub cb : Box D) (ratio : IntVect D) (fgeom cgeom : Geometry D)
    (lev : Int) (nvar myproc : Nat) (mem : DefineMemory D) (R2 : YAFluxRegister D)
    (dxF : Fin D → Real) (steps : List (FineStep D))
    (hs : SameButBuffers (seamRegister sub cb ratio fgeom cgeom lev nvar myproc mem) R2)
    (hr : ∀ d, 1 ≤ ratio d) (hper : ∀ d, cgeom.is_periodic d = false)
    (hfper : fgeom.isAnyPeriodic = false) (i : Nat) (c : IntVect D) (n : Nat) (hn : n < nvar)
    (hzero : ∀ k, R2.m_cfpatch.inValid k c → R2.m_cfpatch.data k c n = 0) :
    refluxCorrection (R2.fineSteps ⟨0, 0, sub.refine ratio⟩ dxF steps 0 0 nvar) i c n =
      R2.m_crse_data.data i c n +
        (if ((sub.grow 1).inter cgeom.domain).contains c ∧ ¬ sub.contains c then 1 else 0) *
          seamPatchValue sub ratio dxF steps c n := by
  obtain ⟨R0, hR0⟩ : ∃ R0, R0 = seamRegister sub cb ratio fgeom cgeom lev nvar myproc mem :=
    ⟨_, rfl⟩
  obtain ⟨g1, g2, g3, g4, g5, g6, g7, g8⟩ :=
    seamRegister_fields sub cb ratio fgeom cgeom lev nvar myproc mem hfper
  have gfab := seamRegister_cfp_fab sub cb ratio fgeom cgeom lev nvar myproc mem hr
  have gpba := seamRegister_cfpatch_boxarray sub cb ratio fgeom cgeom lev nvar myproc mem hr
  rw [← hR0] at g1 g2 g3 g4 g5 g6 g7 g8 gfab gpba hs
  clear hR0
  obtain ⟨a1, a2, a3, a4, a5, a6, a7, a8, a9, a10, a11, a12, a13⟩ := sameButBuffers_fields hs
  obtain ⟨s3, hcrse, hpatch⟩ := fineSteps_data steps R2 ⟨0, 0, sub.refine ratio⟩ dxF nvar
    (a4.trans g1) (by rw [a11, a8, gfab, gpba]; rfl) (by rw [a12, g4, coarsen_refine _ _ hr])
  obtain ⟨b1, b2, b3, b4, b5, b6, b7, b8, b9, b10, b11, b12, b13⟩ :=
    sameButBuffers_fields (sameButBuffers_trans hs s3)
  have hz : c - (fun _ : Fin D => (0 : Int)) = c := by funext d; simp
  unfold refluxCorrection patchImageSum maskedValue
  rw [hcrse, b3, g3, periodicity_of_not_periodic _ hper, b2, g2]
  simp only [sum_shiftIntVect_zero, hz, if_true, mul_one]
  have hP : ∀ k, R0.m_cfpatch.inValid k c →
      (R2.fineSteps ⟨0, 0, sub.refine ratio⟩ dxF steps 0 0 nvar).m_cfpatch.data k c n =
        seamPatchValue sub ratio dxF steps c n := by
    intro k hk
    have hk2 : R2.m_cfpatch.inValid k c := by
      rw [inValid_iff] at hk ⊢
      rw [a8]; exact hk
    rw [hpatch k c n hk2 hn, hzero k hk2, zero_add]
    simp only [a12, g4, coarsen_refine _ _ hr, seamPatchValue]
  have key : ∀ f : Nat → Real,
      (∀ k, f k = if (∃ b, R0.m_cfpatch.boxarray[k]? = some b ∧ b.contains c) then
        seamPatchValue sub ratio dxF steps c n else 0) →
      ((List.range R0.m_cfpatch.boxarray.length).map f).sum =
        (if ((sub.grow 1).inter cgeom.domain).contains c ∧ ¬ sub.contains c then 1 else 0) *
          seamPatchValue sub ratio dxF steps c n := by
    intro f hf
    rw [show f = _ from funext hf, sum_range_contains, gpba, countP_ringBoxes, grownDomain_eq,
      periodicGrownDomain_of_not_periodic _ hper]
    simp
  rw [b8, key]
  intro k
  by_cases hk : R0.m_cfpatch.inValid k c
  · have hk3 : (R2.fineSteps ⟨0, 0, sub.refine ratio⟩ dxF steps 0 0
        nvar).m_cfpatch.inValid k c := by
      rw [inValid_iff] at hk ⊢
      rw [b8]; exact hk
    rw [if_pos hk3, hP k hk, if_pos ((inValid_iff _ _ _).1 hk)]
  · have hk3 : ¬ (R2.fineSteps ⟨0, 0, sub.refine ratio⟩ dxF steps 0 0
        nvar).m_cfpatch.inValid k c := by
      rw [inValid_iff] at hk ⊢
      rw [b8]; exact hk
    rw [if_neg hk3, if_neg (fun h => hk ((inValid_iff _ _ _).2 h))]

/-- The coarse state after `reset`, one `FineAdd` on the single fine box and `Reflux`. -/
theorem seam_fineadd_state (sub cb : Box D) (ratio : IntVect D) (fgeom cgeom : Geometry D)
    (lev : Int) (nvar myproc : Nat) (mem : DefineMemory D) (flux : Fin D → FArrayBox D)
    (dx : Fin D → Real) (dt : Real) (state : MultiFab D)
    (hr : ∀ d, 1 ≤ ratio d) (hper : ∀ d, cgeom.is_periodic d = false)
    (hfper : fgeom.isAnyPeriodic = false) (hstate : state.boxarray = [cb])
    (c : IntVect D) (n : Nat) (hc : cb.contains c) (hn : n < nvar) :
    (((seamRegister sub cb ratio fgeom cgeom lev nvar myproc mem).reset.FineAdd
        ⟨0, 0, sub.refine ratio⟩ flux dx dt 0 0 nvar).Reflux state 0 0 nvar).2.data 0 c n =
      state.data 0 c n +
        (if ((sub.grow 1).inter cgeom.domain).contains c ∧ ¬ sub.contains c then 1 else 0) *
          seamPatchValue sub ratio dx [⟨flux, dt⟩] c n := by
  obtain ⟨g1, g2, g3, g4, g5, g6, g7, g8⟩ :=
    seamRegister_fields sub cb ratio fgeom cgeom lev nvar myproc mem hfper
  have s1 := sameButBuffers_reset (seamRegister sub cb ratio fgeom cgeom lev nvar myproc mem)
  obtain ⟨c1, c2, c3, c4, c5, c6, c7, c8, c9, c10, c11, c12, c13⟩ := sameButBuffers_fields s1
  have hcorr := seam_patch_correction sub cb ratio fgeom cgeom lev nvar myproc mem
    (seamRegister sub cb ratio fgeom cgeom lev nvar myproc mem).reset dx [⟨flux, dt⟩] s1 hr
    hper hfper 0 c n hn (fun k hk => by
      simp only [YAFluxRegister.reset, FabArray.setVal]
      rw [if_pos ⟨inFab_of_inValid _ _ _ hk, by rw [g8]; exact hn⟩])
  have hfs : (seamRegister sub cb ratio fgeom cgeom lev nvar myproc mem).reset.fineSteps
      ⟨0, 0, sub.refine ratio⟩ dx [⟨flux, dt⟩] 0 0 nvar =
      (seamRegister sub cb ratio fgeom cgeom lev nvar myproc mem).reset.FineAdd
        ⟨0, 0, sub.refine ratio⟩ flux dx dt 0 0 nvar := rfl
  rw [hfs] at hcorr
  have s2 := sameButBuffers_FineAdd
    (seamRegister sub cb ratio fgeom cgeom lev nvar myproc mem).reset
    ⟨0, 0, sub.refine ratio⟩ flux dx dt 0 0 nvar
  obtain ⟨b1, b2, b3, b4, b5, b6, b7, b8, b9, b10, b11, b12, b13⟩ :=
    sameButBuffers_fields (sameButBuffers_trans s1 s2)
  have hin : state.inValid 0 c := (inValid_iff _ _ _).2 ⟨cb, by rw [hstate]; rfl, hc⟩
  rw [Reflux_state_novol _ _ _ _ _ (by rw [hstate, b5, g5]) (b4.trans g1),
    if_pos ⟨hin, Nat.zero_le _, by omega⟩]
  simp only [Nat.sub_zero, Nat.add_zero]
  rw [hcorr]
  have hreset_c : (seamRegister sub cb ratio fgeom cgeom lev nvar myproc
      mem).reset.m_crse_data.data 0 c n = 0 := by
    have hinf : (seamRegister sub cb ratio fgeom cgeom lev nvar myproc mem).m_crse_data.inFab
        0 c := inFab_of_inValid _ _ _ ((inValid_iff _ _ _).2 ⟨cb, by rw [g5]; rfl, hc⟩)
    simp only [YAFluxRegister.reset, FabArray.setVal]
    rw [if_pos ⟨hinf, by rw [g6]; exact hn⟩]
  rw [hreset_c, zero_add]

theorem length_vectorsWith_fold (opts : Fin D → List Int) (l : List (Fin D)) :
    (l.foldr
      (fun d acc => acc.flatMap fun w => (opts d).map fun x => Function.update w d x)
      [fun _ => 0]).length = (l.map fun d => (opts d).length).prod := by
  induction l with
  | nil => simp
  | cons i rest ih =>
    rw [List.foldr_cons, List.length_flatMap, List.map_cons, List.prod_cons, ← ih]
    have hc : (List.length ∘ fun w : IntVect D =>
        List.map (fun x => Function.update w i x) (opts i)) = fun _ => (opts i).length := by
      funext w; simp
    rw [hc, List.map_const', List.sum_replicate, smul_eq_mul, mul_comm]

/-- Ratio 2 in every direction: a coarse face has `2 ^ (D - 1)` child faces. -/
theorem length_childOffsets_two (idim : Fin D) :
    (childOffsets (fun _ : Fin D => (2 : Int)) idim).length = 2 ^ (D - 1) := by
  unfold childOffsets vectorsWith
  rw [length_vectorsWith_fold, ← Fin.prod_univ_def]
  have : ∀ e : Fin D, (if e = idim then [(0 : Int)] else
      (List.range (2 : Int).toNat).map Int.ofNat).length = if e = idim then 1 else 2 := by
    intro e; split_ifs <;> simp
  simp only [this]
  rw [Finset.prod_ite, Finset.prod_const_one, one_mul, Finset.prod_const,
    Finset.filter_ne' Finset.univ idim, Finset.card_erase_of_mem (Finset.mem_univ _),
    Finset.card_univ, Fintype.card_fin]

theorem prod_ratio_two : ((List.finRange D).map fun _ : Fin D => (2 : Int)).prod = 2 ^ D := by
  rw [List.map_const', List.prod_replicate, List.length_finRange]

/-- A cell adjacent to one face of a non-empty box is adjacent to no other face of it. -/
theorem adjCell_unique (sub : Box D) (hok : sub.ok) (i : Fin D) (side : Nat) (c : IntVect D)
    (h : (if side = 0 then sub.adjCellLo i else sub.adjCellHi i).contains c) (d : Fin D) :
    ((sub.adjCellLo d).contains c ↔ (d = i ∧ side = 0)) ∧
    ((sub.adjCellHi d).contains c ↔ (d = i ∧ side ≠ 0)) := by
  have hi := h i
  have ho := hok i
  by_cases hs : side = 0
  · rw [if_pos hs] at h hi
    simp only [Box.adjCellLo, if_true] at hi
    constructor
    · constructor
      · intro hd
        by_cases hdi : d = i
        · exact ⟨hdi, hs⟩
        · have := hd i
          simp only [Box.adjCellLo, if_neg (Ne.symm hdi)] at this
          omega
      · rintro ⟨rfl, -⟩; exact h
    · constructor
      · intro hd
        have := hd i
        by_cases hdi : d = i
        · subst hdi
          simp only [Box.adjCellHi, if_true] at this
          omega
        · simp only [Box.adjCellHi, if_neg (Ne.symm hdi)] at this
          omega
      · rintro ⟨-, h2⟩; exact absurd hs h2
  · rw [if_neg hs] at h hi
    simp only [Box.adjCellHi, if_true] at hi
    constructor
    · constructor
      · intro hd
        have := hd i
        by_cases hdi : d = i
        · subst hdi
          simp only [Box.adjCellLo, if_true] at this
          omega
        · simp only [Box.adjCellLo, if_neg (Ne.symm hdi)] at this
          omega
      · rintro ⟨-, h2⟩; exact absurd h2 hs
    · constructor
      · intro hd
        by_cases hdi : d = i
        · exact ⟨hdi, hs⟩
        · have := hd i
          simp only [Box.adjCellHi, if_neg (Ne.symm hdi)] at this
          omega
      · rintro ⟨rfl, -⟩; exact h

theorem adjCell_in_ring (sub : Box D) (hok : sub.ok) (i : Fin D) (side : Nat) (c : IntVect D)
    (h : (if side = 0 then sub.adjCellLo i else sub.adjCellHi i).contains c) :
    (sub.grow 1).contains c ∧ ¬ sub.contains c := by
  constructor
  · rw [contains_grow]
    intro d
    have hd := h d
    have ho := hok d
    by_cases hs : side = 0
    · rw [if_pos hs] at hd
      simp only [Box.adjCellLo] at hd
      split_ifs at hd with hdi
      · subst hdi; constructor <;> omega
      · constructor <;> omega
    · rw [if_neg hs] at hd
      simp only [Box.adjCellHi] at hd
      split_ifs at hd with hdi
      · subst hdi; constructor <;> omega
      · constructor <;> omega
  · intro hc
    have hd := h i
    have := hc i
    by_cases hs : side = 0
    · rw [if_pos hs] at hd
      simp only [Box.adjCellLo, if_true] at hd
      omega
    · rw [if_neg hs] at hd
      simp only [Box.adjCellHi, if_true] at hd
      omega

/-- Claim C11 (ratio averaging), amended. Refinement ratio 2 in every direction, no volume
field, one fine box on a non-periodic domain. After `reset`, one `FineAdd(dx, dt)` and
`Reflux`, the coarse cell `c` adjacent to one face of the fine region has changed by the
arithmetic mean of the fluxes on the child faces of that face times `dt / (2 * dx)`, with
sign minus on the low side and plus on the high side: `FineAdd` passes the kernel the factor
`dt / (dx * 2 ^ D)` and the kernel sums the `2 ^ (D - 1)` child faces, so the scale is `dt`
over the coarse cell size `2 * dx`, not `dt / dx`. With unit child fluxes the change is
`dt / (2 * dx)` in magnitude. -/
theorem fineadd_ratio_averaging (sub cb : Box D) (fgeom cgeom : Geometry D) (lev : Int)
    (nvar myproc : Nat) (mem : DefineMemory D) (flux : Fin D → FArrayBox D)
    (dx : Fin D → Real) (dt : Real) (state : MultiFab D) (idim : Fin D) (side : Nat)
    (c : IntVect D) (n : Nat)
    (hok : sub.ok) (hper : ∀ d, cgeom.is_periodic d = false)
    (hfper : fgeom.isAnyPeriodic = false) (hstate : state.boxarray = [cb])
    (hc : cb.contains c) (hdomc : cgeom.domain.contains c) (hn : n < nvar)
    (hside : side = 0 ∨ side = 1)
    (hadj : (if side = 0 then sub.adjCellLo idim else sub.adjCellHi idim).contains c) :
    (((seamRegister sub cb (fun _ => 2) fgeom cgeom lev nvar myproc mem).reset.FineAdd
        ⟨0, 0, sub.refine (fun _ => 2)⟩ flux dx dt 0 0 nvar).Reflux state 0 0 nvar).2.data 0 c n
      = state.data 0 c n + (if side = 0 then -1 else 1) *
          (childMean (fun _ => 2) (flux idim) idim side c n * (dt / (2 * dx idim))) ∧
    ((∀ off ∈ childOffsets (fun _ : Fin D => (2 : Int)) idim,
        (flux idim).data (childFace (fun _ => 2) idim side c off) n = 1) →
      (((seamRegister sub cb (fun _ => 2) fgeom cgeom lev nvar myproc mem).reset.FineAdd
        ⟨0, 0, sub.refine (fun _ => 2)⟩ flux dx dt 0 0 nvar).Reflux state 0 0 nvar).2.data 0 c n
      = state.data 0 c n + (if side = 0 then -1 else 1) * (dt / (2 * dx idim))) := by
  have hlen := length_childOffsets_two idim
  have hD : (2 : Real) ^ D = 2 * 2 ^ (D - 1) := by
    rw [← pow_succ']
    congr 1
    have := idim.isLt
    omega
  have hpos : ((2 : Real) ^ (D - 1)) ≠ 0 := pow_ne_zero _ (by norm_num)
  have hmain : (((seamRegister sub cb (fun _ => 2) fgeom cgeom lev nvar myproc
      mem).reset.FineAdd ⟨0, 0, sub.refine (fun _ => 2)⟩ flux dx dt 0 0 nvar).Reflux state
        0 0 nvar).2.data 0 c n
      = state.data 0 c n + (if side = 0 then -1 else 1) *
          (childMean (fun _ => 2) (flux idim) idim side c n * (dt / (2 * dx idim))) := by
    obtain ⟨hring1, hring2⟩ := adjCell_in_ring sub hok idim side c hadj
    rw [seam_fineadd_state sub cb (fun _ => 2) fgeom cgeom lev nvar myproc mem flux dx dt state
      (fun _ => by norm_num) hper hfper hstate c n hc hn,
      if_pos ⟨(contains_inter _ _ _).2 ⟨hring1, hdomc⟩, hring2⟩, one_mul]
    congr 1
    simp only [seamPatchValue, List.map_cons, List.map_nil, List.sum_cons, List.sum_nil,
      add_zero, (adjCell_unique sub hok idim side c hadj _).1,
      (adjCell_unique sub hok idim side c hadj _).2]
    rw [sum_map_single_of_nodup _ (List.nodup_finRange D) idim, if_pos (List.mem_finRange _)]
    · simp only [true_and, fineTerm, childMean, prod_ratio_two, hlen]
      push_cast
      rw [hD]
      rcases hside with h | h
      · subst h
        simp only [if_true, ne_eq, not_true_eq_false, if_false, add_zero]
        field_simp
        ring
      · subst h
        simp only [one_ne_zero, if_false, ne_eq, not_false_eq_true, if_true, zero_add]
        field_simp
        ring
    · intro x _ hx
      simp [hx]
  refine ⟨hmain, fun hunit => ?_⟩
  rw [hmain]
  have hone : childMean (fun _ => 2) (flux idim) idim side c n = 1 := by
    unfold childMean
    rw [List.map_congr_left hunit, List.map_const', List.sum_replicate, hlen]
    simp only [nsmul_eq_mul, mul_one]
    push_cast
    exact div_self hpos
  rw [hone, one_mul]

end Averaging

section Coarsening

variable {D : Nat}

theorem mem_cells (b : Box D) (p : IntVect D) : p ∈ b.cells ↔ b.contains p := by
  unfold Box.cells Box.contains
  rw [mem_vectorsWith]
  refine forall_congr' fun d => ?_
  rw [List.mem_map]
  constructor
  · rintro ⟨i, hi, he⟩
    rw [List.mem_range] at hi
    omega
  · intro h
    refine ⟨(p d - b.smallend d).toNat, ?_, ?_⟩
    · rw [List.mem_range]; omega
    · omega

/-- Claim C19 (error code of EB coarsening). `Level::coarsenFromFine` returns 1, as a value,
when the fine grids are not coarsenable by 2 with minimum width 2 or the non-empty covered
grids are not; whatever the kernels return and the other ranks report, it returns 0 or 1;
and `buildCellFlag` is called, once, exactly when it returns 0. -/
theorem coarsenFromFine_error_code (lvl fineLevel : EB2Level D) (fill_boundary : Bool)
    (env : CoarsenEnv D) :
    (¬ (fineLevel.m_grids.coarsenable 2 2 = true ∧
        (fineLevel.m_covered_grids.isEmpty = true ∨
          fineLevel.m_covered_grids.coarsenable 2 2 = true)) →
      (lvl.coarsenFromFine fineLevel fill_boundary env).1 = 1) ∧
    ((lvl.coarsenFromFine fineLevel fill_boundary env).1 = 0 ∨
      (lvl.coarsenFromFine fineLevel fill_boundary env).1 = 1) ∧
    (lvl.coarsenFromFine fineLevel fill_boundary env).2.buildCellFlag_calls =
      lvl.buildCellFlag_calls +
        (if (lvl.coarsenFromFine fineLevel fill_boundary env).1 = 0 then 1 else 0) := by
  unfold EB2Level.coarsenFromFine
  simp only []
  split_ifs with h1 h2 h3
  all_goals simp_all [EB2Level.buildCellFlag]

end Coarsening

section Bins

theorem binsMapIncr_keys (m : List (Nat × Nat)) (k x : Nat)
    (hx : x ∈ (binsMapIncr m k).map Prod.fst) : x = k ∨ x ∈ m.map Prod.fst := by
  induction m with
  | nil => simp [binsMapIncr] at hx; exact Or.inl hx
  | cons e rest ih =>
    obtain ⟨k2, c⟩ := e
    simp only [binsMapIncr] at hx
    split_ifs at hx with h1 h2
    · simp only [List.map_cons, List.mem_cons] at hx ⊢
      rcases hx with h | h | h
      · exact Or.inl h
      · exact Or.inr (Or.inl h)
      · exact Or.inr (Or.inr h)
    · simp only [List.map_cons, List.mem_cons] at hx ⊢
      exact Or.inr hx
    · simp only [List.map_cons, List.mem_cons] at hx ⊢
      rcases hx with h | h
      · exact Or.inr (Or.inl h)
      · rcases ih h with h3 | h3
        · exact Or.inl h3
        · exact Or.inr (Or.inr h3)

/-- One `bins_map[k] += 1` on a map with increasing keys, positive counts and no count at
the largest `unsigned int`: the keys stay increasing, the counts positive, and the bins hold
one more item `k`. -/
theorem binsMapIncr_spec (m : List (Nat × Nat)) (k : Nat)
    (hs : (m.map Prod.fst).Pairwise (· < ·)) (hpos : ∀ e ∈ m, 1 ≤ e.2)
    (hlt : ∀ e ∈ m, e.2 + 1 < 2 ^ 32) :
    ((binsMapIncr m k).map Prod.fst).Pairwise (· < ·) ∧
    (∀ e ∈ binsMapIncr m k, 1 ≤ e.2) ∧
    (binsFlat (binsMapIncr m k)).Perm (k :: binsFlat m) := by
  induction m with
  | nil =>
    refine ⟨by simp [binsMapIncr], by simp [binsMapIncr], ?_⟩
    simp [binsMapIncr, binsFlat]
  | cons e rest ih =>
    obtain ⟨k2, c⟩ := e
    have hs2 := List.pairwise_cons.1 hs
    obtain ⟨i1, i2, i3⟩ := ih hs2.2 (fun e he => hpos e (List.mem_cons_of_mem _ he))
      (fun e he => hlt e (List.mem_cons_of_mem _ he))
    simp only [binsMapIncr]
    split_ifs with h1 h2
    · refine ⟨?_, ?_, ?_⟩
      · simp only [List.map_cons, List.pairwise_cons] at hs ⊢
        refine ⟨?_, hs⟩
        intro x hx
        rcases List.mem_cons.1 hx with h | h
        · omega
        · have := hs.1 x h; omega
      · intro e he
        rcases List.mem_cons.1 he with h | h
        · subst h; exact le_refl _
        · exact hpos e h
      · simp [binsFlat]
    · subst h2
      have hc := hlt (k, c) (List.mem_cons_self _ _)
      simp only at hc
      refine ⟨by simpa using hs, ?_, ?_⟩
      · intro e he
        rcases List.mem_cons.1 he with h | h
        · subst h; simp only; rw [Nat.mod_eq_of_lt hc]; omega
        · exact hpos e (List.mem_cons_of_mem _ h)
      · simp only [binsFlat, List.flatMap_cons, Nat.mod_eq_of_lt hc, List.replicate_succ,
          List.cons_append]
        exact List.Perm.refl _
    · refine ⟨?_, ?_, ?_⟩
      · simp only [List.map_cons, List.pairwise_cons]
        refine ⟨?_, i1⟩
        intro x hx
        rcases binsMapIncr_keys rest k x hx with h | h
        · omega
        · exact hs2.1 x h
      · intro e he
        rcases List.mem_cons.1 he with h | h
        · subst h; exact hpos _ (List.mem_cons_self _ _)
        · exact i2 e h
      · simp only [binsFlat, List.flatMap_cons] at i3 ⊢
        exact (List.Perm.append_left _ i3).trans List.perm_middle

theorem count_le_length_binsFlat (m : List (Nat × Nat)) (e : Nat × Nat) (he : e ∈ m) :
    e.2 ≤ (binsFlat m).length := by
  induction m with
  | nil => exact absurd he (List.not_mem_nil _)
  | cons a rest ih =>
    simp only [binsFlat, List.flatMap_cons, List.length_append, List.length_replicate] at ih ⊢
    rcases List.mem_cons.1 he with h | h
    · subst h; omega
    · have := ih h; omega

/-- The bin map after the first loop of `build` over the bin numbers `l`, started from a map
`m` that holds the items `l0`. -/
theorem binsMap_fold (l : List Nat) (m : List (Nat × Nat)) (l0 : List Nat)
    (hs : (m.map Prod.fst).Pairwise (· < ·)) (hpos : ∀ e ∈ m, 1 ≤ e.2)
    (hperm : (binsFlat m).Perm l0) (hlen : l0.length + l.length < 2 ^ 32) :
    ((l.foldl binsMapIncr m).map Prod.fst).Pairwise (· < ·) ∧
    (∀ e ∈ l.foldl binsMapIncr m, 1 ≤ e.2) ∧
    (binsFlat (l.foldl binsMapIncr m)).Perm (l ++ l0) := by
  induction l generalizing m l0 with
  | nil => exact ⟨hs, hpos, by simpa using hperm⟩
  | cons k l ih =>
    rw [List.length_cons] at hlen
    obtain ⟨h1, h2, h3⟩ := binsMapIncr_spec m k hs hpos (fun e he => by
      have := count_le_length_binsFlat m e he
      rw [hperm.length_eq] at this
      omega)
    obtain ⟨i1, i2, i3⟩ := ih (binsMapIncr m k) (k :: l0) h1 h2
      (h3.trans (List.Perm.cons _ hperm)) (by rw [List.length_cons]; omega)
    refine ⟨i1, i2, ?_⟩
    rw [List.foldl_cons]
    exact i3.trans List.perm_middle

/-- The second loop of `build`: the bin numbers in the order of the map, and the offsets
with the partial sums of the counts appended. -/
theorem offsets_fold (m : List (Nat × Nat)) (b0 o0 : List Nat) :
    m.foldl
      (fun (acc : List Nat × List Nat) kv =>
        (acc.1 ++ [kv.1], acc.2 ++ [(acc.2.getLastD 0 + kv.2) % 2 ^ 32]))
      (b0, o0) = (b0 ++ m.map Prod.fst, o0 ++ partialSums (o0.getLastD 0) (m.map Prod.snd)) := by
  induction m generalizing b0 o0 with
  | nil => simp [partialSums]
  | cons e rest ih =>
    rw [List.foldl_cons, ih]
    have : (o0 ++ [(o0.getLastD 0 + e.2) % 2 ^ 32]).getLastD 0 =
        (o0.getLastD 0 + e.2) % 2 ^ 32 := by
      rw [List.getLastD_eq_getLast?, List.getLast?_concat]; rfl
    rw [this]
    simp [partialSums]

/-- Entry `k` of the offsets is the number of items in the bins before bin `k`, as long as
the items number less than `2 ^ 32`. -/
theorem partialSums_getElem (cs : List Nat) (s k : Nat) (hk : k ≤ cs.length)
    (hsum : s + cs.sum < 2 ^ 32) :
    (s :: partialSums s cs)[k]? = some (s + (cs.take k).sum) := by
  induction cs generalizing s k with
  | nil =>
    have : k = 0 := by simpa using hk
    subst this; simp
  | cons c cs ih =>
    rcases k with _ | k
    · simp
    · simp only [List.sum_cons] at hsum
      simp only [List.length_cons] at hk
      rw [List.getElem?_cons_succ]
      simp only [partialSums]
      rw [Nat.mod_eq_of_lt (by omega), ih (s + c) k (by omega) (by omega)]
      simp only [List.take_succ_cons, List.sum_cons]
      congr 1; omega

theorem length_partialSums (cs : List Nat) (s : Nat) : (partialSums s cs).length = cs.length := by
  induction cs generalizing s with
  | nil => rfl
  | cons c cs ih => simp [partialSums, ih]

theorem mem_binsFlat (m : List (Nat × Nat)) (x : Nat) :
    x ∈ binsFlat m ↔ ∃ e ∈ m, e.1 = x ∧ 1 ≤ e.2 := by
  unfold binsFlat
  rw [List.mem_flatMap]
  constructor
  · rintro ⟨e, he, hx⟩
    rw [List.mem_replicate] at hx
    exact ⟨e, he, hx.2.symm, by omega⟩
  · rintro ⟨e, he, h1, h2⟩
    exact ⟨e, he, List.mem_replicate.2 ⟨by omega, h1.symm⟩⟩

theorem length_binsFlat (m : List (Nat × Nat)) :
    (binsFlat m).length = (m.map Prod.snd).sum := by
  induction m with
  | nil => rfl
  | cons e rest ih =>
    simp only [binsFlat, List.flatMap_cons, List.length_append, List.length_replicate,
      List.map_cons, List.sum_cons] at ih ⊢
    rw [ih]

theorem sorted_binsFlat (m : List (Nat × Nat)) (hs : (m.map Prod.fst).Pairwise (· < ·)) :
    (binsFlat m).Pairwise (· ≤ ·) := by
  induction m with
  | nil => exact List.Pairwise.nil
  | cons e rest ih =>
    have hs2 := List.pairwise_cons.1 hs
    simp only [binsFlat, List.flatMap_cons]
    rw [List.pairwise_append]
    refine ⟨?_, ih hs2.2, ?_⟩
    · rw [List.pairwise_replicate]
      exact Or.inr (le_refl _)
    · intro a ha b hb
      rw [List.mem_replicate] at ha
      obtain ⟨e2, he2, h1, -⟩ := (mem_binsFlat rest b).1 hb
      have := hs2.1 e2.1 (List.mem_map_of_mem _ he2)
      omega

/-- The positions of the items of bin `k` in the bins laid out one after the other: from the
number of items in the bins before it up to, and without, that number plus its count. -/
theorem binsFlat_getElem (m : List (Nat × Nat)) (hs : (m.map Prod.fst).Pairwise (· < ·))
    (k j : Nat) (e : Nat × Nat) (hk : m[k]? = some e) (hj : j < (binsFlat m).length) :
    (binsFlat m)[j]? = some e.1 ↔
      ((m.take k).map Prod.snd).sum ≤ j ∧ j < ((m.take (k + 1)).map Prod.snd).sum := by
  induction m generalizing k j with
  | nil => simp at hk
  | cons e0 rest ih =>
    have hs2 := List.pairwise_cons.1 hs
    have hflat : binsFlat (e0 :: rest) = List.replicate e0.2 e0.1 ++ binsFlat rest := by
      simp [binsFlat]
    rw [hflat] at hj ⊢
    rw [List.length_append, List.length_replicate] at hj
    rcases k with _ | k
    · simp only [List.getElem?_cons_zero, Option.some.injEq] at hk
      subst hk
      simp only [List.take_zero, List.map_nil, List.sum_nil, Nat.zero_le, true_and,
        List.take_succ_cons, List.map_cons, List.sum_cons, add_zero]
      constructor
      · intro h
        by_contra hlt
        rw [List.getElem?_append_right (by rw [List.length_replicate]; omega),
          List.length_replicate] at h
        obtain ⟨e2, he2, h1, -⟩ := (mem_binsFlat rest e0.1).1 (List.getElem?_mem h)
        have := hs2.1 e2.1 (List.mem_map_of_mem _ he2)
        omega
      · intro h
        rw [List.getElem?_append_left (by rw [List.length_replicate]; exact h),
          List.getElem?_replicate, if_pos h]
    · simp only [List.getElem?_cons_succ] at hk
      have hlt0 : e0.1 < e.1 := hs2.1 e.1 (List.mem_map_of_mem _ (List.getElem?_mem hk))
      simp only [List.take_succ_cons, List.map_cons, List.sum_cons]
      by_cases hjc : j < e0.2
      · rw [List.getElem?_append_left (by rw [List.length_replicate]; exact hjc),
          List.getElem?_replicate, if_pos hjc]
        constructor
        · intro h
          simp only [Option.some.injEq] at h
          omega
        · intro h; omega
      · rw [List.getElem?_append_right (by rw [List.length_replicate]; omega),
          List.length_replicate, ih hs2.2 k (j - e0.2) hk (by omega)]
        constructor <;> intro h <;> constructor <;> omega

/-- The call of `std::sort` as an insertion sort. -/
theorem insertionSort_sorts (key : Nat → Nat) (l : List Nat) :
    (sortByLess (fun i j => decide (key i < key j)) l).Perm l ∧
    (sortByLess (fun i j => decide (key i < key j)) l).Pairwise fun a b => key a ≤ key b := by
  unfold sortByLess
  refine ⟨List.perm_insertionSort _ l, ?_⟩
  have hs := @List.sorted_insertionSort Nat (fun a b => key a ≤ key b) _
    ⟨fun a b => le_total (key a) (key b)⟩ ⟨fun a b c h1 h2 => le_trans h1 h2⟩ l
  have he : (fun a b : Nat => (decide (key b < key a)) = false) =
      fun a b => key a ≤ key b := by
    funext a b; simp
  simp only [he]
  exact hs

/-- Claim C20 (SparseBins layout). After `build(nitems, v, bx, f)` with fewer than `2 ^ 31`
items (the loop counter is an `int`) and a `std::sort` that returns a sorted permutation:
(a) the array of non-zero bins is strictly increasing and holds exactly the bin numbers of
the items, so `numBins()` is the number of distinct bin numbers; (b) the permutation array is
a permutation of `0 .. nitems - 1` in non-decreasing bin number, and `numItems()` is
`nitems`; (c) the offsets array has `numBins() + 1` entries, starts at 0, ends at `nitems`,
and position `j` of the permutation lies between `offsets[k]` and `offsets[k + 1]` exactly
when the item at that position has the bin number `bins[k]`. -/
theorem sparseBins_layout {α : Type} {D : Nat}
    (sort : (Nat → Nat → Bool) → List Nat → List Nat) (nitems : Nat) (v : Nat → α)
    (bx : Box D) (f : α → IntVect D)
    (hsort : ∀ (key : Nat → Nat) (l : List Nat),
      (sort (fun i j => decide (key i < key j)) l).Perm l ∧
      (sort (fun i j => decide (key i < key j)) l).Pairwise fun a b => key a ≤ key b)
    (hn : nitems < 2 ^ 31) :
    ((SparseBins.build sort nitems v bx f).m_bins.Pairwise (· < ·) ∧
      (∀ k, k ∈ (SparseBins.build sort nitems v bx f).m_bins ↔
        ∃ i, i < nitems ∧ hostCell bx (f (v i)) = k) ∧
      (SparseBins.build sort nitems v bx f).numBins =
        (SparseBins.build sort nitems v bx f).m_bins.length ∧
      (SparseBins.build sort nitems v bx f).m_bins.length =
        ((List.range nitems).map fun i => hostCell bx (f (v i))).dedup.length) ∧
    ((SparseBins.build sort nitems v bx f).m_perm.Perm (List.range nitems) ∧
      ((SparseBins.build sort nitems v bx f).m_perm.Pairwise fun a b =>
        hostCell bx (f (v a)) ≤ hostCell bx (f (v b))) ∧
      (SparseBins.build sort nitems v bx f).numItems = nitems) ∧
    ((SparseBins.build sort nitems v bx f).m_offsets.length =
        (SparseBins.build sort nitems v bx f).m_bins.length + 1 ∧
      (SparseBins.build sort nitems v bx f).m_offsets[0]? = some 0 ∧
      (SparseBins.build sort nitems v bx f).m_offsets[
        (SparseBins.build sort nitems v bx f).m_bins.length]? = some nitems ∧
      ∀ k j a b p bn,
        (SparseBins.build sort nitems v bx f).m_offsets[k]? = some a →
        (SparseBins.build sort nitems v bx f).m_offsets[k + 1]? = some b →
        (SparseBins.build sort nitems v bx f).m_bins[k]? = some bn →
        (SparseBins.build sort nitems v bx f).m_perm[j]? = some p →
        ((a ≤ j ∧ j < b) ↔ hostCell bx (f (v p)) = bn)) := by
  obtain ⟨cells, hcells⟩ : ∃ cells, cells = (List.range nitems).map fun i =>
    hostCell bx (f (v i)) := ⟨_, rfl⟩
  obtain ⟨M, hM⟩ : ∃ M, M = cells.foldl binsMapIncr [] := ⟨_, rfl⟩
  have hclen : cells.length = nitems := by rw [hcells, List.length_map, List.length_range]
  obtain ⟨m1, m2, m3⟩ := binsMap_fold cells [] [] List.Pairwise.nil
    (fun e he => absurd he (List.not_mem_nil _)) (List.Perm.refl _)
    (by rw [hclen, List.length_nil]; omega)
  rw [← hM] at m1 m2 m3
  rw [List.append_nil] at m3
  have hkey : ∀ i, i < nitems → cells.getD i 0 = hostCell bx (f (v i)) := by
    intro i hi
    rw [hcells, List.getD_eq_getElem?_getD, List.getElem?_map, List.getElem?_range hi]
    rfl
  obtain ⟨p1, p2⟩ := hsort (fun i => cells.getD i 0) (List.range nitems)
  have hbins : (SparseBins.build sort nitems v bx f).m_bins = M.map Prod.fst := by
    simp only [SparseBins.build, ← hcells, ← hM, offsets_fold, List.nil_append]
  have hoffs : (SparseBins.build sort nitems v bx f).m_offsets =
      0 :: partialSums 0 (M.map Prod.snd) := by
    simp only [SparseBins.build, ← hcells, ← hM, offsets_fold]
    rfl
  have hperm : (SparseBins.build sort nitems v bx f).m_perm =
      sort (fun i j => decide (cells.getD i 0 < cells.getD j 0)) (List.range nitems) := by
    simp only [SparseBins.build, ← hcells]
  have hsum : (M.map Prod.snd).sum = nitems := by
    rw [← length_binsFlat, m3.length_eq, hclen]
  have hmemp : ∀ a ∈ sort (fun i j => decide (cells.getD i 0 < cells.getD j 0))
      (List.range nitems), a < nitems := fun a ha => List.mem_range.1 (p1.mem_iff.1 ha)
  have hflat : (sort (fun i j => decide (cells.getD i 0 < cells.getD j 0))
      (List.range nitems)).map (fun i => cells.getD i 0) = binsFlat M := by
    refine List.eq_of_perm_of_sorted (r := (· ≤ ·)) ?_ ?_ (sorted_binsFlat M m1)
    · refine ((p1.map _).trans ?_).trans m3.symm
      rw [hcells]
      refine List.Perm.of_eq (List.map_congr_left fun i hi => ?_)
      have := hkey i (List.mem_range.1 hi)
      rw [hcells] at this
      exact this
    · exact (List.pairwise_map).2 p2
  have hmem : ∀ k, k ∈ M.map Prod.fst ↔ ∃ i, i < nitems ∧ hostCell bx (f (v i)) = k := by
    intro k
    have h1 : k ∈ M.map Prod.fst ↔ k ∈ binsFlat M := by
      rw [mem_binsFlat, List.mem_map]
      constructor
      · rintro ⟨e, he, rfl⟩; exact ⟨e, he, rfl, m2 e he⟩
      · rintro ⟨e, he, h, -⟩; exact ⟨e, he, h⟩
    rw [h1, m3.mem_iff, hcells, List.mem_map]
    constructor
    · rintro ⟨i, hi, h⟩; exact ⟨i, List.mem_range.1 hi, h⟩
    · rintro ⟨i, hi, h⟩; exact ⟨i, List.mem_range.2 hi, h⟩
  refine ⟨⟨?_, ?_, ?_, ?_⟩, ⟨?_, ?_, ?_⟩, ⟨?_, ?_, ?_, ?_⟩⟩
  · rw [hbins]; exact m1
  · intro k; rw [hbins]; exact hmem k
  · simp only [SparseBins.numBins, hoffs, hbins, List.length_cons, length_partialSums,
      List.length_map]
    push_cast; ring
  · rw [hbins]
    refine List.Perm.length_eq ((List.perm_ext_iff_of_nodup (m1.imp (fun h => Nat.ne_of_lt h))
      (List.nodup_dedup _)).2 fun k => ?_)
    rw [hmem k, List.mem_dedup, List.mem_map]
    constructor
    · rintro ⟨i, hi, h⟩; exact ⟨i, List.mem_range.2 hi, h⟩
    · rintro ⟨i, hi, h⟩; exact ⟨i, List.mem_range.1 hi, h⟩
  · rw [hperm]; exact p1
  · rw [hperm]
    refine p2.imp_of_mem fun {a b} ha hb h => ?_
    rw [hkey a (hmemp a ha), hkey b (hmemp b hb)] at h
    exact h
  · simp only [SparseBins.numItems, hperm, p1.length_eq, List.length_range]
  · rw [hoffs, hbins, List.length_cons, length_partialSums, List.length_map, List.length_map]
  · rw [hoffs]; simp
  · rw [hoffs, hbins, List.length_map,
      partialSums_getElem _ 0 M.length (by rw [List.length_map]) (by rw [hsum]; omega),
      List.take_of_length_le (by rw [List.length_map]), hsum, Nat.zero_add]
  · intro k j a b p bn ha hb hbn hp
    rw [hbins, List.getElem?_map] at hbn
    cases hMk : M[k]? with
    | none => rw [hMk] at hbn; exact Option.noConfusion hbn
    | some e =>
      rw [hMk] at hbn
      simp only [Option.map_some', Option.some.injEq] at hbn
      have hklt : k < M.length := by
        by_contra h
        rw [List.getElem?_eq_none (by omega)] at hMk
        exact Option.noConfusion hMk
      rw [hoffs, partialSums_getElem _ 0 k (by rw [List.length_map]; omega)
        (by rw [hsum]; omega)] at ha
      rw [hoffs, partialSums_getElem _ 0 (k + 1) (by rw [List.length_map]; omega)
        (by rw [hsum]; omega)] at hb
      simp only [Option.some.injEq, Nat.zero_add, ← List.map_take] at ha hb
      rw [hperm] at hp
      have hplt : p < nitems := hmemp p (List.getElem?_mem hp)
      have hjlt : j < (binsFlat M).length := by
        rw [m3.length_eq, hclen, ← List.length_range nitems, ← p1.length_eq]
        by_contra h
        rw [List.getElem?_eq_none (by omega)] at hp
        exact Option.noConfusion hp
      have hfj : (binsFlat M)[j]? = some (hostCell bx (f (v p))) := by
        rw [← hflat, List.getElem?_map, hp, Option.map_some', hkey p hplt]
      rw [← ha, ← hb, ← binsFlat_getElem M m1 k j e hMk hjlt, hfj, ← hbn]
      simp

end Bins

section Fragments

variable {D : Nat}

theorem pushAt_getElem (B : List (List Nat)) (i g l : Nat) :
    (pushAt B i g)[l]? = (B[l]?).map fun b => if l = i then b ++ [g] else b := by
  induction B generalizing i l with
  | nil => simp [pushAt]
  | cons x xs ih =>
    cases i with
    | zero =>
      cases l with
      | zero => simp [pushAt]
      | succ l => simp [pushAt]
    | succ i =>
      cases l with
      | zero => simp [pushAt]
      | succ l => simp [pushAt, ih]

theorem foldl_pushAt (ps : List (Nat × Nat)) (B : List (List Nat)) (l : Nat) :
    (ps.foldl (fun fabs x => pushAt fabs x.1 x.2) B)[l]? =
      (B[l]?).map fun b => b ++ (ps.filter fun x => x.1 = l).map Prod.snd := by
  induction ps generalizing B with
  | nil => simp
  | cons p ps ih =>
    rw [List.foldl_cons, ih, pushAt_getElem]
    cases B[l]? with
    | none => rfl
    | some b =>
      simp only [Option.map_some', List.filter_cons]
      by_cases h : p.1 = l
      · simp [h]
      · have h2 : ¬ l = p.1 := fun e => h e.symm
        simp [h, h2]

theorem enumFrom_map_getD (LI LC : List Nat) (k : Nat) (h : k + LC.length ≤ LI.length) :
    (LC.enumFrom k).map (fun x => (LI.getD x.1 0, x.2)) = (LI.drop k).zip LC := by
  induction LC generalizing k with
  | nil => simp
  | cons a LC ih =>
    rw [List.length_cons] at h
    have hk : k < LI.length := by omega
    rw [List.enumFrom_cons, List.map_cons, ih (k + 1) (by omega), List.drop_eq_getElem_cons hk,
      List.zip_cons_cons]
    simp [List.getD_eq_getElem?_getD, List.getElem?_eq_getElem hk]

theorem zip_flatMap {α β γ : Type} (l : List α) (f : α → List β) (g : α → List γ)
    (h : ∀ i ∈ l, (f i).length = (g i).length) :
    (l.flatMap f).zip (l.flatMap g) = l.flatMap fun i => (f i).zip (g i) := by
  induction l with
  | nil => simp
  | cons a l ih =>
    rw [List.flatMap_cons, List.flatMap_cons, List.flatMap_cons,
      List.zip_append (h a (List.mem_cons_self _ _)),
      ih fun i hi => h i (List.mem_cons_of_mem _ hi)]

theorem localIndices_append (A B : List Nat) (p : Nat) :
    localIndices (A ++ B) p = localIndices A p ++ (localIndices B p).map (A.length + ·) := by
  unfold localIndices
  rw [List.length_append, List.range_add, List.filter_append, List.filter_map]
  congr 1
  · refine List.filter_congr fun g hg => ?_
    rw [List.mem_range] at hg
    rw [List.getElem?_append_left hg]
  · congr 1
    refine List.filter_congr fun g _ => ?_
    simp [List.getElem?_append_right]

theorem localIndices_replicate_ite (m q p : Nat) :
    localIndices (List.replicate m q) p = if q = p then List.range m else [] := by
  by_cases h : q = p
  · rw [if_pos h, h, localIndices_replicate]
  · rw [if_neg h]
    unfold localIndices
    rw [List.filter_eq_nil_iff]
    intro g _
    simp only [List.getElem?_replicate, decide_eq_true_eq]
    split_ifs <;> simp [h]

theorem localIndices_flatMap (len proc : Nat → Nat) (p n : Nat) :
    localIndices ((List.range n).flatMap fun i => List.replicate (len i) (proc i)) p =
      (List.range n).flatMap fun i =>
        if proc i = p then
          (List.range (len i)).map (((List.range i).map len).sum + ·)
        else [] := by
  induction n with
  | zero => simp [localIndices]
  | succ n ih =>
    rw [List.range_succ, List.flatMap_append, List.flatMap_append, localIndices_append, ih,
      length_flatMap_range]
    simp only [List.flatMap_cons, List.flatMap_nil, List.append_nil, List.length_replicate,
      localIndices_replicate_ite]
    split_ifs <;> simp

theorem ringLoop_localindex (cfba : BoxArray D) (cdomain : Box D) (fdm : List Nat)
    (myproc : Nat) (l0 : List Nat) (n : Nat) :
    ((List.range n).foldl (ringStep cfba cdomain fdm myproc) ⟨[], [], l0, 0⟩).cfp_localindex =
        l0 ++ (List.range n).flatMap (fun i =>
          if fdm.getD i 0 = myproc then
            List.replicate (ringBoxes cfba cdomain i).length (localRank fdm myproc i)
          else []) ∧
    ((List.range n).foldl (ringStep cfba cdomain fdm myproc) ⟨[], [], l0, 0⟩).nlocal =
        localRank fdm myproc n := by
  induction n with
  | zero => simp [localRank]
  | succ n ih =>
    obtain ⟨h1, h2⟩ := ih
    rw [List.range_succ, List.foldl_append, List.foldl_cons, List.foldl_nil]
    simp only [ringStep, h1, h2, localRank, List.flatMap_append, List.flatMap_cons,
      List.flatMap_nil, List.append_nil, List.countP_append, List.countP_cons, List.countP_nil]
    by_cases h : fdm.getD n 0 = myproc
    · rw [List.getD_eq_getElem?_getD] at h
      simp [h, List.append_assoc, List.range_succ]
    · rw [List.getD_eq_getElem?_getD] at h
      simp [h, List.range_succ]

theorem localRank_mono (fdm : List Nat) (myproc : Nat) {i j : Nat} (h : i ≤ j) :
    localRank fdm myproc i ≤ localRank fdm myproc j := by
  unfold localRank
  exact (List.range_sublist.2 h).countP_le _

theorem localRank_succ (fdm : List Nat) (myproc i : Nat) (h : fdm.getD i 0 = myproc) :
    localRank fdm myproc (i + 1) = localRank fdm myproc i + 1 := by
  unfold localRank
  rw [List.getD_eq_getElem?_getD] at h
  rw [List.range_succ, List.countP_append]
  simp [h]

theorem localRank_inj (fdm : List Nat) (myproc : Nat) {i j : Nat}
    (hi : fdm.getD i 0 = myproc) (hj : fdm.getD j 0 = myproc)
    (h : localRank fdm myproc i = localRank fdm myproc j) : i = j := by
  rcases Nat.lt_trichotomy i j with hlt | heq | hgt
  · have := localRank_mono fdm myproc (Nat.succ_le_of_lt hlt)
    rw [Nat.succ_eq_add_one, localRank_succ fdm myproc i hi] at this
    omega
  · exact heq
  · have := localRank_mono fdm myproc (Nat.succ_le_of_lt hgt)
    rw [Nat.succ_eq_add_one, localRank_succ fdm myproc j hj] at this
    omega

theorem flatMap_range_single {α : Type} (X : Nat → List α) (n g : Nat) (hg : g < n) :
    ((List.range n).flatMap fun i => if i = g then X i else []) = X g := by
  induction n with
  | zero => omega
  | succ n ih =>
    rw [List.range_succ, List.flatMap_append]
    by_cases h : g < n
    · rw [ih h]
      have : n ≠ g := by omega
      simp [this]
    · have e : g = n := by omega
      subst e
      have h0 : ((List.range g).flatMap fun i => if i = g then X i else []) = [] := by
        rw [List.flatMap_eq_nil_iff]
        intro i hi
        rw [List.mem_range] at hi
        rw [if_neg (by omega)]
      rw [h0]
      simp

/-- The buckets that the loop over the local patch fabs fills, starting from empty
buckets. -/
theorem cfp_fab_fold (cfba : BoxArray D) (cdomain : Box D) (fdm : List Nat) (myproc g : Nat)
    (hg : g < cfba.length) (hown : fdm.getD g 0 = myproc) :
    (((localIndices (ringLoop cfba cdomain fdm myproc []).cfp_procmap myproc).enum).foldl
        (fun fabs x =>
          pushAt fabs ((ringLoop cfba cdomain fdm myproc []).cfp_localindex.getD x.1 0) x.2)
        (List.replicate (ringLoop cfba cdomain fdm myproc []).nlocal []))[
        localRank fdm myproc g]? =
      some ((List.range (ringBoxes cfba cdomain g).length).map
        (ringOffset cfba cdomain g + ·)) := by
  have hli := (ringLoop_localindex cfba cdomain fdm myproc [] cfba.length).1
  have hnl := (ringLoop_localindex cfba cdomain fdm myproc [] cfba.length).2
  have hpm := (ringLoop_fold cfba cdomain fdm myproc (List.range cfba.length) ⟨[], [], [], 0⟩).2
  rw [List.nil_append] at hli hpm
  have hlc := localIndices_flatMap (fun i => (ringBoxes cfba cdomain i).length)
    (fun i => fdm.getD i 0) myproc cfba.length
  unfold ringLoop
  rw [hli, hnl, hpm, hlc]
  have hz := zip_flatMap (List.range cfba.length)
    (fun i => if fdm.getD i 0 = myproc then
        List.replicate (ringBoxes cfba cdomain i).length (localRank fdm myproc i) else [])
    (fun i => if fdm.getD i 0 = myproc then
        (List.range (ringBoxes cfba cdomain i).length).map
          (((List.range i).map fun j => (ringBoxes cfba cdomain j).length).sum + ·) else [])
    (fun i _ => by beta_reduce; split_ifs <;> simp)
  have hen := enumFrom_map_getD
    ((List.range cfba.length).flatMap fun i => if fdm.getD i 0 = myproc then
        List.replicate (ringBoxes cfba cdomain i).length (localRank fdm myproc i) else [])
    ((List.range cfba.length).flatMap fun i => if fdm.getD i 0 = myproc then
        (List.range (ringBoxes cfba cdomain i).length).map
          (((List.range i).map fun j => (ringBoxes cfba cdomain j).length).sum + ·) else [])
    0 (by
      rw [Nat.zero_add]
      apply le_of_eq
      rw [List.length_flatMap, List.length_flatMap]
      congr 1
      refine List.map_congr_left fun i _ => ?_
      simp only [Function.comp]
      split_ifs <;> simp)
  rw [List.drop_zero, hz] at hen
  beta_reduce at hen
  have hfold : ∀ (l : List (Nat × Nat)) (LI : List Nat) (B : List (List Nat)),
      l.foldl (fun fabs x => pushAt fabs (LI.getD x.1 0) x.2) B =
        (l.map fun x => (LI.getD x.1 0, x.2)).foldl (fun fabs x => pushAt fabs x.1 x.2) B := by
    intro l LI B
    rw [List.foldl_map]
  rw [List.enum, hfold, hen, foldl_pushAt]
  have hrk : localRank fdm myproc g < localRank fdm myproc cfba.length := by
    have := localRank_mono fdm myproc (Nat.succ_le_of_lt hg)
    rw [Nat.succ_eq_add_one, localRank_succ fdm myproc g hown] at this
    omega
  rw [List.getElem?_replicate, if_pos hrk, Option.map_some', List.nil_append, List.filter_flatMap,
    List.map_flatMap]
  have hblock : ∀ i ∈ List.range cfba.length,
      (List.filter (fun x : Nat × Nat => decide (x.1 = localRank fdm myproc g))
        ((if fdm.getD i 0 = myproc then
          List.replicate (ringBoxes cfba cdomain i).length (localRank fdm myproc i) else []).zip
        (if fdm.getD i 0 = myproc then
          (List.range (ringBoxes cfba cdomain i).length).map
            (((List.range i).map fun j => (ringBoxes cfba cdomain j).length).sum + ·)
          else []))).map Prod.snd =
      if i = g then (List.range (ringBoxes cfba cdomain i).length).map
        (ringOffset cfba cdomain i + ·) else [] := by
    intro i _
    by_cases hi : fdm.getD i 0 = myproc
    · rw [if_pos hi, if_pos hi]
      by_cases hig : i = g
      · rw [if_pos hig, List.filter_eq_self.2, List.map_snd_zip]
        · rfl
        · simp
        · intro x hx
          have := (List.of_mem_zip hx).1
          rw [List.mem_replicate] at this
          simp [this.2, hig]
      · rw [if_neg hig, List.filter_eq_nil_iff.2, List.map_nil]
        intro x hx
        have := (List.of_mem_zip hx).1
        rw [List.mem_replicate] at this
        simp only [decide_eq_true_eq, this.2]
        intro e
        exact hig (localRank_inj fdm myproc hi hown e)
    · rw [if_neg hi, if_neg hi, List.zip_nil_left, List.filter_nil, List.map_nil]
      have : i ≠ g := fun e => hi (e ▸ hown)
      rw [if_neg this]
  rw [List.flatMap_congr hblock, flatMap_range_single _ _ _ hg]

/-- The fragment list of a locally owned fine box after `define` on a register whose
fragment vectors are empty: the patch fabs generated from that fine box, in the order of
their generation. -/
theorem define_cfp_fab (r : YAFluxRegister D) (fba cba : BoxArray D)
    (fdm cdm : List Nat) (fgeom cgeom : Geometry D) (ref_ratio : IntVect D) (fine_lev : Int)
    (nvar : Nat) (myproc : Nat) (mem : DefineMemory D)
    (hf : r.m_cfp_fab = []) (hl : r.m_cfp_localindex = []) (g : Nat)
    (hg : g < (fba.coarsen ref_ratio).length) (hown : fdm.getD g 0 = myproc) :
    (r.define fba cba fdm cdm fgeom cgeom ref_ratio fine_lev nvar myproc mem).m_cfp_fab[
        localRank fdm myproc g]? =
      some ((List.range (ringBoxes (fba.coarsen ref_ratio) (grownDomain cgeom) g).length).map
        (ringOffset (fba.coarsen ref_ratio) (grownDomain cgeom) g + ·)) := by
  rw [← cfp_fab_fold (fba.coarsen ref_ratio) (grownDomain cgeom) fdm myproc g hg hown]
  simp only [YAFluxRegister.define, BoxArray.uniqify, hf, hl, resize, List.take_nil,
    List.nil_append, List.length_nil, Nat.sub_zero]

theorem mem_enumFrom_iff {α : Type} (l : List α) (k i : Nat) (a : α) :
    (i, a) ∈ l.enumFrom k ↔ k ≤ i ∧ l[i - k]? = some a := by
  induction l generalizing k with
  | nil => simp
  | cons x l ih =>
    rw [List.enumFrom_cons, List.mem_cons, ih]
    constructor
    · rintro (h | ⟨h1, h2⟩)
      · simp only [Prod.mk.injEq] at h
        obtain ⟨rfl, rfl⟩ := h
        simp
      · refine ⟨by omega, ?_⟩
        have e : i - k = (i - (k + 1)) + 1 := by omega
        rw [e, List.getElem?_cons_succ]
        exact h2
    · rintro ⟨h1, h2⟩
      by_cases hik : i = k
      · left
        subst hik
        simp only [Nat.sub_self, List.getElem?_cons_zero, Option.some.injEq] at h2
        rw [h2]
      · right
        refine ⟨by omega, ?_⟩
        have e : i - k = (i - (k + 1)) + 1 := by omega
        rw [e, List.getElem?_cons_succ] at h2
        exact h2

theorem localIndices_getElem (fdm : List Nat) (myproc g : Nat) (hown : fdm[g]? = some myproc) :
    (localIndices fdm myproc)[localRank fdm myproc g]? = some g := by
  have hg : g < fdm.length := by
    by_contra h
    rw [List.getElem?_eq_none (by omega)] at hown
    exact Option.noConfusion hown
  have hcount : ∀ n, n ≤ fdm.length →
      ((List.range n).filter fun j => decide (fdm[j]? = some myproc)).length =
        localRank fdm myproc n := by
    intro n hn
    unfold localRank
    rw [← List.countP_eq_length_filter]
    refine List.countP_congr fun j hj => ?_
    rw [List.mem_range] at hj
    have hj2 : j < fdm.length := by omega
    simp [List.getD_eq_getElem?_getD, List.getElem?_eq_getElem hj2]
  unfold localIndices
  have hsplit : List.range fdm.length =
      List.range g ++ (g :: (List.range (fdm.length - g - 1)).map (g + 1 + ·)) := by
    have e : fdm.length = g + (1 + (fdm.length - g - 1)) := by omega
    conv_lhs => rw [e, List.range_add, List.range_add]
    simp [List.map_map, Function.comp, Nat.add_assoc, List.range_succ]
  rw [hsplit, List.filter_append, List.filter_cons, if_pos (by simp [hown]),
    List.getElem?_append_right (by rw [hcount g (by omega)]), hcount g (by omega),
    Nat.sub_self, List.getElem?_cons_zero]

theorem nodup_localIndices (fdm : List Nat) (myproc : Nat) :
    (localIndices fdm myproc).Nodup :=
  (List.nodup_range _).filter _

theorem mem_localIndices (fdm : List Nat) (myproc g : Nat) :
    g ∈ localIndices fdm myproc ↔ fdm[g]? = some myproc := by
  unfold localIndices
  rw [List.mem_filter, List.mem_range]
  simp only [decide_eq_true_eq, and_iff_right_iff_imp]
  intro h
  by_contra hg
  rw [List.getElem?_eq_none (by omega)] at h
  exact Option.noConfusion h

end Fragments

section InsideMask

variable {D : Nat}

theorem markFold_other (patchba : BoxArray D) (ifabbox : Box D) (ks : List Nat) (j g : Nat)
    (hj : j ≠ g) (m0 : iMultiFab D) :
    (ks.foldl
      (fun (m2 : iMultiFab D) k =>
        match patchba[k]? with
        | some cfpbox => m2.setValBox j 1 ((cfpbox.grow 1).inter ifabbox)
        | none => m2) m0).data g = m0.data g := by
  induction ks generalizing m0 with
  | nil => rfl
  | cons k ks ih =>
    rw [List.foldl_cons, ih]
    cases patchba[k]? with
    | none => rfl
    | some pb =>
      funext p n
      have : ¬ g = j := fun e => hj e.symm
      simp [FabArray.setValBox, this]

theorem markFold_data (patchba : BoxArray D) (ifabbox : Box D) (ks : List Nat) (g : Nat)
    (c : IntVect D) (hc : ifabbox.contains c) (m0 : iMultiFab D) :
    (ks.foldl
      (fun (m2 : iMultiFab D) k =>
        match patchba[k]? with
        | some cfpbox => m2.setValBox g 1 ((cfpbox.grow 1).inter ifabbox)
        | none => m2) m0).data g c 0 =
      if ∃ k ∈ ks, ∃ pb, patchba[k]? = some pb ∧ (pb.grow 1).contains c then 1
      else m0.data g c 0 := by
  induction ks generalizing m0 with
  | nil => simp
  | cons k ks ih =>
    rw [List.foldl_cons, ih]
    simp only [List.mem_cons, exists_eq_or_imp]
    by_cases hr : ∃ a ∈ ks, ∃ pb, patchba[a]? = some pb ∧ (pb.grow 1).contains c
    · rw [if_pos hr, if_pos (Or.inr hr)]
    · rw [if_neg hr]
      cases hk : patchba[k]? with
      | none =>
        have : ¬ ((∃ pb, (none : Option (Box D)) = some pb ∧ (pb.grow 1).contains c) ∨
            ∃ a ∈ ks, ∃ pb, patchba[a]? = some pb ∧ (pb.grow 1).contains c) := by
          rintro (⟨pb, h, -⟩ | h)
          · exact Option.noConfusion h
          · exact hr h
        rw [if_neg this]
      | some pb =>
        by_cases hp : (pb.grow 1).contains c
        · rw [if_pos (Or.inl ⟨pb, rfl, hp⟩)]
          simp [FabArray.setValBox, contains_inter, hp, hc]
        · have : ¬ ((∃ pb2, some pb = some pb2 ∧ (pb2.grow 1).contains c) ∨
              ∃ a ∈ ks, ∃ pb, patchba[a]? = some pb ∧ (pb.grow 1).contains c) := by
            rintro (⟨pb2, h, h2⟩ | h)
            · rw [Option.some.injEq] at h
              exact hp (h ▸ h2)
            · exact hr h
          rw [if_neg this]
          simp [FabArray.setValBox, contains_inter, hp]

theorem insideMaskStep_other (r : YAFluxRegister D) (cfba : BoxArray D) (m : iMultiFab D)
    (x : Nat × Nat) (g : Nat) (h : x.2 ≠ g) :
    (EBFluxRegister.insideMaskStep r cfba m x).data g = m.data g := by
  unfold EBFluxRegister.insideMaskStep
  cases cfba[x.2]? with
  | none => rfl
  | some b =>
    simp only []
    rw [markFold_other _ _ _ _ _ h]
    funext p n
    have : ¬ g = x.2 := fun e => h e.symm
    simp [FabArray.setValBox, this]

theorem insideMaskFold_other (r : YAFluxRegister D) (cfba : BoxArray D) (L : List (Nat × Nat))
    (g : Nat) (h : ∀ x ∈ L, x.2 ≠ g) (m : iMultiFab D) :
    (L.foldl (EBFluxRegister.insideMaskStep r cfba) m).data g = m.data g := by
  induction L generalizing m with
  | nil => rfl
  | cons x L ih =>
    rw [List.foldl_cons, ih (fun y hy => h y (List.mem_cons_of_mem _ hy)),
      insideMaskStep_other _ _ _ _ _ (h x (List.mem_cons_self _ _))]

theorem insideMaskStep_data (r : YAFluxRegister D) (cfba : BoxArray D) (m : iMultiFab D)
    (li g : Nat) (b : Box D) (c : IntVect D) (hb : cfba[g]? = some b) (hc : b.contains c) :
    (EBFluxRegister.insideMaskStep r cfba m (li, g)).data g c 0 =
      if ∃ k ∈ r.m_cfp_fab.getD li [], ∃ pb, r.m_cfpatch.boxarray[k]? = some pb ∧
          (pb.grow 1).contains c then 1 else 0 := by
  unfold EBFluxRegister.insideMaskStep
  simp only [hb]
  rw [markFold_data _ _ _ _ _ hc]
  simp [FabArray.setValBox, hc]

/-- The mask of a local fab after the loop of `defineExtra`: 1 on the cells within one cell
of a patch box of the fragment list of that fab, 0 on the other cells of the box. -/
theorem insideMaskFold_data (r : YAFluxRegister D) (cfba : BoxArray D) (L : List (Nat × Nat))
    (hn : (L.map Prod.snd).Nodup) (li g : Nat) (hx : (li, g) ∈ L) (b : Box D) (c : IntVect D)
    (hb : cfba[g]? = some b) (hc : b.contains c) (m : iMultiFab D) :
    (L.foldl (EBFluxRegister.insideMaskStep r cfba) m).data g c 0 =
      if ∃ k ∈ r.m_cfp_fab.getD li [], ∃ pb, r.m_cfpatch.boxarray[k]? = some pb ∧
          (pb.grow 1).contains c then 1 else 0 := by
  induction L generalizing m with
  | nil => exact absurd hx (List.not_mem_nil _)
  | cons x L ih =>
    rw [List.map_cons, List.nodup_cons] at hn
    rw [List.foldl_cons]
    rcases List.mem_cons.1 hx with h | h
    · subst h
      rw [insideMaskFold_other r cfba L g
          (fun y hy e => hn.1 (List.mem_map.2 ⟨y, hy, e⟩)),
        insideMaskStep_data r cfba m li g b c hb hc]
    · exact ih hn.2 h _

theorem ok_boxDiffLoop (b2 : Box D) (l : List (Fin D)) (b1 : Box D) (h : b1.ok) :
    ∀ x ∈ boxDiffLoop b2 l b1, x.ok := by
  induction l generalizing b1 with
  | nil => intro x hx; exact absurd hx (List.not_mem_nil _)
  | cons i rest ih =>
    have hset1 : ∀ (b : Box D) (v : Int), b.ok → b.smallend i ≤ v → (b.setBig i v).ok := by
      intro b v hb hv d
      by_cases hd : d = i
      · subst hd; rw [setBig_bigend]; exact hv
      · simp only [Box.setBig, Function.update_noteq hd]; exact hb d
    have hset2 : ∀ (b : Box D) (v : Int), b.ok → v ≤ b.bigend i → (b.setSmall i v).ok := by
      intro b v hb hv d
      by_cases hd : d = i
      · subst hd; rw [setSmall_smallend]; exact hv
      · simp only [Box.setSmall, Function.update_noteq hd]; exact hb d
    intro x hx
    unfold boxDiffLoop at hx
    simp only [List.mem_append] at hx
    by_cases hbelow : b1.smallend i < b2.smallend i ∧ b2.smallend i ≤ b1.bigend i
    · simp only [hbelow, and_self, if_true, List.mem_singleton, setSmall_smallend,
        setSmall_bigend] at hx
      have hb1a : (b1.setSmall i (b2.smallend i)).ok := hset2 b1 _ h hbelow.2
      by_cases habove : b2.smallend i ≤ b2.bigend i ∧ b2.bigend i < b1.bigend i
      · simp only [habove, and_self, if_true, List.mem_singleton] at hx
        rcases hx with (hx | hx) | hx
        · rw [hx]; exact hset1 b1 _ h (by omega)
        · rw [hx]
          exact hset2 _ _ hb1a (by rw [setSmall_bigend]; omega)
        · exact ih _ (hset1 _ _ hb1a (by rw [setSmall_smallend]; exact habove.1)) x hx
      · simp only [habove, if_false, List.not_mem_nil, or_false] at hx
        rcases hx with hx | hx
        · rw [hx]; exact hset1 b1 _ h (by omega)
        · exact ih _ hb1a x hx
    · simp only [hbelow, if_false, List.not_mem_nil, false_or] at hx
      by_cases habove : b1.smallend i ≤ b2.bigend i ∧ b2.bigend i < b1.bigend i
      · simp only [habove, and_self, if_true, List.mem_singleton] at hx
        rcases hx with hx | hx
        · rw [hx]; exact hset2 b1 _ h (by omega)
        · exact ih _ (hset1 b1 _ h habove.1) x hx
      · simp only [habove, if_false, List.not_mem_nil, false_or] at hx
        exact ih _ h x hx

theorem ok_boxDiff (b1 b2 : Box D) (h : b1.ok) : ∀ x ∈ boxDiff b1 b2, x.ok := by
  intro x hx
  unfold boxDiff at hx
  split_ifs at hx with h1 h2
  · exact absurd hx (List.not_mem_nil _)
  · exact ok_boxDiffLoop b2 _ b1 h x hx
  · rw [List.mem_singleton] at hx
    rw [hx]; exact h

theorem ok_complementIn (ba : BoxArray D) (bx : Box D) (h : bx.ok) :
    ∀ x ∈ ba.complementIn bx, x.ok := by
  unfold BoxArray.complementIn
  have hgen : ∀ (bl : List (Box D)), (∀ x ∈ bl, x.ok) →
      ∀ x ∈ ba.foldl
        (fun bl b => if (b.inter bx).ok then bl.flatMap fun x => boxDiff x (b.inter bx) else bl)
        bl, x.ok := by
    induction ba with
    | nil => intro bl hbl; exact hbl
    | cons b rest ih =>
      intro bl hbl
      rw [List.foldl_cons]
      apply ih
      split_ifs
      · intro x hx
        obtain ⟨y, hy, hxy⟩ := List.mem_flatMap.1 hx
        exact ok_boxDiff y _ (hbl y hy) x hxy
      · exact hbl
  exact hgen [bx] fun x hx => by rw [List.mem_singleton] at hx; rw [hx]; exact h

theorem near_iff_grow (f : Box D) (hf : f.ok) (c : IntVect D) :
    (f.grow 1).contains c ↔ ∃ q, f.contains q ∧ ∀ d, |c d - q d| ≤ 1 := by
  rw [contains_grow]
  constructor
  · intro h
    refine ⟨fun d => max (f.smallend d) (min (c d) (f.bigend d)), fun d => ?_, fun d => ?_⟩
    · exact ⟨le_max_left _ _, max_le (hf d) (min_le_right _ _)⟩
    · have := h d
      have := hf d
      rw [abs_le]
      beta_reduce
      constructor <;> omega
  · rintro ⟨q, hq, hd⟩ d
    have := hq d
    have := abs_le.1 (hd d)
    constructor <;> omega

/-- The mask of a locally owned fine box after the embedded-boundary `define` on a register
whose fragment vectors are empty, in terms of the ring boxes of that fine box. -/
theorem define_mask_value (r : EBFluxRegister D) (fba cba : BoxArray D) (fdm cdm : List Nat)
    (fgeom cgeom : Geometry D) (ref_ratio : IntVect D) (fine_lev : Int) (nvar myproc : Nat)
    (mem : DefineMemory D) (memMask : Nat → IntVect D → Nat → Int) (g : Nat) (b : Box D)
    (c : IntVect D) (hf : r.m_cfp_fab = []) (hl : r.m_cfp_localindex = [])
    (hown : fdm[g]? = some myproc) (hb : (fba.coarsen ref_ratio)[g]? = some b)
    (hc : b.contains c) :
    (r.define fba cba fdm cdm fgeom cgeom ref_ratio fine_lev nvar myproc mem
        memMask).m_cfp_inside_mask.data g c 0 =
      if ∃ f ∈ ringBoxes (fba.coarsen ref_ratio) (grownDomain cgeom) g, (f.grow 1).contains c
      then 1 else 0 := by
  have hg : g < (fba.coarsen ref_ratio).length := by
    by_contra h
    rw [List.getElem?_eq_none (by omega)] at hb
    exact Option.noConfusion hb
  have hown2 : fdm.getD g 0 = myproc := by
    rw [List.getD_eq_getElem?_getD, hown]; rfl
  have hratio : (r.toYAFluxRegister.define fba cba fdm cdm fgeom cgeom ref_ratio fine_lev nvar
      myproc mem).m_ratio = ref_ratio := rfl
  have hbucket := define_cfp_fab r.toYAFluxRegister fba cba fdm cdm fgeom cgeom ref_ratio
    fine_lev nvar myproc mem hf hl g hg hown2
  have hba := define_cfpatch_boxarray r.toYAFluxRegister fba cba fdm cdm fgeom cgeom ref_ratio
    fine_lev nvar myproc mem
  rw [← grownDomain_eq] at hba
  unfold EBFluxRegister.define EBFluxRegister.defineExtra
  simp only [hratio]
  have hx : (localRank fdm myproc g, g) ∈ (localIndices fdm myproc).enum :=
    (mem_enumFrom_iff _ 0 _ _).2 ⟨Nat.zero_le _, by
      rw [Nat.sub_zero]; exact localIndices_getElem fdm myproc g hown⟩
  rw [insideMaskFold_data _ _ (localIndices fdm myproc).enum
    (by rw [List.enum_map_snd]; exact nodup_localIndices _ _)
    (localRank fdm myproc g) g hx b c hb hc]
  rw [List.getD_eq_getElem?_getD, hbucket, Option.getD_some, hba]
  refine if_congr ?_ rfl rfl
  constructor
  · rintro ⟨k, hk, pb, hpb, hp⟩
    obtain ⟨m, hm, rfl⟩ := List.mem_map.1 hk
    rw [List.mem_range] at hm
    unfold ringOffset at hpb
    rw [getElem_flatMap_range _ _ g m hg hm] at hpb
    exact ⟨pb, List.getElem?_mem hpb, hp⟩
  · rintro ⟨f, hfm, hp⟩
    obtain ⟨m, hm, hfm2⟩ := List.getElem_of_mem hfm
    refine ⟨ringOffset (fba.coarsen ref_ratio) (grownDomain cgeom) g + m,
      List.mem_map.2 ⟨m, List.mem_range.2 hm, rfl⟩, f, ?_, hp⟩
    unfold ringOffset
    rw [getElem_flatMap_range _ _ g m hg hm, List.getElem?_eq_getElem hm, hfm2]

/-- The inside mask of claim C18 on a fresh register. After the embedded-boundary `define`
on a register whose fragment vectors are empty (the constructor, or the first `define` of a
default-constructed register), for a fine box that the rank owns and whose coarsened box,
grown by one cell, meets the grown coarse domain: the mask value of a cell of the box is 0
or 1; it is 1 exactly when the cell lies within one cell, in every direction, of a cell of
a boundary-ring box generated from that same fine box; and a cell marked 1 lies on the
outermost cell layer of its box. -/
theorem define_inside_mask (r : EBFluxRegister D) (fba cba : BoxArray D) (fdm cdm : List Nat)
    (fgeom cgeom : Geometry D) (ref_ratio : IntVect D) (fine_lev : Int) (nvar myproc : Nat)
    (mem : DefineMemory D) (memMask : Nat → IntVect D → Nat → Int) (g : Nat) (b : Box D)
    (c : IntVect D) (hf : r.m_cfp_fab = []) (hl : r.m_cfp_localindex = [])
    (hown : fdm[g]? = some myproc) (hb : (fba.coarsen ref_ratio)[g]? = some b)
    (hok : ((b.grow 1).inter (grownDomain cgeom)).ok) (hc : b.contains c) :
    ((r.define fba cba fdm cdm fgeom cgeom ref_ratio fine_lev nvar myproc mem
          memMask).m_cfp_inside_mask.data g c 0 = 0 ∨
      (r.define fba cba fdm cdm fgeom cgeom ref_ratio fine_lev nvar myproc mem
          memMask).m_cfp_inside_mask.data g c 0 = 1) ∧
    ((r.define fba cba fdm cdm fgeom cgeom ref_ratio fine_lev nvar myproc mem
          memMask).m_cfp_inside_mask.data g c 0 = 1 ↔
      ∃ f ∈ ringBoxes (fba.coarsen ref_ratio) (grownDomain cgeom) g,
        ∃ q, f.contains q ∧ ∀ d, |c d - q d| ≤ 1) ∧
    ((r.define fba cba fdm cdm fgeom cgeom ref_ratio fine_lev nvar myproc mem
          memMask).m_cfp_inside_mask.data g c 0 = 1 →
      ∃ d, c d = b.smallend d ∨ c d = b.bigend d) := by
  have hval := define_mask_value r fba cba fdm cdm fgeom cgeom ref_ratio fine_lev nvar myproc
    mem memMask g b c hf hl hown hb hc
  have hfok : ∀ f ∈ ringBoxes (fba.coarsen ref_ratio) (grownDomain cgeom) g, f.ok := by
    intro f hfm
    unfold ringBoxes at hfm
    rw [hb] at hfm
    exact ok_complementIn _ _ hok f hfm
  have hiff : (r.define fba cba fdm cdm fgeom cgeom ref_ratio fine_lev nvar myproc mem
        memMask).m_cfp_inside_mask.data g c 0 = 1 ↔
      ∃ f ∈ ringBoxes (fba.coarsen ref_ratio) (grownDomain cgeom) g,
        ∃ q, f.contains q ∧ ∀ d, |c d - q d| ≤ 1 := by
    rw [hval]
    constructor
    · intro h
      by_cases hex : ∃ f ∈ ringBoxes (fba.coarsen ref_ratio) (grownDomain cgeom) g,
          (f.grow 1).contains c
      · obtain ⟨f, hfm, hp⟩ := hex
        exact ⟨f, hfm, (near_iff_grow f (hfok f hfm) c).1 hp⟩
      · rw [if_neg hex] at h
        exact absurd h (by decide)
    · rintro ⟨f, hfm, hq⟩
      rw [if_pos ⟨f, hfm, (near_iff_grow f (hfok f hfm) c).2 hq⟩]
  refine ⟨?_, hiff, ?_⟩
  · rw [hval]
    split_ifs
    · exact Or.inr rfl
    · exact Or.inl rfl
  · intro h
    obtain ⟨f, hfm, q, hq, hd⟩ := hiff.1 h
    have hpos := (exists_mem_contains_iff _ q).1 ⟨f, hfm, hq⟩
    rw [countP_ringBoxes] at hpos
    split_ifs at hpos with hcond
    · have hnb : ¬ b.contains q := hcond.2 b (List.getElem?_mem hb)
      unfold Box.contains at hnb
      push_neg at hnb
      obtain ⟨d, hdq⟩ := hnb
      refine ⟨d, ?_⟩
      have h1 := hc d
      have h2 := abs_le.1 (hd d)
      by_cases hlo : b.smallend d ≤ q d
      · have := hdq hlo
        right; omega
      · left; omega
    · exact absurd hpos (lt_irrefl 0)

end InsideMask

section EBReflux

variable {D : Nat}

theorem sameButBuffers_eb_CrseAdd (e : EBFluxRegister D) (mfi : MFIter D)
    (flux : Fin D → FArrayBox D) (dx : Fin D → Real) (dt : Real) (volfrac : FArrayBox D)
    (areafrac : Fin D → FArrayBox D) (srccomp destcomp numcomp : Nat) :
    SameButBuffers e.toYAFluxRegister
      (e.CrseAdd mfi flux dx dt volfrac areafrac srccomp destcomp numcomp).toYAFluxRegister := by
  unfold SameButBuffers EBFluxRegister.CrseAdd
  split <;> rfl

theorem sameButBuffers_eb_FineAdd (e : EBFluxRegister D) (mfi : MFIter D)
    (flux : Fin D → FArrayBox D) (dx : Fin D → Real) (dt : Real) (volfrac : FArrayBox D)
    (areafrac : Fin D → FArrayBox D) (dm : Option (FArrayBox D)) (thr : Real)
    (srccomp destcomp numcomp : Nat) :
    SameButBuffers e.toYAFluxRegister
      (e.FineAdd mfi flux dx dt volfrac areafrac dm thr srccomp destcomp
        numcomp).toYAFluxRegister := by
  obtain ⟨h1, h2, h3, h4, -⟩ :=
    eb_FineAdd_changesOnly e mfi flux dx dt volfrac areafrac dm thr srccomp destcomp numcomp
  have : (e.FineAdd mfi flux dx dt volfrac areafrac dm thr srccomp destcomp numcomp).m_cfpatch =
      { e.m_cfpatch with
        data := (e.FineAdd mfi flux dx dt volfrac areafrac dm thr srccomp destcomp
          numcomp).m_cfpatch.data } := by
    cases hh : (e.FineAdd mfi flux dx dt volfrac areafrac dm thr srccomp destcomp
      numcomp).m_cfpatch
    simp only [hh] at h1 h2 h3 h4
    simp [h1, h2, h3, h4]
  unfold SameButBuffers
  rw [← this]
  unfold EBFluxRegister.FineAdd
  simp only []
  split <;> rfl

theorem sameButBuffers_eb_call (e : EBFluxRegister D) (a : EBAddCall D) :
    SameButBuffers e.toYAFluxRegister (e.call a).toYAFluxRegister := by
  cases a with
  | base a => exact sameButBuffers_call e.toYAFluxRegister a
  | crse mfi flux dx dt volfrac areafrac s d m =>
    exact sameButBuffers_eb_CrseAdd e mfi flux dx dt volfrac areafrac s d m
  | fine mfi flux dx dt volfrac areafrac dm thr s d m =>
    exact sameButBuffers_eb_FineAdd e mfi flux dx dt volfrac areafrac dm thr s d m

theorem sameButBuffers_eb_calls (e : EBFluxRegister D) (l : List (EBAddCall D)) :
    SameButBuffers e.toYAFluxRegister (e.calls l).toYAFluxRegister := by
  unfold EBFluxRegister.calls
  apply foldl_invariant (fun x : EBFluxRegister D =>
    SameButBuffers e.toYAFluxRegister x.toYAFluxRegister)
  · exact sameButBuffers_refl _
  · intro x a _ hx
    exact sameButBuffers_trans hx (sameButBuffers_eb_call x a)

/-- The embedded-boundary `CrseAdd` leaves alone the cells that are not flagged as boundary
cells. -/
theorem eb_CrseAdd_data_of_not_boundary (e : EBFluxRegister D) (mfi : MFIter D)
    (flux : Fin D → FArrayBox D) (dx : Fin D → Real) (dt : Real) (volfrac : FArrayBox D)
    (areafrac : Fin D → FArrayBox D) (srccomp destcomp numcomp : Nat) (i : Nat)
    (c : IntVect D) (n : Nat) (h : e.m_crse_flag.data i c 0 ≠ crse_fine_boundary_cell) :
    (e.CrseAdd mfi flux dx dt volfrac areafrac srccomp destcomp numcomp).m_crse_data.data i c n =
      e.m_crse_data.data i c n := by
  unfold EBFluxRegister.CrseAdd
  split
  · rfl
  · simp only [FabArray.withArray]
    split
    · next hj =>
      obtain ⟨rfl, hle⟩ := hj
      have hne : ¬ (True ∧ n - destcomp < numcomp ∧
          e.m_crse_flag.data mfi.index c 0 = crse_fine_boundary_cell ∧
          0 < volfrac.const_array 0 c 0) := fun hc => h hc.2.2.1
      simp only [forCells, eb_flux_reg_crseadd_va, if_neg hne, ite_self, FabArray.array]
      congr 1
      omega
    · rfl

theorem zeroOffBoundary_eb_call {e : EBFluxRegister D} (h : ZeroOffBoundary e.toYAFluxRegister)
    (a : EBAddCall D) : ZeroOffBoundary (e.call a).toYAFluxRegister := by
  cases a with
  | base a => exact zeroOffBoundary_call h a
  | crse mfi flux dx dt volfrac areafrac s d m =>
    obtain ⟨f1, -, -, -, f5, f6, f7, -⟩ := sameButBuffers_fields
      (sameButBuffers_eb_CrseAdd e mfi flux dx dt volfrac areafrac s d m)
    intro i c n hf hc hn
    show (e.CrseAdd mfi flux dx dt volfrac areafrac s d m).m_crse_data.data i c n = 0
    have hf' : e.m_crse_flag.data i c 0 ≠ crse_fine_boundary_cell := by
      have : (e.CrseAdd mfi flux dx dt volfrac areafrac s d m).m_crse_flag = e.m_crse_flag := f1
      rw [← this]; exact hf
    rw [eb_CrseAdd_data_of_not_boundary e mfi flux dx dt volfrac areafrac s d m i c n hf']
    exact h i c n hf' ((inFab_congr f5 f6 i c).1 hc) (by
      have : (e.CrseAdd mfi flux dx dt volfrac areafrac s d m).m_crse_data.n_comp =
        e.m_crse_data.n_comp := f7
      rw [← this]; exact hn)
  | fine mfi flux dx dt volfrac areafrac dm thr s d m =>
    have hd : (e.FineAdd mfi flux dx dt volfrac areafrac dm thr s d m).m_crse_data =
        e.m_crse_data := by
      unfold EBFluxRegister.FineAdd
      simp only []
      split <;> rfl
    have hfl : (e.FineAdd mfi flux dx dt volfrac areafrac dm thr s d m).m_crse_flag =
        e.m_crse_flag := by
      unfold EBFluxRegister.FineAdd
      simp only []
      split <;> rfl
    intro i c n hf hc hn
    show (e.FineAdd mfi flux dx dt volfrac areafrac dm thr s d m).m_crse_data.data i c n = 0
    rw [hd]
    apply h i c n
    · rw [← hfl]; exact hf
    · have : (e.FineAdd mfi flux dx dt volfrac areafrac dm thr s d m).m_crse_data.inFab i c :=
        hc
      rw [hd] at this; exact this
    · have : n < (e.FineAdd mfi flux dx dt volfrac areafrac dm thr s d m).m_crse_data.n_comp :=
        hn
      rw [hd] at this; exact this

theorem zeroOffBoundary_eb_calls {e : EBFluxRegister D}
    (h : ZeroOffBoundary e.toYAFluxRegister) (l : List (EBAddCall D)) :
    ZeroOffBoundary (e.calls l).toYAFluxRegister := by
  unfold EBFluxRegister.calls
  apply foldl_invariant (fun x : EBFluxRegister D => ZeroOffBoundary x.toYAFluxRegister)
  · exact h
  · intro x a _ hx
    exact zeroOffBoundary_eb_call hx a

/-- A work flag that `define` leaves different from `fine_cell` belongs to a coarse box
that the copy pattern of the fine footprint does not reach. -/
theorem define_fab_flag_not_fine (r : YAFluxRegister D) (fba cba : BoxArray D)
    (fdm cdm : List Nat) (fgeom cgeom : Geometry D) (ref_ratio : IntVect D) (fine_lev : Int)
    (nvar myproc : Nat) (mem : DefineMemory D) (li g : Nat)
    (hloc : (localIndices cdm myproc)[li]? = some g)
    (hflag : (r.define fba cba fdm cdm fgeom cgeom ref_ratio fine_lev nvar myproc
        mem).m_crse_fab_flag[li]? ≠ some fine_cell) :
    FabArray.RecvLayoutMask
      (getCPC cba 1 (fba.coarsen ref_ratio) 0 (shiftIntVect cgeom.periodicity)) g = false := by
  have hli : li < (localIndices cdm myproc).length := by
    by_contra h
    rw [List.getElem?_eq_none (by omega)] at hloc
    exact Option.noConfusion hloc
  have hlen : (resize r.m_crse_fab_flag (localIndices cdm myproc).length crse_cell).length =
      (localIndices cdm myproc).length := by
    unfold resize
    rw [List.length_append, List.length_take, List.length_replicate]
    omega
  by_contra hmask
  rw [Bool.not_eq_false] at hmask
  apply hflag
  simp only [YAFluxRegister.define, BoxArray.uniqify, List.getElem?_map, List.zip_eq_zipWith]
  rw [List.getElem?_zipWith, hloc, List.getElem?_eq_getElem (by rw [hlen]; exact hli)]
  simp [hmask]

/-- The correction of a coarse cell that is farther than one cell from every periodic image
of the coarsened fine boxes is zero, when the accumulation buffer is zero off the boundary
cells. -/
theorem refluxCorrection_of_far (r0 : YAFluxRegister D) (fba cba : BoxArray D)
    (fdm cdm : List Nat) (fgeom cgeom : Geometry D) (ref_ratio : IntVect D) (fine_lev : Int)
    (nvar : Nat) (myproc : Nat) (mem : DefineMemory D) (R : YAFluxRegister D)
    (hsame : SameButBuffers
      (r0.define fba cba fdm cdm fgeom cgeom ref_ratio fine_lev nvar myproc mem) R)
    (hzero : ZeroOffBoundary R) (i : Nat) (c : IntVect D) (bx : Box D)
    (hbx : cba[i]? = some bx) (hcx : bx.contains c)
    (hfar : ¬ imageInBoxes (shiftIntVect cgeom.periodicity) (fba.coarsen ref_ratio) 1 c)
    (m : Nat) (hm : m < nvar) : refluxCorrection R i c m = 0 := by
  obtain ⟨f1, -, f3, -, f5, f6, f7, f8, -, -, -, -, -⟩ := sameButBuffers_fields hsame
  have hcg : (bx.grow 1).contains c := by
    rw [contains_grow]
    intro d
    have := hcx d
    constructor <;> omega
  unfold refluxCorrection
  have h1 : R.m_crse_data.data i c m = 0 := by
    apply hzero i c m
    · rw [f1, define_crse_flag_data r0 fba cba fdm cdm fgeom cgeom ref_ratio fine_lev
        nvar myproc mem i c bx hbx hcg]
      have e0 : ¬ imageInBoxes (shiftIntVect cgeom.periodicity)
          (fba.coarsen ref_ratio) 0 c := fun h => hfar (imageInBoxes_mono _ _ _ h)
      rw [if_neg e0, if_neg hfar]
      decide
    · rw [inFab_iff, f5, f6]
      exact ⟨bx, hbx, (contains_grow_zero _ _).2 hcx⟩
    · rw [f7]
      exact hm
  rw [h1, zero_add]
  unfold patchImageSum
  apply List.sum_eq_zero
  intro x hx
  obtain ⟨k, -, rfl⟩ := List.mem_map.1 hx
  apply List.sum_eq_zero
  intro y hy
  obtain ⟨iv, hiv, rfl⟩ := List.mem_map.1 hy
  rw [f3] at hiv
  rw [if_neg]
  intro hin
  apply not_inValid_cfpatch_of_far r0 fba cba fdm cdm fgeom cgeom ref_ratio fine_lev
    nvar myproc mem c iv hiv hfar k
  simpa [FabArray.inValid, f8] using hin

/-- A tile whose fab has no work is passed over. -/
theorem refluxTile_skip (r : EBFluxRegister D) (env : RefluxEnv D)
    (grown crse_vfrac : MultiFab D) (gdomain : Box D) (srccomp numcomp : Nat)
    (cd : MultiFab D) (t : MFIter D) (h : r.m_crse_fab_flag[t.LocalIndex]? ≠ some fine_cell) :
    r.refluxTile env grown crse_vfrac gdomain srccomp numcomp cd t = cd := by
  unfold EBFluxRegister.refluxTile
  rw [if_neg h]

/-- A tile is written into the fab of the tile only, and the layout is kept. -/
theorem refluxTile_other (r : EBFluxRegister D) (env : RefluxEnv D)
    (grown crse_vfrac : MultiFab D) (gdomain : Box D) (srccomp numcomp : Nat)
    (cd : MultiFab D) (t : MFIter D) (i : Nat) (h : t.index ≠ i) :
    (r.refluxTile env grown crse_vfrac gdomain srccomp numcomp cd t).data i = cd.data i := by
  have hne : ¬ i = t.index := fun e => h e.symm
  unfold EBFluxRegister.refluxTile
  simp only []
  split_ifs
  · funext p n; simp [FabArray.withArray, hne]
  · funext p n; simp [FabArray.withArray, hne]
  · rfl
  · rfl

/-- The buffer of a fab none of whose tiles has work is what it was before the loop over
the tiles. -/
theorem refluxTiles_skip (r : EBFluxRegister D) (env : RefluxEnv D)
    (grown crse_vfrac : MultiFab D) (gdomain : Box D) (srccomp numcomp : Nat)
    (tiles : List (MFIter D)) (i : Nat)
    (h : ∀ t ∈ tiles, t.index = i → r.m_crse_fab_flag[t.LocalIndex]? ≠ some fine_cell)
    (cd : MultiFab D) :
    (tiles.foldl (r.refluxTile env grown crse_vfrac gdomain srccomp numcomp) cd).data i =
      cd.data i := by
  induction tiles generalizing cd with
  | nil => rfl
  | cons t rest ih =>
    rw [List.foldl_cons, ih (fun x hx => h x (List.mem_cons_of_mem _ hx))]
    by_cases hi : t.index = i
    · rw [refluxTile_skip _ _ _ _ _ _ _ _ _ (h t (List.mem_cons_self _ _) hi)]
    · exact refluxTile_other _ _ _ _ _ _ _ _ _ _ hi

/-- A tile whose grown box is entirely regular adds the grown copy of the buffer on the
cells of the tile, when its fab has work and the tile is not covered. -/
theorem refluxTile_regular (r : EBFluxRegister D) (env : RefluxEnv D)
    (grown crse_vfrac : MultiFab D) (gdomain : Box D) (srccomp numcomp : Nat)
    (cd : MultiFab D) (t : MFIter D)
    (hreg : getType (env.flags t.index) ((t.tilebox.grow 1).inter gdomain) = FabType.regular)
    (k : Nat) (p : IntVect D) (m : Nat) :
    (r.refluxTile env grown crse_vfrac gdomain srccomp numcomp cd t).data k p m =
      if (r.m_crse_fab_flag[t.LocalIndex]? = some fine_cell ∧
            getType (env.flags t.index) t.tilebox ≠ FabType.covered) ∧
          k = t.index ∧ t.tilebox.contains p ∧ srccomp ≤ m ∧ m < srccomp + numcomp then
        cd.data k p m + grown.data k p (m - srccomp)
      else cd.data k p m := by
  unfold EBFluxRegister.refluxTile
  simp only [hreg, if_true]
  by_cases h1 : r.m_crse_fab_flag[t.LocalIndex]? = some fine_cell
  · by_cases h2 : getType (env.flags t.index) t.tilebox = FabType.covered
    · simp [h1, h2]
    · simp only [h1, h2, if_true, ne_eq, not_false_eq_true, FabArray.withArray, forCellsComps,
        FabArray.array, true_and, and_self]
      by_cases hk : k = t.index
      · subst hk
        by_cases hm : srccomp ≤ m
        · have e : srccomp + (m - srccomp) = m := by omega
          by_cases hc : t.tilebox.contains p
          · by_cases hn : m - srccomp < numcomp
            · have hn2 : m < srccomp + numcomp := by omega
              simp [hm, hc, hn, hn2, e]
            · have hn2 : ¬ m < srccomp + numcomp := by omega
              simp [hm, hc, hn, hn2, e]
          · simp [hm, hc, e]
        · simp [hm]
      · simp [hk]
  · simp [h1]

/-- The buffer after the loop over tiles that are all regular when grown: every tile with
work that is not covered has added the grown copy on its cells. -/
theorem refluxTiles_regular (r : EBFluxRegister D) (env : RefluxEnv D)
    (grown crse_vfrac : MultiFab D) (gdomain : Box D) (srccomp numcomp : Nat)
    (tiles : List (MFIter D))
    (hreg : ∀ t ∈ tiles,
      getType (env.flags t.index) ((t.tilebox.grow 1).inter gdomain) = FabType.regular)
    (cd : MultiFab D) (k : Nat) (p : IntVect D) (m : Nat) :
    (tiles.foldl (r.refluxTile env grown crse_vfrac gdomain srccomp numcomp) cd).data k p m =
      cd.data k p m + (tiles.map fun t =>
        if (r.m_crse_fab_flag[t.LocalIndex]? = some fine_cell ∧
              getType (env.flags t.index) t.tilebox ≠ FabType.covered) ∧
            k = t.index ∧ t.tilebox.contains p ∧ srccomp ≤ m ∧ m < srccomp + numcomp then
          grown.data k p (m - srccomp)
        else 0).sum := by
  induction tiles generalizing cd with
  | nil => simp
  | cons t rest ih =>
    rw [List.foldl_cons, ih (fun x hx => hreg x (List.mem_cons_of_mem _ hx)),
      refluxTile_regular r env grown crse_vfrac gdomain srccomp numcomp cd t
        (hreg t (List.mem_cons_self _ _)), List.map_cons, List.sum_cons]
    split_ifs <;> ring

theorem sum_map_ite_countP {α : Type} (l : List α) (P : α → Prop) [DecidablePred P] (G : Real) :
    (l.map fun t => if P t then G else 0).sum = (l.countP fun t => decide (P t)) * G := by
  induction l with
  | nil => simp
  | cons a l ih =>
    rw [List.map_cons, List.sum_cons, ih, List.countP_cons]
    by_cases h : P a
    · simp [h]; ring
    · simp [h]

/-- A box with a regular cell is not covered. -/
theorem getType_ne_covered (ebflag : IntVect D → EBCellFlag D) (bx : Box D) (c : IntVect D)
    (hc : bx.contains c) (h : (ebflag c).type = EBCellType.regular) :
    getType ebflag bx ≠ FabType.covered := by
  unfold getType
  have hnot : ¬ (bx.cells.all fun p => decide ((ebflag p).type = EBCellType.covered)) = true := by
    rw [List.all_eq_true]
    intro hall
    have := hall c ((mem_cells bx c).2 hc)
    rw [decide_eq_true_eq, h] at this
    exact EBCellType.noConfusion this
  rw [if_neg hnot]
  split_ifs <;> exact fun e => FabType.noConfusion e

/-- The cells of a box that is entirely regular are regular. -/
theorem regular_of_getType (ebflag : IntVect D → EBCellFlag D) (bx : Box D) (c : IntVect D)
    (hc : bx.contains c) (h : getType ebflag bx = FabType.regular) :
    (ebflag c).type = EBCellType.regular := by
  unfold getType at h
  split_ifs at h with h1 h2 h3
  · have := (List.all_eq_true.1 h2) c ((mem_cells bx c).2 hc)
    exact of_decide_eq_true this

/-- The grown copy of the buffer holds, in a valid cell, the drained buffer. -/
theorem grown_data_valid (cd1 : MultiFab D) (mem : Nat → IntVect D → Nat → Real)
    (period : IntVect D) (srccomp numcomp : Nat) (i : Nat) (c : IntVect D) (n : Nat)
    (hc : cd1.inValid i c) (hn : n < numcomp) :
    (((FabArray.define cd1.boxarray cd1.distributionMap numcomp 1 mem).Copy cd1 srccomp 0
        numcomp).FillBoundary period).data i c n = cd1.data i c (n + srccomp) := by
  have hv : (FabArray.define cd1.boxarray cd1.distributionMap numcomp 1 mem :
      MultiFab D).inValid i c := hc
  have hv2 : ((FabArray.define cd1.boxarray cd1.distributionMap numcomp 1 mem :
      MultiFab D).Copy cd1 srccomp 0 numcomp).inValid i c := hc
  simp only [FabArray.FillBoundary, hv2, not_true_eq_false, and_false, if_false]
  simp only [FabArray.Copy, hv, true_and, Nat.zero_le, Nat.zero_add, hn, if_true, Nat.sub_zero]

theorem eq_of_countP_eq_one {α : Type} (l : List α) (Q : α → Bool) (h : l.countP Q = 1)
    (a b : α) (ha : a ∈ l) (hb : b ∈ l) (hqa : Q a = true) (hqb : Q b = true) : a = b := by
  induction l with
  | nil => exact absurd ha (List.not_mem_nil _)
  | cons x l ih =>
    rw [List.countP_cons] at h
    by_cases hx : Q x = true
    · rw [if_pos hx] at h
      have h0 : l.countP Q = 0 := by omega
      rw [List.countP_eq_zero] at h0
      rcases List.mem_cons.1 ha with rfl | ha'
      · rcases List.mem_cons.1 hb with rfl | hb'
        · rfl
        · exact absurd hqb (h0 b hb')
      · exact absurd hqa (h0 a ha')
    · rw [if_neg hx, Nat.add_zero] at h
      rcases List.mem_cons.1 ha with rfl | ha'
      · exact absurd hqa hx
      · rcases List.mem_cons.1 hb with rfl | hb'
        · exact absurd hqb hx
        · exact ih h ha' hb'

/-- The accumulation buffer after the embedded-boundary `Reflux` when every grown tile is
entirely regular: in a cell of a box of the rank it holds the drained correction when the
box has work, and zero when it has none. -/
theorem eb_buffer_regular (E : EBFluxRegister D) (env : RefluxEnv D)
    (cs vf fs : MultiFab D) (srccomp destcomp numcomp : Nat) (cba : BoxArray D)
    (cdm : List Nat) (myproc : Nat) (hba : E.m_crse_data.boxarray = cba)
    (hdom : ∀ b ∈ cba, (periodicGrownDomain E.m_crse_geom).containsBox b)
    (htiles : TilesPartition env.tiles cba cdm myproc)
    (hreg : ∀ t ∈ env.tiles, getType (env.flags t.index)
      ((t.tilebox.grow 1).inter (periodicGrownDomain E.m_crse_geom)) = FabType.regular)
    (i : Nat) (b : Box D) (c : IntVect D) (n : Nat) (hloc : cdm[i]? = some myproc)
    (hb : cba[i]? = some b) (hc : b.contains c) (hn : n < numcomp) :
    ∃ t0 ∈ env.tiles, t0.index = i ∧ t0.tilebox.contains c ∧
      (E.Reflux env cs vf fs srccomp destcomp numcomp).1.m_crse_data.data i c (srccomp + n) =
        if E.m_crse_fab_flag[t0.LocalIndex]? = some fine_cell then
          refluxCorrection E.toYAFluxRegister i c (srccomp + n)
        else 0 := by
  have hcount := htiles.2 i b c hloc hb hc
  have hpos : 0 < env.tiles.countP (fun t => decide (t.index = i ∧ t.tilebox.contains c)) := by
    omega
  obtain ⟨t0, ht0, hq0⟩ := List.countP_pos_iff.1 hpos
  have hq0' : t0.index = i ∧ t0.tilebox.contains c := of_decide_eq_true hq0
  refine ⟨t0, ht0, hq0'.1, hq0'.2, ?_⟩
  have hvalid : E.m_crse_data.inValid i c := (inValid_iff _ _ _).2 ⟨b, hba ▸ hb, hc⟩
  have hdrain := Reflux_crse_data E.toYAFluxRegister cs srccomp destcomp numcomp i c n hvalid hn
  have hbuf : (E.Reflux env cs vf fs srccomp destcomp numcomp).1.m_crse_data =
      env.tiles.foldl
        (E.refluxTile env
          (((FabArray.define
              (E.toYAFluxRegister.Reflux cs srccomp destcomp numcomp).1.m_crse_data.boxarray
              (E.toYAFluxRegister.Reflux cs srccomp destcomp
                numcomp).1.m_crse_data.distributionMap numcomp 1 env.memGrown).Copy
            (E.toYAFluxRegister.Reflux cs srccomp destcomp numcomp).1.m_crse_data srccomp 0
            numcomp).FillBoundary E.m_crse_geom.periodicity)
          vf (periodicGrownDomain E.m_crse_geom) srccomp numcomp)
        ((E.toYAFluxRegister.Reflux cs srccomp destcomp numcomp).1.m_crse_data.setValComps 0
          srccomp numcomp) := rfl
  have hvalid1 : (E.toYAFluxRegister.Reflux cs srccomp destcomp numcomp).1.m_crse_data.inValid
      i c := hvalid
  rw [hbuf, refluxTiles_regular _ _ _ _ _ _ _ _ hreg,
    grown_data_valid _ _ _ _ _ _ _ _ hvalid1 (by omega : srccomp + n - srccomp < numcomp)]
  have e1 : srccomp + n - srccomp + srccomp = srccomp + n := by omega
  rw [e1, hdrain]
  have hzero : ((E.toYAFluxRegister.Reflux cs srccomp destcomp numcomp).1.m_crse_data.setValComps
      0 srccomp numcomp).data i c (srccomp + n) = 0 := by
    have hin := inFab_of_inValid _ _ _ hvalid1
    simp only [FabArray.setValComps]
    rw [if_pos ⟨hin, by omega, by omega⟩]
  rw [hzero, zero_add, sum_map_ite_countP]
  have hcreg : ∀ t ∈ env.tiles, t.index = i → t.tilebox.contains c →
      getType (env.flags t.index) t.tilebox ≠ FabType.covered := by
    intro t ht hti htc
    apply getType_ne_covered _ _ c htc
    apply regular_of_getType _ _ c _ (hreg t ht)
    rw [contains_inter]
    refine ⟨?_, ?_⟩
    · rw [contains_grow]
      intro d
      have := htc d
      constructor <;> omega
    · intro d
      have h1 := hdom b (List.getElem?_mem hb) d
      have h2 := hc d
      constructor <;> omega
  have hle : env.tiles.countP (fun t => decide
        ((E.m_crse_fab_flag[t.LocalIndex]? = some fine_cell ∧
            getType (env.flags t.index) t.tilebox ≠ FabType.covered) ∧
          i = t.index ∧ t.tilebox.contains c ∧ srccomp ≤ srccomp + n ∧
            srccomp + n < srccomp + numcomp)) ≤
      env.tiles.countP (fun t => decide (t.index = i ∧ t.tilebox.contains c)) := by
    apply List.countP_mono_left
    intro t _ ht
    rw [decide_eq_true_eq] at ht ⊢
    exact ⟨ht.2.1.symm, ht.2.2.1⟩
  by_cases hflag : E.m_crse_fab_flag[t0.LocalIndex]? = some fine_cell
  · rw [if_pos hflag]
    have hge : 0 < env.tiles.countP (fun t => decide
        ((E.m_crse_fab_flag[t.LocalIndex]? = some fine_cell ∧
            getType (env.flags t.index) t.tilebox ≠ FabType.covered) ∧
          i = t.index ∧ t.tilebox.contains c ∧ srccomp ≤ srccomp + n ∧
            srccomp + n < srccomp + numcomp)) := by
      rw [List.countP_pos_iff]
      refine ⟨t0, ht0, ?_⟩
      rw [decide_eq_true_eq]
      exact ⟨⟨hflag, hcreg t0 ht0 hq0'.1 hq0'.2⟩, hq0'.1.symm, hq0'.2, by omega, by omega⟩
    have hone : env.tiles.countP (fun t => decide
        ((E.m_crse_fab_flag[t.LocalIndex]? = some fine_cell ∧
            getType (env.flags t.index) t.tilebox ≠ FabType.covered) ∧
          i = t.index ∧ t.tilebox.contains c ∧ srccomp ≤ srccomp + n ∧
            srccomp + n < srccomp + numcomp)) = 1 := by omega
    rw [hone]
    simp
  · rw [if_neg hflag]
    have hnone : env.tiles.countP (fun t => decide
        ((E.m_crse_fab_flag[t.LocalIndex]? = some fine_cell ∧
            getType (env.flags t.index) t.tilebox ≠ FabType.covered) ∧
          i = t.index ∧ t.tilebox.contains c ∧ srccomp ≤ srccomp + n ∧
            srccomp + n < srccomp + numcomp)) = 0 := by
      rw [List.countP_eq_zero]
      intro t ht hP
      rw [decide_eq_true_eq] at hP
      have : t = t0 := eq_of_countP_eq_one env.tiles _ hcount t t0 ht ht0
        (decide_eq_true ⟨hP.2.1.symm, hP.2.2.1⟩) hq0
      rw [this] at hP
      exact hflag hP.1.1
    rw [hnone]
    simp

/-- The cells of a coarse box whose work flag `define` leaves different from `fine_cell` are
farther than one cell from every periodic image of the coarsened fine boxes. -/
theorem far_of_no_work (r : YAFluxRegister D) (fba cba : BoxArray D)
    (fdm cdm : List Nat) (fgeom cgeom : Geometry D) (ref_ratio : IntVect D) (fine_lev : Int)
    (nvar myproc : Nat) (mem : DefineMemory D) (li i : Nat) (b : Box D) (c : IntVect D)
    (hfok : ∀ x ∈ fba.coarsen ref_ratio, x.ok)
    (hloc : (localIndices cdm myproc)[li]? = some i) (hb : cba[i]? = some b)
    (hc : b.contains c)
    (hflag : (r.define fba cba fdm cdm fgeom cgeom ref_ratio fine_lev nvar myproc
        mem).m_crse_fab_flag[li]? ≠ some fine_cell) :
    ¬ imageInBoxes (shiftIntVect cgeom.periodicity) (fba.coarsen ref_ratio) 1 c := by
  have hmask := define_fab_flag_not_fine r fba cba fdm cdm fgeom cgeom ref_ratio fine_lev nvar
    myproc mem li i hloc hflag
  intro himg
  have h1 : ∃ p, (b.grow 1).contains p ∧
      imageInBoxes (shiftIntVect cgeom.periodicity) (fba.coarsen ref_ratio) 0 p :=
    (exists_grown_image_iff _ _ b (ok_of_contains b c hc) hfok).2 ⟨c, hc, himg⟩
  obtain ⟨p, hp, hi⟩ := h1
  have h2 := (recvLayoutMask_iff cba 1 (fba.coarsen ref_ratio) 0
    (shiftIntVect cgeom.periodicity) i).2 ⟨p, ⟨b, hb, hp⟩, hi⟩
  rw [hmask] at h2
  exact Bool.noConfusion h2

/-- Claim C16 (embedded-boundary Reflux on regular geometry equals the plain add). For a
register built by the embedded-boundary `define`, after `reset` and any sequence of
`CrseAdd` and `FineAdd` calls (inherited or with volume and area fractions), when the tiles
visit every cell of the coarse boxes of the rank once, the coarse boxes lie in the domain,
the coarsened fine boxes are not empty, and every tile grown by one cell and clipped to the
periodically grown domain is entirely regular: the embedded-boundary `Reflux` without a fine
state changes the coarse state on the boxes of the rank exactly as the base `Reflux` without
a volume field does; and on a box of the rank whose work flag is not set the accumulation
buffer is zero after the drain, so that passing over the box loses nothing. -/
theorem eb_reflux_regular (e0 : EBFluxRegister D) (fba cba : BoxArray D) (fdm cdm : List Nat)
    (fgeom cgeom : Geometry D) (ref_ratio : IntVect D) (fine_lev : Int) (nvar myproc : Nat)
    (mem : DefineMemory D) (memMask : Nat → IntVect D → Nat → Int) (l : List (EBAddCall D))
    (env : RefluxEnv D) (crse_state crse_vfrac : MultiFab D) (srccomp destcomp numcomp : Nat)
    (hvol : e0.m_cvol = none) (hba : crse_state.boxarray = cba)
    (hcomp : srccomp + numcomp ≤ nvar) (hfok : ∀ x ∈ fba.coarsen ref_ratio, x.ok)
    (hdom : ∀ b ∈ cba, cgeom.domain.containsBox b)
    (htiles : TilesPartition env.tiles cba cdm myproc)
    (hreg : ∀ t ∈ env.tiles, getType (env.flags t.index)
      ((t.tilebox.grow 1).inter (periodicGrownDomain cgeom)) = FabType.regular) :
    (∀ i c m, cdm[i]? = some myproc →
      ((((e0.define fba cba fdm cdm fgeom cgeom ref_ratio fine_lev nvar myproc mem
          memMask).reset.calls l).RefluxCrse env crse_state crse_vfrac srccomp destcomp
          numcomp).2.1).data i c m =
        ((((e0.define fba cba fdm cdm fgeom cgeom ref_ratio fine_lev nvar myproc mem
          memMask).reset.calls l).toYAFluxRegister.Reflux crse_state srccomp destcomp
          numcomp).2).data i c m) ∧
    (∀ (li i : Nat) (b : Box D) (c : IntVect D) (n : Nat),
      (localIndices cdm myproc)[li]? = some i → cba[i]? = some b →
      b.contains c → n < numcomp →
      ((e0.define fba cba fdm cdm fgeom cgeom ref_ratio fine_lev nvar myproc mem
          memMask).reset.calls l).m_crse_fab_flag[li]? ≠ some fine_cell →
      ((((e0.define fba cba fdm cdm fgeom cgeom ref_ratio fine_lev nvar myproc mem
          memMask).reset.calls l).toYAFluxRegister.Reflux crse_state srccomp destcomp
          numcomp).1).m_crse_data.data i c (srccomp + n) = 0) := by
  obtain ⟨E, hE⟩ : ∃ E, E = (e0.define fba cba fdm cdm fgeom cgeom ref_ratio fine_lev nvar
    myproc mem memMask).reset.calls l := ⟨_, rfl⟩
  rw [← hE]
  have hsame : SameButBuffers (e0.toYAFluxRegister.define fba cba fdm cdm fgeom cgeom
      ref_ratio fine_lev nvar myproc mem) E.toYAFluxRegister := by
    rw [hE]
    exact sameButBuffers_trans (sameButBuffers_reset _) (sameButBuffers_eb_calls _ l)
  have hzero : ZeroOffBoundary E.toYAFluxRegister := by
    rw [hE]
    exact zeroOffBoundary_eb_calls (zeroOffBoundary_reset _) l
  obtain ⟨-, -, f3, f4, f5, -, -, -, -, -, -, -, f13⟩ := sameButBuffers_fields hsame
  have hgeom : E.m_crse_geom = cgeom := f3
  have hvolE : E.m_cvol = none := by
    have : E.m_cvol = e0.m_cvol := f4
    rw [this, hvol]
  have hbaE : E.m_crse_data.boxarray = cba := f5
  have hdomE : ∀ b ∈ cba, (periodicGrownDomain E.m_crse_geom).containsBox b := by
    intro b hb d
    have := hdom b hb d
    rw [hgeom]
    simp only [periodicGrownDomain]
    constructor <;> split_ifs <;> omega
  have hregE : ∀ t ∈ env.tiles, getType (env.flags t.index)
      ((t.tilebox.grow 1).inter (periodicGrownDomain E.m_crse_geom)) = FabType.regular := by
    rw [hgeom]; exact hreg
  have hcorr : ∀ (li i : Nat) (b : Box D) (c : IntVect D) (n : Nat),
      (localIndices cdm myproc)[li]? = some i → cba[i]? = some b →
      b.contains c → n < numcomp → E.m_crse_fab_flag[li]? ≠ some fine_cell →
      refluxCorrection E.toYAFluxRegister i c (srccomp + n) = 0 := by
    intro li i b c n hloc hb hc hn hflag
    have hflag' : (e0.toYAFluxRegister.define fba cba fdm cdm fgeom cgeom ref_ratio fine_lev
        nvar myproc mem).m_crse_fab_flag[li]? ≠ some fine_cell := by
      have hff : E.m_crse_fab_flag = (e0.toYAFluxRegister.define fba cba fdm cdm fgeom cgeom
          ref_ratio fine_lev nvar myproc mem).m_crse_fab_flag := f13
      rw [← hff]; exact hflag
    exact refluxCorrection_of_far e0.toYAFluxRegister fba cba fdm cdm fgeom cgeom ref_ratio
      fine_lev nvar myproc mem E.toYAFluxRegister hsame hzero i c b hb hc
      (far_of_no_work e0.toYAFluxRegister fba cba fdm cdm fgeom cgeom ref_ratio fine_lev nvar
        myproc mem li i b c hfok hloc hb hc hflag') (srccomp + n) (by omega)
  constructor
  · intro i c m hloc
    rw [Reflux_state_novol E.toYAFluxRegister crse_state srccomp destcomp numcomp
      (by rw [hbaE]; exact hba) hvolE]
    have hadd : (E.RefluxCrse env crse_state crse_vfrac srccomp destcomp numcomp).2.1 =
        crse_state.Add (E.RefluxCrse env crse_state crse_vfrac srccomp destcomp
          numcomp).1.m_crse_data srccomp destcomp numcomp := rfl
    rw [hadd]
    simp only [FabArray.Add]
    by_cases hm : crse_state.inValid i c ∧ destcomp ≤ m ∧ m < destcomp + numcomp
    · rw [if_pos hm, if_pos hm]
      congr 1
      obtain ⟨b, hb, hc⟩ := (inValid_iff _ _ _).1 hm.1
      rw [hba] at hb
      obtain ⟨t0, ht0, hti, -, hval⟩ := eb_buffer_regular E env crse_state crse_vfrac
        ⟨[], [], 0, 0, fun _ _ _ => 0⟩ srccomp destcomp numcomp cba cdm myproc hbaE hdomE
        htiles hregE i b c (m - destcomp) hloc hb hc (by omega)
      have e1 : srccomp + (m - destcomp) = m - destcomp + srccomp := by omega
      rw [e1] at hval
      unfold EBFluxRegister.RefluxCrse
      rw [hval]
      split_ifs with hflag
      · rfl
      · have hl := (htiles.1 t0 ht0).1
        rw [hti] at hl
        have := hcorr t0.LocalIndex i b c (m - destcomp) hl hb hc (by omega) hflag
        rw [e1] at this
        exact this.symm
    · rw [if_neg hm, if_neg hm]
  · intro li i b c n hloc hb hc hn hflag
    have hvalid : E.m_crse_data.inValid i c := (inValid_iff _ _ _).2 ⟨b, hbaE ▸ hb, hc⟩
    rw [Reflux_crse_data E.toYAFluxRegister crse_state srccomp destcomp numcomp i c n hvalid hn]
    exact hcorr li i b c n hloc hb hc hn hflag

/-- Claim C17 (accumulation buffer after the embedded-boundary Reflux), amended. The
embedded-boundary `Reflux` does not leave the buffer cleared: after `setVal(0)` the loop
over the tiles adds the correction back into it, and the buffer is then added to the coarse
state. For every register and every input: the coarse state changes in a valid cell by what
the buffer holds afterwards; the buffer is zero in the drained components on every fab none
of whose tiles has work; and in a cell of a box of the rank all of whose tiles have work,
when the tiles visit the cells once and are entirely regular when grown, the buffer holds
the drained correction. -/
theorem eb_reflux_buffer (r : EBFluxRegister D) (env : RefluxEnv D)
    (crse_state crse_vfrac fine_state : MultiFab D) (srccomp destcomp numcomp : Nat) :
    (∀ i c n, n < numcomp → crse_state.inValid i c →
      (r.Reflux env crse_state crse_vfrac fine_state srccomp destcomp numcomp).2.1.data i c
          (destcomp + n) =
        crse_state.data i c (destcomp + n) +
          (r.Reflux env crse_state crse_vfrac fine_state srccomp destcomp
            numcomp).1.m_crse_data.data i c (srccomp + n)) ∧
    (∀ i, (∀ t ∈ env.tiles, t.index = i →
        r.m_crse_fab_flag[t.LocalIndex]? ≠ some fine_cell) →
      ∀ c n, r.m_crse_data.inFab i c → n < numcomp →
        (r.Reflux env crse_state crse_vfrac fine_state srccomp destcomp
          numcomp).1.m_crse_data.data i c (srccomp + n) = 0) ∧
    (∀ (cba : BoxArray D) (cdm : List Nat) (myproc : Nat),
      r.m_crse_data.boxarray = cba →
      (∀ b ∈ cba, (periodicGrownDomain r.m_crse_geom).containsBox b) →
      TilesPartition env.tiles cba cdm myproc →
      (∀ t ∈ env.tiles, getType (env.flags t.index)
        ((t.tilebox.grow 1).inter (periodicGrownDomain r.m_crse_geom)) = FabType.regular) →
      ∀ (i : Nat) (b : Box D) (c : IntVect D) (n : Nat), cdm[i]? = some myproc →
        cba[i]? = some b → b.contains c → n < numcomp →
        (∀ t ∈ env.tiles, t.index = i → r.m_crse_fab_flag[t.LocalIndex]? = some fine_cell) →
        (r.Reflux env crse_state crse_vfrac fine_state srccomp destcomp
          numcomp).1.m_crse_data.data i c (srccomp + n) =
          refluxCorrection r.toYAFluxRegister i c (srccomp + n)) := by
  refine ⟨?_, ?_, ?_⟩
  · intro i c n hn hc
    have hadd : (r.Reflux env crse_state crse_vfrac fine_state srccomp destcomp numcomp).2.1 =
        crse_state.Add (r.Reflux env crse_state crse_vfrac fine_state srccomp destcomp
          numcomp).1.m_crse_data srccomp destcomp numcomp := rfl
    rw [hadd]
    simp only [FabArray.Add]
    rw [if_pos ⟨hc, by omega, by omega⟩]
    congr 2
    omega
  · intro i hskip c n hc hn
    have hbuf : (r.Reflux env crse_state crse_vfrac fine_state srccomp destcomp
        numcomp).1.m_crse_data =
        env.tiles.foldl
          (r.refluxTile env
            (((FabArray.define
                (r.toYAFluxRegister.Reflux crse_state srccomp destcomp
                  numcomp).1.m_crse_data.boxarray
                (r.toYAFluxRegister.Reflux crse_state srccomp destcomp
                  numcomp).1.m_crse_data.distributionMap numcomp 1 env.memGrown).Copy
              (r.toYAFluxRegister.Reflux crse_state srccomp destcomp numcomp).1.m_crse_data
              srccomp 0 numcomp).FillBoundary r.m_crse_geom.periodicity)
            crse_vfrac (periodicGrownDomain r.m_crse_geom) srccomp numcomp)
          ((r.toYAFluxRegister.Reflux crse_state srccomp destcomp
            numcomp).1.m_crse_data.setValComps 0 srccomp numcomp) := rfl
    rw [hbuf, refluxTiles_skip _ _ _ _ _ _ _ _ _ hskip]
    have hin : (r.toYAFluxRegister.Reflux crse_state srccomp destcomp
        numcomp).1.m_crse_data.inFab i c := hc
    simp only [FabArray.setValComps]
    rw [if_pos ⟨hin, by omega, by omega⟩]
  · intro cba cdm myproc hba hdom htiles hreg i b c n hloc hb hc hn hwork
    obtain ⟨t0, ht0, hti, -, hval⟩ := eb_buffer_regular r env crse_state crse_vfrac fine_state
      srccomp destcomp numcomp cba cdm myproc hba hdom htiles hreg i b c n hloc hb hc hn
    rw [hval, if_pos (hwork t0 ht0 hti)]

end EBReflux

section FragmentIndex

variable {D : Nat}

/-- The fragment local-index array and the ownership map of the patch partition after
`define` on a register whose local-index array is empty. -/
theorem define_localindex (r : YAFluxRegister D) (fba cba : BoxArray D)
    (fdm cdm : List Nat) (fgeom cgeom : Geometry D) (ref_ratio : IntVect D) (fine_lev : Int)
    (nvar : Nat) (myproc : Nat) (mem : DefineMemory D) (hl : r.m_cfp_localindex = []) :
    (r.define fba cba fdm cdm fgeom cgeom ref_ratio fine_lev nvar myproc mem).m_cfp_localindex =
      (List.range (fba.coarsen ref_ratio).length).flatMap (fun i =>
        if fdm.getD i 0 = myproc then
          List.replicate (ringBoxes (fba.coarsen ref_ratio) (grownDomain cgeom) i).length
            (localRank fdm myproc i)
        else []) ∧
    (r.define fba cba fdm cdm fgeom cgeom ref_ratio fine_lev nvar myproc
        mem).m_cfpatch.distributionMap =
      (List.range (fba.coarsen ref_ratio).length).flatMap fun i =>
        List.replicate (ringBoxes (fba.coarsen ref_ratio) (grownDomain cgeom) i).length
          (fdm.getD i 0) := by
  have h1 := (ringLoop_localindex (fba.coarsen ref_ratio) (grownDomain cgeom) fdm myproc []
    (fba.coarsen ref_ratio).length).1
  have h2 := (ringLoop_fold (fba.coarsen ref_ratio) (grownDomain cgeom) fdm myproc
    (List.range (fba.coarsen ref_ratio).length) ⟨[], [], [], 0⟩).2
  rw [List.nil_append] at h1 h2
  constructor
  · rw [← h1]
    simp only [YAFluxRegister.define, BoxArray.uniqify, hl, ringLoop]
  · rw [← h2]
    simp only [YAFluxRegister.define, BoxArray.uniqify, hl, ringLoop, FabArray.define]

theorem pairwise_localindex (len : Nat → Nat) (fdm : List Nat) (myproc n : Nat) :
    ((List.range n).flatMap fun i =>
      if fdm.getD i 0 = myproc then List.replicate (len i) (localRank fdm myproc i)
      else []).Pairwise (· ≤ ·) := by
  induction n with
  | zero => simp
  | succ n ih =>
    rw [List.range_succ, List.flatMap_append, List.pairwise_append]
    refine ⟨ih, ?_, ?_⟩
    · simp only [List.flatMap_cons, List.flatMap_nil, List.append_nil]
      split_ifs
      · rw [List.pairwise_replicate]
        exact Or.inr (le_refl _)
      · exact List.Pairwise.nil
    · intro a ha b hb
      obtain ⟨i, hi, hai⟩ := List.mem_flatMap.1 ha
      rw [List.mem_range] at hi
      simp only [List.flatMap_cons, List.flatMap_nil, List.append_nil] at hb
      split_ifs at hai with h1
      · split_ifs at hb with h2
        · rw [(List.mem_replicate.1 hai).2, (List.mem_replicate.1 hb).2]
          exact localRank_mono fdm myproc (by omega)
        · exact absurd hb (List.not_mem_nil _)
      · exact absurd hai (List.not_mem_nil _)

/-- The list of ring boxes of a fine box whose grown box meets the domain is empty exactly
when every cell of the grown box in the domain lies in the fine footprint. -/
theorem ringBoxes_ne_nil_iff (cfba : BoxArray D) (cdomain : Box D) (g : Nat) (c : Box D)
    (hb : cfba[g]? = some c) (hok : ((c.grow 1).inter cdomain).ok) :
    ringBoxes cfba cdomain g ≠ [] ↔
      ∃ p, ((c.grow 1).inter cdomain).contains p ∧ ∀ b ∈ cfba, ¬ b.contains p := by
  constructor
  · intro hne
    obtain ⟨f, hf⟩ := List.exists_mem_of_ne_nil _ hne
    have hfok : f.ok := by
      unfold ringBoxes at hf
      rw [hb] at hf
      exact ok_complementIn _ _ hok f hf
    have hpos := (exists_mem_contains_iff _ f.smallend).1 ⟨f, hf, contains_smallend f hfok⟩
    rw [countP_ringBoxes] at hpos
    split_ifs at hpos with hcond
    · obtain ⟨⟨c2, hc2, hp⟩, hout⟩ := hcond
      rw [hb, Option.some.injEq] at hc2
      exact ⟨f.smallend, hc2 ▸ hp, hout⟩
    · exact absurd hpos (lt_irrefl 0)
  · rintro ⟨p, hp, hout⟩ hnil
    have hcount := countP_ringBoxes cfba cdomain g p
    rw [if_pos ⟨⟨c, hb, hp⟩, hout⟩, hnil] at hcount
    exact absurd hcount (by simp)

/-- Claim C21 (patch-fragment index). After `define` on a register whose fragment vectors
are empty (a fresh register), with the serial construction of the ring: the fragment
local-index array has one entry per patch fab that the rank owns and is non-decreasing; for
the `l`-th fine box `g` that the rank owns, the fragment list `m_cfp_fab[l]` is the list of
the patch fabs generated from `g`, in the order of their generation, which are the fabs at
the positions `ringOffset g + m` of the patch partition, hold the ring boxes of `g` and are
owned by the rank; and, when the coarsened box `c` of `g` grown by one cell meets the grown
domain, `FineHasWork` is true exactly when a cell of `grow(c, 1)` in the grown domain lies
outside the fine footprint. -/
theorem define_fragment_index (r : YAFluxRegister D) (fba cba : BoxArray D)
    (fdm cdm : List Nat) (fgeom cgeom : Geometry D) (ref_ratio : IntVect D) (fine_lev : Int)
    (nvar : Nat) (myproc : Nat) (mem : DefineMemory D)
    (hf : r.m_cfp_fab = []) (hl : r.m_cfp_localindex = []) :
    (r.define fba cba fdm cdm fgeom cgeom ref_ratio fine_lev nvar myproc
        mem).m_cfp_localindex.length =
      (localIndices (r.define fba cba fdm cdm fgeom cgeom ref_ratio fine_lev nvar myproc
        mem).m_cfpatch.distributionMap myproc).length ∧
    (r.define fba cba fdm cdm fgeom cgeom ref_ratio fine_lev nvar myproc
        mem).m_cfp_localindex.Pairwise (· ≤ ·) ∧
    (∀ (l g : Nat) (c : Box D), (localIndices fdm myproc)[l]? = some g →
      (fba.coarsen ref_ratio)[g]? = some c →
      (r.define fba cba fdm cdm fgeom cgeom ref_ratio fine_lev nvar myproc
          mem).m_cfp_fab[l]? =
        some ((List.range (ringBoxes (fba.coarsen ref_ratio) (grownDomain cgeom) g).length).map
          (ringOffset (fba.coarsen ref_ratio) (grownDomain cgeom) g + ·)) ∧
      (∀ m, m < (ringBoxes (fba.coarsen ref_ratio) (grownDomain cgeom) g).length →
        (r.define fba cba fdm cdm fgeom cgeom ref_ratio fine_lev nvar myproc
            mem).m_cfpatch.boxarray[ringOffset (fba.coarsen ref_ratio) (grownDomain cgeom) g
              + m]? = (ringBoxes (fba.coarsen ref_ratio) (grownDomain cgeom) g)[m]? ∧
        (r.define fba cba fdm cdm fgeom cgeom ref_ratio fine_lev nvar myproc
            mem).m_cfpatch.distributionMap[ringOffset (fba.coarsen ref_ratio)
              (grownDomain cgeom) g + m]? = some myproc) ∧
      (((c.grow 1).inter (periodicGrownDomain cgeom)).ok →
        ∀ tile : Box D,
          ((r.define fba cba fdm cdm fgeom cgeom ref_ratio fine_lev nvar myproc
              mem).FineHasWork ⟨g, l, tile⟩ = true ↔
            ∃ p, ((c.grow 1).inter (periodicGrownDomain cgeom)).contains p ∧
              ∀ b ∈ fba.coarsen ref_ratio, ¬ b.contains p))) := by
  obtain ⟨hli, hdm⟩ := define_localindex r fba cba fdm cdm fgeom cgeom ref_ratio fine_lev nvar
    myproc mem hl
  refine ⟨?_, ?_, ?_⟩
  · rw [hli, hdm, localIndices_flatMap, List.length_flatMap, List.length_flatMap]
    congr 1
    refine List.map_congr_left fun i _ => ?_
    simp only [Function.comp]
    split_ifs <;> simp
  · rw [hli]
    exact pairwise_localindex _ fdm myproc _
  · intro l g c hloc hb
    have hown : fdm[g]? = some myproc :=
      (mem_localIndices fdm myproc g).1 (List.getElem?_mem hloc)
    have hown2 : fdm.getD g 0 = myproc := by
      rw [List.getD_eq_getElem?_getD, hown]; rfl
    have hg : g < (fba.coarsen ref_ratio).length := by
      by_contra h
      rw [List.getElem?_eq_none (by omega)] at hb
      exact Option.noConfusion hb
    have hl2 : l = localRank fdm myproc g := by
      have h1 := localIndices_getElem fdm myproc g hown
      obtain ⟨hl1, e1⟩ := List.getElem?_eq_some_iff.1 hloc
      obtain ⟨hl3, e2⟩ := List.getElem?_eq_some_iff.1 h1
      exact (List.Nodup.getElem_inj_iff (nodup_localIndices fdm myproc)).1 (e1.trans e2.symm)
    have hbucket := define_cfp_fab r fba cba fdm cdm fgeom cgeom ref_ratio fine_lev nvar
      myproc mem hf hl g hg hown2
    rw [← hl2] at hbucket
    have hba := define_cfpatch_boxarray r fba cba fdm cdm fgeom cgeom ref_ratio fine_lev nvar
      myproc mem
    rw [← grownDomain_eq] at hba
    refine ⟨hbucket, ?_, ?_⟩
    · intro m hm
      constructor
      · rw [hba]
        unfold ringOffset
        exact getElem_flatMap_range _ _ g m hg hm
      · rw [hdm]
        unfold ringOffset
        have := getElem_flatMap_range (fun i =>
          List.replicate (ringBoxes (fba.coarsen ref_ratio) (grownDomain cgeom) i).length
            (fdm.getD i 0)) (fba.coarsen ref_ratio).length g m hg
          (by rw [List.length_replicate]; exact hm)
        simp only [List.length_replicate] at this
        rw [this, List.getElem?_replicate, if_pos hm, hown2]
    · intro hok tile
      rw [← grownDomain_eq] at hok ⊢
      rw [← ringBoxes_ne_nil_iff (fba.coarsen ref_ratio) (grownDomain cgeom) g c hb hok]
      unfold YAFluxRegister.FineHasWork
      rw [List.getD_eq_getElem?_getD, hbucket]
      simp only [Option.getD_some, List.isEmpty_eq_true, List.map_eq_nil_iff, Bool.not_eq_true',
        ne_eq]
      rw [← Bool.not_eq_true, List.isEmpty_eq_true, List.map_eq_nil_iff, List.range_eq_nil,
        List.length_eq_zero]

end FragmentIndex

section ThinRing

variable {D : Nat}

/-- Two non-empty boxes without a common cell are apart in some direction. -/
theorem exists_dir_of_disjoint (f c : Box D) (hf : f.ok) (hc : c.ok)
    (h : ∀ p, f.contains p → ¬ c.contains p) :
    ∃ d, f.bigend d < c.smallend d ∨ c.bigend d < f.smallend d := by
  by_contra hno
  push_neg at hno
  apply h (fun d => max (f.smallend d) (c.smallend d))
  · intro d
    have := hno d
    have := hf d
    exact ⟨le_max_left _ _, max_le (hf d) (hno d).1⟩
  · intro d
    exact ⟨le_max_right _ _, max_le (hno d).2 (hc d)⟩

/-- The cells of a ring box of fine box `g` lie in the grown coarsened box of `g`, in the
domain and in no coarsened fine box. -/
theorem mem_ringBox (cfba : BoxArray D) (cdomain : Box D) (g : Nat) (c f : Box D)
    (hb : cfba[g]? = some c) (hf : f ∈ ringBoxes cfba cdomain g) (p : IntVect D)
    (hp : f.contains p) :
    ((c.grow 1).inter cdomain).contains p ∧ ∀ b ∈ cfba, ¬ b.contains p := by
  have hpos := (exists_mem_contains_iff _ p).1 ⟨f, hf, hp⟩
  rw [countP_ringBoxes] at hpos
  split_ifs at hpos with hcond
  · obtain ⟨⟨c2, hc2, hp2⟩, hout⟩ := hcond
    rw [hb, Option.some.injEq] at hc2
    exact ⟨hc2 ▸ hp2, hout⟩
  · exact absurd hpos (lt_irrefl 0)

/-- Claim C22 (thin ring boxes). After `define`, when every coarsened fine box is not empty
and, grown by one cell, meets the grown domain: every patch box is a ring box generated
from some coarsened fine box `c`, has an extent of exactly one cell in at least one
direction, and every one of its cells is at distance exactly one, in the maximum norm, from
`c`: it is not a cell of `c`, so that it differs by at least one from every cell of `c` in
some direction, and it is within one cell of some cell of `c` in every direction. -/
theorem define_thin_ring_boxes (r : YAFluxRegister D) (fba cba : BoxArray D)
    (fdm cdm : List Nat) (fgeom cgeom : Geometry D) (ref_ratio : IntVect D) (fine_lev : Int)
    (nvar : Nat) (myproc : Nat) (mem : DefineMemory D)
    (hcok : ∀ c ∈ fba.coarsen ref_ratio,
      c.ok ∧ ((c.grow 1).inter (periodicGrownDomain cgeom)).ok) :
    ∀ f ∈ (r.define fba cba fdm cdm fgeom cgeom ref_ratio fine_lev nvar myproc
        mem).m_cfpatch.boxarray,
      ∃ g c, (fba.coarsen ref_ratio)[g]? = some c ∧
        f ∈ ringBoxes (fba.coarsen ref_ratio) (periodicGrownDomain cgeom) g ∧
        (∃ d, f.length d = 1) ∧
        ∀ p, f.contains p →
          ¬ c.contains p ∧ (∀ q, c.contains q → ∃ d, 1 ≤ |p d - q d|) ∧
            ∃ q, c.contains q ∧ ∀ d, |p d - q d| ≤ 1 := by
  intro f hf
  rw [define_cfpatch_boxarray] at hf
  obtain ⟨g, hg, hfg⟩ := List.mem_flatMap.1 hf
  rw [List.mem_range] at hg
  have hb : (fba.coarsen ref_ratio)[g]? = some ((fba.coarsen ref_ratio)[g]) :=
    List.getElem?_eq_getElem hg
  obtain ⟨c, hc⟩ : ∃ c, c = (fba.coarsen ref_ratio)[g] := ⟨_, rfl⟩
  rw [← hc] at hb
  have hcm : c ∈ fba.coarsen ref_ratio := List.getElem?_mem hb
  obtain ⟨hcok1, hcok2⟩ := hcok c hcm
  have hfok : f.ok := by
    have hfg2 := hfg
    unfold ringBoxes at hfg2
    rw [hb] at hfg2
    exact ok_complementIn _ _ hcok2 f hfg2
  have hcell := mem_ringBox (fba.coarsen ref_ratio) (periodicGrownDomain cgeom) g c f hb hfg
  refine ⟨g, c, hb, hfg, ?_, ?_⟩
  · obtain ⟨d, hd⟩ := exists_dir_of_disjoint f c hfok hcok1
      (fun p hp => (hcell p hp).2 c hcm)
    refine ⟨d, ?_⟩
    have hlo := ((contains_inter _ _ _).1
      (hcell f.smallend (contains_smallend f hfok)).1).1
    have hhi := ((contains_inter _ _ _).1
      (hcell f.bigend (fun e => ⟨hfok e, le_refl _⟩)).1).1
    rw [contains_grow] at hlo hhi
    have h1 := hlo d
    have h2 := hhi d
    have h3 := hfok d
    unfold Box.length
    rcases hd with hd | hd <;> omega
  · intro p hp
    obtain ⟨hin, hout⟩ := hcell p hp
    have hnc : ¬ c.contains p := hout c hcm
    refine ⟨hnc, ?_, ?_⟩
    · intro q hq
      by_contra hno
      push_neg at hno
      apply hnc
      have : p = q := by
        funext d
        have := hno d
        have := abs_nonneg (p d - q d)
        have h0 : |p d - q d| = 0 := by omega
        have := abs_eq_zero.1 h0
        omega
      rw [this]; exact hq
    · exact (near_iff_grow c hcok1 p).1 ((contains_inter _ _ _).1 hin).1

end ThinRing

section Alignment

variable {D : Nat}

theorem refine_coarsen_lo (a r : Int) (hr : 1 ≤ r) :
    Box.coarsenIndex a r * r ≤ a ∧ (Box.coarsenIndex a r * r = a ↔ r ∣ a) := by
  have hr0 : 0 < r := by omega
  rw [coarsenIndex_eq_ediv _ _ hr0]
  refine ⟨Int.ediv_mul_le a hr0.ne', ?_, ?_⟩
  · intro h
    exact ⟨a / r, by rw [mul_comm]; exact h.symm⟩
  · intro h
    exact Int.ediv_mul_cancel h

theorem refine_coarsen_hi (a r : Int) (hr : 1 ≤ r) :
    a ≤ (Box.coarsenIndex a r + 1) * r - 1 ∧
      ((Box.coarsenIndex a r + 1) * r - 1 = a ↔ r ∣ a + 1) := by
  have hr0 : 0 < r := by omega
  refine ⟨?_, ?_, ?_⟩
  · rw [coarsenIndex_eq_ediv _ _ hr0]
    have := Int.lt_ediv_add_one_mul_self a hr0
    omega
  · intro h
    exact ⟨Box.coarsenIndex a r + 1, by rw [mul_comm]; omega⟩
  · rintro ⟨k, hk⟩
    have ha : a = (k - 1 + 1) * r - 1 := by
      have : (k - 1 + 1) * r = r * k := by ring
      omega
    have hc : Box.coarsenIndex a r = k - 1 := by
      rw [ha]
      exact coarsenIndex_mul_pred (k - 1) r hr
    rw [hc]
    omega

/-- The re-refined box of a box holds the box, and is the box exactly when the box is
aligned with the coarse cells. -/
theorem refine_coarsen_box (t : Box D) (ratio : IntVect D) (hr : ∀ d, 1 ≤ ratio d) :
    ((t.coarsen ratio).refine ratio).containsBox t ∧
    ((t.coarsen ratio).refine ratio = t ↔
      ∀ d, ratio d ∣ t.smallend d ∧ ratio d ∣ t.bigend d + 1) := by
  constructor
  · intro d
    exact ⟨(refine_coarsen_lo _ _ (hr d)).1, (refine_coarsen_hi _ _ (hr d)).1⟩
  · constructor
    · intro h d
      have h1 : ((t.coarsen ratio).refine ratio).smallend d = t.smallend d := by rw [h]
      have h2 : ((t.coarsen ratio).refine ratio).bigend d = t.bigend d := by rw [h]
      exact ⟨(refine_coarsen_lo _ _ (hr d)).2.1 h1, (refine_coarsen_hi _ _ (hr d)).2.1 h2⟩
    · intro h
      apply box_ext_ends
      · funext d
        exact (refine_coarsen_lo _ _ (hr d)).2.2 (h d).1
      · funext d
        exact (refine_coarsen_hi _ _ (hr d)).2.2 (h d).2

/-- Claim C23 (tile alignment in `FineAdd`). For every tile box `t` and every refinement
ratio with all components at least 1: coarsening takes the floor of the quotient, also for
negative indices; `refine(coarsen(t, ratio), ratio)` contains `t`, and is `t` exactly when
in every direction the low index of `t` and its high index plus one are multiples of the
ratio. A `FineAdd` that has work runs its loops on the supplied fluxes from component
`srccomp` when the two boxes are equal, and on the padded copies from component 0 when they
differ; the padded copy lives on the faces of the re-refined box, equals the supplied flux,
components `srccomp ..` renumbered from 0, on the faces that the supplied flux covers, and
is zero on the other faces. -/
theorem fineadd_tile_alignment (r : YAFluxRegister D) (mfi : MFIter D)
    (a_flux : Fin D → FArrayBox D) (dx : Fin D → Real) (dt : Real)
    (srccomp destcomp numcomp : Nat) (hr : ∀ d, 1 ≤ r.m_ratio d) :
    (∀ d, (mfi.tilebox.coarsen r.m_ratio).smallend d = mfi.tilebox.smallend d / r.m_ratio d ∧
      (mfi.tilebox.coarsen r.m_ratio).bigend d = mfi.tilebox.bigend d / r.m_ratio d) ∧
    ((mfi.tilebox.coarsen r.m_ratio).refine r.m_ratio).containsBox mfi.tilebox ∧
    ((mfi.tilebox.coarsen r.m_ratio).refine r.m_ratio = mfi.tilebox ↔
      ∀ d, r.m_ratio d ∣ mfi.tilebox.smallend d ∧ r.m_ratio d ∣ mfi.tilebox.bigend d + 1) ∧
    (r.FineHasWork mfi = true →
      ((mfi.tilebox.coarsen r.m_ratio).refine r.m_ratio = mfi.tilebox →
        r.FineAdd mfi a_flux dx dt srccomp destcomp numcomp =
          r.fineAddLoop mfi a_flux srccomp dx dt destcomp numcomp) ∧
      ((mfi.tilebox.coarsen r.m_ratio).refine r.m_ratio ≠ mfi.tilebox →
        r.FineAdd mfi a_flux dx dt srccomp destcomp numcomp =
          r.fineAddLoop mfi
            (fun idim => YAFluxRegister.paddedFlux
              ((mfi.tilebox.coarsen r.m_ratio).refine r.m_ratio) idim (a_flux idim) srccomp
              numcomp)
            0 dx dt destcomp numcomp)) ∧
    (∀ idim,
      (YAFluxRegister.paddedFlux ((mfi.tilebox.coarsen r.m_ratio).refine r.m_ratio) idim
          (a_flux idim) srccomp numcomp).box =
        ((mfi.tilebox.coarsen r.m_ratio).refine r.m_ratio).surroundingNodes idim ∧
      ∀ p n, n < numcomp →
        (((mfi.tilebox.coarsen r.m_ratio).refine r.m_ratio).surroundingNodes idim).contains p →
        (YAFluxRegister.paddedFlux ((mfi.tilebox.coarsen r.m_ratio).refine r.m_ratio) idim
            (a_flux idim) srccomp numcomp).const_array 0 p n =
          if (a_flux idim).box.contains p then (a_flux idim).const_array srccomp p n
          else 0) := by
  have hr0 : ∀ d, 0 < r.m_ratio d := fun d => by have := hr d; omega
  refine ⟨?_, (refine_coarsen_box _ _ hr).1, (refine_coarsen_box _ _ hr).2, ?_, ?_⟩
  · intro d
    exact ⟨coarsenIndex_eq_ediv _ _ (hr0 d), coarsenIndex_eq_ediv _ _ (hr0 d)⟩
  · intro hw
    have hne : (r.m_cfp_fab.getD mfi.LocalIndex []).isEmpty = false := by
      unfold YAFluxRegister.FineHasWork at hw
      simpa using hw
    constructor
    · intro h
      unfold YAFluxRegister.FineAdd YAFluxRegister.fineAddLoop
      simp only [hne, Bool.false_eq_true, if_false, h, ne_eq, not_true_eq_false]
    · intro h
      unfold YAFluxRegister.FineAdd YAFluxRegister.fineAddLoop
      simp only [hne, Bool.false_eq_true, if_false, h, ne_eq, not_false_eq_true, if_true]
  · intro idim
    refine ⟨rfl, ?_⟩
    intro p n hn hp
    simp only [YAFluxRegister.paddedFlux, FArrayBox.const_array, Nat.zero_add, hp, hn, true_and,
      and_true]

end Alignment

section Redefine

variable {D : Nat}

theorem length_pushAt (B : List (List Nat)) (i g : Nat) : (pushAt B i g).length = B.length := by
  induction B generalizing i with
  | nil => rfl
  | cons x xs ih =>
    cases i with
    | zero => rfl
    | succ i => simp [pushAt, ih]

theorem getElem_resize {α : Type} (v : List α) (n : Nat) (x : α) (li : Nat) (h : li < n) :
    (resize v n x)[li]? = some (v.getD li x) := by
  unfold resize
  by_cases hl : li < v.length
  · rw [List.getElem?_append_left (by rw [List.length_take]; omega), List.getElem?_take_of_lt h,
      List.getD_eq_getElem?_getD, List.getElem?_eq_getElem hl]
    rfl
  · rw [List.getElem?_append_right (by rw [List.length_take]; omega), List.length_take,
      List.getElem?_replicate, List.getD_eq_getElem?_getD, List.getElem?_eq_none (by omega)]
    rw [if_pos (by omega)]
    rfl

/-- What `define` does on a register that was defined before, set against a freshly
constructed register with the same arguments: the classification field, the accumulation
buffer and the patch buffer are rebuilt, but the fragment local-index array is the old array
followed by the fresh one, and a work flag is the old flag wherever the fresh flag is not
`fine_cell`. -/
theorem redefine_keeps_stale (r : YAFluxRegister D) (fba cba : BoxArray D)
    (fdm cdm : List Nat) (fgeom cgeom : Geometry D) (ref_ratio : IntVect D) (fine_lev : Int)
    (nvar : Nat) (myproc : Nat) (mem : DefineMemory D) :
    (r.define fba cba fdm cdm fgeom cgeom ref_ratio fine_lev nvar myproc mem).m_crse_flag =
      (YAFluxRegister.construct fba cba fdm cdm fgeom cgeom ref_ratio fine_lev nvar myproc
        mem).m_crse_flag ∧
    (r.define fba cba fdm cdm fgeom cgeom ref_ratio fine_lev nvar myproc mem).m_crse_data =
      (YAFluxRegister.construct fba cba fdm cdm fgeom cgeom ref_ratio fine_lev nvar myproc
        mem).m_crse_data ∧
    (r.define fba cba fdm cdm fgeom cgeom ref_ratio fine_lev nvar myproc mem).m_cfpatch =
      (YAFluxRegister.construct fba cba fdm cdm fgeom cgeom ref_ratio fine_lev nvar myproc
        mem).m_cfpatch ∧
    (r.define fba cba fdm cdm fgeom cgeom ref_ratio fine_lev nvar myproc mem).m_cfp_localindex =
      r.m_cfp_localindex ++
        (YAFluxRegister.construct fba cba fdm cdm fgeom cgeom ref_ratio fine_lev nvar myproc
          mem).m_cfp_localindex ∧
    (∀ li, li < (localIndices cdm myproc).length →
      (r.define fba cba fdm cdm fgeom cgeom ref_ratio fine_lev nvar myproc
          mem).m_crse_fab_flag[li]? =
        if (YAFluxRegister.construct fba cba fdm cdm fgeom cgeom ref_ratio fine_lev nvar myproc
            mem).m_crse_fab_flag[li]? = some fine_cell then some fine_cell
        else some (r.m_crse_fab_flag.getD li crse_cell)) := by
  have hd : (YAFluxRegister.default D).m_cfp_localindex = [] := rfl
  have hdf : (YAFluxRegister.default D).m_crse_fab_flag = [] := rfl
  have h1 := (ringLoop_fold (fba.coarsen ref_ratio) (grownDomain cgeom) fdm myproc
    (List.range (fba.coarsen ref_ratio).length) ⟨[], [], r.m_cfp_localindex, 0⟩)
  have h2 := (ringLoop_fold (fba.coarsen ref_ratio) (grownDomain cgeom) fdm myproc
    (List.range (fba.coarsen ref_ratio).length) ⟨[], [], [], 0⟩)
  have e1 : (ringLoop (fba.coarsen ref_ratio) (grownDomain cgeom) fdm myproc
      r.m_cfp_localindex).cfp_bl =
      (ringLoop (fba.coarsen ref_ratio) (grownDomain cgeom) fdm myproc []).cfp_bl := by
    unfold ringLoop
    rw [h1.1, h2.1]
  have e2 : (ringLoop (fba.coarsen ref_ratio) (grownDomain cgeom) fdm myproc
      r.m_cfp_localindex).cfp_procmap =
      (ringLoop (fba.coarsen ref_ratio) (grownDomain cgeom) fdm myproc []).cfp_procmap := by
    unfold ringLoop
    rw [h1.2, h2.2]
  refine ⟨rfl, rfl, ?_, ?_, ?_⟩
  · simp only [YAFluxRegister.construct, YAFluxRegister.define, BoxArray.uniqify, hd, e1, e2]
  · have a1 := (ringLoop_localindex (fba.coarsen ref_ratio) (grownDomain cgeom) fdm myproc
      r.m_cfp_localindex (fba.coarsen ref_ratio).length).1
    have a2 := (ringLoop_localindex (fba.coarsen ref_ratio) (grownDomain cgeom) fdm myproc
      [] (fba.coarsen ref_ratio).length).1
    simp only [YAFluxRegister.construct, YAFluxRegister.define, BoxArray.uniqify, hd, ringLoop]
    rw [a1, a2, List.nil_append]
  · intro li hli
    obtain ⟨g, hg⟩ : ∃ g, (localIndices cdm myproc)[li]? = some g :=
      ⟨_, List.getElem?_eq_getElem hli⟩
    rw [construct_fab_flag fba cba fdm cdm fgeom cgeom ref_ratio fine_lev nvar myproc mem li g
      hg]
    simp only [YAFluxRegister.define, BoxArray.uniqify, List.getElem?_map,
      List.zip_eq_zipWith]
    rw [List.getElem?_zipWith, hg, getElem_resize _ _ _ _ hli]
    by_cases hm : FabArray.RecvLayoutMask
        (getCPC cba 1 (fba.coarsen ref_ratio) 0 (shiftIntVect cgeom.periodicity)) g = true
    · simp [hm]
    · have hne : crse_cell ≠ fine_cell := by decide
      simp [hm, hne]

end Redefine

section Tiles

variable {D : Nat}

theorem ediv_eq_of_bounds (a b q : Int) (hb : 0 < b) (h1 : q * b ≤ a) (h2 : a < (q + 1) * b) :
    a / b = q := by
  have := (Int.ediv_emod_unique (a := a) (r := a - b * q) (q := q) hb).2
    ⟨by ring, by nlinarith, by nlinarith⟩
  exact this.1

theorem ediv_bounds (a b : Int) (hb : 0 < b) : a / b * b ≤ a ∧ a < (a / b + 1) * b := by
  have e := Int.ediv_add_emod a b
  have h1 := Int.emod_nonneg a hb.ne'
  have h2 := Int.emod_lt_of_pos a hb
  constructor <;> nlinarith

/-- The numbers of `tilingExact` for a range of `hi - lo + 1 ≥ 1` cells and a tile size of at
least 1. -/
theorem tile_numbers (lo hi s : Int) (hn : lo ≤ hi) (hs : 1 ≤ s) :
    1 ≤ numTilesExact lo hi s ∧ numTilesExact lo hi s ≤ hi - lo + 1 ∧
    1 ≤ tsRight lo hi s ∧ 0 ≤ nLeft lo hi s ∧ nLeft lo hi s < numTilesExact lo hi s ∧
    nLeft lo hi s * (tsRight lo hi s + 1) +
      (numTilesExact lo hi s - nLeft lo hi s) * tsRight lo hi s = hi - lo + 1 := by
  have hn1 : (1 : Int) ≤ hi - lo + 1 := by omega
  have hT1 : 1 ≤ numTilesExact lo hi s := le_max_right _ _
  have hT2 : numTilesExact lo hi s ≤ hi - lo + 1 := by
    unfold numTilesExact
    apply max_le _ hn1
    rw [Int.tdiv_eq_ediv (by omega) (by omega)]
    exact Int.ediv_le_self _ (by omega)
  have hT0 : 0 < numTilesExact lo hi s := by omega
  have hR : tsRight lo hi s = (hi - lo + 1) / numTilesExact lo hi s := by
    unfold tsRight
    rw [Int.tdiv_eq_ediv (by omega) (by omega)]
  obtain ⟨b1, b2⟩ := ediv_bounds (hi - lo + 1) (numTilesExact lo hi s) hT0
  rw [← hR] at b1 b2
  have hR1 : 1 ≤ tsRight lo hi s := by
    by_contra h
    have : tsRight lo hi s + 1 ≤ 1 := by omega
    nlinarith
  refine ⟨hT1, hT2, hR1, ?_, ?_, ?_⟩
  · unfold nLeft; nlinarith
  · unfold nLeft; nlinarith
  · unfold nLeft; ring

theorem tilingExact_eq (i lo hi s : Int) :
    tilingExact i lo hi s =
      if i - lo < nLeft lo hi s * (tsRight lo hi s + 1) then
        ⟨numTilesExact lo hi s, Int.tdiv (i - lo) (tsRight lo hi s + 1),
          lo + Int.tdiv (i - lo) (tsRight lo hi s + 1) * (tsRight lo hi s + 1),
          lo + Int.tdiv (i - lo) (tsRight lo hi s + 1) * (tsRight lo hi s + 1) +
            (tsRight lo hi s + 1) - 1⟩
      else
        ⟨numTilesExact lo hi s,
          nLeft lo hi s + Int.tdiv (i - lo - nLeft lo hi s * (tsRight lo hi s + 1))
            (tsRight lo hi s),
          lo + (nLeft lo hi s + Int.tdiv (i - lo - nLeft lo hi s * (tsRight lo hi s + 1))
            (tsRight lo hi s)) * tsRight lo hi s + nLeft lo hi s,
          lo + (nLeft lo hi s + Int.tdiv (i - lo - nLeft lo hi s * (tsRight lo hi s + 1))
            (tsRight lo hi s)) * tsRight lo hi s + nLeft lo hi s + tsRight lo hi s - 1⟩ := rfl

/-- The tile that `tilingExact` finds for a cell of the range: its number, its ends as a
function of the number, and the side of the boundary it lies on. -/
theorem tilingExact_spec (i lo hi s : Int) (hlo : lo ≤ i) (hhi : i ≤ hi) (hs : 1 ≤ s) :
    (tilingExact i lo hi s).ntile = numTilesExact lo hi s ∧
    0 ≤ (tilingExact i lo hi s).tileidx ∧
    (tilingExact i lo hi s).tileidx < numTilesExact lo hi s ∧
    lo ≤ (tilingExact i lo hi s).tlo ∧ (tilingExact i lo hi s).tlo ≤ i ∧
    i ≤ (tilingExact i lo hi s).thi ∧ (tilingExact i lo hi s).thi ≤ hi ∧
    (i - lo < nLeft lo hi s * (tsRight lo hi s + 1) ↔
      (tilingExact i lo hi s).tileidx < nLeft lo hi s) ∧
    ((tilingExact i lo hi s).tileidx < nLeft lo hi s →
      (tilingExact i lo hi s).tlo =
        lo + (tilingExact i lo hi s).tileidx * (tsRight lo hi s + 1) ∧
      (tilingExact i lo hi s).thi = (tilingExact i lo hi s).tlo + tsRight lo hi s) ∧
    (nLeft lo hi s ≤ (tilingExact i lo hi s).tileidx →
      (tilingExact i lo hi s).tlo =
        lo + (tilingExact i lo hi s).tileidx * tsRight lo hi s + nLeft lo hi s ∧
      (tilingExact i lo hi s).thi = (tilingExact i lo hi s).tlo + tsRight lo hi s - 1) := by
  obtain ⟨hT1, hT2, hR1, hnl0, hnlT, hsum⟩ := tile_numbers lo hi s (by omega) hs
  rw [tilingExact_eq]
  generalize numTilesExact lo hi s = T at *
  generalize tsRight lo hi s = R at *
  generalize nLeft lo hi s = nl at *
  by_cases hb : i - lo < nl * (R + 1)
  · rw [if_pos hb]
    simp only []
    rw [Int.tdiv_eq_ediv (by omega) (by omega)]
    obtain ⟨b1, b2⟩ := ediv_bounds (i - lo) (R + 1) (by omega)
    obtain ⟨k, hk⟩ : ∃ k, k = (i - lo) / (R + 1) := ⟨_, rfl⟩
    rw [← hk] at b1 b2 ⊢
    have hk0 : 0 ≤ k := by
      by_contra h
      have : k + 1 ≤ 0 := by omega
      nlinarith
    have hknl : k < nl := by
      by_contra h
      have : nl ≤ k := by omega
      nlinarith
    have hend : (k + 1) * (R + 1) ≤ nl * (R + 1) := by nlinarith
    have hB : nl * (R + 1) ≤ hi - lo + 1 := by nlinarith
    refine ⟨trivial, hk0, by omega, by nlinarith, by omega, by linarith, by linarith, ?_, ?_, ?_⟩
    · exact ⟨fun _ => hknl, fun _ => hb⟩
    · intro _
      constructor <;> first | trivial | ring
    · intro h
      omega
  · rw [if_neg hb]
    simp only []
    have hy0 : 0 ≤ i - lo - nl * (R + 1) := by omega
    rw [Int.tdiv_eq_ediv hy0 (by omega)]
    obtain ⟨b1, b2⟩ := ediv_bounds (i - lo - nl * (R + 1)) R (by omega)
    obtain ⟨k, hk⟩ : ∃ k, k = (i - lo - nl * (R + 1)) / R := ⟨_, rfl⟩
    rw [← hk] at b1 b2 ⊢
    have hk0 : 0 ≤ k := by
      by_contra h
      have : k + 1 ≤ 0 := by omega
      nlinarith
    have hkT : k < T - nl := by
      by_contra h
      have : T - nl ≤ k := by omega
      nlinarith
    have hend : (k + 1) * R ≤ (T - nl) * R := by nlinarith
    refine ⟨trivial, by omega, by omega, by nlinarith, by nlinarith, by nlinarith, by nlinarith,
      ?_, ?_, ?_⟩
    · exact ⟨fun h => absurd h hb, fun h => by omega⟩
    · intro h
      omega
    · intro _
      constructor <;> trivial

/-- Two cells with the same tile number in a direction get the same tile. -/
theorem tilingExact_ext (i j lo hi s : Int) (hi1 : lo ≤ i) (hi2 : i ≤ hi) (hj1 : lo ≤ j)
    (hj2 : j ≤ hi) (hs : 1 ≤ s)
    (h : (tilingExact i lo hi s).tileidx = (tilingExact j lo hi s).tileidx) :
    tilingExact i lo hi s = tilingExact j lo hi s := by
  obtain ⟨a1, -, -, -, -, -, -, -, a9, a10⟩ := tilingExact_spec i lo hi s hi1 hi2 hs
  obtain ⟨c1, -, -, -, -, -, -, -, c9, c10⟩ := tilingExact_spec j lo hi s hj1 hj2 hs
  have hext : ∀ x y : Tiling1d, x.ntile = y.ntile → x.tileidx = y.tileidx → x.tlo = y.tlo →
      x.thi = y.thi → x = y := by
    intro x y h1 h2 h3 h4
    cases x; cases y
    simp only [Tiling1d.mk.injEq]
    exact ⟨h1, h2, h3, h4⟩
  by_cases hk : (tilingExact i lo hi s).tileidx < nLeft lo hi s
  · obtain ⟨e1, e2⟩ := a9 hk
    obtain ⟨e3, e4⟩ := c9 (h ▸ hk)
    refine hext _ _ (a1.trans c1.symm) h ?_ ?_
    · rw [e1, e3, h]
    · rw [e2, e4, e1, e3, h]
  · obtain ⟨e1, e2⟩ := a10 (by omega)
    obtain ⟨e3, e4⟩ := c10 (by omega)
    refine hext _ _ (a1.trans c1.symm) h ?_ ?_
    · rw [e1, e3, h]
    · rw [e2, e4, e1, e3, h]

/-- A cell in the tile of another cell has the same tile number. -/
theorem tilingExact_of_mem (i j lo hi s : Int) (hi1 : lo ≤ i) (hi2 : i ≤ hi) (hs : 1 ≤ s)
    (hj1 : (tilingExact i lo hi s).tlo ≤ j) (hj2 : j ≤ (tilingExact i lo hi s).thi) :
    (tilingExact j lo hi s).tileidx = (tilingExact i lo hi s).tileidx := by
  obtain ⟨-, a2, a3, a4, a5, a6, a7, a8, a9, a10⟩ := tilingExact_spec i lo hi s hi1 hi2 hs
  obtain ⟨-, c2, c3, c4, c5, c6, c7, c8, c9, c10⟩ :=
    tilingExact_spec j lo hi s (by omega) (by omega) hs
  obtain ⟨hT1, hT2, hR1, hnl0, hnlT, hsum⟩ := tile_numbers lo hi s (by omega) hs
  generalize (tilingExact i lo hi s).tileidx = ki at *
  generalize (tilingExact j lo hi s).tileidx = kj at *
  generalize (tilingExact i lo hi s).tlo = tli at *
  generalize (tilingExact i lo hi s).thi = thi' at *
  generalize (tilingExact j lo hi s).tlo = tlj at *
  generalize (tilingExact j lo hi s).thi = thj at *
  generalize numTilesExact lo hi s = T at *
  generalize tsRight lo hi s = R at *
  generalize nLeft lo hi s = nl at *
  by_cases hi_left : ki < nl
  · obtain ⟨e1, e2⟩ := a9 hi_left
    have p1 : (ki + 1) * (R + 1) ≤ nl * (R + 1) :=
      mul_le_mul_of_nonneg_right (by omega) (by omega)
    have hjB : j - lo < nl * (R + 1) := by linarith
    have hj_left : kj < nl := c8.1 hjB
    obtain ⟨e3, e4⟩ := c9 hj_left
    by_contra hne
    rcases Int.lt_or_gt_of_ne hne with h | h
    · have p2 : (kj + 1) * (R + 1) ≤ ki * (R + 1) :=
        mul_le_mul_of_nonneg_right (by omega) (by omega)
      linarith
    · have p2 : (ki + 1) * (R + 1) ≤ kj * (R + 1) :=
        mul_le_mul_of_nonneg_right (by omega) (by omega)
      linarith
  · obtain ⟨e1, e2⟩ := a10 (by omega)
    have p1 : nl * R ≤ ki * R := mul_le_mul_of_nonneg_right (by omega) (by omega)
    have hjB : ¬ j - lo < nl * (R + 1) := by
      intro hlt
      linarith
    have hj_right : nl ≤ kj := by
      by_contra h
      exact hjB (c8.2 (by omega))
    obtain ⟨e3, e4⟩ := c10 hj_right
    by_contra hne
    rcases Int.lt_or_gt_of_ne hne with h | h
    · have p2 : (kj + 1) * R ≤ ki * R := mul_le_mul_of_nonneg_right (by omega) (by omega)
      linarith
    · have p2 : (ki + 1) * R ≤ kj * R := mul_le_mul_of_nonneg_right (by omega) (by omega)
      linarith

/-- Every tile number of a direction is the number of the tile of some cell. -/
theorem tilingExact_surj (lo hi s k : Int) (hn : lo ≤ hi) (hs : 1 ≤ s) (hk0 : 0 ≤ k)
    (hk : k < numTilesExact lo hi s) :
    ∃ i, lo ≤ i ∧ i ≤ hi ∧ (tilingExact i lo hi s).tileidx = k := by
  obtain ⟨hT1, hT2, hR1, hnl0, hnlT, hsum⟩ := tile_numbers lo hi s hn hs
  simp only [tilingExact_eq]
  generalize numTilesExact lo hi s = T at *
  generalize tsRight lo hi s = R at *
  generalize nLeft lo hi s = nl at *
  by_cases hleft : k < nl
  · have hx : lo + k * (R + 1) - lo < nl * (R + 1) := by nlinarith
    refine ⟨lo + k * (R + 1), by nlinarith, by nlinarith, ?_⟩
    rw [if_pos hx]
    simp only []
    have e : lo + k * (R + 1) - lo = k * (R + 1) := by ring
    rw [e, Int.tdiv_eq_ediv (by nlinarith) (by omega)]
    exact Int.mul_ediv_cancel k (by omega)
  · have hx : ¬ lo + nl * (R + 1) + (k - nl) * R - lo < nl * (R + 1) := by nlinarith
    have hend : (k - nl + 1) * R ≤ (T - nl) * R := by nlinarith
    refine ⟨lo + nl * (R + 1) + (k - nl) * R, by nlinarith, by nlinarith, ?_⟩
    rw [if_neg hx]
    simp only []
    have e : lo + nl * (R + 1) + (k - nl) * R - lo - nl * (R + 1) = (k - nl) * R := by ring
    rw [e, Int.tdiv_eq_ediv (by nlinarith) (by omega), Int.mul_ediv_cancel _ (by omega)]
    ring

theorem tilingExact_ntile (i lo hi s : Int) : (tilingExact i lo hi s).ntile = numTilesExact lo hi s := by
  rw [tilingExact_eq]
  split_ifs <;> rfl

theorem indexSumExact_mul (acc : Int) (l : List (Int × Int)) :
    indexSumExact acc l = acc * indexSumExact 1 l := by
  induction l generalizing acc with
  | nil => simp [indexSumExact]
  | cons x rest ih =>
    simp only [indexSumExact]
    rw [ih (acc * x.2), ih (1 * x.2)]
    ring

theorem indexSumExact_cons (x : Int × Int) (rest : List (Int × Int)) :
    indexSumExact 1 (x :: rest) = x.1 + x.2 * indexSumExact 1 rest := by
  simp only [indexSumExact]
  rw [indexSumExact_mul (1 * x.2)]
  ring

/-- The index of mixed radix digits lies below the product of the radices. -/
theorem indexSumExact_bounds (ds : List (Fin D)) (k n : Fin D → Int)
    (h : ∀ d ∈ ds, 0 ≤ k d ∧ k d < n d) :
    0 ≤ indexSumExact 1 (ds.map fun d => (k d, n d)) ∧
    indexSumExact 1 (ds.map fun d => (k d, n d)) < (ds.map n).prod := by
  induction ds with
  | nil => simp [indexSumExact]
  | cons d rest ih =>
    obtain ⟨i1, i2⟩ := ih (fun e he => h e (List.mem_cons_of_mem _ he))
    obtain ⟨k1, k2⟩ := h d (List.mem_cons_self _ _)
    rw [List.map_cons, indexSumExact_cons, List.map_cons, List.prod_cons]
    simp only []
    generalize indexSumExact 1 (rest.map fun d => (k d, n d)) = S at *
    generalize (rest.map n).prod = P at *
    have p1 : 0 ≤ n d * S := mul_nonneg (by omega) i1
    have p2 : n d * (S + 1) ≤ n d * P := mul_le_mul_of_nonneg_left (by omega) (by omega)
    constructor
    · omega
    · linarith

/-- Mixed radix digits are determined by their index. -/
theorem indexSumExact_inj (ds : List (Fin D)) (k k' n : Fin D → Int)
    (h : ∀ d ∈ ds, 0 ≤ k d ∧ k d < n d) (h' : ∀ d ∈ ds, 0 ≤ k' d ∧ k' d < n d)
    (e : indexSumExact 1 (ds.map fun d => (k d, n d)) =
      indexSumExact 1 (ds.map fun d => (k' d, n d))) :
    ∀ d ∈ ds, k d = k' d := by
  induction ds with
  | nil => simp
  | cons d rest ih =>
    obtain ⟨k1, k2⟩ := h d (List.mem_cons_self _ _)
    obtain ⟨k1', k2'⟩ := h' d (List.mem_cons_self _ _)
    rw [List.map_cons, indexSumExact_cons, List.map_cons, indexSumExact_cons] at e
    simp only [] at e
    have hn : 0 < n d := by omega
    have u1 := (Int.ediv_emod_unique (a := k d + n d * indexSumExact 1 (rest.map fun d => (k d, n d)))
      (r := k d) (q := indexSumExact 1 (rest.map fun d => (k d, n d))) hn).2 ⟨rfl, k1, k2⟩
    have u2 := (Int.ediv_emod_unique (a := k d + n d * indexSumExact 1 (rest.map fun d => (k d, n d)))
      (r := k' d) (q := indexSumExact 1 (rest.map fun d => (k' d, n d))) hn).2 ⟨e.symm, k1', k2'⟩
    have hd : k d = k' d := u1.2.symm.trans u2.2
    have hS := u1.1.symm.trans u2.1
    have hrest := ih (fun e he => h e (List.mem_cons_of_mem _ he))
      (fun e he => h' e (List.mem_cons_of_mem _ he)) hS
    intro x hx
    rcases List.mem_cons.1 hx with rfl | hx
    · exact hd
    · exact hrest x hx

/-- Every index below the product of the radices has digits. -/
theorem indexSumExact_surj (ds : List (Fin D)) (n : Fin D → Int) (hnd : ds.Nodup)
    (hn : ∀ d ∈ ds, 1 ≤ n d) (t : Int) (h0 : 0 ≤ t) (ht : t < (ds.map n).prod) :
    ∃ k : Fin D → Int, (∀ d ∈ ds, 0 ≤ k d ∧ k d < n d) ∧
      indexSumExact 1 (ds.map fun d => (k d, n d)) = t := by
  induction ds generalizing t with
  | nil =>
    simp only [List.map_nil, List.prod_nil] at ht
    exact ⟨fun _ => 0, by simp, by simp only [List.map_nil, indexSumExact]; omega⟩
  | cons d rest ih =>
    have hd : 1 ≤ n d := hn d (List.mem_cons_self _ _)
    have hd0 : 0 < n d := by omega
    rw [List.map_cons, List.prod_cons] at ht
    obtain ⟨hdr, hndr⟩ := List.nodup_cons.1 hnd
    have q0 : 0 ≤ t / n d := Int.ediv_nonneg h0 (by omega)
    have q1 : t / n d < (rest.map n).prod := by
      have := Int.ediv_lt_of_lt_mul hd0 (by rw [mul_comm] at ht; exact ht)
      exact this
    obtain ⟨k', hk', hs'⟩ := ih hndr (fun e he => hn e (List.mem_cons_of_mem _ he)) (t / n d) q0 q1
    refine ⟨Function.update k' d (t % n d), ?_, ?_⟩
    · intro x hx
      rcases List.mem_cons.1 hx with rfl | hx
      · rw [Function.update_same]
        exact ⟨Int.emod_nonneg _ (by omega), Int.emod_lt_of_pos _ hd0⟩
      · have hne : x ≠ d := fun e => hdr (e ▸ hx)
        rw [Function.update_noteq hne]
        exact hk' x hx
    · rw [List.map_cons, indexSumExact_cons]
      simp only [Function.update_same]
      have hmap : (rest.map fun e => (Function.update k' d (t % n d) e, n e)) =
          rest.map fun e => (k' e, n e) := by
        apply List.map_congr_left
        intro x hx
        have hne : x ≠ d := fun e => hdr (e ▸ hx)
        rw [Function.update_noteq hne]
      rw [hmap, hs']
      exact Int.emod_add_ediv t (n d)

theorem tileIndexExact_true (iv : IntVect D) (box : Box D) (ts : IntVect D) :
    tileIndexExact iv box true ts =
      (indexSumExact 1 ((List.finRange D).map fun d =>
          ((clampedTile iv box ts d).tileidx, numTilesExact (box.smallend d) (box.bigend d) (ts d))),
        ⟨fun d => (clampedTile iv box ts d).tlo, fun d => (clampedTile iv box ts d).thi⟩) := by
  have e : ((List.finRange D).map fun d =>
      ((clampedTile iv box ts d).tileidx, (clampedTile iv box ts d).ntile)) =
      (List.finRange D).map fun d =>
        ((clampedTile iv box ts d).tileidx, numTilesExact (box.smallend d) (box.bigend d) (ts d)) := by
    apply List.map_congr_left
    intro d _
    rw [clampedTile, tilingExact_ntile]
  rw [← e]
  rfl

theorem tileCountExact_true (box : Box D) (ts : IntVect D) :
    tileCountExact box true ts =
      ((List.finRange D).map fun d => numTilesExact (box.smallend d) (box.bigend d) (ts d)).prod :=
  rfl

theorem clamp_bounds (x lo hi : Int) (h : lo ≤ hi) :
    lo ≤ min (max x lo) hi ∧ min (max x lo) hi ≤ hi := by
  constructor
  · exact le_min (le_max_right _ _) h
  · exact min_le_right _ _

theorem clamp_of_mem (x lo hi : Int) (h1 : lo ≤ x) (h2 : x ≤ hi) : min (max x lo) hi = x := by
  rw [max_eq_left h1, min_eq_left h2]

/-- The tiling over the unbounded integers. For a non-empty box and a tile size of at least 1
in every direction, with tiling on: the index of every cell lies in `[0, tileCountExact)`, the
tile box lies in the box and contains the cell clamped into the box; two cells have the same
index iff they have the same tile box; the cells of a tile box get exactly that index and
tile box, so that different tile boxes are disjoint; every index below `tileCountExact` is the
index of a cell of the box; in each direction a tile on the left of the boundary
`lo + nleft * (ts_right + 1)` has `ts_right + 1` cells and a tile on the right has
`ts_right ≥ 1` cells. With tiling off the index is 0, the tile box is the box and the number
of tiles is 1. -/
theorem tiling_exact (box : Box D) (a_tile_size : IntVect D) (hbox : box.ok)
    (hts : ∀ d, 1 ≤ a_tile_size d) :
    (∀ iv : IntVect D,
      0 ≤ (tileIndexExact iv box true a_tile_size).1 ∧
      (tileIndexExact iv box true a_tile_size).1 < tileCountExact box true a_tile_size ∧
      box.containsBox (tileIndexExact iv box true a_tile_size).2 ∧
      (tileIndexExact iv box true a_tile_size).2.contains
        (fun d => min (max (iv d) (box.smallend d)) (box.bigend d))) ∧
    (∀ iv jv : IntVect D,
      (tileIndexExact iv box true a_tile_size).1 = (tileIndexExact jv box true a_tile_size).1 ↔
      (tileIndexExact iv box true a_tile_size).2 = (tileIndexExact jv box true a_tile_size).2) ∧
    (∀ iv jv : IntVect D, (tileIndexExact iv box true a_tile_size).2.contains jv →
      tileIndexExact jv box true a_tile_size = tileIndexExact iv box true a_tile_size) ∧
    (∀ t : Int, 0 ≤ t → t < tileCountExact box true a_tile_size →
      ∃ iv, box.contains iv ∧ (tileIndexExact iv box true a_tile_size).1 = t) ∧
    (∀ (iv : IntVect D) (d : Fin D),
      1 ≤ tsRight (box.smallend d) (box.bigend d) (a_tile_size d) ∧
      (min (max (iv d) (box.smallend d)) (box.bigend d) - box.smallend d <
          nLeft (box.smallend d) (box.bigend d) (a_tile_size d) *
            (tsRight (box.smallend d) (box.bigend d) (a_tile_size d) + 1) →
        (tileIndexExact iv box true a_tile_size).2.bigend d -
          (tileIndexExact iv box true a_tile_size).2.smallend d + 1 =
          tsRight (box.smallend d) (box.bigend d) (a_tile_size d) + 1) ∧
      (¬ min (max (iv d) (box.smallend d)) (box.bigend d) - box.smallend d <
          nLeft (box.smallend d) (box.bigend d) (a_tile_size d) *
            (tsRight (box.smallend d) (box.bigend d) (a_tile_size d) + 1) →
        (tileIndexExact iv box true a_tile_size).2.bigend d -
          (tileIndexExact iv box true a_tile_size).2.smallend d + 1 =
          tsRight (box.smallend d) (box.bigend d) (a_tile_size d))) ∧
    (∀ iv : IntVect D, tileIndexExact iv box false a_tile_size = (0, box)) ∧
    tileCountExact box false a_tile_size = 1 := by
  have hsp : ∀ (iv : IntVect D) (d : Fin D), _ := fun iv d =>
    tilingExact_spec (min (max (iv d) (box.smallend d)) (box.bigend d)) (box.smallend d)
      (box.bigend d) (a_tile_size d) (clamp_bounds _ _ _ (hbox d)).1
      (clamp_bounds _ _ _ (hbox d)).2 (hts d)
  have hdig : ∀ (iv : IntVect D), ∀ d ∈ List.finRange D,
      0 ≤ (clampedTile iv box a_tile_size d).tileidx ∧
      (clampedTile iv box a_tile_size d).tileidx <
        numTilesExact (box.smallend d) (box.bigend d) (a_tile_size d) := fun iv d _ =>
    ⟨(hsp iv d).2.1, (hsp iv d).2.2.1⟩
  have hidx : ∀ iv jv : IntVect D,
      (tileIndexExact iv box true a_tile_size).1 = (tileIndexExact jv box true a_tile_size).1 →
      ∀ d, clampedTile iv box a_tile_size d = clampedTile jv box a_tile_size d := by
    intro iv jv h d
    rw [tileIndexExact_true, tileIndexExact_true] at h
    have e := indexSumExact_inj (List.finRange D)
      (fun d => (clampedTile iv box a_tile_size d).tileidx)
      (fun d => (clampedTile jv box a_tile_size d).tileidx)
      (fun d => numTilesExact (box.smallend d) (box.bigend d) (a_tile_size d))
      (hdig iv) (hdig jv) h d (List.mem_finRange d)
    exact tilingExact_ext _ _ _ _ _ (clamp_bounds _ _ _ (hbox d)).1 (clamp_bounds _ _ _ (hbox d)).2
      (clamp_bounds _ _ _ (hbox d)).1 (clamp_bounds _ _ _ (hbox d)).2 (hts d) e
  have hres : ∀ iv jv : IntVect D,
      (∀ d, clampedTile iv box a_tile_size d = clampedTile jv box a_tile_size d) →
      tileIndexExact iv box true a_tile_size = tileIndexExact jv box true a_tile_size := by
    intro iv jv h
    rw [tileIndexExact_true, tileIndexExact_true]
    have e : clampedTile iv box a_tile_size = clampedTile jv box a_tile_size := funext h
    rw [e]
  have hmem : ∀ iv jv : IntVect D,
      (∀ d, (clampedTile iv box a_tile_size d).tlo ≤
          min (max (jv d) (box.smallend d)) (box.bigend d) ∧
        min (max (jv d) (box.smallend d)) (box.bigend d) ≤
          (clampedTile iv box a_tile_size d).thi) →
      ∀ d, clampedTile jv box a_tile_size d = clampedTile iv box a_tile_size d := by
    intro iv jv h d
    have e := tilingExact_of_mem (min (max (iv d) (box.smallend d)) (box.bigend d))
      (min (max (jv d) (box.smallend d)) (box.bigend d)) (box.smallend d) (box.bigend d)
      (a_tile_size d) (clamp_bounds _ _ _ (hbox d)).1 (clamp_bounds _ _ _ (hbox d)).2 (hts d)
      (h d).1 (h d).2
    exact tilingExact_ext _ _ _ _ _ (clamp_bounds _ _ _ (hbox d)).1 (clamp_bounds _ _ _ (hbox d)).2
      (clamp_bounds _ _ _ (hbox d)).1 (clamp_bounds _ _ _ (hbox d)).2 (hts d) e
  refine ⟨?_, ?_, ?_, ?_, ?_, ?_, ?_⟩
  · intro iv
    have hb := indexSumExact_bounds (List.finRange D)
      (fun d => (clampedTile iv box a_tile_size d).tileidx)
      (fun d => numTilesExact (box.smallend d) (box.bigend d) (a_tile_size d)) (hdig iv)
    rw [tileIndexExact_true, tileCountExact_true]
    refine ⟨hb.1, hb.2, ?_, ?_⟩
    · intro d
      exact ⟨(hsp iv d).2.2.2.1, (hsp iv d).2.2.2.2.2.2.1⟩
    · intro d
      exact ⟨(hsp iv d).2.2.2.2.1, (hsp iv d).2.2.2.2.2.1⟩
  · intro iv jv
    constructor
    · intro h
      rw [hres iv jv (hidx iv jv h)]
    · intro h
      have hh : ∀ d, clampedTile jv box a_tile_size d = clampedTile iv box a_tile_size d := by
        apply hmem
        intro d
        rw [tileIndexExact_true, tileIndexExact_true] at h
        have h1 : (clampedTile iv box a_tile_size d).tlo = (clampedTile jv box a_tile_size d).tlo :=
          congrFun (congrArg Box.smallend h) d
        have h2 : (clampedTile iv box a_tile_size d).thi = (clampedTile jv box a_tile_size d).thi :=
          congrFun (congrArg Box.bigend h) d
        rw [h1, h2]
        exact ⟨(hsp jv d).2.2.2.2.1, (hsp jv d).2.2.2.2.2.1⟩
      rw [hres jv iv hh]
  · intro iv jv hc
    apply hres
    apply hmem
    intro d
    rw [tileIndexExact_true] at hc
    have hcd := hc d
    simp only [] at hcd
    have l1 : box.smallend d ≤ jv d := le_trans (hsp iv d).2.2.2.1 hcd.1
    have l2 : jv d ≤ box.bigend d := le_trans hcd.2 (hsp iv d).2.2.2.2.2.2.1
    rw [clamp_of_mem _ _ _ l1 l2]
    exact hcd
  · intro t h0 ht
    rw [tileCountExact_true] at ht
    obtain ⟨k, hk, hs⟩ := indexSumExact_surj (List.finRange D)
      (fun d => numTilesExact (box.smallend d) (box.bigend d) (a_tile_size d))
      (List.nodup_finRange D)
      (fun d _ => (tile_numbers _ _ _ (hbox d) (hts d)).1) t h0 ht
    have hex : ∀ d : Fin D, ∃ i, box.smallend d ≤ i ∧ i ≤ box.bigend d ∧
        (tilingExact i (box.smallend d) (box.bigend d) (a_tile_size d)).tileidx = k d := fun d =>
      tilingExact_surj _ _ _ _ (hbox d) (hts d) (hk d (List.mem_finRange d)).1
        (hk d (List.mem_finRange d)).2
    choose iv hiv using hex
    refine ⟨iv, fun d => ⟨(hiv d).1, (hiv d).2.1⟩, ?_⟩
    rw [tileIndexExact_true]
    have e : (fun d => (clampedTile iv box a_tile_size d).tileidx) = k := by
      funext d
      rw [clampedTile, clamp_of_mem _ _ _ (hiv d).1 (hiv d).2.1]
      exact (hiv d).2.2
    have e2 : ((List.finRange D).map fun d => ((clampedTile iv box a_tile_size d).tileidx,
        numTilesExact (box.smallend d) (box.bigend d) (a_tile_size d))) =
        (List.finRange D).map fun d =>
          (k d, numTilesExact (box.smallend d) (box.bigend d) (a_tile_size d)) := by
      rw [← e]
    simp only []
    rw [e2]
    exact hs
  · intro iv d
    obtain ⟨-, -, -, -, -, -, -, a8, a9, a10⟩ := hsp iv d
    refine ⟨(tile_numbers _ _ _ (hbox d) (hts d)).2.2.1, ?_, ?_⟩
    · intro h
      obtain ⟨e1, e2⟩ := a9 (a8.1 h)
      rw [tileIndexExact_true]
      show (clampedTile iv box a_tile_size d).thi - (clampedTile iv box a_tile_size d).tlo + 1 = _
      rw [clampedTile, e2]
      ring
    · intro h
      have : ¬ (tilingExact (min (max (iv d) (box.smallend d)) (box.bigend d)) (box.smallend d)
          (box.bigend d) (a_tile_size d)).tileidx <
          nLeft (box.smallend d) (box.bigend d) (a_tile_size d) := fun hh => h (a8.2 hh)
      obtain ⟨e1, e2⟩ := a10 (by omega)
      rw [tileIndexExact_true]
      show (clampedTile iv box a_tile_size d).thi - (clampedTile iv box a_tile_size d).tlo + 1 = _
      rw [clampedTile, e2]
      ring
  · intro iv
    rfl
  · rfl


/-- An `int` computation whose exact value fits 32 bits gives that value. -/
theorem int32_of_mem (x : Int) (h1 : -2 ^ 31 ≤ x) (h2 : x < 2 ^ 31) : int32 x = x := by
  unfold int32
  omega

theorem int32_modEq (a : Int) : int32 a ≡ a [ZMOD 2 ^ 32] := by
  unfold int32
  have h := (Int.mod_modEq (a + 2 ^ 31) (2 ^ 32)).sub_right (2 ^ 31)
  simpa using h

theorem int32_congr (a b : Int) (h : a ≡ b [ZMOD 2 ^ 32]) : int32 a = int32 b := by
  unfold int32
  have h' : (a + 2 ^ 31) % 2 ^ 32 = (b + 2 ^ 31) % 2 ^ 32 := h.add_right (2 ^ 31)
  rw [h']

theorem int32_add_left (a b : Int) : int32 (int32 a + b) = int32 (a + b) :=
  int32_congr _ _ ((int32_modEq a).add_right b)

theorem int32_add_right (a b : Int) : int32 (a + int32 b) = int32 (a + b) :=
  int32_congr _ _ ((int32_modEq b).add_left a)

theorem int32_sub_left (a b : Int) : int32 (int32 a - b) = int32 (a - b) :=
  int32_congr _ _ ((int32_modEq a).sub_right b)

theorem int32_mul_left (a b : Int) : int32 (int32 a * b) = int32 (a * b) :=
  int32_congr _ _ ((int32_modEq a).mul_right b)

theorem int32_mul_right (a b : Int) : int32 (a * int32 b) = int32 (a * b) :=
  int32_congr _ _ ((int32_modEq b).mul_left a)

theorem tdiv_range (a b : Int) (ha : 0 ≤ a) (hb : 1 ≤ b) :
    0 ≤ Int.tdiv a b ∧ Int.tdiv a b ≤ a := by
  rw [Int.tdiv_eq_ediv ha (by omega)]
  exact ⟨Int.ediv_nonneg ha (by omega), Int.ediv_le_self _ ha⟩

/-- The number of tiles of a direction in `int` is the exact one when the number of cells
fits an `int`. -/
theorem numTiles_1d_exact (lo hi s : Int) (hn : lo ≤ hi) (hs : 1 ≤ s)
    (hlen : hi - lo + 1 < 2 ^ 31) : numTiles_1d lo hi s = numTilesExact lo hi s := by
  have h1 : int32 (hi - lo) = hi - lo := int32_of_mem _ (by omega) (by omega)
  have h2 : int32 (hi - lo + 1) = hi - lo + 1 := int32_of_mem _ (by omega) (by omega)
  obtain ⟨q0, q1⟩ := tdiv_range (hi - lo + 1) s (by omega) hs
  have h3 : int32 (Int.tdiv (hi - lo + 1) s) = Int.tdiv (hi - lo + 1) s :=
    int32_of_mem _ (by omega) (by omega)
  unfold numTiles_1d numTilesExact
  simp only [h1, h2, h3]

/-- The tile of a cell in `int` is the exact one when the ends of the range are `int` values
and the number of cells fits an `int`. -/
theorem tiling_1d_exact (i lo hi s : Int) (hlo : lo ≤ i) (hhi : i ≤ hi) (hs : 1 ≤ s)
    (hmin : -2 ^ 31 ≤ lo) (hmax : hi < 2 ^ 31) (hlen : hi - lo + 1 < 2 ^ 31) :
    tiling_1d i lo hi s = tilingExact i lo hi s := by
  obtain ⟨hT1, hT2, hR1, hnl0, hnlT, hsum⟩ := tile_numbers lo hi s (by omega) hs
  obtain ⟨-, a2, a3, a4, a5, a6, a7, a8, a9, a10⟩ := tilingExact_spec i lo hi s hlo hhi hs
  have h1 : int32 (hi - lo) = hi - lo := int32_of_mem _ (by omega) (by omega)
  have h2 : int32 (hi - lo + 1) = hi - lo + 1 := int32_of_mem _ (by omega) (by omega)
  obtain ⟨q0, q1⟩ := tdiv_range (hi - lo + 1) s (by omega) hs
  have h3 : int32 (Int.tdiv (hi - lo + 1) s) = Int.tdiv (hi - lo + 1) s :=
    int32_of_mem _ (by omega) (by omega)
  have hT : max (Int.tdiv (hi - lo + 1) s) 1 = numTilesExact lo hi s := rfl
  have hRle : tsRight lo hi s ≤ hi - lo + 1 := by
    have := (tdiv_range (hi - lo + 1) (numTilesExact lo hi s) (by omega) hT1).2
    exact this
  have h4 : int32 (Int.tdiv (hi - lo + 1) (numTilesExact lo hi s)) = tsRight lo hi s :=
    int32_of_mem _ (by unfold tsRight at hR1; omega) (by unfold tsRight at hRle; omega)
  have hTR : numTilesExact lo hi s * tsRight lo hi s = hi - lo + 1 - nLeft lo hi s := by
    unfold nLeft; ring
  have h5 : int32 (numTilesExact lo hi s * tsRight lo hi s) =
      numTilesExact lo hi s * tsRight lo hi s :=
    int32_of_mem _ (by rw [hTR]; omega) (by rw [hTR]; omega)
  have h6 : int32 (hi - lo + 1 - numTilesExact lo hi s * tsRight lo hi s) = nLeft lo hi s :=
    int32_of_mem _ (by rw [hTR]; omega) (by rw [hTR]; omega)
  have h7 : int32 (i - lo) = i - lo := int32_of_mem _ (by omega) (by omega)
  have hnb : nLeft lo hi s * (tsRight lo hi s + 1) ≤ hi - lo + 1 := by
    have : 0 ≤ (numTilesExact lo hi s - nLeft lo hi s) * tsRight lo hi s :=
      mul_nonneg (by omega) (by omega)
    linarith
  have hnb0 : 0 ≤ nLeft lo hi s * (tsRight lo hi s + 1) := mul_nonneg hnl0 (by omega)
  have h8 : int32 (nLeft lo hi s * int32 (tsRight lo hi s + 1)) =
      nLeft lo hi s * (tsRight lo hi s + 1) := by
    rw [int32_mul_right]
    exact int32_of_mem _ (by omega) (by omega)
  rw [tilingExact_eq]
  unfold tiling_1d
  simp only [h1, h2, h3, hT, h4, h5, h6, h7, h8]
  by_cases hb : i - lo < nLeft lo hi s * (tsRight lo hi s + 1)
  · rw [if_pos hb, if_pos hb]
    -- a tile on the left of the boundary
    have hk := a9 (a8.1 hb)
    rw [tilingExact_eq, if_pos hb] at a2 a4 a5 a6 a7 hk
    simp only [] at a2 a4 a5 a6 a7 hk
    have hnl1 : 1 ≤ nLeft lo hi s := by
      by_contra h
      have : nLeft lo hi s = 0 := by omega
      rw [this, zero_mul] at hb
      omega
    have hR1' : tsRight lo hi s + 1 ≤ nLeft lo hi s * (tsRight lo hi s + 1) := by
      have := mul_le_mul_of_nonneg_right hnl1 (by omega : (0 : Int) ≤ tsRight lo hi s + 1)
      linarith
    have h9 : int32 (tsRight lo hi s + 1) = tsRight lo hi s + 1 :=
      int32_of_mem _ (by omega) (by omega)
    obtain ⟨d0, d1⟩ := tdiv_range (i - lo) (tsRight lo hi s + 1) (by omega) (by omega)
    have h10 : int32 (Int.tdiv (i - lo) (tsRight lo hi s + 1)) =
        Int.tdiv (i - lo) (tsRight lo hi s + 1) := int32_of_mem _ (by omega) (by omega)
    have h11 : int32 (Int.tdiv (i - lo) (tsRight lo hi s + 1) * (tsRight lo hi s + 1)) =
        Int.tdiv (i - lo) (tsRight lo hi s + 1) * (tsRight lo hi s + 1) :=
      int32_of_mem _ (by omega) (by omega)
    have h12 : int32 (lo + Int.tdiv (i - lo) (tsRight lo hi s + 1) * (tsRight lo hi s + 1)) =
        lo + Int.tdiv (i - lo) (tsRight lo hi s + 1) * (tsRight lo hi s + 1) :=
      int32_of_mem _ (by omega) (by omega)
    have h13 : int32 (int32 (lo + Int.tdiv (i - lo) (tsRight lo hi s + 1) *
          (tsRight lo hi s + 1) + (tsRight lo hi s + 1)) - 1) =
        lo + Int.tdiv (i - lo) (tsRight lo hi s + 1) * (tsRight lo hi s + 1) +
          (tsRight lo hi s + 1) - 1 := by
      rw [int32_sub_left]
      exact int32_of_mem _ (by omega) (by omega)
    simp only [h9, h10, h11, h12, h13]
  · rw [if_neg hb, if_neg hb]
    -- a tile on the right of the boundary
    rw [tilingExact_eq, if_neg hb] at a2 a3 a4 a5 a6 a7
    simp only [] at a2 a3 a4 a5 a6 a7
    have g1 : int32 (i - lo - nLeft lo hi s * (tsRight lo hi s + 1)) =
        i - lo - nLeft lo hi s * (tsRight lo hi s + 1) :=
      int32_of_mem _ (by omega) (by omega)
    obtain ⟨d0, d1⟩ := tdiv_range (i - lo - nLeft lo hi s * (tsRight lo hi s + 1))
      (tsRight lo hi s) (by omega) hR1
    have g2 : int32 (Int.tdiv (i - lo - nLeft lo hi s * (tsRight lo hi s + 1))
          (tsRight lo hi s)) =
        Int.tdiv (i - lo - nLeft lo hi s * (tsRight lo hi s + 1)) (tsRight lo hi s) :=
      int32_of_mem _ (by omega) (by omega)
    have g3 : int32 (nLeft lo hi s + Int.tdiv (i - lo - nLeft lo hi s * (tsRight lo hi s + 1))
          (tsRight lo hi s)) =
        nLeft lo hi s + Int.tdiv (i - lo - nLeft lo hi s * (tsRight lo hi s + 1))
          (tsRight lo hi s) :=
      int32_of_mem _ (by omega) (by omega)
    have hkR : 0 ≤ (nLeft lo hi s + Int.tdiv (i - lo - nLeft lo hi s * (tsRight lo hi s + 1))
          (tsRight lo hi s)) * tsRight lo hi s := mul_nonneg a2 (by omega)
    have g4 : int32 ((nLeft lo hi s + Int.tdiv (i - lo - nLeft lo hi s * (tsRight lo hi s + 1))
          (tsRight lo hi s)) * tsRight lo hi s) =
        (nLeft lo hi s + Int.tdiv (i - lo - nLeft lo hi s * (tsRight lo hi s + 1))
          (tsRight lo hi s)) * tsRight lo hi s :=
      int32_of_mem _ (by omega) (by omega)
    have g5 : int32 (lo + (nLeft lo hi s +
          Int.tdiv (i - lo - nLeft lo hi s * (tsRight lo hi s + 1)) (tsRight lo hi s)) *
            tsRight lo hi s) =
        lo + (nLeft lo hi s + Int.tdiv (i - lo - nLeft lo hi s * (tsRight lo hi s + 1))
          (tsRight lo hi s)) * tsRight lo hi s :=
      int32_of_mem _ (by omega) (by omega)
    have g6 : int32 (lo + (nLeft lo hi s +
          Int.tdiv (i - lo - nLeft lo hi s * (tsRight lo hi s + 1)) (tsRight lo hi s)) *
            tsRight lo hi s + nLeft lo hi s) =
        lo + (nLeft lo hi s + Int.tdiv (i - lo - nLeft lo hi s * (tsRight lo hi s + 1))
          (tsRight lo hi s)) * tsRight lo hi s + nLeft lo hi s :=
      int32_of_mem _ (by omega) (by omega)
    have g7 : int32 (int32 (lo + (nLeft lo hi s +
          Int.tdiv (i - lo - nLeft lo hi s * (tsRight lo hi s + 1)) (tsRight lo hi s)) *
            tsRight lo hi s + nLeft lo hi s + tsRight lo hi s) - 1) =
        lo + (nLeft lo hi s + Int.tdiv (i - lo - nLeft lo hi s * (tsRight lo hi s + 1))
          (tsRight lo hi s)) * tsRight lo hi s + nLeft lo hi s + tsRight lo hi s - 1 := by
      rw [int32_sub_left]
      exact int32_of_mem _ (by omega) (by omega)
    simp only [g1, g2, g3, g4, g5, g6, g7]

/-- The index sum in `int` is the exact sum wrapped into 32 bits. -/
theorem tileIndexSum_wrap (acc : Int) (l : List (Int × Int)) :
    tileIndexSum acc l = int32 (indexSumExact acc l) := by
  induction l generalizing acc with
  | nil => rfl
  | cons x rest ih =>
    rw [tileIndexSum, ih, indexSumExact]
    apply int32_congr
    have e1 : indexSumExact (int32 (acc * x.2)) rest ≡ indexSumExact (acc * x.2) rest
        [ZMOD 2 ^ 32] := by
      rw [indexSumExact_mul (int32 (acc * x.2)), indexSumExact_mul (acc * x.2)]
      exact (int32_modEq _).mul_right _
    exact (int32_modEq _).add ((int32_modEq _).trans e1)

/-- The product of the numbers of tiles in `int` is the exact product wrapped into 32
bits. -/
theorem foldr_int32_mul (l : List Int) :
    l.foldr (fun n acc => int32 (n * acc)) 1 = int32 l.prod := by
  induction l with
  | nil => rfl
  | cons n l ih => rw [List.foldr_cons, ih, int32_mul_right, List.prod_cons]

/-- As long as the ends of the box are `int` values and the number of cells of every direction
and the number of tiles fit an `int`, `getTileIndex` and `numTilesInBox` compute what the
unbounded integers give. -/
theorem getTileIndex_exact (box : Box D) (a_tile_size : IntVect D) (hbox : box.ok)
    (hts : ∀ d, 1 ≤ a_tile_size d)
    (hint : ∀ d, -2 ^ 31 ≤ box.smallend d ∧ box.bigend d < 2 ^ 31)
    (hlen : ∀ d, box.bigend d - box.smallend d + 1 < 2 ^ 31)
    (hcount : tileCountExact box true a_tile_size < 2 ^ 31) :
    (∀ (iv : IntVect D) (a_do_tiling : Bool),
      getTileIndex iv box a_do_tiling a_tile_size =
        tileIndexExact iv box a_do_tiling a_tile_size) ∧
    ∀ a_do_tiling : Bool,
      numTilesInBox box a_do_tiling a_tile_size = tileCountExact box a_do_tiling a_tile_size := by
  obtain ⟨c1, -⟩ := tiling_exact box a_tile_size hbox hts
  constructor
  · intro iv b
    cases b
    · rfl
    · have ht : ∀ d : Fin D,
          tiling_1d (min (max (iv d) (box.smallend d)) (box.bigend d)) (box.smallend d)
            (box.bigend d) (a_tile_size d) =
          tilingExact (min (max (iv d) (box.smallend d)) (box.bigend d))
            (box.smallend d) (box.bigend d) (a_tile_size d) := fun d =>
        tiling_1d_exact _ _ _ _ (clamp_bounds _ _ _ (hbox d)).1
          (clamp_bounds _ _ _ (hbox d)).2 (hts d) (hint d).1 (hint d).2 (hlen d)
      obtain ⟨b1, b2, -⟩ := c1 iv
      unfold getTileIndex
      unfold tileIndexExact at b1 b2 ⊢
      simp only [Bool.true_eq_false, if_false] at b1 b2 ⊢
      simp only [ht]
      rw [tileIndexSum_wrap, int32_of_mem _ (by omega) (by omega)]
  · intro b
    cases b
    · rfl
    · have hm : ((List.finRange D).map fun d =>
          numTiles_1d (box.smallend d) (box.bigend d) (a_tile_size d)) =
          (List.finRange D).map fun d =>
            numTilesExact (box.smallend d) (box.bigend d) (a_tile_size d) := by
        apply List.map_congr_left
        intro d _
        exact numTiles_1d_exact _ _ _ (hbox d) (hts d) (hlen d)
      obtain ⟨b1, b2, -⟩ := c1 (fun d => box.smallend d)
      unfold numTilesInBox
      unfold tileCountExact at b2 hcount ⊢
      simp only [Bool.true_eq_false, if_false] at b2 hcount ⊢
      rw [hm, foldr_int32_mul, int32_of_mem _ (by omega) (by omega)]

/-- C25 (amended). `getTileIndex` and `numTilesInBox`, computed in `int`, describe one tiling
as long as the number of cells of the box in every direction and the number of tiles fit an
`int`. For a non-empty box with `int` ends and a tile size of at least 1 in every direction,
with tiling on: the index of every cell lies in `[0, numTilesInBox)`, the tile box lies in
the box and contains the cell clamped into the box; two cells have the same index iff they
have the same tile box; the cells of a tile box get exactly that index and tile box, so that
different tile boxes are disjoint; every index below `numTilesInBox` is the index of a cell
of the box; in each direction a tile on the left of the boundary
`lo + nleft * (ts_right + 1)` has `ts_right + 1` cells and a tile on the right has
`ts_right ≥ 1` cells. With tiling off the index is 0, the tile box is the box and the number
of tiles is 1. -/
theorem tile_index_tiling (box : Box D) (a_tile_size : IntVect D) (hbox : box.ok)
    (hts : ∀ d, 1 ≤ a_tile_size d)
    (hint : ∀ d, -2 ^ 31 ≤ box.smallend d ∧ box.bigend d < 2 ^ 31)
    (hlen : ∀ d, box.bigend d - box.smallend d + 1 < 2 ^ 31)
    (hcount : ((List.finRange D).map fun d =>
      max (Int.tdiv (box.bigend d - box.smallend d + 1) (a_tile_size d)) 1).prod < 2 ^ 31) :
    (∀ iv : IntVect D,
      0 ≤ (getTileIndex iv box true a_tile_size).1 ∧
      (getTileIndex iv box true a_tile_size).1 < numTilesInBox box true a_tile_size ∧
      box.containsBox (getTileIndex iv box true a_tile_size).2 ∧
      (getTileIndex iv box true a_tile_size).2.contains
        (fun d => min (max (iv d) (box.smallend d)) (box.bigend d))) ∧
    (∀ iv jv : IntVect D,
      (getTileIndex iv box true a_tile_size).1 = (getTileIndex jv box true a_tile_size).1 ↔
      (getTileIndex iv box true a_tile_size).2 = (getTileIndex jv box true a_tile_size).2) ∧
    (∀ iv jv : IntVect D, (getTileIndex iv box true a_tile_size).2.contains jv →
      getTileIndex jv box true a_tile_size = getTileIndex iv box true a_tile_size) ∧
    (∀ t : Int, 0 ≤ t → t < numTilesInBox box true a_tile_size →
      ∃ iv, box.contains iv ∧ (getTileIndex iv box true a_tile_size).1 = t) ∧
    (∀ (iv : IntVect D) (d : Fin D),
      1 ≤ tsRight (box.smallend d) (box.bigend d) (a_tile_size d) ∧
      (min (max (iv d) (box.smallend d)) (box.bigend d) - box.smallend d <
          nLeft (box.smallend d) (box.bigend d) (a_tile_size d) *
            (tsRight (box.smallend d) (box.bigend d) (a_tile_size d) + 1) →
        (getTileIndex iv box true a_tile_size).2.bigend d -
          (getTileIndex iv box true a_tile_size).2.smallend d + 1 =
          tsRight (box.smallend d) (box.bigend d) (a_tile_size d) + 1) ∧
      (¬ min (max (iv d) (box.smallend d)) (box.bigend d) - box.smallend d <
          nLeft (box.smallend d) (box.bigend d) (a_tile_size d) *
            (tsRight (box.smallend d) (box.bigend d) (a_tile_size d) + 1) →
        (getTileIndex iv box true a_tile_size).2.bigend d -
          (getTileIndex iv box true a_tile_size).2.smallend d + 1 =
          tsRight (box.smallend d) (box.bigend d) (a_tile_size d))) ∧
    (∀ iv : IntVect D, getTileIndex iv box false a_tile_size = (0, box)) ∧
    numTilesInBox box false a_tile_size = 1 := by
  obtain ⟨hG, hN⟩ := getTileIndex_exact box a_tile_size hbox hts hint hlen hcount
  simp only [hG, hN]
  exact tiling_exact box a_tile_size hbox hts

end Tiles

section BinSearch

open SparseBinIteratorFactory

theorem getElem_lt_of_pairwise (l : List Nat) (hs : l.Pairwise (· < ·)) (i j : Nat) (x y : Nat)
    (hi : l[i]? = some x) (hj : l[j]? = some y) (hij : i < j) : x < y := by
  obtain ⟨h1, e1⟩ := List.getElem?_eq_some_iff.1 hi
  obtain ⟨h2, e2⟩ := List.getElem?_eq_some_iff.1 hj
  rw [← e1, ← e2]
  exact List.pairwise_iff_getElem.1 hs i j h1 h2 hij

/-- The loop of `getIndex` keeps the sought entry between `lo` and `hi` and returns. -/
theorem getIndexLoop_search (m_bins : List Nat) (b : Nat) (hs : m_bins.Pairwise (· < ·))
    (hm : m_bins.length ≤ 2 ^ 31) (fuel lo hi : Nat) (hlh : lo ≤ hi) (hhi : hi < m_bins.length)
    (hf : hi - lo < fuel) (hin : ∀ i : Nat, m_bins[i]? = some b → lo ≤ i ∧ i ≤ hi)
    (hend : lo = hi → m_bins[hi]? ≠ some b) :
    (∀ i : Nat, m_bins[i]? = some b → getIndexLoop m_bins b fuel lo hi = some i) ∧
    ((∀ i : Nat, m_bins[i]? ≠ some b) → getIndexLoop m_bins b fuel lo hi = some m_not_found) := by
  induction fuel generalizing lo hi with
  | zero => omega
  | succ fuel ih =>
    have huniq : ∀ i j : Nat, m_bins[i]? = some b → m_bins[j]? = some b → i = j := by
      intro i j h1 h2
      rcases Nat.lt_trichotomy i j with h | h | h
      · exact absurd (getElem_lt_of_pairwise m_bins hs i j b b h1 h2 h) (lt_irrefl _)
      · exact h
      · exact absurd (getElem_lt_of_pairwise m_bins hs j i b b h2 h1 h) (lt_irrefl _)
    rw [getIndexLoop]
    by_cases hlt : lo < hi
    · rw [if_pos hlt]
      have hmid : (lo + hi) % 2 ^ 32 / 2 = (lo + hi) / 2 := by
        rw [Nat.mod_eq_of_lt (by omega)]
      have hmid1 : ((lo + hi) / 2 + 1) % 2 ^ 32 = (lo + hi) / 2 + 1 :=
        Nat.mod_eq_of_lt (by omega)
      have glo : m_bins[lo]? = some (m_bins[lo]) := List.getElem?_eq_getElem (by omega)
      have ghi : m_bins[hi]? = some (m_bins[hi]) := List.getElem?_eq_getElem (by omega)
      have gmid : m_bins[(lo + hi) / 2]? = some (m_bins[(lo + hi) / 2]) :=
        List.getElem?_eq_getElem (by omega)
      simp only [hmid, hmid1]
      rw [glo, Option.some_bind]
      by_cases c1 : m_bins[lo] = b
      · rw [if_pos c1]
        refine ⟨fun i hi' => ?_, fun hno => absurd (c1 ▸ glo) (hno lo)⟩
        rw [huniq i lo hi' (c1 ▸ glo)]
      rw [if_neg c1, ghi, Option.some_bind]
      by_cases c2 : m_bins[hi] = b
      · rw [if_pos c2]
        refine ⟨fun i hi' => ?_, fun hno => absurd (c2 ▸ ghi) (hno hi)⟩
        rw [huniq i hi hi' (c2 ▸ ghi)]
      rw [if_neg c2, gmid, Option.some_bind]
      by_cases c3 : m_bins[(lo + hi) / 2] = b
      · rw [if_pos c3]
        refine ⟨fun i hi' => ?_, fun hno => absurd (c3 ▸ gmid) (hno _)⟩
        rw [huniq i _ hi' (c3 ▸ gmid)]
      rw [if_neg c3]
      have nlo : m_bins[lo]? ≠ some b := by rw [glo]; exact fun h => c1 (Option.some.inj h)
      have nhi : m_bins[hi]? ≠ some b := by rw [ghi]; exact fun h => c2 (Option.some.inj h)
      have nmid : m_bins[(lo + hi) / 2]? ≠ some b := by
        rw [gmid]; exact fun h => c3 (Option.some.inj h)
      by_cases c4 : m_bins[(lo + hi) / 2] < b
      · rw [if_pos c4]
        apply ih ((lo + hi) / 2 + 1) hi (by omega) hhi (by omega)
        · intro i hi'
          refine ⟨?_, (hin i hi').2⟩
          by_contra hle
          have hle2 : i ≤ (lo + hi) / 2 := by omega
          rcases Nat.lt_or_eq_of_le hle2 with h | h
          · have := getElem_lt_of_pairwise m_bins hs i _ b _ hi' gmid h
            omega
          · exact nmid (h ▸ hi')
        · intro _
          exact nhi
      · rw [if_neg c4]
        apply ih lo ((lo + hi) / 2) (by omega) (by omega) (by omega)
        · intro i hi'
          refine ⟨(hin i hi').1, ?_⟩
          by_contra hle
          have h : (lo + hi) / 2 < i := by omega
          have := getElem_lt_of_pairwise m_bins hs _ i _ b gmid hi' h
          omega
        · intro _
          exact nmid
    · rw [if_neg hlt]
      have e : lo = hi := by omega
      have hno : ∀ i : Nat, m_bins[i]? ≠ some b := by
        intro i hi'
        have := hin i hi'
        have ei : i = hi := by omega
        exact hend e (ei ▸ hi')
      exact ⟨fun i hi' => absurd hi' (hno i), fun _ => rfl⟩

/-- On a strictly increasing array of `2 ≤ m ≤ 2 ^ 31` bin numbers `getIndex` returns, with
the index of the bin number when it occurs and with `m_not_found` when it does not. -/
theorem getIndex_search (m_bins : List Nat) (b : Nat) (hs : m_bins.Pairwise (· < ·))
    (hm2 : 2 ≤ m_bins.length) (hm : m_bins.length ≤ 2 ^ 31) (fuel : Nat)
    (hf : m_bins.length ≤ fuel) :
    (∀ i : Nat, m_bins[i]? = some b → getIndex fuel m_bins b = some i) ∧
    ((∀ i : Nat, m_bins[i]? ≠ some b) → getIndex fuel m_bins b = some m_not_found) := by
  have e1 : m_bins.length % 2 ^ 32 = m_bins.length := Nat.mod_eq_of_lt (by omega)
  have e2 : (m_bins.length + 2 ^ 32 - 1) % 2 ^ 32 = m_bins.length - 1 := by omega
  unfold getIndex
  simp only [e1, e2]
  rw [if_neg (by omega)]
  apply getIndexLoop_search m_bins b hs hm fuel 0 (m_bins.length - 1) (by omega) (by omega)
    (by omega)
  · intro i hi
    obtain ⟨h1, -⟩ := List.getElem?_eq_some_iff.1 hi
    omega
  · intro h
    omega

/-- On an array of one bin number `getIndex` returns 0 for every bin number. -/
theorem getIndex_of_single (fuel x b : Nat) : getIndex fuel [x] b = some 0 := rfl

end BinSearch

section Periodic

variable {D : Nat}

theorem shiftDownLoop_steps (rhi period : Real) (n : Nat) (x : Real)
    (hx : x - rhi ≤ n * period) :
    ∃ y, y ≤ rhi ∧ ∀ fuel, n + 1 ≤ fuel → shiftDownLoop rhi period fuel x = some y := by
  induction n generalizing x with
  | zero =>
    refine ⟨x, by simpa using hx, fun fuel hf => ?_⟩
    obtain ⟨k, rfl⟩ : ∃ k, fuel = k + 1 := ⟨fuel - 1, by omega⟩
    rw [shiftDownLoop, if_neg (by simpa using hx)]
  | succ n ih =>
    by_cases c : x > rhi
    · obtain ⟨y, hy, hf⟩ := ih (x - period) (by push_cast at hx; linarith)
      refine ⟨y, hy, fun fuel h => ?_⟩
      obtain ⟨k, rfl⟩ : ∃ k, fuel = k + 1 := ⟨fuel - 1, by omega⟩
      rw [shiftDownLoop, if_pos c]
      exact hf k (by omega)
    · refine ⟨x, not_lt.1 c, fun fuel hf => ?_⟩
      obtain ⟨k, rfl⟩ : ∃ k, fuel = k + 1 := ⟨fuel - 1, by omega⟩
      rw [shiftDownLoop, if_neg c]

theorem shiftUpLoop_steps (rlo period : Real) (n : Nat) (x : Real)
    (hx : rlo - x ≤ n * period) :
    ∃ y, rlo ≤ y ∧ ∀ fuel, n + 1 ≤ fuel → shiftUpLoop rlo period fuel x = some y := by
  induction n generalizing x with
  | zero =>
    have h0 : rlo ≤ x := by simpa using hx
    refine ⟨x, h0, fun fuel hf => ?_⟩
    obtain ⟨k, rfl⟩ : ∃ k, fuel = k + 1 := ⟨fuel - 1, by omega⟩
    rw [shiftUpLoop, if_neg (not_lt.2 h0)]
  | succ n ih =>
    by_cases c : x < rlo
    · obtain ⟨y, hy, hf⟩ := ih (x + period) (by push_cast at hx; linarith)
      refine ⟨y, hy, fun fuel h => ?_⟩
      obtain ⟨k, rfl⟩ : ∃ k, fuel = k + 1 := ⟨fuel - 1, by omega⟩
      rw [shiftUpLoop, if_pos c]
      exact hf k (by omega)
    · refine ⟨x, not_lt.1 c, fun fuel hf => ?_⟩
      obtain ⟨k, rfl⟩ : ∃ k, fuel = k + 1 := ⟨fuel - 1, by omega⟩
      rw [shiftUpLoop, if_neg c]

/-- The loop `while (x > rhi) x -= period` ends for a positive period. -/
theorem shiftDownLoop_returns (rhi period : Real) (hp : 0 < period) (x : Real) :
    ∃ n y, y ≤ rhi ∧ ∀ fuel, n ≤ fuel → shiftDownLoop rhi period fuel x = some y := by
  obtain ⟨n, hn⟩ := exists_nat_ge ((x - rhi) / period)
  obtain ⟨y, hy, hf⟩ := shiftDownLoop_steps rhi period n x ((div_le_iff₀ hp).1 hn)
  exact ⟨n + 1, y, hy, hf⟩

/-- The loop `while (x < rlo) x += period` ends for a positive period. -/
theorem shiftUpLoop_returns (rlo period : Real) (hp : 0 < period) (x : Real) :
    ∃ n y, rlo ≤ y ∧ ∀ fuel, n ≤ fuel → shiftUpLoop rlo period fuel x = some y := by
  obtain ⟨n, hn⟩ := exists_nat_ge ((rlo - x) / period)
  obtain ⟨y, hy, hf⟩ := shiftUpLoop_steps rlo period n x ((div_le_iff₀ hp).1 hn)
  exact ⟨n + 1, y, hy, hf⟩

/-- One direction of `enforcePeriodic`: with enough fuel the body returns, only the coordinate
of the direction changes, it ends in `[rlo, rhi]` in a periodic direction, and `shifted` is
set exactly when the coordinate of a periodic direction was outside `[rlo, rhi]`. -/
theorem enforcePeriodicDim_returns (plo phi rlo rhi : Fin D → Real) (is_per : Fin D → Int)
    (st : (Fin D → Real) × Bool) (idim : Fin D)
    (h : is_per idim ≠ 0 → 0 < phi idim - plo idim ∧ rlo idim ≤ rhi idim) :
    ∃ (n : Nat) (x : Real) (s : Bool),
      (∀ fuel, n ≤ fuel → enforcePeriodicDim fuel plo phi rlo rhi is_per st idim =
        some (Function.update st.1 idim x, s)) ∧
      (is_per idim ≠ 0 → rlo idim ≤ x ∧ x ≤ rhi idim) ∧
      (is_per idim = 0 → x = st.1 idim) ∧
      (rlo idim ≤ st.1 idim → st.1 idim ≤ rhi idim → x = st.1 idim) ∧
      (s = true ↔ st.2 = true ∨
        (is_per idim ≠ 0 ∧ (st.1 idim < rlo idim ∨ rhi idim < st.1 idim))) := by
  by_cases hper : is_per idim = 0
  · refine ⟨0, st.1 idim, st.2, fun fuel _ => ?_, fun hh => absurd hper hh, fun _ => rfl,
      fun _ _ => rfl, ?_⟩
    · rw [enforcePeriodicDim, if_pos hper, Function.update_eq_self]
    · constructor
      · exact fun hs => Or.inl hs
      · rintro (hs | ⟨hh, -⟩)
        · exact hs
        · exact absurd hper hh
  obtain ⟨hp, hr⟩ := h hper
  by_cases c1 : st.1 idim > rhi idim
  · obtain ⟨n, y, hy, hf⟩ := shiftDownLoop_returns (rhi idim) (phi idim - plo idim) hp (st.1 idim)
    have hx : rlo idim ≤ (if y < rlo idim then rlo idim else y) ∧
        (if y < rlo idim then rlo idim else y) ≤ rhi idim := by
      split_ifs with c
      · exact ⟨le_refl _, hr⟩
      · exact ⟨not_lt.1 c, hy⟩
    refine ⟨n, if y < rlo idim then rlo idim else y, true, fun fuel hfuel => ?_, fun _ => hx,
      fun hh => absurd hh hper, fun _ h2 => absurd c1 (not_lt.2 h2), ?_⟩
    · rw [enforcePeriodicDim, if_neg hper]
      simp only []
      rw [if_pos c1, hf fuel hfuel, Option.map_some', Option.some_bind]
      simp only [Function.update_same]
      rw [if_pos ⟨hx.1, hx.2⟩]
    · exact ⟨fun _ => Or.inr ⟨hper, Or.inr c1⟩, fun _ => rfl⟩
  by_cases c2 : st.1 idim < rlo idim
  · obtain ⟨n, y, hy, hf⟩ := shiftUpLoop_returns (rlo idim) (phi idim - plo idim) hp (st.1 idim)
    have hx : rlo idim ≤ (if y > rhi idim then rhi idim else y) ∧
        (if y > rhi idim then rhi idim else y) ≤ rhi idim := by
      split_ifs with c
      · exact ⟨hr, le_refl _⟩
      · exact ⟨hy, not_lt.1 c⟩
    refine ⟨n, if y > rhi idim then rhi idim else y, true, fun fuel hfuel => ?_, fun _ => hx,
      fun hh => absurd hh hper, fun h1 _ => absurd c2 (not_lt.2 h1), ?_⟩
    · rw [enforcePeriodicDim, if_neg hper]
      simp only []
      rw [if_neg c1, if_pos c2, hf fuel hfuel, Option.map_some', Option.some_bind]
      simp only [Function.update_same]
      rw [if_pos ⟨hx.1, hx.2⟩]
    · exact ⟨fun _ => Or.inr ⟨hper, Or.inl c2⟩, fun _ => rfl⟩
  · have h1 : rlo idim ≤ st.1 idim := not_lt.1 c2
    have h2 : st.1 idim ≤ rhi idim := not_lt.1 c1
    refine ⟨0, st.1 idim, st.2, fun fuel _ => ?_, fun _ => ⟨h1, h2⟩, fun _ => rfl,
      fun _ _ => rfl, ?_⟩
    · rw [enforcePeriodicDim, if_neg hper]
      simp only []
      rw [if_neg c1, if_neg c2, Option.some_bind, if_pos ⟨h1, h2⟩, Function.update_eq_self]
    · constructor
      · exact fun hs => Or.inl hs
      · rintro (hs | ⟨-, hh | hh⟩)
        · exact hs
        · exact absurd hh c2
        · exact absurd hh c1

/-- The loop over a list of different directions of `enforcePeriodic`. -/
theorem enforcePeriodic_fold (plo phi rlo rhi : Fin D → Real) (is_per : Fin D → Int)
    (h : ∀ d, is_per d ≠ 0 → 0 < phi d - plo d ∧ rlo d ≤ rhi d)
    (ds : List (Fin D)) (hnd : ds.Nodup) (st : (Fin D → Real) × Bool) :
    ∃ (n : Nat) (q : Fin D → Real) (s : Bool),
      (∀ fuel, n ≤ fuel →
        ds.foldlM (enforcePeriodicDim fuel plo phi rlo rhi is_per) st = some (q, s)) ∧
      (∀ d, d ∉ ds → q d = st.1 d) ∧
      (∀ d ∈ ds, is_per d ≠ 0 → rlo d ≤ q d ∧ q d ≤ rhi d) ∧
      (∀ d, is_per d = 0 → q d = st.1 d) ∧
      (∀ d, rlo d ≤ st.1 d → st.1 d ≤ rhi d → q d = st.1 d) ∧
      (s = true ↔ st.2 = true ∨
        ∃ d ∈ ds, is_per d ≠ 0 ∧ (st.1 d < rlo d ∨ rhi d < st.1 d)) := by
  induction ds generalizing st with
  | nil =>
    exact ⟨0, st.1, st.2, fun _ _ => rfl, fun _ _ => rfl, fun d hd => absurd hd (List.not_mem_nil d),
      fun _ _ => rfl, fun _ _ _ => rfl, by simp⟩
  | cons d rest ih =>
    obtain ⟨hdr, hndr⟩ := List.nodup_cons.1 hnd
    obtain ⟨n1, x, s1, f1, a1, a2, a3, a4⟩ :=
      enforcePeriodicDim_returns plo phi rlo rhi is_per st d (h d)
    obtain ⟨n2, q, s2, f2, b1, b2, b3, b4, b5⟩ := ih hndr (Function.update st.1 d x, s1)
    dsimp only at b1 b3 b4 b5
    have hq : ∀ e, e ≠ d → Function.update st.1 d x e = st.1 e := fun e he =>
      Function.update_noteq he _ _
    have hqd : q d = x := by rw [b1 d hdr]; exact Function.update_same _ _ _
    refine ⟨max n1 n2, q, s2, fun fuel hfuel => ?_, ?_, ?_, ?_, ?_, ?_⟩
    · rw [List.foldlM_cons, f1 fuel (le_trans (le_max_left _ _) hfuel)]
      exact f2 fuel (le_trans (le_max_right _ _) hfuel)
    · intro e he
      have he1 : e ≠ d := fun hh => he (hh ▸ List.mem_cons_self _ _)
      have he2 : e ∉ rest := fun hh => he (List.mem_cons_of_mem _ hh)
      rw [b1 e he2]
      exact hq e he1
    · intro e he hper
      rcases List.mem_cons.1 he with rfl | he
      · rw [hqd]
        exact a1 hper
      · exact b2 e he hper
    · intro e hper
      by_cases hed : e = d
      · subst hed
        rw [hqd]
        exact a2 hper
      · rw [b3 e hper]
        exact hq e hed
    · intro e h1 h2
      by_cases hed : e = d
      · subst hed
        rw [hqd]
        exact a3 h1 h2
      · rw [b4 e (by rw [hq e hed]; exact h1) (by rw [hq e hed]; exact h2)]
        exact hq e hed
    · rw [b5, a4]
      constructor
      · rintro ((hs | hd) | ⟨e, he, hper, hout⟩)
        · exact Or.inl hs
        · exact Or.inr ⟨d, List.mem_cons_self _ _, hd⟩
        · have hed : e ≠ d := fun hh => hdr (hh ▸ he)
          rw [hq e hed] at hout
          exact Or.inr ⟨e, List.mem_cons_of_mem _ he, hper, hout⟩
      · rintro (hs | ⟨e, he, hper, hout⟩)
        · exact Or.inl (Or.inl hs)
        · rcases List.mem_cons.1 he with rfl | he
          · exact Or.inl (Or.inr ⟨hper, hout⟩)
          · have hed : e ≠ d := fun hh => hdr (hh ▸ he)
            refine Or.inr ⟨e, he, hper, ?_⟩
            rw [hq e hed]
            exact hout

/-- C27. `enforcePeriodic` over exact arithmetic: when in each periodic direction the period
`phi - plo` is positive and `rlo ≤ rhi`, the call returns (for every fuel from some number
on, with the same result and no failed assertion); on return every coordinate of a periodic
direction lies in `[rlo, rhi]`; coordinates of non-periodic directions and coordinates that
were in `[rlo, rhi]` are unchanged; the returned value is true iff some coordinate of a
periodic direction was outside `[rlo, rhi]` on entry. -/
theorem enforcePeriodic_postcondition (p plo phi rlo rhi : Fin D → Real) (is_per : Fin D → Int)
    (h : ∀ d, is_per d ≠ 0 → 0 < phi d - plo d ∧ rlo d ≤ rhi d) :
    ∃ (n : Nat) (q : Fin D → Real) (shifted : Bool),
      (∀ fuel, n ≤ fuel → enforcePeriodic fuel p plo phi rlo rhi is_per = some (q, shifted)) ∧
      (∀ d, is_per d ≠ 0 → rlo d ≤ q d ∧ q d ≤ rhi d) ∧
      (∀ d, is_per d = 0 → q d = p d) ∧
      (∀ d, rlo d ≤ p d → p d ≤ rhi d → q d = p d) ∧
      (shifted = true ↔ ∃ d, is_per d ≠ 0 ∧ (p d < rlo d ∨ rhi d < p d)) := by
  obtain ⟨n, q, s, f, -, b2, b3, b4, b5⟩ :=
    enforcePeriodic_fold plo phi rlo rhi is_per h (List.finRange D) (List.nodup_finRange D)
      (p, false)
  refine ⟨n, q, s, f, fun d => b2 d (List.mem_finRange d), b3, b4, ?_⟩
  rw [b5]
  constructor
  · rintro (hs | ⟨d, -, hd⟩)
    · exact absurd hs (by simp)
    · exact ⟨d, hd⟩
  · rintro ⟨d, hd⟩
    exact Or.inr ⟨d, List.mem_finRange d, hd⟩

end Periodic

section TwoPass

variable {D : Nat}

theorem foldl_flatMap_eq {α β σ : Type} (l : List α) (f : α → List β) (g : σ → β → σ) (s : σ) :
    (l.flatMap f).foldl g s = l.foldl (fun s a => (f a).foldl g s) s := by
  induction l generalizing s with
  | nil => rfl
  | cons a l ih => rw [List.flatMap_cons, List.foldl_append, List.foldl_cons, ih]

theorem foldl_filter_eq {β σ : Type} (l : List β) (p : β → Bool) (g : σ → β → σ) (s : σ) :
    (l.filter p).foldl g s = l.foldl (fun s a => if p a = true then g s a else s) s := by
  induction l generalizing s with
  | nil => rfl
  | cons a l ih =>
    rw [List.filter_cons]
    by_cases h : p a = true
    · rw [if_pos h, List.foldl_cons, List.foldl_cons, if_pos h, ih]
    · rw [if_neg h, List.foldl_cons, if_neg h, ih]

/-- The loops of a pass of `build` go through the neighbors of the particle in order. -/
theorem neighborLoop_eq {σ : Type} (e : NeighborBuild D) (i : Nat) (body : σ → Nat → σ) (s : σ) :
    e.neighborLoop i body s = (e.neighborsOf i).foldl body s := by
  unfold NeighborBuild.neighborLoop NeighborBuild.neighborsOf NeighborBuild.nearBins
    NeighborBuild.binParticles
  simp only [foldl_flatMap_eq, foldl_filter_eq, List.foldl_map]
  congr 1
  funext s type
  congr 1
  funext s ii
  congr 1
  funext s jj
  congr 1
  funext s kk
  congr 1
  funext s p
  by_cases h1 : e.is_same = true ∧ e.pperm p = i
  · rw [if_pos h1, if_neg]
    simp [h1.1, h1.2]
  · rw [if_neg h1]
    have h2 : (!(e.is_same && decide (e.pperm p = i))) = true := by
      cases hs : e.is_same
      · rfl
      · have : ¬ e.pperm p = i := fun hh => h1 ⟨hs, hh⟩
        simp [this]
    simp only [h2, Bool.true_and, ge_iff_le]

/-- The first pass writes the count of particle `i` into entry `i`. -/
theorem foldl_set_range (f : Nat → Nat) (c0 : List Nat) (n : Nat) (h : n ≤ c0.length) :
    (List.range n).foldl (fun c i => c.set i (f i)) c0 = (List.range n).map f ++ c0.drop n := by
  induction n with
  | zero => simp
  | succ n ih =>
    rw [List.range_succ, List.foldl_append, ih (by omega), List.foldl_cons, List.foldl_nil,
      List.map_append, List.map_singleton, List.append_assoc, List.singleton_append]
    have hlen : ((List.range n).map f).length = n := by simp
    rw [List.set_append_right _ _ (by omega), hlen, Nat.sub_self,
      List.drop_eq_getElem_cons (by omega : n < c0.length), List.set_cons_zero]

theorem partialSums_append_take (s : Nat) (a b : List Nat) :
    (partialSums s (a ++ b)).take a.length = partialSums s a := by
  induction a generalizing s with
  | nil => simp [partialSums]
  | cons c a ih => simp [partialSums, ih]

/-- The scan of counts followed by one more entry does not look at that entry. -/
theorem exclusive_scan_append (cs : List Nat) (x : Nat) :
    exclusive_scan (cs ++ [x]) = 0 :: partialSums 0 cs := by
  unfold exclusive_scan
  rw [List.length_append, List.length_singleton, List.take_succ_cons, partialSums_append_take]

/-- The second pass for one particle writes the neighbors `ps` from position `o` on. -/
theorem foldl_write (o : Nat) (ps : List Nat) (l : List Nat) (n0 : Nat)
    (h : o + n0 + ps.length ≤ l.length) :
    ps.foldl (fun (s : List Nat × Nat) pid => (s.1.set (o + s.2) pid, s.2 + 1)) (l, n0) =
      (l.take (o + n0) ++ ps ++ l.drop (o + n0 + ps.length), n0 + ps.length) := by
  induction ps generalizing l n0 with
  | nil => simp
  | cons p ps ih =>
    rw [List.length_cons] at h
    rw [List.foldl_cons]
    dsimp only
    rw [ih _ _ (by rw [List.length_set]; omega)]
    have hk : o + n0 < l.length := by omega
    have e1 : (l.set (o + n0) p).take (o + (n0 + 1)) = l.take (o + n0) ++ [p] := by
      rw [List.set_eq_take_append_cons_drop, if_pos hk]
      have hl : (l.take (o + n0)).length = o + n0 := by rw [List.length_take]; omega
      rw [List.take_append_eq_append_take, hl, List.take_of_length_le (by omega)]
      have : o + (n0 + 1) - (o + n0) = 1 := by omega
      rw [this]
      rfl
    have e2 : (l.set (o + n0) p).drop (o + (n0 + 1) + ps.length) =
        l.drop (o + n0 + (ps.length + 1)) := by
      rw [List.drop_set_of_lt _ _ (by omega)]
      congr 1
      omega
    rw [e1, e2, List.length_cons]
    simp only [List.append_assoc, List.singleton_append, Prod.mk.injEq, true_and]
    omega

theorem foldl_count {β : Type} (l : List β) (s : Nat) :
    l.foldl (fun count _ => count + 1) s = s + l.length := by
  induction l generalizing s with
  | nil => rfl
  | cons a l ih => rw [List.foldl_cons, ih, List.length_cons]; omega

theorem neighborsBefore_succ (e : NeighborBuild D) (k : Nat) :
    e.neighborsBefore (k + 1) = e.neighborsBefore k ++ e.neighborsOf k := by
  unfold NeighborBuild.neighborsBefore
  rw [List.range_succ, List.flatMap_append]
  simp

theorem neighborsBefore_mono (e : NeighborBuild D) (i n : Nat) (h : i ≤ n) :
    (e.neighborsBefore i).length ≤ (e.neighborsBefore n).length := by
  induction n with
  | zero =>
    have : i = 0 := by omega
    rw [this]
  | succ n ih =>
    rcases Nat.lt_or_ge i (n + 1) with h1 | h1
    · have := ih (by omega)
      rw [neighborsBefore_succ, List.length_append]
      omega
    · have : i = n + 1 := by omega
      rw [this]

theorem length_neighborsOf_le (e : NeighborBuild D) (i n : Nat) (h : i < n) :
    (e.neighborsBefore i).length + (e.neighborsOf i).length ≤ (e.neighborsBefore n).length := by
  have := neighborsBefore_mono e (i + 1) n h
  rw [neighborsBefore_succ, List.length_append] at this
  exact this

/-- The sum of the counts of the particles before `k` is the number of their neighbors. -/
theorem sum_counts (e : NeighborBuild D) (n k : Nat) (h : k ≤ n) :
    (((List.range n).map fun i => (e.neighborsOf i).length).take k).sum =
      (e.neighborsBefore k).length := by
  rw [← List.map_take, List.take_range, Nat.min_eq_left h]
  unfold NeighborBuild.neighborsBefore
  rw [List.length_flatMap]
  rfl

/-- The segment of the neighbors of particle `i` in the list of all neighbors. -/
theorem neighborsBefore_segment (e : NeighborBuild D) (i n : Nat) (h : i < n) :
    ((e.neighborsBefore n).drop (e.neighborsBefore i).length).take (e.neighborsOf i).length =
      e.neighborsOf i := by
  induction n with
  | zero => omega
  | succ n ih =>
    rw [neighborsBefore_succ]
    rcases Nat.lt_or_ge i n with h1 | h1
    · have hle := length_neighborsOf_le e i n h1
      rw [List.drop_append_of_le_length (by omega),
        List.take_append_of_le_length (by rw [List.length_drop]; omega)]
      exact ih h1
    · have : i = n := by omega
      subst this
      rw [List.drop_left, List.take_length]

/-- The second pass writes the neighbors of the particles one particle after the other. -/
theorem second_pass (e : NeighborBuild D) (offs list0 : List Nat) (n : Nat)
    (hoffs : ∀ i, i < n → offs.getD i 0 = (e.neighborsBefore i).length)
    (hlen : list0.length = (e.neighborsBefore n).length) (m : Nat) (hm : m ≤ n) :
    (List.range m).foldl (fun l i =>
      (e.neighborLoop i (fun (s : List Nat × Nat) pid =>
        (s.1.set (offs.getD i 0 + s.2) pid, s.2 + 1)) (l, 0)).1) list0 =
      e.neighborsBefore m ++ list0.drop (e.neighborsBefore m).length := by
  induction m with
  | zero => simp [NeighborBuild.neighborsBefore]
  | succ m ih =>
    have hle := length_neighborsOf_le e m n (by omega)
    rw [List.range_succ, List.foldl_append, ih (by omega), List.foldl_cons, List.foldl_nil,
      neighborLoop_eq, hoffs m (by omega)]
    have hw := foldl_write (e.neighborsBefore m).length (e.neighborsOf m)
      (e.neighborsBefore m ++ list0.drop (e.neighborsBefore m).length) 0
      (by rw [List.length_append, List.length_drop]; omega)
    rw [hw]
    dsimp only
    rw [Nat.add_zero, List.take_left, List.drop_append_eq_append_drop,
      List.drop_of_length_le (by omega), List.nil_append, List.drop_drop,
      neighborsBefore_succ, List.length_append]
    congr 2
    omega

theorem length_resize {α : Type} (v : List α) (n : Nat) (x : α) : (resize v n x).length = n := by
  unfold resize
  rw [List.length_append, List.length_take, List.length_replicate]
  omega

theorem length_resizeRaw (v : List Nat) (n : Nat) (mem : Nat → Nat) :
    (resizeRaw v n mem).length = n := by
  unfold resizeRaw
  rw [List.length_append, List.length_take, List.length_map, List.length_range]
  omega

/-- Entry `k` of the offsets that the scan makes from the counts. -/
theorem offsets_getD (e : NeighborBuild D) (n k : Nat) (hk : k ≤ n)
    (hsum : (e.neighborsBefore n).length < 2 ^ 32) :
    (0 :: partialSums 0 ((List.range n).map fun i => (e.neighborsOf i).length)).getD k 0 =
      (e.neighborsBefore k).length := by
  have hs := sum_counts e n n (le_refl n)
  rw [List.take_of_length_le (by simp)] at hs
  rw [List.getD_eq_getElem?_getD, partialSums_getElem _ 0 k (by simpa using hk)
    (by rw [hs]; omega), Option.getD_some, Nat.zero_add, sum_counts e n k hk]

/-- The vectors of the neighbor list after `build`, when the neighbors of all particles number
less than `2 ^ 31`. -/
theorem build_vectors (r : NeighborList) (e : NeighborBuild D)
    (hsum : (e.neighborsBefore e.np_size).length < 2 ^ 31) :
    (r.build e).m_nbor_counts =
      ((List.range e.np_size).map fun i => (e.neighborsOf i).length) ++
        [r.m_nbor_counts.getD e.np_size 0] ∧
    (r.build e).m_nbor_offsets =
      0 :: partialSums 0 ((List.range e.np_size).map fun i => (e.neighborsOf i).length) ∧
    (r.build e).m_nbor_list = e.neighborsBefore e.np_size := by
  have hc : (List.range e.np_size).foldl (fun c i =>
      c.set i (e.neighborLoop i (fun count _ => count + 1) 0 % 2 ^ 32))
      (resize r.m_nbor_counts (e.np_size + 1) 0) =
      ((List.range e.np_size).map fun i => (e.neighborsOf i).length) ++
        [r.m_nbor_counts.getD e.np_size 0] := by
    rw [foldl_set_range _ _ _ (by rw [length_resize]; omega)]
    congr 1
    · apply List.map_congr_left
      intro i hi
      have hi' : i < e.np_size := List.mem_range.1 hi
      have := length_neighborsOf_le e i e.np_size hi'
      rw [neighborLoop_eq, foldl_count, Nat.zero_add, Nat.mod_eq_of_lt (by omega)]
    · have hlt : e.np_size < (resize r.m_nbor_counts (e.np_size + 1) 0).length := by
        rw [length_resize]; omega
      rw [List.drop_eq_getElem_cons hlt, List.drop_of_length_le (by rw [length_resize])]
      have hg := getElem_resize r.m_nbor_counts (e.np_size + 1) 0 e.np_size (by omega)
      rw [List.getElem?_eq_getElem hlt] at hg
      rw [Option.some.inj hg]
  have ho : exclusive_scan (((List.range e.np_size).map fun i => (e.neighborsOf i).length) ++
        [r.m_nbor_counts.getD e.np_size 0]) ++
      (resizeRaw r.m_nbor_offsets (e.np_size + 1) e.mem).drop
        (exclusive_scan (((List.range e.np_size).map fun i => (e.neighborsOf i).length) ++
          [r.m_nbor_counts.getD e.np_size 0])).length =
      0 :: partialSums 0 ((List.range e.np_size).map fun i => (e.neighborsOf i).length) := by
    rw [exclusive_scan_append, List.drop_of_length_le, List.append_nil]
    rw [length_resizeRaw, List.length_cons, length_partialSums, List.length_map,
      List.length_range]
  refine ⟨?_, ?_, ?_⟩
  · show (List.range e.np_size).foldl _ _ = _
    exact hc
  · show exclusive_scan ((List.range e.np_size).foldl _ _) ++ _ = _
    rw [hc]
    exact ho
  · show (List.range e.np_size).foldl _ _ = _
    rw [hc, ho]
    have h := second_pass e
      (0 :: partialSums 0 ((List.range e.np_size).map fun i => (e.neighborsOf i).length))
      (resizeRaw r.m_nbor_list
        ((0 :: partialSums 0 ((List.range e.np_size).map fun i =>
          (e.neighborsOf i).length)).getD e.np_size 0) e.mem) e.np_size
      (fun i hi => offsets_getD e e.np_size i (by omega) (by omega))
      (by rw [length_resizeRaw, offsets_getD e e.np_size e.np_size (le_refl _) (by omega)])
      e.np_size (le_refl _)
    rw [h, List.drop_of_length_le, List.append_nil]
    rw [length_resizeRaw, offsets_getD e e.np_size e.np_size (le_refl _) (by omega)]

theorem mem_intRange (lo hi k : Int) : k ∈ intRange lo hi ↔ lo ≤ k ∧ k ≤ hi := by
  simp only [intRange, List.mem_map, List.mem_range]
  constructor
  · rintro ⟨n, hn, rfl⟩
    omega
  · intro h
    exact ⟨(k - lo).toNat, by omega, by omega⟩

theorem toInt32_of_lt (u : Nat) (h : u < 2 ^ 31) : toInt32 u = (u : Int) := by
  unfold toInt32
  rw [Nat.mod_eq_of_lt (by omega), if_pos h]

/-- The loop over the iterators from position `a` to position `b` of the neighbor list visits
the entries between the two positions. -/
theorem visit_segment (list : List Nat) (stop : Neighbors.iterator) (b : Nat)
    (hb : b ≤ list.length) (fuel a : Nat) (hab : a ≤ b) (hf : b - a < fuel) :
    Neighbors.visit list stop fuel ⟨(a : Int), (b : Int)⟩ = some ((list.drop a).take (b - a)) := by
  induction fuel generalizing a with
  | zero => omega
  | succ fuel ih =>
    rw [Neighbors.visit]
    by_cases h : a < b
    · have hne : (Neighbors.iterator.ne ⟨(a : Int), (b : Int)⟩ stop) = true := by
        simp only [Neighbors.iterator.ne, decide_eq_true_eq]
        omega
      have hidx : Neighbors.iterator.index list ⟨(a : Int), (b : Int)⟩ = some (list[a]) := by
        simp only [Neighbors.iterator.index]
        rw [if_pos (by omega), Int.toNat_ofNat, List.getElem?_eq_getElem]
      have hnext : Neighbors.iterator.next ⟨(a : Int), (b : Int)⟩ = ⟨((a + 1 : Nat) : Int), (b : Int)⟩ := by
        simp only [Neighbors.iterator.next, Nat.cast_add, Nat.cast_one]
      rw [if_pos hne, hidx, Option.some_bind, hnext, ih (a + 1) (by omega) (by omega),
        Option.map_some']
      have e1 : b - a = (b - (a + 1)) + 1 := by omega
      rw [e1, List.drop_eq_getElem_cons (by omega : a < list.length), List.take_succ_cons]
    · have hne : ¬ (Neighbors.iterator.ne ⟨(a : Int), (b : Int)⟩ stop) = true := by
        simp only [Neighbors.iterator.ne, decide_eq_true_eq]
        omega
      have e1 : b - a = 0 := by omega
      rw [if_neg hne, e1, List.take_zero]

/-- The bins visited for a particle: the bins of the type whose cell is within `num_cells` of
the bin cell of the particle in every direction. -/
theorem mem_nearBins (e : NeighborBuild D) (i : Nat) (type index : Int) :
    index ∈ e.nearBins i type ↔
      ∃ ii jj kk : Int,
        (e.cell i type).x - e.num_cells ≤ ii ∧ ii ≤ (e.cell i type).x + e.num_cells ∧
        0 ≤ ii ∧ ii ≤ (e.hi_p type).x - (e.lo_p type).x ∧
        (e.cell i type).y - e.num_cells ≤ jj ∧ jj ≤ (e.cell i type).y + e.num_cells ∧
        0 ≤ jj ∧ jj ≤ (e.hi_p type).y - (e.lo_p type).y ∧
        (e.cell i type).z - e.num_cells ≤ kk ∧ kk ≤ (e.cell i type).z + e.num_cells ∧
        0 ≤ kk ∧ kk ≤ (e.hi_p type).z - (e.lo_p type).z ∧
        index = (ii * ((e.hi_p type).y - (e.lo_p type).y + 1) + jj) *
          ((e.hi_p type).z - (e.lo_p type).z + 1) + kk + e.off_bins_p type := by
  unfold NeighborBuild.nearBins
  simp only [List.mem_flatMap, List.mem_map, mem_intRange, max_le_iff, le_min_iff,
    add_sub_cancel_right]
  constructor
  · rintro ⟨ii, ⟨⟨a1, a2⟩, a3, a4⟩, jj, ⟨⟨b1, b2⟩, b3, b4⟩, kk, ⟨⟨c1, c2⟩, c3, c4⟩, rfl⟩
    exact ⟨ii, jj, kk, a1, a3, a2, a4, b1, b3, b2, b4, c1, c3, c2, c4, rfl⟩
  · rintro ⟨ii, jj, kk, a1, a3, a2, a4, b1, b3, b2, b4, c1, c3, c2, c4, rfl⟩
    exact ⟨ii, ⟨⟨a1, a2⟩, a3, a4⟩, jj, ⟨⟨b1, b2⟩, b3, b4⟩, kk, ⟨⟨c1, c2⟩, c3, c4⟩, rfl⟩

/-- The neighbors of a particle, entry by entry. -/
theorem mem_neighborsOf (e : NeighborBuild D) (i pid : Nat) :
    pid ∈ e.neighborsOf i ↔
      ∃ type : Int, (match e.bin_type_array with
          | some a => a i
          | none => 0) ≤ type ∧ type < e.num_bin_types ∧
        ∃ index ∈ e.nearBins i type, pid ∈ e.binParticles index ∧
          ¬ (e.is_same = true ∧ pid = i) ∧
          e.check_pair i pid type (decide (e.np_real ≤ i)) (decide (e.np_real ≤ pid)) = true := by
  unfold NeighborBuild.neighborsOf
  simp only [List.mem_flatMap, List.mem_filter, mem_intRange, Bool.and_eq_true,
    Bool.not_eq_true', Bool.and_eq_false_imp, decide_eq_false_iff_not, not_and]
  constructor
  · rintro ⟨type, ⟨t1, t2⟩, index, hi, hp, hs, hc⟩
    exact ⟨type, t1, Int.le_sub_one_iff.1 t2, index, hi, hp, hs, hc⟩
  · rintro ⟨type, t1, t2, index, hi, hp, hs, hc⟩
    exact ⟨type, ⟨t1, Int.le_sub_one_iff.2 t2⟩, index, hi, hp, hs, hc⟩

/-- C28. The two passes of `NeighborList::build` with a pure `check_pair`, when the neighbors
of all particles number less than `2 ^ 31`: the counts and offsets have `np_size + 1` entries,
entry `i` of the counts is the number of neighbors of particle `i`, entry `k` of the offsets
is the sum of the counts before `k`, the offsets start at 0 and end at the length of the
neighbor list; the neighbor list is the neighbors of the particles one particle after the
other, so that for every particle `i` the entries from `offsets[i]` up to `offsets[i+1]` are
the neighbors of `i` in enumeration order and the segment of a later particle starts where
that of `i` ends or later; the neighbors of `i` are the particles of the bins within
`num_cells` of the bin cell of `i`, for the bin types from the type of `i` upwards, for
which `check_pair` holds, without `i` itself when source and target tile are the same
object; and the loop from `begin()` while the iterator differs from `end()` returns, having
visited that segment. -/
theorem build_two_pass (r : NeighborList) (e : NeighborBuild D)
    (hsum : (e.neighborsBefore e.np_size).length < 2 ^ 31) :
    (r.build e).m_nbor_counts.length = e.np_size + 1 ∧
    (r.build e).m_nbor_offsets.length = e.np_size + 1 ∧
    (∀ i : Nat, i < e.np_size →
      (r.build e).m_nbor_counts[i]? = some (e.neighborsOf i).length) ∧
    (∀ k : Nat, k ≤ e.np_size →
      (r.build e).m_nbor_offsets[k]? = some (((r.build e).m_nbor_counts.take k).sum)) ∧
    (r.build e).m_nbor_offsets[0]? = some 0 ∧
    (r.build e).m_nbor_offsets[e.np_size]? = some (r.build e).m_nbor_list.length ∧
    (r.build e).m_nbor_list = (List.range e.np_size).flatMap e.neighborsOf ∧
    (∀ i : Nat, i < e.np_size → ∃ a b : Nat,
      (r.build e).m_nbor_offsets[i]? = some a ∧ (r.build e).m_nbor_offsets[i + 1]? = some b ∧
      a ≤ b ∧ b ≤ (r.build e).m_nbor_list.length ∧
      ((r.build e).m_nbor_list.drop a).take (b - a) = e.neighborsOf i ∧
      (∀ j : Nat, i < j → j < e.np_size → ∀ a' : Nat,
        (r.build e).m_nbor_offsets[j]? = some a' → b ≤ a') ∧
      (e.is_same = true → i ∉ ((r.build e).m_nbor_list.drop a).take (b - a)) ∧
      ∃ n : Nat, ∀ fuel : Nat, n ≤ fuel →
        Neighbors.visit (r.build e).m_nbor_list
          (Neighbors.endIterator (r.build e).m_nbor_offsets i) fuel
          (Neighbors.begin (r.build e).m_nbor_offsets i) = some (e.neighborsOf i)) ∧
    (∀ i pid : Nat, pid ∈ e.neighborsOf i ↔
      ∃ type : Int, (match e.bin_type_array with
          | some a => a i
          | none => 0) ≤ type ∧ type < e.num_bin_types ∧
        ∃ index ∈ e.nearBins i type, pid ∈ e.binParticles index ∧
          ¬ (e.is_same = true ∧ pid = i) ∧
          e.check_pair i pid type (decide (e.np_real ≤ i)) (decide (e.np_real ≤ pid)) = true) := by
  obtain ⟨hc, ho, hl⟩ := build_vectors r e hsum
  have hoff : ∀ k : Nat, k ≤ e.np_size →
      (r.build e).m_nbor_offsets[k]? = some (e.neighborsBefore k).length := by
    intro k hk
    have hlen : k < (r.build e).m_nbor_offsets.length := by
      rw [ho, List.length_cons, length_partialSums, List.length_map, List.length_range]
      omega
    have hg := offsets_getD e e.np_size k hk (by omega)
    rw [← ho, List.getD_eq_getElem?_getD, List.getElem?_eq_getElem hlen,
      Option.getD_some] at hg
    rw [List.getElem?_eq_getElem hlen, hg]
  have hself : ∀ i : Nat, e.is_same = true → i ∉ e.neighborsOf i := by
    intro i hs hi
    obtain ⟨_, -, -, _, -, -, hn, -⟩ := (mem_neighborsOf e i i).1 hi
    exact hn ⟨hs, rfl⟩
  refine ⟨?_, ?_, ?_, ?_, ?_, ?_, ?_, ?_, mem_neighborsOf e⟩
  · rw [hc]; simp
  · rw [ho, List.length_cons, length_partialSums, List.length_map, List.length_range]
  · intro i hi
    rw [hc, List.getElem?_append_left (by simpa using hi), List.getElem?_map,
      List.getElem?_range hi]
    rfl
  · intro k hk
    rw [hoff k hk, hc, List.take_append_of_le_length (by simpa using hk), sum_counts e _ k hk]
  · rw [hoff 0 (Nat.zero_le _)]
    rfl
  · rw [hoff _ (le_refl _), hl]
  · rw [hl]
    rfl
  · intro i hi
    have hle := length_neighborsOf_le e i e.np_size hi
    have hb : (e.neighborsBefore (i + 1)).length =
        (e.neighborsBefore i).length + (e.neighborsOf i).length := by
      rw [neighborsBefore_succ, List.length_append]
    have hseg : ((r.build e).m_nbor_list.drop (e.neighborsBefore i).length).take
        ((e.neighborsBefore (i + 1)).length - (e.neighborsBefore i).length) =
        e.neighborsOf i := by
      rw [hl, hb, Nat.add_sub_cancel_left]
      exact neighborsBefore_segment e i e.np_size hi
    refine ⟨(e.neighborsBefore i).length, (e.neighborsBefore (i + 1)).length,
      hoff i (by omega), hoff (i + 1) (by omega), by omega, by rw [hl]; omega, hseg, ?_, ?_, ?_⟩
    · intro j hij hj a' ha'
      rw [hoff j (by omega)] at ha'
      rw [← Option.some.inj ha']
      exact neighborsBefore_mono e (i + 1) j hij
    · intro hs
      rw [hseg]
      exact hself i hs
    · refine ⟨(e.neighborsOf i).length + 1, fun fuel hf => ?_⟩
      have g1 : (r.build e).m_nbor_offsets.getD i 0 = (e.neighborsBefore i).length := by
        rw [List.getD_eq_getElem?_getD, hoff i (by omega), Option.getD_some]
      have g2 : (r.build e).m_nbor_offsets.getD (i + 1) 0 =
          (e.neighborsBefore (i + 1)).length := by
        rw [List.getD_eq_getElem?_getD, hoff (i + 1) (by omega), Option.getD_some]
      unfold Neighbors.begin
      rw [g1, g2, toInt32_of_lt _ (by omega), toInt32_of_lt _ (by omega),
        visit_segment _ _ _ (by rw [hl]; omega) fuel _ (by omega) (by omega), hseg]

end TwoPass

section Psi

/-- What the restricting constructor does for `N ≤ 3` to a code `c` of the five bits in use:
the sides of the other dimensions stay; `side(dim)` is nonzero iff `side = 1` or it was
nonzero in `c`; `sign()` is the sign for the signs 0 and 1, and for the sign -1 it is -1 only
when `c` does not have the sign bit `N + 1` set, and 1 otherwise. -/
theorem restrict_bits (N : Nat) (hN : N ≤ 3) :
    ∀ (bits : Fin 32) (dim : Fin N), ∀ side ∈ [(0 : Int), 1], ∀ sign ∈ [(-1 : Int), 0, 1],
      (∀ d : Fin N, d ≠ dim →
        ((PsiCode.mk bits.val : PsiCode N).restrict dim.val side sign).side d.val =
          (PsiCode.mk bits.val : PsiCode N).side d.val) ∧
      (((PsiCode.mk bits.val : PsiCode N).restrict dim.val side sign).side dim.val ≠ 0 ↔
        (side = 1 ∨ (PsiCode.mk bits.val : PsiCode N).side dim.val ≠ 0)) ∧
      (sign ≠ -1 → ((PsiCode.mk bits.val : PsiCode N).restrict dim.val side sign).sign = sign) ∧
      (sign = -1 → ((PsiCode.mk bits.val : PsiCode N).restrict dim.val side sign).sign =
        if bits.val &&& (1 <<< (N + 1)) ≠ 0 then 1 else -1) := by
  interval_cases N <;> decide

end Psi

section PsiCalls

end PsiCalls

section Butcher

open SundialsIntegrator

/-- The writes of `make_butcher_table` in `advance_erk` stay in bounds for every supported
method name: a table with the number of stages of the method is returned. -/
theorem erk_tables_in_bounds :
    (∃ B, advance_erk.make_butcher_table "SSPRK3" = Except.ok B ∧ B.stages = 3) ∧
    (∃ B, advance_erk.make_butcher_table "Trapezoid" = Except.ok B ∧ B.stages = 2) ∧
    (∃ B, advance_erk.make_butcher_table "ForwardEuler" = Except.ok B ∧ B.stages = 1) :=
  ⟨⟨_, rfl, rfl⟩, ⟨_, rfl, rfl⟩, ⟨_, rfl, rfl⟩⟩

/-- The writes of `make_butcher_table` in `advance_mri` stay in bounds for every supported
method name. -/
theorem mri_tables_in_bounds :
    (∃ B, advance_mri.make_butcher_table "KnothWolke3" = Except.ok B ∧ B.stages = 3) ∧
    (∃ B, advance_mri.make_butcher_table "Knoth-Wolke-3-3" = Except.ok B ∧ B.stages = 3) ∧
    (∃ B, advance_mri.make_butcher_table "Trapezoid" = Except.ok B ∧ B.stages = 2) ∧
    (∃ B, advance_mri.make_butcher_table "ForwardEuler" = Except.ok B ∧ B.stages = 1) :=
  ⟨⟨_, rfl, rfl⟩, ⟨_, rfl, rfl⟩, ⟨_, rfl, rfl⟩, ⟨_, rfl, rfl⟩⟩

end Butcher

section Witnesses

/-- An option that holds something, and nothing but `x`, is `some x`. -/
theorem eq_some_of_forall {α : Type} {o : Option α} {x : α} (h1 : o.isSome = true)
    (h2 : ∀ b, o = some b → b = x) : o = some x := by
  cases o with
  | none => simp at h1
  | some b => rw [h2 b rfl]

/-- Witness of C1 on the periodic configuration: the state lives on the coarse boxes, and the
cell `(2, 2)` next to the first fine box receives the correction. -/
theorem Reflux_postcondition_witness :
    Example.state.boxarray = Example.reg.m_crse_data.boxarray ∧
    (Example.reg.Reflux Example.state 0 0 1).2.data 0 ![2, 2] (0 + 0) =
      Example.state.data 0 ![2, 2] (0 + 0) + refluxCorrection Example.reg 0 ![2, 2] (0 + 0) :=
  ⟨rfl, (Reflux_postcondition Example.reg Example.state 0 0 1 rfl).1 0 ![2, 2] 0
    (by decide) (by decide)⟩

/-- Witness of C4 on the periodic configuration: the halo cell `(-1, 4)` of the coarse box is
a boundary cell, through the periodic image `(7, 4)`. -/
theorem define_classification_witness :
    Example.cba[0]? = some (Example.box 0 0 7 7) ∧
    ((Example.box 0 0 7 7).grow 1).contains ![-1, 4] ∧
    (Example.reg.m_crse_flag.data 0 ![-1, 4] 0 = crse_fine_boundary_cell ↔
      (¬ ∃ iv ∈ shiftIntVect Example.cgeom.periodicity,
        ∃ b ∈ Example.fba.coarsen ![2, 2], b.contains (![-1, 4] - iv)) ∧
      ∃ iv ∈ shiftIntVect Example.cgeom.periodicity,
        ∃ b ∈ Example.fba.coarsen ![2, 2], (b.grow 1).contains (![-1, 4] - iv)) :=
  ⟨rfl, by decide,
    (define_classification (YAFluxRegister.default 2) Example.fba Example.cba [0, 0] [0]
      Example.fgeom Example.cgeom ![2, 2] 1 1 0 Example.mem 0 ![-1, 4] (Example.box 0 0 7 7)
      rfl (by decide)).2.2.1⟩

/-- Witness of C5 on the periodic configuration: the patch cell `(-1, 2)` of the ring of the
first fine box has its periodic image `(7, 2)` inside the second coarsened fine box. -/
theorem define_periodic_mask_witness :
    Example.fgeom.isAnyPeriodic = true ∧
    Example.reg.m_cfpatch.boxarray[2]? = some (Example.box (-1) 2 (-1) 3) ∧
    (Example.box (-1) 2 (-1) 3).contains ![-1, 2] ∧
    (∀ b ∈ Example.fba.coarsen ![2, 2], Example.cgeom.domain.containsBox b) ∧
    (Example.reg.m_cfp_mask.data 2 ![-1, 2] 0 = 0 ↔
      ∃ iv ∈ shiftIntVect Example.cgeom.periodicity, iv ≠ 0 ∧
        ∃ b ∈ Example.fba.coarsen ![2, 2], b.contains (![-1, 2] + iv)) :=
  ⟨by decide, eq_some_of_forall (by decide) (by decide), by decide, by decide,
    (define_periodic_mask (YAFluxRegister.default 2) Example.fba Example.cba [0, 0] [0]
      Example.fgeom Example.cgeom ![2, 2] 1 1 0 Example.mem (by decide) 2 ![-1, 2]
      (Example.box (-1) 2 (-1) 3) (eq_some_of_forall (by decide) (by decide))
      (by decide)).2.2 (by decide)⟩

/-- Witness of C7 on the periodic configuration: after a coarse and a fine call, `Reflux`
leaves the cell `(4, 6)`, far from both fine boxes, as it was. -/
theorem noop_on_non_boundary_cells_witness :
    (YAFluxRegister.default 2).m_cvol = none ∧ Example.state.boxarray = Example.cba ∧
    0 + 1 ≤ 1 ∧
    ((Example.reg.reset.calls Example.callList).Reflux Example.state 0 0 1).2.data 0 ![4, 6] 0 =
      Example.state.data 0 ![4, 6] 0 :=
  ⟨rfl, rfl, by decide,
    (noop_on_non_boundary_cells (YAFluxRegister.default 2) Example.fba Example.cba [0, 0] [0]
      Example.fgeom Example.cgeom ![2, 2] 1 1 0 Example.mem Example.callList Example.state
      0 0 1 rfl rfl (by decide)).2 0 ![4, 6] 0 (by decide) (by decide)⟩

/-- Witness of C6 on the periodic configuration: a unit placed in the patch cell `(-1, 2)`,
whose periodic image `(7, 2)` lies in the second coarsened fine box. -/
theorem periodic_duplicate_suppression_witness :
    Example.fgeom.isAnyPeriodic = true ∧ Example.cgeom.domain.ok ∧
    (∀ c, Example.cgeom.domain.contains c ↔ ∃ b ∈ Example.cba, b.contains c) ∧
    (Example.cba.Pairwise fun a b => ∀ p, ¬ (a.contains p ∧ b.contains p)) ∧
    (YAFluxRegister.default 2).m_cvol = none ∧
    Example.reg.m_cfpatch.inValid 2 ![-1, 2] ∧
    Example.state.boxarray = Example.cba ∧
    ∃ i0 c0, Example.state.inValid i0 c0 ∧
      (∃ iv ∈ shiftIntVect Example.cgeom.periodicity, c0 = ![-1, 2] + iv) ∧
      ((∃ b ∈ Example.fba.coarsen ![2, 2], b.contains c0) →
        Example.reg.m_cfp_mask.data 2 ![-1, 2] 0 = 0) ∧
      ∀ i c n, Example.state.inValid i c → n < 1 →
        (((Example.reg.withBuffers (fun _ _ _ => 0) (unitAt 2 ![-1, 2] 0 1)).Reflux
            Example.state 0 0 1).1.m_crse_data.data i c n =
          0 + (if i = i0 ∧ c = c0 ∧ n = 0 then
            1 * Example.reg.m_cfp_mask.data 2 ![-1, 2] 0 else 0)) ∧
        (((Example.reg.withBuffers (fun _ _ _ => 0) (unitAt 2 ![-1, 2] 0 1)).Reflux
            Example.state 0 0 1).2.data i c n =
          Example.state.data i c n + (0 + (if i = i0 ∧ c = c0 ∧ n = 0 then
            1 * Example.reg.m_cfp_mask.data 2 ![-1, 2] 0 else 0))) :=
  have hcover : ∀ c, Example.cgeom.domain.contains c ↔ ∃ b ∈ Example.cba, b.contains c := by
    intro c
    simp [Example.cba, Example.cgeom]
  have hdisj : Example.cba.Pairwise fun a b => ∀ p, ¬ (a.contains p ∧ b.contains p) :=
    List.pairwise_singleton _ _
  ⟨by decide, by decide, hcover, hdisj, rfl, by decide, rfl,
    (periodic_duplicate_suppression (YAFluxRegister.default 2) Example.fba Example.cba [0, 0]
      [0] Example.fgeom Example.cgeom ![2, 2] 1 1 0 Example.mem (by decide) (by decide) hcover
      hdisj rfl 2 ![-1, 2] 0 (by decide) (fun _ _ _ => 0) 1 Example.state rfl).2⟩

theorem seam_balance_example (idim : Fin 2) (c : IntVect 2) (n : Nat) :
    crseContribution Seam.flux (fun _ => 1) 1 idim 0 c n =
        fineContribution ![2, 2] (fun _ => 1 / 2) Seam.steps idim 0 c n ∧
    crseContribution Seam.flux (fun _ => 1) 1 idim 1 c n =
        fineContribution ![2, 2] (fun _ => 1 / 2) Seam.steps idim 1 c n := by
  have hprod : ((List.finRange 2).map (![2, 2] : IntVect 2)).prod = 4 := by decide
  have hlen : (childOffsets (![2, 2] : IntVect 2) idim).length = 2 := by
    revert idim; decide
  simp only [crseContribution, fineContribution, fineTerm, Seam.steps, Seam.flux, hprod,
    List.map_cons, List.map_nil, List.sum_cons, List.sum_nil, List.map_const', hlen,
    List.sum_replicate]
  norm_num

theorem reflux_conservation_witness :
    (∀ d, 1 ≤ (![2, 2] : IntVect 2) d) ∧ Seam.sub.ok ∧ Seam.cb.containsBox Seam.sub ∧
    Seam.cgeom.domain.containsBox Seam.cb ∧ (∀ d, Seam.cgeom.is_periodic d = false) ∧
    Seam.fgeom.isAnyPeriodic = false ∧ Seam.state.boxarray = [Seam.cb] ∧
    ((((seamRegister Seam.sub Seam.cb ![2, 2] Seam.fgeom Seam.cgeom 1 1 0 Example.mem).reset.CrseAdd
        ⟨0, 0, Seam.cb⟩ Seam.flux (fun _ => 1) 1 0 0 1).fineSteps
        ⟨0, 0, Seam.sub.refine ![2, 2]⟩ (fun _ => 1 / 2) Seam.steps 0 0 1).Reflux
        Seam.state 0 0 1).2 = Seam.state :=
  ⟨by decide, by decide, by decide, by decide, by decide, by decide, rfl,
    reflux_conservation Seam.sub Seam.cb ![2, 2] Seam.fgeom Seam.cgeom 1 1 0 Example.mem
      Seam.flux (fun _ => 1) (fun _ => 1 / 2) 1 Seam.steps Seam.state (by decide) (by decide)
      (by decide) (by decide) (by decide) (by decide) rfl
      (fun idim c n _ _ =>
        ⟨fun _ => (seam_balance_example idim c n).1, fun _ => (seam_balance_example idim c n).2⟩)⟩

/-- The work flag of a coarse box that lies wholly under the fine level is true although
the box holds no boundary cell: all of its cells are classified covered. -/
theorem work_flag_counterexample :
    Covered.reg.CrseHasWork ⟨0, 0, Example.box 0 0 3 3⟩ = true ∧
    ∀ c, (Example.box 0 0 3 3).contains c →
      Covered.reg.m_crse_flag.data 0 c 0 ≠ crse_fine_boundary_cell := by
  refine ⟨by decide, fun c hc => ?_⟩
  have hc1 : ((Example.box 0 0 3 3).grow 1).contains c := by
    rw [contains_grow]; intro d; have := hc d; constructor <;> omega
  have h0 : imageInBoxes (shiftIntVect Seam.cgeom.periodicity)
      (BoxArray.coarsen Covered.fba ![2, 2]) 0 c :=
    ⟨fun _ => 0, by decide, Example.box 0 0 3 3, by decide, by
      rw [contains_grow_zero]
      have hz : c - (fun _ : Fin 2 => (0 : Int)) = c := by funext d; simp
      rw [hz]; exact hc⟩
  unfold Covered.reg YAFluxRegister.construct
  rw [define_crse_flag_data _ _ _ _ _ _ _ _ _ _ _ _ 0 c (Example.box 0 0 3 3) rfl hc1,
    if_pos h0]
  decide

theorem define_work_flag_witness :
    (localIndices [0] 0)[0]? = some 0 ∧ Covered.cba[0]? = some (Example.box 0 0 3 3) ∧
    (Example.box 0 0 3 3).ok ∧ (∀ b ∈ BoxArray.coarsen Covered.fba ![2, 2], b.ok) ∧
    (Covered.reg.CrseHasWork ⟨0, 0, Example.box 0 0 3 3⟩ = true ↔
      ∃ c, (Example.box 0 0 3 3).contains c ∧
        (Covered.reg.m_crse_flag.data 0 c 0 = crse_fine_boundary_cell ∨
         Covered.reg.m_crse_flag.data 0 c 0 = fine_cell)) :=
  ⟨by decide, rfl, by decide, by decide,
    define_work_flag Covered.fba Covered.cba [0] [0] Seam.fgeom Seam.cgeom ![2, 2] 1 1 0
      Example.mem 0 0 (Example.box 0 0 3 3) (Example.box 0 0 3 3) (by decide) rfl (by decide)
      (by decide)⟩

/-- Fine boxes exist and the list of boundary-ring boxes is empty, and `define` ends
normally: the fine box covers the whole non-periodic domain. -/
theorem define_failure_counterexample :
    Covered.fbaAll ≠ [] ∧
    (∀ i, ringBoxes (BoxArray.coarsen Covered.fbaAll ![2, 2]) (grownDomain Seam.cgeom) i = []) ∧
    (YAFluxRegister.default 2).defineOutcome Covered.fbaAll Covered.cbaAll [0] [0] Seam.fgeom
        Seam.cgeom ![2, 2] 1 1 0 Example.mem ≠ Outcome.fatal ∧
    (YAFluxRegister.construct Covered.fbaAll Covered.cbaAll [0] [0] Seam.fgeom Seam.cgeom
        ![2, 2] 1 1 0 Example.mem).m_cfpatch.boxarray = [] := by
  refine ⟨by decide, fun i => ?_, fun h => Outcome.noConfusion h, by decide⟩
  rcases i with _ | i
  · decide
  · simp [ringBoxes, BoxArray.coarsen, Covered.fbaAll]

theorem component_range_precondition_witness :
    ((⟨Seam.reg3, ⟨[], [], 0, 0, fun _ _ _ => 0⟩⟩ : EBFluxRegister 2).m_crse_data.n_comp = 3 ∧
      (⟨Seam.reg3, ⟨[], [], 0, 0, fun _ _ _ => 0⟩⟩ : EBFluxRegister 2).m_cfpatch.n_comp = 3) ∧
    ((⟨Seam.reg3, ⟨[], [], 0, 0, fun _ _ _ => 0⟩⟩ : EBFluxRegister 2).FineAddAssert
        Seam.flux 0 2 1 = true ↔ 2 + 1 ≤ 3 ∧ 0 + 1 ≤ 1) :=
  ⟨⟨rfl, rfl⟩,
    (component_range_precondition (⟨Seam.reg3, ⟨[], [], 0, 0, fun _ _ _ => 0⟩⟩ : EBFluxRegister 2)
      Seam.flux 0 2 1 ⟨rfl, rfl⟩).2.2.2.1⟩

/-- Ratio 2, unit fluxes on the child faces, `dt = 1` and cell size `dx = 1`: the coarse cell
`(1, 2)` on the low side of the fine region changes by `1 / 2`, which is not the mean of the
child fluxes times `dt / dx = 1`. -/
theorem ratio_averaging_counterexample :
    (∀ off ∈ childOffsets (fun _ : Fin 2 => (2 : Int)) 0,
      (Seam.flux 0).data (childFace (fun _ => 2) 0 0 ![1, 2] off) 0 = 1) ∧
    (((seamRegister Seam.sub Seam.cb (fun _ => 2) Seam.fgeom Seam.cgeom 1 1 0
        Example.mem).reset.FineAdd ⟨0, 0, Seam.sub.refine (fun _ => 2)⟩ Seam.flux (fun _ => 1)
        1 0 0 1).Reflux Seam.state 0 0 1).2.data 0 ![1, 2] 0 -
      Seam.state.data 0 ![1, 2] 0 = -(1 / 2) ∧
    |(-(1 / 2) : Real)| ≠ childMean (fun _ => 2) (Seam.flux 0) 0 0 ![1, 2] 0 * (1 / 1) := by
  have hfin : List.finRange 2 = [0, 1] := by decide
  have hmean : childMean (fun _ => 2) (Seam.flux 0) 0 0 ![1, 2] 0 = 1 := by
    simp only [childMean, Seam.flux, List.map_const', List.sum_replicate,
      length_childOffsets_two]
    norm_num
  refine ⟨fun _ _ => rfl, ?_, ?_⟩
  · rw [seam_fineadd_state Seam.sub Seam.cb (fun _ => 2) Seam.fgeom Seam.cgeom 1 1 0
      Example.mem Seam.flux (fun _ => 1) 1 Seam.state (fun _ => by norm_num) (by decide)
      (by decide) rfl ![1, 2] 0 (by decide) (by decide), if_pos (by decide)]
    simp only [seamPatchValue, fineTerm, Seam.flux, List.map_const', List.sum_replicate,
      length_childOffsets_two, prod_ratio_two, hfin, List.map_cons, List.map_nil,
      List.sum_cons, List.sum_nil]
    rw [if_pos (by decide), if_neg (by decide), if_neg (by decide), if_neg (by decide)]
    norm_num
  · rw [hmean]
    norm_num [abs_of_nonneg]

theorem fineadd_ratio_averaging_witness :
    Seam.sub.ok ∧ (∀ d, Seam.cgeom.is_periodic d = false) ∧
    Seam.fgeom.isAnyPeriodic = false ∧ Seam.state.boxarray = [Seam.cb] ∧
    Seam.cb.contains ![1, 2] ∧ Seam.cgeom.domain.contains ![1, 2] ∧
    (Seam.sub.adjCellLo 0).contains ![1, 2] ∧
    (((seamRegister Seam.sub Seam.cb (fun _ => 2) Seam.fgeom Seam.cgeom 1 1 0
        Example.mem).reset.FineAdd ⟨0, 0, Seam.sub.refine (fun _ => 2)⟩ Seam.flux (fun _ => 1)
        1 0 0 1).Reflux Seam.state 0 0 1).2.data 0 ![1, 2] 0 =
      Seam.state.data 0 ![1, 2] 0 + (if (0 : Nat) = 0 then -1 else 1) *
        (childMean (fun _ => 2) (Seam.flux 0) 0 0 ![1, 2] 0 * (1 / (2 * 1))) :=
  ⟨by decide, by decide, by decide, rfl, by decide, by decide, by decide,
    (fineadd_ratio_averaging Seam.sub Seam.cb Seam.fgeom Seam.cgeom 1 1 0 Example.mem
      Seam.flux (fun _ => 1) 1 Seam.state 0 0 ![1, 2] 0 (by decide) (by decide) (by decide)
      rfl (by decide) (by decide) (by decide) (Or.inl rfl) (by decide)).1⟩

theorem sparseBins_layout_witness :
    (∀ (key : Nat → Nat) (l : List Nat),
      (sortByLess (fun i j => decide (key i < key j)) l).Perm l ∧
      (sortByLess (fun i j => decide (key i < key j)) l).Pairwise fun a b => key a ≤ key b) ∧
    4 < 2 ^ 31 ∧
    (SparseBins.build sortByLess 4 Bins.items (Example.box 0 0 3 3) id).m_perm.Perm
      (List.range 4) ∧
    (SparseBins.build sortByLess 4 Bins.items (Example.box 0 0 3 3) id).m_offsets[0]? =
      some 0 :=
  ⟨insertionSort_sorts, by norm_num,
    (sparseBins_layout sortByLess 4 Bins.items (Example.box 0 0 3 3) id insertionSort_sorts
      (by norm_num)).2.1.1,
    (sparseBins_layout sortByLess 4 Bins.items (Example.box 0 0 3 3) id insertionSort_sorts
      (by norm_num)).2.2.2.1⟩

/-- Claim C18 (inside mask), evaluated after a repeated `define`: after a second `define`
with other grids the mask of the second fine box is 0 at the
cell (5, 5), which is next to the cell (4, 5) of a ring box generated from that fine box:
the local-index array still begins with the entries of the first `define`, so every patch
fab is filed under the first fine box. -/
theorem inside_mask_counterexample :
    [0, 0][1]? = some 0 ∧
    (BoxArray.coarsen Redefined.fba2 ![2, 2])[1]? = some (Example.box 5 5 6 6) ∧
    (Example.box 5 5 6 6).contains ![5, 5] ∧
    Redefined.reg2.m_cfp_inside_mask.data 1 ![5, 5] 0 = 0 ∧
    ∃ f ∈ ringBoxes (BoxArray.coarsen Redefined.fba2 ![2, 2]) (grownDomain Seam.cgeom) 1,
      f.contains ![4, 5] ∧ ∀ d, |(![5, 5] : IntVect 2) d - (![4, 5] : IntVect 2) d| ≤ 1 := by
  refine ⟨rfl, eq_some_of_forall (by decide) (by decide), by decide, ?_, ?_⟩
  · decide
  · decide

theorem define_inside_mask_witness :
    Redefined.fresh.m_cfp_fab = [] ∧ Redefined.fresh.m_cfp_localindex = [] ∧
    [0][0]? = some 0 ∧
    (BoxArray.coarsen Redefined.fba1 ![2, 2])[0]? = some (Example.box 2 2 3 3) ∧
    (((Example.box 2 2 3 3).grow 1).inter (grownDomain Seam.cgeom)).ok ∧
    (Example.box 2 2 3 3).contains ![2, 3] ∧
    (Redefined.reg1.m_cfp_inside_mask.data 0 ![2, 3] 0 = 1 ↔
      ∃ f ∈ ringBoxes (BoxArray.coarsen Redefined.fba1 ![2, 2]) (grownDomain Seam.cgeom) 0,
        ∃ q, f.contains q ∧ ∀ d, |(![2, 3] : IntVect 2) d - q d| ≤ 1) :=
  ⟨rfl, rfl, rfl, eq_some_of_forall (by decide) (by decide), by decide, by decide,
    (define_inside_mask Redefined.fresh Redefined.fba1 Seam.state.boxarray [0] [0] Seam.fgeom
      Seam.cgeom ![2, 2] 1 1 0 Example.mem (fun _ _ _ => 7) 0 (Example.box 2 2 3 3) ![2, 3]
      rfl rfl rfl (eq_some_of_forall (by decide) (by decide)) (by decide) (by decide)).2.1⟩

/-- A box with a cell, all of whose cells are regular, is entirely regular. -/
theorem getType_of_all_regular {D : Nat} (ebflag : IntVect D → EBCellFlag D) (bx : Box D)
    (c : IntVect D) (hc : bx.contains c) (h : ∀ p, (ebflag p).type = EBCellType.regular) :
    getType ebflag bx = FabType.regular := by
  unfold getType
  have h1 : ¬ (bx.cells.all fun p => decide ((ebflag p).type = EBCellType.covered)) = true := by
    rw [List.all_eq_true]
    intro hall
    have := hall c ((mem_cells bx c).2 hc)
    rw [decide_eq_true_eq, h c] at this
    exact EBCellType.noConfusion this
  have h2 : (bx.cells.all fun p => decide ((ebflag p).type = EBCellType.regular)) = true := by
    rw [List.all_eq_true]
    intro p _
    exact decide_eq_true (h p)
  rw [if_neg h1, if_pos h2]

theorem seam_tiles_partition : TilesPartition Seam.env.tiles [Seam.cb] [0] 0 := by
  refine ⟨?_, ?_⟩
  · intro t ht
    have : t = ⟨0, 0, Seam.cb⟩ := List.mem_singleton.1 ht
    subst this
    exact ⟨by decide, Seam.cb, rfl, by decide⟩
  · intro i b c hi hb hc
    have hi0 : i = 0 := by
      cases i with
      | zero => rfl
      | succ j => simp at hi
    subst hi0
    have hbe : b = Seam.cb := by
      simp only [List.getElem?_cons_zero, Option.some.injEq] at hb
      exact hb.symm
    subst hbe
    simp [Seam.env, hc]

theorem seam_tiles_regular : ∀ t ∈ Seam.env.tiles, getType (Seam.env.flags t.index)
    ((t.tilebox.grow 1).inter (periodicGrownDomain Seam.cgeom)) = FabType.regular := by
  intro t ht
  have : t = ⟨0, 0, Seam.cb⟩ := List.mem_singleton.1 ht
  subst this
  exact getType_of_all_regular _ _ ![0, 0] (by decide) (fun _ => rfl)

theorem seam_added_fields :
    Seam.ebregAdded.m_crse_geom = Seam.cgeom ∧
    Seam.ebregAdded.m_crse_data.boxarray = [Seam.cb] ∧
    Seam.ebregAdded.m_crse_fab_flag[0]? = some fine_cell := by
  have hsame : SameButBuffers Seam.ebreg.toYAFluxRegister Seam.ebregAdded.toYAFluxRegister :=
    sameButBuffers_trans (sameButBuffers_reset _) (sameButBuffers_eb_calls _ _)
  obtain ⟨-, -, f3, -, f5, -, -, -, -, -, -, -, f13⟩ := sameButBuffers_fields hsame
  refine ⟨f3, f5, ?_⟩
  have hff : Seam.ebregAdded.m_crse_fab_flag = Seam.ebreg.m_crse_fab_flag := f13
  rw [hff]
  decide

/-- The correction that the register holds for the coarse cell (1, 2), left of the fine
box, after `reset` and one `CrseAdd` with unit fluxes: the flux through its right face. -/
theorem seam_added_correction :
    refluxCorrection Seam.ebregAdded.toYAFluxRegister 0 ![1, 2] 0 = 1 := by
  have hE : Seam.ebregAdded.toYAFluxRegister =
      (seamRegister Seam.sub Seam.cb ![2, 2] Seam.fgeom Seam.cgeom 1 1 0 Example.mem).reset.CrseAdd
        ⟨0, 0, Seam.cb⟩ Seam.flux (fun _ => 1) 1 0 0 1 := rfl
  have hr : ∀ d, 1 ≤ (![2, 2] : IntVect 2) d := by decide
  have hper : ∀ d, Seam.cgeom.is_periodic d = false := by decide
  have hwork := seamRegister_work Seam.sub Seam.cb ![2, 2] Seam.fgeom Seam.cgeom 1 1 0
    Example.mem hr (by decide) (by decide) hper
  have hflag : ∀ c, (Seam.cb.grow 1).contains c →
      (seamRegister Seam.sub Seam.cb ![2, 2] Seam.fgeom Seam.cgeom 1 1 0
        Example.mem).reset.m_crse_flag.data 0 c 0 =
        if Seam.sub.contains c then fine_cell
        else if (Seam.sub.grow 1).contains c then crse_fine_boundary_cell else crse_cell :=
    fun c hc => seamRegister_flag Seam.sub Seam.cb ![2, 2] Seam.fgeom Seam.cgeom 1 1 0
      Example.mem hr hper c hc
  unfold refluxCorrection
  have hpatch : patchImageSum Seam.ebregAdded.toYAFluxRegister
      (fun k p => maskedValue Seam.ebregAdded.toYAFluxRegister k p 0) ![1, 2] = 0 := by
    unfold patchImageSum
    apply List.sum_eq_zero
    intro x hx
    obtain ⟨k, -, rfl⟩ := List.mem_map.1 hx
    apply List.sum_eq_zero
    intro y hy
    obtain ⟨iv, -, rfl⟩ := List.mem_map.1 hy
    split_ifs with hin
    · have hpd : Seam.ebregAdded.m_cfpatch =
          (seamRegister Seam.sub Seam.cb ![2, 2] Seam.fgeom Seam.cgeom 1 1 0
            Example.mem).m_cfpatch.setVal 0 := by
        rw [hE]
        unfold YAFluxRegister.CrseAdd
        split <;> rfl
      unfold maskedValue
      rw [hpd]
      rw [hpd] at hin
      have hin2 := inFab_of_inValid _ _ _ hin
      have hin3 : (seamRegister Seam.sub Seam.cb ![2, 2] Seam.fgeom Seam.cgeom 1 1 0
          Example.mem).m_cfpatch.inFab k (![1, 2] - iv) := hin2
      simp only [FabArray.setVal]
      rw [if_pos ⟨hin3, by decide⟩, zero_mul]
    · rfl
  rw [hpatch, add_zero, hE, CrseAdd_data _ _ _ _ _ _ rfl hwork]
  have h0 : (seamRegister Seam.sub Seam.cb ![2, 2] Seam.fgeom Seam.cgeom 1 1 0
      Example.mem).reset.m_crse_data.data 0 ![1, 2] 0 = 0 := by
    simp only [YAFluxRegister.reset, FabArray.setVal]
    rw [if_pos ⟨by decide, by decide⟩]
  rw [h0, zero_add]
  have hc0 : (Seam.cb.grow 1).contains ![1, 2] := by decide
  rw [if_pos ⟨rfl, by decide, by decide, by rw [hflag _ hc0]; decide⟩]
  have e0 : (![1, 2] : IntVect 2) + IntVect.basis 0 = ![2, 2] := by decide
  have e1 : (![1, 2] : IntVect 2) + IntVect.basis 1 = ![1, 3] := by decide
  have e2 : (![1, 2] : IntVect 2) - IntVect.basis 0 = ![0, 2] := by decide
  have e3 : (![1, 2] : IntVect 2) - IntVect.basis 1 = ![1, 1] := by decide
  have hfin : List.finRange 2 = [0, 1] := by decide
  simp only [hfin, List.map_cons, List.map_nil, List.sum_cons, List.sum_nil, e0, e1, e2, e3]
  rw [hflag ![2, 2] (by decide), hflag ![1, 3] (by decide), hflag ![0, 2] (by decide),
    hflag ![1, 1] (by decide)]
  have s1 : Seam.sub.contains ![2, 2] := by decide
  have s2 : ¬ Seam.sub.contains ![1, 3] := by decide
  have s3 : ¬ Seam.sub.contains ![0, 2] := by decide
  have s4 : ¬ Seam.sub.contains ![1, 1] := by decide
  have g2 : (Seam.sub.grow 1).contains ![1, 3] := by decide
  have g3 : ¬ (Seam.sub.grow 1).contains ![0, 2] := by decide
  have g4 : (Seam.sub.grow 1).contains ![1, 1] := by decide
  have hne1 : crse_fine_boundary_cell ≠ fine_cell := by decide
  have hne2 : crse_cell ≠ fine_cell := by decide
  simp only [s1, s2, s3, s4, g2, g3, g4, if_true, if_false, hne1, hne2, Seam.flux]
  norm_num

/-- After `reset`, one `CrseAdd` with unit fluxes and the embedded-boundary `Reflux` on a
geometry without cut cells, the accumulation buffer holds 1, not 0, in the coarse cell
(1, 2) left of the fine box: the correction that was added to the coarse state. -/
theorem eb_reflux_buffer_counterexample :
    (Seam.ebregAdded.Reflux Seam.env Seam.state Seam.state ⟨[], [], 0, 0, fun _ _ _ => 0⟩
      0 0 1).1.m_crse_data.data 0 ![1, 2] 0 = 1 := by
  obtain ⟨hgeom, hba, hflag⟩ := seam_added_fields
  obtain ⟨t0, ht0, -, -, hval⟩ := eb_buffer_regular Seam.ebregAdded Seam.env Seam.state
    Seam.state ⟨[], [], 0, 0, fun _ _ _ => 0⟩ 0 0 1 [Seam.cb] [0] 0 hba
    (by rw [hgeom]; decide) seam_tiles_partition (by rw [hgeom]; exact seam_tiles_regular)
    0 Seam.cb ![1, 2] 0 rfl rfl (by decide) (by decide)
  have ht : t0 = ⟨0, 0, Seam.cb⟩ := List.mem_singleton.1 ht0
  subst ht
  rw [Nat.add_zero] at hval
  rw [hval, if_pos hflag]
  exact seam_added_correction

theorem eb_reflux_regular_witness :
    Redefined.fresh.m_cvol = none ∧ Seam.state.boxarray = [Seam.cb] ∧ 0 + 1 ≤ 1 ∧
    (∀ x ∈ BoxArray.coarsen [Seam.sub.refine ![2, 2]] ![2, 2], x.ok) ∧
    (∀ b ∈ [Seam.cb], Seam.cgeom.domain.containsBox b) ∧
    TilesPartition Seam.env.tiles [Seam.cb] [0] 0 ∧
    (∀ t ∈ Seam.env.tiles, getType (Seam.env.flags t.index)
      ((t.tilebox.grow 1).inter (periodicGrownDomain Seam.cgeom)) = FabType.regular) ∧
    (Seam.ebregAdded.RefluxCrse Seam.env Seam.state Seam.state 0 0 1).2.1.data 0 ![1, 2] 0 =
      (Seam.ebregAdded.toYAFluxRegister.Reflux Seam.state 0 0 1).2.data 0 ![1, 2] 0 :=
  ⟨rfl, rfl, by decide, by decide, by decide, seam_tiles_partition, seam_tiles_regular,
    (eb_reflux_regular Redefined.fresh [Seam.sub.refine ![2, 2]] [Seam.cb] [0] [0] Seam.fgeom
      Seam.cgeom ![2, 2] 1 1 0 Example.mem (fun _ _ _ => 7)
      [EBAddCall.base (AddCall.crse ⟨0, 0, Seam.cb⟩ Seam.flux (fun _ => 1) 1 0 0 1)] Seam.env
      Seam.state Seam.state 0 0 1 rfl rfl (by decide) (by decide) (by decide)
      seam_tiles_partition seam_tiles_regular).1 0 ![1, 2] 0 rfl⟩

theorem define_fragment_index_witness :
    (YAFluxRegister.default 2).m_cfp_fab = [] ∧
    (YAFluxRegister.default 2).m_cfp_localindex = [] ∧
    (localIndices [0, 0] 0)[1]? = some 1 ∧
    (BoxArray.coarsen Redefined.fba2 ![2, 2])[1]? = some (Example.box 5 5 6 6) ∧
    ((YAFluxRegister.default 2).define Redefined.fba2 Seam.state.boxarray [0, 0] [0]
        Seam.fgeom Seam.cgeom ![2, 2] 1 1 0 Example.mem).m_cfp_fab[1]? =
      some ((List.range (ringBoxes (BoxArray.coarsen Redefined.fba2 ![2, 2])
          (grownDomain Seam.cgeom) 1).length).map
        (ringOffset (BoxArray.coarsen Redefined.fba2 ![2, 2]) (grownDomain Seam.cgeom) 1 + ·)) :=
  ⟨rfl, rfl, by decide, eq_some_of_forall (by decide) (by decide),
    ((define_fragment_index (YAFluxRegister.default 2) Redefined.fba2 Seam.state.boxarray
      [0, 0] [0] Seam.fgeom Seam.cgeom ![2, 2] 1 1 0 Example.mem rfl rfl).2.2 1 1
      (Example.box 5 5 6 6) (by decide) (eq_some_of_forall (by decide) (by decide))).1⟩

theorem define_thin_ring_boxes_witness :
    (∀ c ∈ BoxArray.coarsen Redefined.fba2 ![2, 2],
      c.ok ∧ ((c.grow 1).inter (periodicGrownDomain Seam.cgeom)).ok) ∧
    ∀ f ∈ ((YAFluxRegister.default 2).define Redefined.fba2 Seam.state.boxarray [0, 0] [0]
        Seam.fgeom Seam.cgeom ![2, 2] 1 1 0 Example.mem).m_cfpatch.boxarray,
      ∃ g c, (BoxArray.coarsen Redefined.fba2 ![2, 2])[g]? = some c ∧
        f ∈ ringBoxes (BoxArray.coarsen Redefined.fba2 ![2, 2])
          (periodicGrownDomain Seam.cgeom) g ∧
        (∃ d, f.length d = 1) ∧
        ∀ p, f.contains p →
          ¬ c.contains p ∧ (∀ q, c.contains q → ∃ d, 1 ≤ |p d - q d|) ∧
            ∃ q, c.contains q ∧ ∀ d, |p d - q d| ≤ 1 :=
  ⟨by decide,
    define_thin_ring_boxes (YAFluxRegister.default 2) Redefined.fba2 Seam.state.boxarray
      [0, 0] [0] Seam.fgeom Seam.cgeom ![2, 2] 1 1 0 Example.mem (by decide)⟩

theorem fineadd_tile_alignment_witness :
    (∀ d, 1 ≤ Seam.reg3.m_ratio d) ∧
    ((((Example.box (-3) 4 6 7).coarsen Seam.reg3.m_ratio).refine Seam.reg3.m_ratio) =
        Example.box (-3) 4 6 7 ↔
      ∀ d, Seam.reg3.m_ratio d ∣ (Example.box (-3) 4 6 7).smallend d ∧
        Seam.reg3.m_ratio d ∣ (Example.box (-3) 4 6 7).bigend d + 1) :=
  ⟨by decide,
    (fineadd_tile_alignment Seam.reg3 ⟨0, 0, Example.box (-3) 4 6 7⟩ Seam.flux (fun _ => 1) 1
      0 0 1 (by decide)).2.2.1⟩

/-- Claim C24 (re-define rebuilds the derived data), evaluated on repeated calls: a second
`define` does not rebuild the fragment vectors and the work flags. After
`define` with one fine box and then with two, the local-index array begins with the four
entries of the first call, all eight patch fabs are filed under the first fine box and the
second fine box has no work, whereas a fresh register files four under each; after two calls
with the same arguments the array has eight entries and the list holds every patch fab
twice; and a coarse box that the first fine grid touched keeps its work flag when the second
does not touch it. -/
theorem redefine_divergence :
    Redefined.base2.m_cfp_localindex = [0, 0, 0, 0, 0, 0, 0, 0, 1, 1, 1, 1] ∧
    Redefined.fresh2.m_cfp_localindex = [0, 0, 0, 0, 1, 1, 1, 1] ∧
    Redefined.base2.m_cfp_fab = [[0, 1, 2, 3, 0, 1, 2, 3, 4, 5, 6, 7], []] ∧
    Redefined.fresh2.m_cfp_fab = [[0, 1, 2, 3], [4, 5, 6, 7]] ∧
    Redefined.base2.FineHasWork ⟨1, 1, Example.box 10 10 13 13⟩ = false ∧
    Redefined.fresh2.FineHasWork ⟨1, 1, Example.box 10 10 13 13⟩ = true ∧
    Redefined.base11.m_cfp_localindex = [0, 0, 0, 0, 0, 0, 0, 0] ∧
    Redefined.base1.m_cfp_localindex = [0, 0, 0, 0] ∧
    Redefined.base11.m_cfp_fab = [[0, 1, 2, 3, 0, 1, 2, 3]] ∧
    Redefined.base1.m_cfp_fab = [[0, 1, 2, 3]] ∧
    Redefined.halves2.m_crse_fab_flag = [fine_cell, fine_cell] ∧
    Redefined.halvesFresh.m_crse_fab_flag = [crse_cell, fine_cell] ∧
    Redefined.halves2.CrseHasWork ⟨0, 0, Example.box 0 0 3 7⟩ = true ∧
    Redefined.halvesFresh.CrseHasWork ⟨0, 0, Example.box 0 0 3 7⟩ = false := by
  refine ⟨?_, ?_, ?_, ?_, ?_, ?_, ?_, ?_, ?_, ?_, ?_, ?_, ?_, ?_⟩ <;> decide

/-- The claim C25 without the bounds fails. A box of 2048 cells in each of three directions
with tile size 1 has `2 ^ 33` tiles: `numTilesInBox` returns 0, so that the index 0 of the cell
(0, 0, 0) is not below it, and the cell (0, 0, 1024) gets the index 0 of the cell (0, 0, 0)
with another tile box. A box of `2 ^ 32` cells in one direction with tile size 1: the number
of cells wraps to 0, `numTilesInBox` returns 1 and the cell 0 gets the negative index
`-2 ^ 31`. -/
theorem tile_index_overflow_counterexample :
    Example.bigBox.ok ∧
    numTilesInBox Example.bigBox true ![1, 1, 1] = 0 ∧
    (getTileIndex ![0, 0, 0] Example.bigBox true ![1, 1, 1]).1 = 0 ∧
    ¬ (getTileIndex ![0, 0, 0] Example.bigBox true ![1, 1, 1]).1 <
      numTilesInBox Example.bigBox true ![1, 1, 1] ∧
    (getTileIndex ![0, 0, 1024] Example.bigBox true ![1, 1, 1]).1 = 0 ∧
    (getTileIndex ![0, 0, 1024] Example.bigBox true ![1, 1, 1]).2 ≠
      (getTileIndex ![0, 0, 0] Example.bigBox true ![1, 1, 1]).2 ∧
    Example.longBox.ok ∧
    numTilesInBox Example.longBox true ![1] = 1 ∧
    (getTileIndex ![0] Example.longBox true ![1]).1 = -2147483648 ∧
    ¬ 0 ≤ (getTileIndex ![0] Example.longBox true ![1]).1 := by
  decide

/-- Witness of C25: a box of 7 × 5 cells with tile size (2, 8). -/
theorem tile_index_tiling_witness :
    (Box.mk (D := 2) ![0, -2] ![6, 2]).ok ∧ (∀ d, 1 ≤ (![2, 8] : IntVect 2) d) ∧
    numTilesInBox (Box.mk (D := 2) ![0, -2] ![6, 2]) true ![2, 8] = 3 ∧
    getTileIndex ![3, 9] (Box.mk (D := 2) ![0, -2] ![6, 2]) true ![2, 8] =
      (1, Box.mk ![3, -2] ![4, 2]) ∧
    0 ≤ (getTileIndex ![3, 9] (Box.mk (D := 2) ![0, -2] ![6, 2]) true ![2, 8]).1 :=
  ⟨by decide, by decide, by decide, by decide,
    ((tile_index_tiling (Box.mk (D := 2) ![0, -2] ![6, 2]) ![2, 8] (by decide) (by decide)
      (by decide) (by decide) (by decide)).1 ![3, 9]).1⟩


open SparseBinIteratorFactory

/-- C26. On the array of the single bin number 5 `getIndex(7)` returns 0, the index of the bin
number 5, although 7 does not occur in the array, where the search over two or more bin
numbers returns `m_not_found = 4294967295` for a bin number that does not occur. -/
theorem getIndex_single_bin :
    (∀ fuel, getIndex fuel [5] 7 = some 0) ∧ (7 ∉ [5]) ∧
    getIndex 2 [5, 6] 7 = some 4294967295 ∧ m_not_found = 4294967295 :=
  ⟨fun _ => rfl, by decide, rfl, rfl⟩

/-- Witness of C27: a particle at (7/2, -1/4, 9) in the unit-period box [0, 1]² with the third
direction not periodic is moved to (1/2, 3/4, 9) and the call returns true. -/
theorem enforcePeriodic_postcondition_witness :
    (∀ d : Fin 3, (![1, 1, 0] : Fin 3 → Int) d ≠ 0 →
      0 < (![1, 1, 1] : Fin 3 → Real) d - (![0, 0, 0] : Fin 3 → Real) d ∧
      (![0, 0, 0] : Fin 3 → Real) d ≤ (![1, 1, 1] : Fin 3 → Real) d) ∧
    (∀ fuel, 5 ≤ fuel →
      (enforcePeriodic fuel ![7 / 2, -1 / 4, 9] ![0, 0, 0] ![1, 1, 1] ![0, 0, 0] ![1, 1, 1]
        ![1, 1, 0]).map (fun r => (r.1 0, r.1 1, r.1 2, r.2)) =
        some (1 / 2, 3 / 4, 9, true)) ∧
    ∃ (n : Nat) (q : Fin 3 → Real) (shifted : Bool),
      (∀ fuel, n ≤ fuel → enforcePeriodic fuel ![7 / 2, -1 / 4, 9] ![0, 0, 0] ![1, 1, 1]
        ![0, 0, 0] ![1, 1, 1] ![1, 1, 0] = some (q, shifted)) ∧
      (∀ d, (![1, 1, 0] : Fin 3 → Int) d ≠ 0 →
        (![0, 0, 0] : Fin 3 → Real) d ≤ q d ∧ q d ≤ (![1, 1, 1] : Fin 3 → Real) d) := by
  have hyp : ∀ d : Fin 3, (![1, 1, 0] : Fin 3 → Int) d ≠ 0 →
      0 < (![1, 1, 1] : Fin 3 → Real) d - (![0, 0, 0] : Fin 3 → Real) d ∧
      (![0, 0, 0] : Fin 3 → Real) d ≤ (![1, 1, 1] : Fin 3 → Real) d := by
    intro d _
    fin_cases d <;> norm_num
  refine ⟨hyp, ?_, ?_⟩
  · intro fuel hf
    obtain ⟨k, rfl⟩ : ∃ k, fuel = k + 5 := ⟨fuel - 5, by omega⟩
    simp [enforcePeriodic, List.finRange, List.foldlM, enforcePeriodicDim, shiftDownLoop,
      shiftUpLoop, Function.update]
    norm_num
    rw [Function.update_noteq (by decide), Function.update_noteq (by decide)]
    rfl
  · obtain ⟨n, q, s, f, b, -⟩ := enforcePeriodic_postcondition ![7 / 2, -1 / 4, 9] ![0, 0, 0]
      ![1, 1, 1] ![0, 0, 0] ![1, 1, 1] ![1, 1, 0] hyp
    exact ⟨n, q, s, f, b⟩

theorem pairs_cell (i : Nat) (type : Int) :
    Pairs.env.cell i type = ⟨if i = 0 then 0 else if i = 1 then 1 else 3, 0, 0⟩ := by
  simp only [NeighborBuild.cell, IntVect.dim3, Pairs.env, Dim3.comp]
  simp
  split_ifs <;> simp

theorem pairs_neighborsOf :
    Pairs.env.neighborsOf 0 = [1] ∧ Pairs.env.neighborsOf 1 = [0] ∧
    Pairs.env.neighborsOf 2 = [] := by
  simp only [NeighborBuild.neighborsOf, NeighborBuild.nearBins, pairs_cell]
  decide

/-- Witness of C28: three particles in a row of four bins; particles 0 and 1 are neighbors of
each other, particle 2 has no neighbors. -/
theorem build_two_pass_witness :
    (Pairs.env.neighborsBefore Pairs.env.np_size).length < 2 ^ 31 ∧
    (NeighborList.build ⟨[], [], []⟩ Pairs.env).m_nbor_list = [1, 0] ∧
    (NeighborList.build ⟨[], [], []⟩ Pairs.env).m_nbor_offsets.length = 4 := by
  have hN : Pairs.env.neighborsBefore Pairs.env.np_size = [1, 0] := by
    have h3 : Pairs.env.np_size = 3 := by decide
    rw [h3]
    simp only [NeighborBuild.neighborsBefore, List.range_succ, List.range_zero, List.nil_append,
      List.flatMap_append, List.flatMap_cons, List.flatMap_nil, List.append_nil, List.cons_append,
      pairs_neighborsOf.1, pairs_neighborsOf.2.1, pairs_neighborsOf.2.2]
  have hsum : (Pairs.env.neighborsBefore Pairs.env.np_size).length < 2 ^ 31 := by
    rw [hN]
    decide
  have h := build_two_pass ⟨[], [], []⟩ Pairs.env hsum
  refine ⟨hsum, ?_, h.2.1⟩
  rw [h.2.2.2.2.2.2.1]
  exact hN

/-- Outside the conditions of its callers the restricting constructor keeps bits that are
set. The code `PsiCode<1>(\x7b1\x7d, 1)` has side 0 set and the sign 1; its restriction in
dimension 0 with side 0 and sign -1, a call that the integrals never make, still has
`side(0)` nonzero and `sign()` equal to 1. -/
theorem restrict_keeps_bits :
    (PsiCode.ofSides (N := 1) ![1] 1) = ⟨5⟩ ∧
    (PsiCode.ofSides (N := 1) ![1] 1).side 0 ≠ 0 ∧
    (PsiCode.ofSides (N := 1) ![1] 1).sign = 1 ∧
    (PsiCode.restrict (PsiCode.ofSides (N := 1) ![1] 1) 0 0 (-1)) = ⟨5⟩ ∧
    (PsiCode.restrict (PsiCode.ofSides (N := 1) ![1] 1) 0 0 (-1)).side 0 ≠ 0 ∧
    (PsiCode.restrict (PsiCode.ofSides (N := 1) ![1] 1) 0 0 (-1)).sign = 1 := by
  decide

open SundialsIntegrator

/-- C30. The table of the implicit inner integrator is allocated with 2 stages and the write
`B_inner->A[2][0]` uses the row index 2, which is not smaller than 2; so do the writes to
`A[2][2]`, `b[2]` and `c[2]`. -/
theorem implicit_inner_table_out_of_bounds :
    advance_mri.implicit_inner_table = Except.error TableError.outOfBounds ∧
    (ARKodeButcherTable_Alloc 2).stages = 2 ∧
    (∃ B, (ARKodeButcherTable_Alloc 2).setA 1 0 1 = Except.ok B ∧ B.stages = 2 ∧
      B.setA 2 0 1 = Except.error TableError.outOfBounds ∧
      B.setA 2 2 0 = Except.error TableError.outOfBounds ∧
      B.setb 2 (1 / 2) = Except.error TableError.outOfBounds ∧
      B.setc 2 1 = Except.error TableError.outOfBounds) :=
  ⟨rfl, rfl, _, rfl, rfl, rfl, rfl, rfl, rfl⟩

end Witnesses

end amrex
